import Mathlib

/-! json-schema: Pointer and URI

A shallow embedding of `src/json/Pointer.cc` and `src/json/URI.cc`.

Conventions of the embedding

* `std::string` is a list of characters (`Str`); positions are natural
  numbers and `std::string::npos` is `none`.
* `size_t` arithmetic that can wrap is written with `size_sub` (modulo 2^64),
  `Value::ArrayIndex` arithmetic with `index_sub` (modulo 2^32).
* A function that can throw returns `Except Error`.
* A C++ reference or pointer into a value tree is a `Ref`: the path of slots
  from the root to the referenced node.  Reading through it is `Value.at`.
* Loops are recursive functions on the number of iterations left.
-/

namespace Json

/-- A `std::string`. -/
abbrev Str := List Char

/-- The exceptions thrown by the library, by type; `undefined` marks an access
the C++ standard leaves undefined (an element of a vector past its end), and
`diverged` a loop that did not finish within its iteration budget. -/
inductive Error where
  | invalid_argument
  | range_error
  | domain_error
  | out_of_range
  | undefined
  | diverged
  deriving DecidableEq, Repr

/-! ## size_t and std::string primitives -/

/-- Subtraction of `size_t` values, modulo 2^64. -/
def size_sub (a b : Nat) : Nat := (a + 2 ^ 64 - b % 2 ^ 64) % 2 ^ 64

/-- Subtraction of `unsigned int` (`Value::ArrayIndex`) values, modulo 2^32. -/
def index_sub (a b : Nat) : Nat := (a + 2 ^ 32 - b % 2 ^ 32) % 2 ^ 32

/-- The index of the first character satisfying `p`. -/
def find_index (p : Char → Bool) : Str → Option Nat
  | [] => none
  | c :: cs => if p c then some 0 else (find_index p cs).map (· + 1)

/-- The call `s.find(c, pos)`. -/
def find (s : Str) (c : Char) (pos : Nat) : Option Nat :=
  (find_index (fun x => x == c) (s.drop pos)).map (· + pos)

/-- The call `s.find_first_of(set, pos)`. -/
def find_first_of (s : Str) (set : Str) (pos : Nat) : Option Nat :=
  (find_index (fun x => set.contains x) (s.drop pos)).map (· + pos)

/-- The index of the last character satisfying `p`. -/
def find_last_index (p : Char → Bool) : Str → Option Nat
  | [] => none
  | c :: cs =>
    match find_last_index p cs with
    | some k => some (k + 1)
    | none => if p c then some 0 else none

/-- The call `s.find_last_of(c)`. -/
def find_last_of (s : Str) (c : Char) : Option Nat :=
  find_last_index (fun x => x == c) s

/-- The call `s.substr(pos, count)`: the characters `[pos, pos + min count (size - pos))`.
The callers modelled here never pass `pos > size`. -/
def substr (s : Str) (pos count : Nat) : Str :=
  (s.drop pos).take (min count (s.length - pos))

/-- The call `s.substr(pos)`. -/
def substr_from (s : Str) (pos : Nat) : Str := s.drop pos

/-! ## Pointer: parsing and printing -/

/-- The loop of `Pointer::decode`; `n` bounds the iterations left. -/
def decode_loop (element : Str) : Nat → Nat → Option Nat → Str → Except Error Str
  | _, i, none, decoded => .ok (decoded ++ substr_from element i)
  | 0, _, some _, _ => .error .diverged
  | n + 1, i, some j, decoded =>
    let decoded := decoded ++ substr element i (j - i)
    if j + 1 ≥ element.length then .error .invalid_argument
    else
      match element.get? (j + 1) with
      | some '0' => decode_loop element n (j + 2) (find element '~' (j + 2)) (decoded ++ ['~'])
      | some '1' => decode_loop element n (j + 2) (find element '~' (j + 2)) (decoded ++ ['/'])
      | _ => .error .invalid_argument

/-- The function `Pointer::decode`. -/
def decode (element : Str) : Except Error Str :=
  match find element '~' 0 with
  | none => .ok element
  | some j => decode_loop element element.length 0 (some j) []

/-- The static function `encode` of Pointer.cc, appending to `stream`.
The piece before an escaped character is `element.substr(i, j-1)`. -/
def encode_loop (element : Str) : Nat → Nat → Option Nat → Str → Str
  | _, i, none, stream => stream ++ substr_from element i
  | 0, _, some _, stream => stream
  | n + 1, i, some j, stream =>
    let stream := stream ++ substr element i (size_sub j 1)
    let stream :=
      match element.get? j with
      | some '/' => stream ++ ['~', '1']
      | some '~' => stream ++ ['~', '0']
      | _ => stream
    encode_loop element n (j + 1) (find_first_of element ['~', '/'] (j + 1)) stream

/-- The static function `encode`. -/
def encode (element : Str) (stream : Str) : Str :=
  encode_loop element (element.length + 1) 0 (find_first_of element ['~', '/'] 0) stream

/-- The function `Pointer::escape`. -/
def escape (str : Str) : Str := encode str []

/-- A JSON pointer: its decoded reference tokens. -/
structure Pointer where
  elements : List Str
  deriving DecidableEq, Repr

/-- The loop of `Pointer::init`. -/
def init_loop (pointer : Str) : Nat → Nat → Option Nat → List Str → Except Error (List Str)
  | _, i, none, elements =>
    match decode (substr_from pointer i) with
    | .ok d => .ok (elements ++ [d])
    | .error e => .error e
  | 0, _, some _, _ => .error .diverged
  | n + 1, i, some j, elements =>
    match decode (substr pointer i (j - i)) with
    | .ok d => init_loop pointer n (j + 1) (find pointer '/' (j + 1)) (elements ++ [d])
    | .error e => .error e

/-- The function `Pointer::init`, which is the plain-form constructor
`Pointer(pointer, false)`. -/
def Pointer.init (pointer : Str) : Except Error Pointer :=
  if pointer.isEmpty then .ok ⟨[]⟩
  else if pointer.head? ≠ some '/' then .error .invalid_argument
  else
    match init_loop pointer pointer.length 1 (find pointer '/' 1) [] with
    | .ok es => .ok ⟨es⟩
    | .error e => .error e

/-- The function `Pointer::as_string`. -/
def Pointer.as_string (p : Pointer) : Str :=
  p.elements.foldl (fun stream e => encode e (stream ++ ['/'])) []

/-! ## The value tree -/

/-- Modelled from the spec: the value tree of `json/json.h`, which is not part
of the sources: a discriminated union over null, boolean, integer, unsigned
integer, real, string, array and object, with object members name-unique and
addressable by name in insertion order and arrays addressable by 0-based
index.  A real is kept as the rational it denotes. -/
inductive Value where
  | null
  | bool (b : Bool)
  | int (i : Int)
  | uint (n : Nat)
  | real (r : Rat)
  | string (s : Str)
  | array (xs : List Value)
  | object (ms : List (Str × Value))

instance : Inhabited Value := ⟨Value.null⟩

/-- One step from a node to a child: an array position or a member name. -/
inductive Slot where
  | index (i : Nat)
  | member (k : Str)
  deriving DecidableEq, Repr

/-- A reference (`Value &`, `Value *`) into a tree: the slots from the root to
the referenced node. -/
abbrev Ref := List Slot

/-- The call `v.isMember(key)` on the members of an object. -/
def isMember (ms : List (Str × Value)) (key : Str) : Bool :=
  ms.any (fun m => m.1 == key)

/-- The member named `key`, when there is one. -/
def member_get : List (Str × Value) → Str → Option Value
  | [], _ => none
  | (k, v) :: ms, key => if k = key then some v else member_get ms key

/-- The assignment `v[key] = value` on the members of an object: an existing
member is overwritten in place, a new one is added at the end. -/
def member_set : List (Str × Value) → Str → Value → List (Str × Value)
  | [], key, value => [(key, value)]
  | (k, v) :: ms, key, value =>
    if k = key then (k, value) :: ms else (k, v) :: member_set ms key value

/-- The call `v.removeMember(key)` on the members of an object. -/
def removeMember (ms : List (Str × Value)) (key : Str) : List (Str × Value) :=
  ms.filter (fun m => !(m.1 == key))

/-- The non-const `v[index]` on an array: an index at or past the end makes
the array grow to `index + 1` elements, the new ones null. -/
def array_touch (xs : List Value) (index : Nat) : List Value :=
  if index < xs.length then xs else xs ++ List.replicate (index + 1 - xs.length) Value.null

/-- The assignment `v[index] = value` on an array. -/
def array_set (xs : List Value) (index : Nat) (value : Value) : List Value :=
  (array_touch xs index).set index value

/-- The call `v.resize(n)` on an array. -/
def array_resize (xs : List Value) (n : Nat) : List Value :=
  if n = 0 then []
  else if xs.length < n then array_touch xs (n - 1)
  else xs.take n

/-- The child of a node in a slot. -/
def Value.child : Value → Slot → Option Value
  | .array xs, .index i => xs.get? i
  | .object ms, .member k => member_get ms k
  | _, _ => none

/-- Reading through a reference; `none` when the referenced node is not in
the tree (a dangling reference). -/
def Value.at : Value → Ref → Option Value
  | v, [] => some v
  | v, s :: r =>
    match v.child s with
    | some c => c.at r
    | none => none

/-- Writing `w` through a reference. -/
def Value.put_at : Value → Ref → Value → Value
  | _, [], w => w
  | .array xs, .index i :: r, w =>
    match xs.get? i with
    | some c => .array (xs.set i (c.put_at r w))
    | none => .array xs
  | .object ms, .member k :: r, w =>
    match member_get ms k with
    | some c => .object (member_set ms k (c.put_at r w))
    | none => .object ms
  | v, _ :: _, _ => v

/-! ## Array index tokens -/

/-- The C function `isspace` in the "C" locale. -/
def isspace (c : Char) : Bool :=
  c == ' ' || c == '\t' || c == '\n' || c == '\x0b' || c == '\x0c' || c == '\r'

/-- A decimal digit. -/
def isdigit (c : Char) : Bool := '0' ≤ c && c ≤ '9'

/-- The value of a run of decimal digits. -/
def decimal (ds : Str) : Nat :=
  ds.foldl (fun a c => 10 * a + (c.toNat - 48)) 0

/-- The largest `intmax_t`. -/
def INTMAX_MAX : Int := 2 ^ 63 - 1

/-- The smallest `intmax_t`. -/
def INTMAX_MIN : Int := -(2 ^ 63)

/-- The string seen through `c_str()`: the characters before the first NUL. -/
def c_str (s : Str) : Str := s.takeWhile (fun c => c != '\x00')

/-- The C library call `strtoimax(s, &end, 10)` on a NUL-free C string: white
space is skipped, an optional sign and the longest run of decimal digits are
read; the result is the value, clamped to the range of `intmax_t`, and the
offset of `end`.  Without a digit nothing is converted: the value is 0 and
`end` is the start of the string. -/
def strtoimax (s : Str) : Int × Nat :=
  let ws := s.takeWhile isspace
  let rest := s.drop ws.length
  let neg := rest.head? == some '-'
  let sign := if rest.head? == some '-' || rest.head? == some '+' then 1 else 0
  let ds := (rest.drop sign).takeWhile isdigit
  if ds.isEmpty then (0, 0)
  else
    let v : Int := decimal ds
    (if neg then max (-v) INTMAX_MIN else min v INTMAX_MAX, ws.length + sign + ds.length)

/-- The function `Pointer::parse_array_index(element, size, allow_growing)`.
The result is converted to `Value::ArrayIndex`, an `unsigned int`. -/
def parse_array_index (element : Str) (size : Nat) (_allow_growing : Bool) : Except Error Nat :=
  if element.length = 0 then .error .range_error
  else
    let r := strtoimax (c_str element)
    if r.2 < (c_str element).length then .error .range_error
    else if r.1 < 0 ∨ size ≤ r.1.toNat then .error .range_error
    else .ok (r.1.toNat % 2 ^ 32)

/-! ## Pointer: addressing -/

/-- The loop of `Pointer::get_internal`, with `n` iterations left, `index` the
position in `elements`, and `node` (read from the tree) referenced by `ref`. -/
def get_internal_loop (elements : List Str) : Nat → Nat → Ref → Value → Except Error (Ref × Value)
  | 0, _, ref, node => .ok (ref, node)
  | n + 1, index, ref, node =>
    match elements.get? index with
    | none => .error .undefined
    | some element =>
      match node with
      | .array xs =>
        match parse_array_index element xs.length false with
        | .error e => .error e
        | .ok i =>
          get_internal_loop elements n (index + 1) (ref ++ [.index i]) (xs.getD i .null)
      | .object ms =>
        if !isMember ms element then .error .range_error
        else
          get_internal_loop elements n (index + 1) (ref ++ [.member element])
            ((member_get ms element).getD .null)
      | _ => .error .domain_error

/-- The function `Pointer::get_internal(root, start_index, skip_last)`: the
reference to the addressed node, and the node. -/
def Pointer.get_internal (p : Pointer) (root : Value) (start_index : Nat) (skip_last : Bool) :
    Except Error (Ref × Value) :=
  let end_index := size_sub p.elements.length (if skip_last then 1 else 0)
  if start_index = end_index then .ok ([], root)
  else if start_index > end_index then .error .range_error
  else get_internal_loop p.elements (end_index - start_index) start_index [] root

/-- The function `Pointer::get(root, start_index)`. -/
def Pointer.get (p : Pointer) (root : Value) (start_index : Nat) : Except Error (Ref × Value) :=
  p.get_internal root start_index false

/-- The element `elements[elements.size() - 1]` used by the mutating
operations. -/
def Pointer.last_element (p : Pointer) : Except Error Str :=
  match p.elements.get? (size_sub p.elements.length 1) with
  | some e => .ok e
  | none => .error .undefined

/-- The loop `for (; index < last.size() - 2; index++) last[index] = last[index+1];`
of `Pointer::erase`, with `n` bounding the iterations left. -/
def erase_loop : Nat → Nat → List Value → List Value
  | 0, _, xs => xs
  | n + 1, index, xs =>
    if index < index_sub xs.length 2 then
      let xs1 := array_touch xs (index + 1)
      erase_loop n (index + 1) (array_set xs1 index (xs1.getD (index + 1) .null))
    else xs

/-- The function `Pointer::erase(root, start_index)`: the tree afterwards and
the returned reference `old_value`. -/
def Pointer.erase (p : Pointer) (root : Value) (start_index : Nat) : Except Error (Value × Ref) :=
  if start_index > p.elements.length then .error .range_error
  else
    match p.get_internal root start_index true with
    | .error e => .error e
    | .ok (last_ref, last) =>
      match p.last_element with
      | .error e => .error e
      | .ok element =>
        match last with
        | .array xs =>
          match parse_array_index element xs.length false with
          | .error e => .error e
          | .ok index =>
            let old_value := last_ref ++ [Slot.index index]
            let xs1 := erase_loop (xs.length + 1) index xs
            let xs2 := array_resize xs1 (index_sub xs1.length 1)
            .ok (root.put_at last_ref (.array xs2), old_value)
        | .object ms =>
          if !isMember ms element then .error .range_error
          else
            let old_value := last_ref ++ [Slot.member element]
            .ok (root.put_at last_ref (.object (removeMember ms element)), old_value)
        | _ => .error .domain_error

/-- The loop `for (i = last.size() - 1; i > index; --i) last[i] = last[i-1];`
of `Pointer::insert`, started at `i`. -/
def insert_loop (index : Nat) : Nat → List Value → List Value
  | 0, xs => xs
  | i + 1, xs =>
    if index < i + 1 then insert_loop index i (array_set xs (i + 1) (xs.getD i .null))
    else xs

/-- The function `Pointer::insert(root, value, start_index)`: the tree
afterwards. -/
def Pointer.insert (p : Pointer) (root : Value) (value : Value) (start_index : Nat) :
    Except Error Value :=
  if start_index > p.elements.length then .error .range_error
  else
    match p.get_internal root start_index true with
    | .error e => .error e
    | .ok (last_ref, last) =>
      match p.last_element with
      | .error e => .error e
      | .ok element =>
        match last with
        | .array xs =>
          match parse_array_index element xs.length true with
          | .error e => .error e
          | .ok index =>
            let xs1 := array_resize xs ((xs.length + 1) % 2 ^ 32)
            let xs2 := insert_loop index (index_sub xs1.length 1) xs1
            .ok (root.put_at last_ref (.array (array_set xs2 index value)))
        | .object ms =>
          if isMember ms element then .error .range_error
          else .ok (root.put_at last_ref (.object (member_set ms element value)))
        | _ => .error .domain_error

/-- The function `Pointer::replace(root, value, start_index)`: the tree
afterwards and the returned reference `old_value`. -/
def Pointer.replace (p : Pointer) (root : Value) (value : Value) (start_index : Nat) :
    Except Error (Value × Ref) :=
  if start_index > p.elements.length then .error .range_error
  else
    match p.get_internal root start_index true with
    | .error e => .error e
    | .ok (last_ref, last) =>
      match p.last_element with
      | .error e => .error e
      | .ok element =>
        match last with
        | .array xs =>
          match parse_array_index element xs.length false with
          | .error e => .error e
          | .ok index =>
            let old_value := last_ref ++ [Slot.index index]
            .ok (root.put_at last_ref (.array (array_set xs index value)), old_value)
        | .object ms =>
          if !isMember ms element then .error .range_error
          else
            let old_value := last_ref ++ [Slot.member element]
            .ok (root.put_at last_ref (.object (member_set ms element value)), old_value)
        | _ => .error .domain_error

/-- The function `Pointer::set(root, value, start_index)`: the tree afterwards
and the returned pointer `old_value`, `none` for `NULL`. -/
def Pointer.set (p : Pointer) (root : Value) (value : Value) (start_index : Nat) :
    Except Error (Value × Option Ref) :=
  if start_index > p.elements.length then .error .range_error
  else
    match p.get_internal root start_index true with
    | .error e => .error e
    | .ok (last_ref, last) =>
      match p.last_element with
      | .error e => .error e
      | .ok element =>
        match last with
        | .array xs =>
          match parse_array_index element xs.length true with
          | .error e => .error e
          | .ok index =>
            let old_value := if index ≤ xs.length then some (last_ref ++ [Slot.index index]) else none
            let xs1 := if index ≤ xs.length then array_touch xs index else xs
            .ok (root.put_at last_ref (.array (array_set xs1 index value)), old_value)
        | .object ms =>
          let old_value := if isMember ms element then some (last_ref ++ [Slot.member element]) else none
          .ok (root.put_at last_ref (.object (member_set ms element value)), old_value)
        | _ => .error .domain_error

/-! ## Regular expressions (pcrecpp) -/

/-- The fragment of PCRE syntax used by the patterns of `URI.cc`:
`^`, `$`, a literal character, `[^c]*`, `r?`, `a|b` and concatenation. -/
inductive RE where
  | bol
  | eol
  | chr (c : Char)
  | star_not (c : Char)
  | opt (r : RE)
  | alt (a b : RE)
  | seq (a b : RE)

/-- The greedy choice of a repetition that can end at `pos + n` at most: the
longest run is tried first, then each shorter one. -/
def try_down (k : Nat → Option Nat) (pos : Nat) : Nat → Option Nat
  | 0 => k pos
  | n + 1 => (k (pos + (n + 1))).orElse (fun _ => try_down k pos n)

/-- Backtracking match of `r` on the subject `s` from `pos`, with `k` the
continuation deciding what follows; the result is the end of the match.
Alternatives are tried left to right, `$` matches at the end of the subject
and before a final newline, `^` at the start of the subject only. -/
def RE.run (s : Str) : RE → Nat → (Nat → Option Nat) → Option Nat
  | .bol, pos, k => if pos = 0 then k pos else none
  | .eol, pos, k =>
    if pos = s.length ∨ (pos + 1 = s.length ∧ s.get? pos = some '\n') then k pos else none
  | .chr c, pos, k => if s.get? pos = some c then k (pos + 1) else none
  | .star_not c, pos, k => try_down k pos ((s.drop pos).takeWhile (fun x => x != c)).length
  | .opt r, pos, k => (RE.run s r pos k).orElse (fun _ => k pos)
  | .alt a b, pos, k => (RE.run s a pos k).orElse (fun _ => RE.run s b pos k)
  | .seq a b, pos, k => RE.run s a pos (fun q => RE.run s b q k)

/-- The search for the leftmost match at or after `pos`, trying `n` start
positions (one when `anchored`): the start and the end of the match. -/
def RE.search (re : RE) (s : Str) (anchored empty_ok : Bool) : Nat → Nat → Option (Nat × Nat)
  | 0, _ => none
  | n + 1, pos =>
    match RE.run s re pos (fun e => if !empty_ok && e == pos then none else some e) with
    | some e => some (pos, e)
    | none => if anchored then none else RE.search re s anchored empty_ok n (pos + 1)

/-- The call `TryMatch(str, start, anchor, empty_ok, ...)` of pcrecpp. -/
def RE.TryMatch (re : RE) (s : Str) (start : Nat) (anchored empty_ok : Bool) : Option (Nat × Nat) :=
  RE.search re s anchored empty_ok (s.length + 1 - start) start

/-- The loop of `pcrecpp::RE::GlobalReplace`: one left-to-right pass over the
non-overlapping matches; the output so far, the position reached and the
number of replacements. -/
def GlobalReplace_loop (re : RE) (rewrite str : Str) :
    Nat → Nat → Bool → Str → Nat → Str × Nat × Nat
  | 0, start, _, out, count => (out, start, count)
  | n + 1, start, last_match_was_empty, out, count =>
    if str.length < start then (out, start, count)
    else if last_match_was_empty then
      match RE.TryMatch re str start true false with
      | none =>
        let out := if start < str.length then out ++ substr str start 1 else out
        GlobalReplace_loop re rewrite str n (start + 1) false out count
      | some (ms, me) =>
        GlobalReplace_loop re rewrite str n me (ms == me)
          (out ++ substr str start (ms - start) ++ rewrite) (count + 1)
    else
      match RE.TryMatch re str start false true with
      | none => (out, start, count)
      | some (ms, me) =>
        GlobalReplace_loop re rewrite str n me (ms == me)
          (out ++ substr str start (ms - start) ++ rewrite) (count + 1)

/-- The call `re.GlobalReplace(rewrite, &str)` for a rewrite string without
back-references: the new value of `str`. -/
def GlobalReplace (re : RE) (rewrite str : Str) : Str :=
  let r := GlobalReplace_loop re rewrite str (2 * str.length + 3) 0 false [] 0
  if r.2.2 = 0 then str
  else if r.2.1 < str.length then r.1 ++ substr str r.2.1 (str.length - r.2.1)
  else r.1

/-! ## URI -/

/-- The class `URI`. -/
structure URI where
  scheme_present : Bool
  authority_present : Bool
  query_present : Bool
  fragment_present : Bool
  scheme : Str
  authority : Str
  path : Str
  query : Str
  fragment : Str
  uri : Str
  needs_update : Bool
  deriving DecidableEq, Repr

/-- The default constructor `URI()`. -/
def URI.empty : URI :=
  { scheme_present := false, authority_present := false, query_present := false,
    fragment_present := false, scheme := [], authority := [], path := [], query := [],
    fragment := [], uri := [], needs_update := false }

def URI.has_scheme (u : URI) : Bool := u.scheme_present
def URI.has_authority (u : URI) : Bool := u.authority_present
def URI.has_query (u : URI) : Bool := u.query_present
def URI.has_fragment (u : URI) : Bool := u.fragment_present

def URI.get_scheme (u : URI) : Str := u.scheme
def URI.get_authority (u : URI) : Str := u.authority
def URI.get_path (u : URI) : Str := u.path
def URI.get_query (u : URI) : Str := u.query
def URI.get_fragment (u : URI) : Str := u.fragment

def URI.clear_scheme (u : URI) : URI :=
  { u with needs_update := true, scheme := [], scheme_present := false }
def URI.clear_authority (u : URI) : URI :=
  { u with needs_update := true, authority := [], authority_present := false }
def URI.clear_query (u : URI) : URI :=
  { u with needs_update := true, query := [], query_present := false }
def URI.clear_fragment (u : URI) : URI :=
  { u with needs_update := true, fragment := [], fragment_present := false }

def URI.set_scheme (u : URI) (value : Str) : URI :=
  { u with needs_update := true, scheme := value, scheme_present := true }
def URI.set_authority (u : URI) (value : Str) : URI :=
  { u with needs_update := true, authority := value, authority_present := true }
def URI.set_path (u : URI) (value : Str) : URI :=
  { u with needs_update := true, path := value }
def URI.set_query (u : URI) (value : Str) : URI :=
  { u with needs_update := true, query := value, query_present := true }
def URI.set_fragment (u : URI) (value : Str) : URI :=
  { u with needs_update := true, fragment := value, fragment_present := true }

def URI.copy_scheme (u other : URI) : URI :=
  if other.has_scheme then u.set_scheme other.get_scheme else u.clear_scheme
def URI.copy_authority (u other : URI) : URI :=
  if other.has_authority then u.set_authority other.get_authority else u.clear_authority
def URI.copy_path (u other : URI) : URI := u.set_path other.get_path
def URI.copy_query (u other : URI) : URI :=
  if other.has_query then u.set_query other.get_query else u.clear_query
def URI.copy_fragment (u other : URI) : URI :=
  if other.has_fragment then u.set_fragment other.get_fragment else u.clear_fragment

/-- The copy constructor `URI(const URI &other)`. -/
def URI.copy (other : URI) : URI :=
  let u := ((((URI.empty.copy_scheme other).copy_authority other).copy_path other).copy_query
    other).copy_fragment other
  if other.needs_update = false then { u with uri := other.uri, needs_update := false } else u

/-- The pattern `(^|/)[^/]*/\.\.(/|$)`. -/
def dotdot : RE :=
  .seq (.alt .bol (.chr '/')) (.seq (.star_not '/') (.seq (.chr '/') (.seq (.chr '.')
    (.seq (.chr '.') (.alt (.chr '/') .eol)))))

/-- The pattern `(^|/)\.(/|$)`. -/
def dot : RE :=
  .seq (.alt .bol (.chr '/')) (.seq (.chr '.') (.alt (.chr '/') .eol))

/-- The pattern `^/?\.\./`. -/
def leading_dotdot : RE :=
  .seq .bol (.seq (.opt (.chr '/')) (.seq (.chr '.') (.seq (.chr '.') (.chr '/'))))

/-- The function `URI::remove_dot_segments`. -/
def remove_dot_segments (path : Str) : Str :=
  let result := path
  let result := GlobalReplace dot ['/'] result
  let result := GlobalReplace leading_dotdot ['/'] result
  let result := GlobalReplace dotdot ['/'] result
  result

/-- The function `URI::merge_path`. -/
def URI.merge_path (u : URI) (relative_path : Str) : Str :=
  if u.has_authority && u.get_path.isEmpty then '/' :: relative_path
  else
    let pos :=
      match find_last_of u.get_path '/' with
      | none => 0
      | some k => k + 1
    substr u.get_path 0 pos ++ relative_path

/-- The function `URI::resolve(const URI &reference)`. -/
def URI.resolve (u reference : URI) : URI :=
  if reference.has_scheme then URI.copy reference
  else
    let resolved := URI.empty
    let resolved :=
      if reference.has_authority then
        let resolved := resolved.copy_authority reference
        let resolved := resolved.set_path (remove_dot_segments reference.get_path)
        resolved.copy_query reference
      else
        let resolved :=
          if reference.get_path.isEmpty then
            let resolved := resolved.copy_path u
            if reference.has_query then resolved.copy_query reference
            else resolved.copy_query u
          else
            let resolved :=
              if reference.get_path.head? = some '/' then
                resolved.set_path (remove_dot_segments reference.get_path)
              else
                resolved.set_path (remove_dot_segments (u.merge_path reference.get_path))
            resolved.copy_query reference
        resolved.copy_authority u
    let resolved := resolved.copy_scheme u
    let resolved := resolved.copy_fragment reference
    resolved

/-! ## RFC 3986, section 5.2.4 -/

/-- Whether `s` begins with `pre`. -/
def starts_with (pre s : Str) : Bool := s.take pre.length == pre

/-- The output buffer without its last segment and the "/" before it, if any. -/
def rfc_remove_last_segment (output : Str) : Str :=
  match find_last_of output '/' with
  | some k => output.take k
  | none => []

/-- The first path segment of the input buffer: the initial "/", if any, and
the characters up to, not including, the next "/" or the end. -/
def rfc_first_segment (input : Str) : Str :=
  match input with
  | '/' :: rest => '/' :: rest.takeWhile (fun c => c != '/')
  | _ => input.takeWhile (fun c => c != '/')

/-- The loop of the reference algorithm (steps 2A to 2E), with `n` bounding
the iterations left. -/
def rfc_loop : Nat → Str → Str → Str
  | 0, _, output => output
  | n + 1, input, output =>
    if input.isEmpty then output
    else if starts_with ['.', '.', '/'] input then rfc_loop n (input.drop 3) output
    else if starts_with ['.', '/'] input then rfc_loop n (input.drop 2) output
    else if starts_with ['/', '.', '/'] input then rfc_loop n ('/' :: input.drop 3) output
    else if input = ['/', '.'] then rfc_loop n ['/'] output
    else if starts_with ['/', '.', '.', '/'] input then
      rfc_loop n ('/' :: input.drop 4) (rfc_remove_last_segment output)
    else if input = ['/', '.', '.'] then rfc_loop n ['/'] (rfc_remove_last_segment output)
    else if input = ['.'] ∨ input = ['.', '.'] then rfc_loop n [] output
    else
      rfc_loop n (input.drop (rfc_first_segment input).length) (output ++ rfc_first_segment input)

/-- The routine `remove_dot_segments` as RFC 3986, section 5.2.4 words it:
the reference the code is compared with. -/
def rfc_remove_dot_segments (path : Str) : Str :=
  rfc_loop (path.length + 1) path []

/-! ## Observations used by the statements -/

/-- The scheme of a URI: its value when present. -/
def URI.scheme_opt (u : URI) : Option Str := if u.has_scheme then some u.get_scheme else none

/-- The authority of a URI: its value when present. -/
def URI.authority_opt (u : URI) : Option Str :=
  if u.has_authority then some u.get_authority else none

/-- An array of unsigned integers. -/
def uints (ns : List Nat) : Value := .array (ns.map Value.uint)

/-- The base of the example: scheme "http", authority "a", path "/b". -/
def example_base : URI :=
  { URI.empty with scheme_present := true, scheme := "http".toList,
                   authority_present := true, authority := "a".toList, path := "/b".toList }

/-- The reference of the example: no scheme, authority "c", path "/d". -/
def example_reference : URI :=
  { URI.empty with authority_present := true, authority := "c".toList, path := "/d".toList }

/-- The tokens `parse_array_index` accepts for `size`, and their index `v`:
white space, an optional sign, a non-empty run of decimal digits; after a
minus sign the digits denote zero; the value is below `size`. -/
def IndexToken (token : Str) (size v : Nat) : Prop :=
  ∃ ws sg ds, token = ws ++ sg ++ ds ∧ (∀ c ∈ ws, isspace c = true) ∧
    (sg = [] ∨ sg = ['+'] ∨ sg = ['-']) ∧ ds ≠ [] ∧ (∀ c ∈ ds, isdigit c = true) ∧
    (if sg = ['-'] then decimal ds = 0 ∧ v = 0 else decimal ds = v) ∧ v < size

/-! ## The reference definition of resolve -/

/-- The five components of a URI, each optional one with its presence. -/
structure Components where
  scheme : Option Str
  authority : Option Str
  path : Str
  query : Option Str
  fragment : Option Str
  deriving DecidableEq, Repr

/-- The query of a URI: its value when present. -/
def URI.query_opt (u : URI) : Option Str := if u.has_query then some u.get_query else none

/-- The fragment of a URI: its value when present. -/
def URI.fragment_opt (u : URI) : Option Str :=
  if u.has_fragment then some u.get_fragment else none

/-- The components of a URI. -/
def URI.components (u : URI) : Components :=
  { scheme := u.scheme_opt, authority := u.authority_opt, path := u.get_path,
    query := u.query_opt, fragment := u.fragment_opt }

/-- The merged path of the reference definition: "/" followed by the path of
the reference when the base has an authority and an empty path, and otherwise
the path of the base up to and including its last "/" followed by the path of
the reference. -/
def reference_merge (B : Components) (rpath : Str) : Str :=
  if B.authority.isSome ∧ B.path = [] then '/' :: rpath
  else
    match find_last_of B.path '/' with
    | some k => B.path.take (k + 1) ++ rpath
    | none => rpath

/-- The five-case reference definition of resolution, on components. -/
def reference_resolve (B R : Components) : Components :=
  if R.scheme.isSome then R
  else if R.authority.isSome then
    { scheme := B.scheme, authority := R.authority, path := remove_dot_segments R.path,
      query := R.query, fragment := R.fragment }
  else if R.path = [] then
    { scheme := B.scheme, authority := B.authority, path := B.path,
      query := if R.query.isSome then R.query else B.query, fragment := R.fragment }
  else if R.path.head? = some '/' then
    { scheme := B.scheme, authority := B.authority, path := remove_dot_segments R.path,
      query := R.query, fragment := R.fragment }
  else
    { scheme := B.scheme, authority := B.authority,
      path := remove_dot_segments (reference_merge B R.path),
      query := R.query, fragment := R.fragment }

/-! ## URI: parse and serialise -/

/-- The PCRE syntax of the pattern of `URI::parse`: `^`, a literal character,
`[^set]*`, `[^set]+`, `.*`, `r?`, concatenation, the capturing group number
`i`, and `\z`. -/
inductive GRE where
  | bol
  | chr (c : Char)
  | star_none_of (set : Str)
  | plus_none_of (set : Str)
  | dot_star
  | opt (r : GRE)
  | seq (a b : GRE)
  | group (i : Nat) (r : GRE)
  | eot

/-- The captures of a match: group number, start and end, latest first. -/
abbrev Caps := List (Nat × Nat × Nat)

/-- The greedy choice of a repetition that ends between `pos + lo` and
`pos + lo + n`: the longest run is tried first. -/
def try_down_from (k : Nat → Option Caps) (pos lo : Nat) : Nat → Option Caps
  | 0 => k (pos + lo)
  | n + 1 => (k (pos + lo + (n + 1))).orElse (fun _ => try_down_from k pos lo n)

/-- Backtracking match of `r` on the subject `s` from `pos` with the captures
so far; `k` decides what follows.  A negated class matches every other
character, `.` every character but a newline. -/
def GRE.exec (s : Str) : GRE → Nat → Caps → (Nat → Caps → Option Caps) → Option Caps
  | .bol, pos, caps, k => if pos = 0 then k pos caps else none
  | .chr c, pos, caps, k => if s.get? pos = some c then k (pos + 1) caps else none
  | .star_none_of set, pos, caps, k =>
    try_down_from (fun e => k e caps) pos 0
      ((s.drop pos).takeWhile (fun x => !set.contains x)).length
  | .plus_none_of set, pos, caps, k =>
    if ((s.drop pos).takeWhile (fun x => !set.contains x)).length = 0 then none
    else
      try_down_from (fun e => k e caps) pos 1
        (((s.drop pos).takeWhile (fun x => !set.contains x)).length - 1)
  | .dot_star, pos, caps, k =>
    try_down_from (fun e => k e caps) pos 0 ((s.drop pos).takeWhile (fun x => x != '\n')).length
  | .opt r, pos, caps, k => (GRE.exec s r pos caps k).orElse (fun _ => k pos caps)
  | .seq a b, pos, caps, k => GRE.exec s a pos caps (fun q c => GRE.exec s b q c k)
  | .group i r, pos, caps, k => GRE.exec s r pos caps (fun e c => k e ((i, pos, e) :: c))
  | .eot, pos, caps, k => if pos = s.length then k pos caps else none

/-- The call `re.FullMatch(s, ...)` of pcrecpp: the pattern, wrapped as
`(?:pattern)\z`, is matched anchored at the start of `s`. -/
def FullMatch (re : GRE) (s : Str) : Option Caps :=
  GRE.exec s (.seq re .eot) 0 [] (fun _ c => some c)

/-- The text of group `i` after a match; an unset group gives the empty
string. -/
def group_text (s : Str) (caps : Caps) (i : Nat) : Str :=
  match caps.lookup i with
  | some (b, e) => substr s b (e - b)
  | none => []

/-- The pattern `^(([^:/?#]+):)?(//([^/?#]*))?([^?#]*)(\?([^#]*))?(#(.*))?`
of RFC 3986, appendix B. -/
def uri_regex : GRE :=
  .seq .bol
    (.seq (.opt (.group 1 (.seq (.group 2 (.plus_none_of [':', '/', '?', '#'])) (.chr ':'))))
    (.seq (.opt (.group 3 (.seq (.chr '/') (.seq (.chr '/')
      (.group 4 (.star_none_of ['/', '?', '#']))))))
    (.seq (.group 5 (.star_none_of ['?', '#']))
    (.seq (.opt (.group 6 (.seq (.chr '?') (.group 7 (.star_none_of ['#'])))))
    (.opt (.group 8 (.seq (.chr '#') (.group 9 .dot_star))))))))

/-- The value of a hexadecimal digit, as `decode_hex` reads it. -/
def hex_value (digit : Char) : Option Nat :=
  if '0' ≤ digit ∧ digit ≤ '9' then some (digit.toNat - '0'.toNat)
  else if 'a' ≤ digit ∧ digit ≤ 'f' then some (digit.toNat - 'a'.toNat + 10)
  else if 'A' ≤ digit ∧ digit ≤ 'F' then some (digit.toNat - 'A'.toNat + 10)
  else none

/-- The function `URI::decode_hex(escape, pos)`. -/
def URI.decode_hex (escape : Str) (pos : Nat) : Except Error Char :=
  match escape.get? pos, escape.get? (pos + 1) with
  | some d0, some d1 =>
    match hex_value d0 with
    | none => .error .invalid_argument
    | some a =>
      match hex_value d1 with
      | none => .error .invalid_argument
      | some b => .ok (Char.ofNat ((((0 * 16 + a) % 256) * 16 + b) % 256))
  | some d0, none =>
    match hex_value d0 with
    | none => .error .invalid_argument
    | some _ => .error .undefined
  | none, _ => .error .undefined

/-- The loop of `URI::decode`. -/
def URI.decode_loop (encoded : Str) : Nat → Nat → Option Nat → Str → Except Error Str
  | _, i, none, str => .ok (str ++ substr_from encoded i)
  | 0, _, some _, _ => .error .diverged
  | n + 1, i, some j, str =>
    let str := str ++ substr encoded i (j - i)
    if j + 2 ≥ encoded.length then .error .invalid_argument
    else
      match URI.decode_hex encoded (j + 1) with
      | .error e => .error e
      | .ok c =>
        URI.decode_loop encoded n (j + 3) (find_first_of encoded ['%'] (j + 3)) (str ++ [c])

/-- The function `URI::decode`. -/
def URI.decode (encoded : Str) : Except Error Str :=
  match find_first_of encoded ['%'] 0 with
  | none => .ok encoded
  | some j => URI.decode_loop encoded encoded.length 0 (some j) []

/-- The function `URI::is_encoded`. -/
def URI.is_encoded (str : Str) : Bool := (find str '%' 0).isSome

/-- The table `static char digits[] = "012345678abcdef"` of `URI::encode`,
with its terminating NUL. -/
def URI.digits : Str := "012345678abcdef".toList ++ ['\x00']

/-- The loop of `URI::encode`. -/
def URI.encode_loop (decoded : Str) : Nat → Nat → Option Nat → Str → Str
  | _, i, none, out => out ++ substr_from decoded i
  | 0, _, some _, out => out
  | n + 1, i, some j, out =>
    let out := out ++ substr decoded i (j - i)
    let c := (decoded.getD j '\x00').toNat
    let out := out ++ ['%', URI.digits.getD (c / 16) '\x00', URI.digits.getD (c % 16) '\x00']
    URI.encode_loop decoded n (j + 1) (find_first_of decoded ['?', '#', '%'] (j + 1)) out

/-- The function `URI::encode(out, decoded)`. -/
def URI.encode (out : Str) (decoded : Str) : Str :=
  URI.encode_loop decoded (decoded.length + 1) 0 (find_first_of decoded ['?', '#', '%'] 0) out

/-- The function `URI::update`. -/
def URI.update (u : URI) : URI :=
  let out : Str := []
  let out := if u.has_scheme then out ++ u.get_scheme ++ [':'] else out
  let out := if u.has_authority then URI.encode (out ++ ['/', '/']) u.get_authority else out
  let out := URI.encode out u.get_path
  let out := if u.has_query then URI.encode (out ++ ['?']) u.query else out
  let out := if u.has_fragment then URI.encode (out ++ ['#']) u.fragment else out
  { u with uri := out, needs_update := false }

/-- The function `URI::get_uri`: the string returned. -/
def URI.get_uri (u : URI) : Str := if u.needs_update then u.update.uri else u.uri

/-- The pieces the pattern of `URI::parse` captures, before decoding; when
the pattern does not match, every piece is empty. -/
structure Captured where
  scheme_sep : Str
  scheme : Str
  authority_sep : Str
  authority : Str
  path : Str
  query_sep : Str
  query : Str
  fragment_sep : Str
  fragment : Str
  deriving DecidableEq, Repr

/-- The call `regex.FullMatch(uri, &scheme_sep, &scheme, ...)` of `URI::parse`. -/
def URI.capture (uri : Str) : Captured :=
  match FullMatch uri_regex uri with
  | some caps =>
    { scheme_sep := group_text uri caps 1, scheme := group_text uri caps 2,
      authority_sep := group_text uri caps 3, authority := group_text uri caps 4,
      path := group_text uri caps 5, query_sep := group_text uri caps 6,
      query := group_text uri caps 7, fragment_sep := group_text uri caps 8,
      fragment := group_text uri caps 9 }
  | none =>
    { scheme_sep := [], scheme := [], authority_sep := [], authority := [], path := [],
      query_sep := [], query := [], fragment_sep := [], fragment := [] }

/-- One step of `URI::parse`: `if (is_encoded(x)) { needs_update = true; x = decode(x); }`. -/
def URI.decode_component (x : Str) (needs_update : Bool) : Except Error (Str × Bool) :=
  if URI.is_encoded x then
    match URI.decode x with
    | .ok d => .ok (d, true)
    | .error e => .error e
  else .ok (x, needs_update)

/-- The constructor `URI(const std::string &uri)`, which is `URI::parse`. -/
def URI.parse (uri : Str) : Except Error URI :=
  let c := URI.capture uri
  match URI.decode_component c.authority false with
  | .error e => .error e
  | .ok (authority, n1) =>
    match URI.decode_component c.path n1 with
    | .error e => .error e
    | .ok (path, n2) =>
      match URI.decode_component c.query n2 with
      | .error e => .error e
      | .ok (query, n3) =>
        match URI.decode_component c.fragment n3 with
        | .error e => .error e
        | .ok (fragment, n4) =>
          .ok { scheme_present := !c.scheme_sep.isEmpty,
                authority_present := !c.authority_sep.isEmpty,
                query_present := !c.query_sep.isEmpty,
                fragment_present := !c.fragment_sep.isEmpty,
                scheme := c.scheme, authority := authority, path := path, query := query,
                fragment := fragment, uri := uri, needs_update := n4 }

/-- The overload `URI::resolve(const std::string &reference)`. -/
def URI.resolve_string (u : URI) (reference : Str) : Except Error URI :=
  match URI.parse reference with
  | .ok r => .ok (u.resolve r)
  | .error e => .error e

/-! ## The reference definition of percent-decoding -/

/-- One left-to-right pass over a component: every "%XY" with hexadecimal
digits X and Y becomes the byte with hex value XY, and the pass goes on after
it; `none` when a '%' is not followed by two hexadecimal digits. -/
def percent_decode : Str → Option Str
  | [] => some []
  | c :: rest =>
    if c = '%' then
      match rest with
      | x :: y :: rest2 =>
        match hex_value x, hex_value y with
        | some a, some b => (percent_decode rest2).map (fun d => Char.ofNat (16 * a + b) :: d)
        | _, _ => none
      | _ => none
    else (percent_decode rest).map (fun d => c :: d)

/-- A component contains a '%' that is not followed by two hexadecimal
digits. -/
def BadEscape (s : Str) : Prop :=
  ∃ pre post, s = pre ++ '%' :: post ∧
    ¬ ∃ x y rest, post = x :: y :: rest ∧ (hex_value x).isSome ∧ (hex_value y).isSome

/-- The URI of the example with the path "/a?b". -/
def example_question : URI := URI.empty.set_path "/a?b".toList

/-! ## The value tree: the accessors used by the validator

The accessors of `json/json.h` (not part of the sources) that
`SchemaValidator.cc` calls.  An accessor applied to a value of a kind it does
not accept raises a logic error. -/

/-- The struct `SchemaValidator::Error`. -/
structure SchemaValidator.Error where
  path : Str
  message : Str
  deriving DecidableEq, Repr

/-- The enum `SchemaValidator::Exception::Type`. -/
inductive ExceptionType where
  | INTERNAL
  | PARSING
  | POINTER
  | SCHEMA_VALIDATION
  deriving DecidableEq, Repr

/-- How a call can fail to return normally: it has not returned within its
budget (`diverged`), an accessor of the value tree raised a logic error, an
exception of URI or Pointer escaped (`library`), or a
`SchemaValidator::Exception` with its type and errors was thrown. -/
inductive Fault where
  | diverged
  | logic_error
  | library (e : Error)
  | exception (type : ExceptionType) (errors : List SchemaValidator.Error)
  deriving DecidableEq, Repr

/-- What the validator takes from outside the sources: the partial match of
a PCRE pattern on a subject (`pcrecpp::RE(pattern).PartialMatch(subject)`),
the `%f` rendering of a double (`DoubleToString`), the rendering of a real by
`asString`, and the message `what()` of a library exception. -/
structure Env where
  PartialMatch : Str → Str → Bool
  DoubleToString : Rat → Str
  valueToString : Rat → Str
  what : Error → Str

def Value.isNull : Value → Bool
  | .null => true
  | _ => false

def Value.isBool : Value → Bool
  | .bool _ => true
  | _ => false

def Value.isObject : Value → Bool
  | .object _ => true
  | _ => false

def Value.isArray : Value → Bool
  | .array _ => true
  | _ => false

def Value.isString : Value → Bool
  | .string _ => true
  | _ => false

def Value.isNumeric : Value → Bool
  | .int _ => true
  | .uint _ => true
  | .real _ => true
  | _ => false

/-- The call `v.isMember(key)`: defined on objects and on null. -/
def Value.isMember : Value → Str → Except Fault Bool
  | .object ms, key => .ok (Json.isMember ms key)
  | .null, _ => .ok false
  | _, _ => .error .logic_error

/-- The const `v[key]`: the member, or null when there is none. -/
def Value.get : Value → Str → Except Fault Value
  | .object ms, key => .ok ((member_get ms key).getD .null)
  | .null, _ => .ok .null
  | _, _ => .error .logic_error

/-- The const `v[index]`: the element, or null when there is none. -/
def Value.index : Value → Nat → Except Fault Value
  | .array xs, i => .ok (xs.getD i .null)
  | .null, _ => .ok .null
  | _, _ => .error .logic_error

/-- The call `v.size()`: the number of elements or members; 0 for a scalar. -/
def Value.size : Value → Nat
  | .array xs => xs.length
  | .object ms => ms.length
  | _ => 0

/-- The call `v.getMemberNames()`: defined on objects and on null. -/
def Value.getMemberNames : Value → Except Fault (List Str)
  | .object ms => .ok (ms.map Prod.fst)
  | .null => .ok []
  | _ => .error .logic_error

/-- The values a range-based `for` over `v` visits. -/
def Value.elements : Value → List Value
  | .array xs => xs
  | .object ms => ms.map Prod.snd
  | _ => []

/-- The digits of `n`, most significant first, in front of `acc`. -/
def decimal_digits : Nat → Nat → Str → Str
  | 0, _, acc => acc
  | f + 1, n, acc =>
    if n / 10 = 0 then Char.ofNat (48 + n % 10) :: acc
    else decimal_digits f (n / 10) (Char.ofNat (48 + n % 10) :: acc)

/-- The function `UIntToString`. -/
def UIntToString (i : Nat) : Str := decimal_digits (i + 1) i []

/-- The function `IntToString`. -/
def IntToString (i : Int) : Str :=
  if i < 0 then '-' :: UIntToString i.natAbs else UIntToString i.natAbs

/-- The call `v.asString()`. -/
def Value.asString (env : Env) : Value → Except Fault Str
  | .null => .ok []
  | .string s => .ok s
  | .bool b => .ok (if b then "true".toList else "false".toList)
  | .int i => .ok (IntToString i)
  | .uint n => .ok (UIntToString n)
  | .real r => .ok (env.valueToString r)
  | _ => .error .logic_error

/-- The call `v.asBool()`. -/
def Value.asBool : Value → Except Fault Bool
  | .bool b => .ok b
  | .null => .ok false
  | .int i => .ok (i != 0)
  | .uint n => .ok (n != 0)
  | .real r => .ok (r != 0)
  | _ => .error .logic_error

/-- The call `v.asInt()`: a 32-bit `int`; a real is truncated toward zero. -/
def Value.asInt : Value → Except Fault Int
  | .int i => if -(2 ^ 31) ≤ i ∧ i ≤ 2 ^ 31 - 1 then .ok i else .error .logic_error
  | .uint n => if n ≤ 2 ^ 31 - 1 then .ok n else .error .logic_error
  | .real r =>
    if -(2 ^ 31 : Rat) ≤ r ∧ r ≤ 2 ^ 31 - 1 then .ok (if r < 0 then -((-r).floor) else r.floor)
    else .error .logic_error
  | .null => .ok 0
  | .bool b => .ok (if b then 1 else 0)
  | _ => .error .logic_error

/-- The call `v.asUInt()`: a 32-bit `unsigned int`. -/
def Value.asUInt : Value → Except Fault Nat
  | .int i => if 0 ≤ i ∧ i ≤ 2 ^ 32 - 1 then .ok i.toNat else .error .logic_error
  | .uint n => if n ≤ 2 ^ 32 - 1 then .ok n else .error .logic_error
  | .real r =>
    if 0 ≤ r ∧ r ≤ 2 ^ 32 - 1 then .ok r.floor.toNat else .error .logic_error
  | .null => .ok 0
  | .bool b => .ok (if b then 1 else 0)
  | _ => .error .logic_error

/-- The call `v.asDouble()`, the double kept as the rational it denotes. -/
def Value.asDouble : Value → Except Fault Rat
  | .int i => .ok i
  | .uint n => .ok n
  | .real r => .ok r
  | .null => .ok 0
  | .bool b => .ok (if b then 1 else 0)
  | _ => .error .logic_error

mutual
/-- The comparison `a == b` of two values: same kind and same content, the
members of objects compared by name. -/
def Value.eq : Value → Value → Bool
  | .null, .null => true
  | .bool a, .bool b => a == b
  | .int a, .int b => a == b
  | .uint a, .uint b => a == b
  | .real a, .real b => a == b
  | .string a, .string b => a == b
  | .array xs, .array ys => Value.eq_list xs ys
  | .object ms, .object ns => ms.length == ns.length && Value.eq_members ms ns
  | _, _ => false
/-- Two arrays have the same length and equal elements. -/
def Value.eq_list : List Value → List Value → Bool
  | [], [] => true
  | x :: xs, y :: ys => Value.eq x y && Value.eq_list xs ys
  | _, _ => false
/-- Every member of the first list has an equal member of the same name in
the second. -/
def Value.eq_members : List (Str × Value) → List (Str × Value) → Bool
  | [], _ => true
  | (k, x) :: ms, ns =>
    (match member_get ns k with
      | some y => Value.eq x y
      | none => false) && Value.eq_members ms ns
end

/-- The cast `static_cast<size_t>(i)` of an `int`. -/
def to_size_t (i : Int) : Nat := (i % 2 ^ 64).toNat

/-! ## SchemaValidator: errors and messages -/

def kUnknownTypeReference : Str := "Unknown schema reference: *.".toList
def kInvalidChoice : Str := "Value does not match any valid type choices.".toList
def kInvalidEnum : Str := "Value does not match any valid enum choices.".toList
def kObjectPropertyIsRequired : Str := "Required property * is missing.".toList
def kUnexpectedProperty : Str := "Unexpected property.".toList
def kObjectMinProperties : Str := "Object must have at least * properties.".toList
def kObjectMaxProperties : Str := "Object must not have more than * properties.".toList
def kArrayMinItems : Str := "Array must have at least * items.".toList
def kArrayMaxItems : Str := "Array must not have more than * items.".toList
def kArrayItemsNotUnique : Str := "Items not unique.".toList
def kNoAdditionalItems : Str := "Additional items not allowed.".toList
def kStringMinLength : Str := "String must be at least * characters long.".toList
def kStringMaxLength : Str := "String must not be more than * characters long.".toList
def kStringPattern : Str := "String must match the pattern: *.".toList
def kNumberMinimum : Str := "Value must not be less than *.".toList
def kNumberMaximum : Str := "Value must not be greater than *.".toList
def kNumberExclusiveMinimum : Str := "Value must be greater than *.".toList
def kNumberExclusiveMaximum : Str := "Value must be less than *.".toList
def kNumberDivisible : Str := "Value must be multiple of *.".toList
def kInvalidType : Str := "Expected '*' but got '*'.".toList
def kNotNegative : Str := "Parameter * must not be less than 0".toList
def kEmptyType : Str := "Type is empty string".toList
def kAnyOfFailed : Str := "None of the option schemata was matched.".toList
def kOneOfFailed : Str := "Not exactly one of the option schemata was matched.".toList
def kNotFailed : Str := "Disallowed schema was matched.".toList
def kFalse : Str := "Schema false always fails.".toList
def kArrayContains : Str := "Array does not contain matching item.".toList
def kConst : Str := "Value does not match const.".toList

/-- The index of the first occurrence of `pat` in `s`. -/
def find_occurrence (pat : Str) : Str → Option Nat
  | [] => if pat.isEmpty then some 0 else none
  | c :: cs =>
    if starts_with pat (c :: cs) then some 0 else (find_occurrence pat cs).map (· + 1)

/-- The call `s.find(pat, pos)` with a string `pat`. -/
def find_string (s pat : Str) (pos : Nat) : Option Nat :=
  if s.length < pos then none else (find_occurrence pat (s.drop pos)).map (· + pos)

/-- The static function `ReplaceFirstSubstringAfterOffset`: the new value of
`*str`. -/
def ReplaceFirstSubstringAfterOffset (str : Str) (start_offset : Option Nat)
    (find_this replace_with : Str) : Str :=
  match start_offset with
  | none => str
  | some start =>
    if start ≥ str.length then str
    else if find_this.isEmpty then str
    else
      match find_string str find_this start with
      | some offs => str.take offs ++ replace_with ++ str.drop (offs + find_this.length)
      | none => str

/-- The function `FormatErrorMessage(format, s1)`. -/
def FormatErrorMessage (format s1 : Str) : Str :=
  ReplaceFirstSubstringAfterOffset format (some 0) ['*'] s1

/-- The function `FormatErrorMessage(format, s1, s2)`. -/
def FormatErrorMessage2 (format s1 s2 : Str) : Str :=
  ReplaceFirstSubstringAfterOffset
    (ReplaceFirstSubstringAfterOffset format (some 0) ['*'] s1) (some 0) ['*'] s2

/-- The function `SchemaValidator::GetSchemaType`; `DBL_MANT_DIG` is 53. -/
def GetSchemaType : Value → Str
  | .null => "null".toList
  | .bool _ => "boolean".toList
  | .int _ => "integer".toList
  | .uint _ => "integer".toList
  | .real r =>
    if |r| ≤ 2 ^ 53 ∧ r = r.floor then "integer".toList else "number".toList
  | .string _ => "string".toList
  | .object _ => "object".toList
  | .array _ => "array".toList

/-- The function `SchemaValidator::path_add`. -/
def path_add (path element : Str) : Str :=
  if path.length ≠ 1 then path ++ ['/'] ++ element else path ++ element

/-- The function `SchemaValidator::count_utf8_characters`, on the bytes of
the string. -/
def count_utf8_characters (str : Str) : Nat :=
  (str.filter (fun c => c.toNat < 0x80 || c.toNat ≥ 0xc0)).length

/-! ## SchemaValidator: validation -/

/-- A schema node: the reference to it from the root of the schema document
(its address in the source) and its value. -/
structure Node where
  ref : Ref
  val : Value

/-- The node `schema[key]`. -/
def Node.get (n : Node) (key : Str) : Except Fault Node :=
  match n.val.get key with
  | .ok v => .ok ⟨n.ref ++ [Slot.member key], v⟩
  | .error e => .error e

/-- The node `schema[index]`. -/
def Node.index (n : Node) (i : Nat) : Except Fault Node :=
  match n.val.index i with
  | .ok v => .ok ⟨n.ref ++ [Slot.index i], v⟩
  | .error e => .error e

/-- The error list `errors_`. -/
abbrev Errors := List SchemaValidator.Error

/-- The call `errors_.resize(n)`. -/
def Errors.resize (errors : Errors) (n : Nat) : Errors :=
  errors.take n ++ List.replicate (n - errors.length) ⟨[], []⟩

/-- The type of `Validate(instance, schema, path)` acting on `errors_`. -/
abbrev ValidateFn := Value → Node → Str → Errors → Except Fault Errors

/-- A loop over a list that threads a state and stops at the first fault. -/
def for_each {α σ : Type} (f : α → σ → Except Fault σ) : List α → σ → Except Fault σ
  | [], s => .ok s
  | x :: xs, s =>
    match f x s with
    | .ok s1 => for_each f xs s1
    | .error e => .error e

/-- The function `SchemaValidator::isValid`: the result and `errors_`
afterwards. -/
def isValid (V : ValidateFn) (inst : Value) (schema : Node) (errors : Errors) :
    Except Fault (Bool × Errors) :=
  match V inst schema [] errors with
  | .ok errors1 => .ok (errors1.length == errors.length, Errors.resize errors1 errors.length)
  | .error e => .error e

/-- The function `SchemaValidator::ValidateSimpleType`. -/
def ValidateSimpleType (inst : Value) (expected_type path : Str) (errors : Errors) :
    Bool × Errors :=
  let actual_type := GetSchemaType inst
  if expected_type = actual_type ∨
      (expected_type = "number".toList ∧ actual_type = "integer".toList) then (true, errors)
  else (false, errors ++ [⟨path, FormatErrorMessage2 kInvalidType expected_type actual_type⟩])

/-- The loop of `SchemaValidator::ValidateChoices` over the choices left. -/
def ValidateChoices_loop (env : Env) (inst : Value) (path : Str)
    (original_num_errors : Nat) : List Value → Errors → Except Fault (Bool × Errors)
  | [], errors => .ok (false, errors ++ [⟨path, kInvalidChoice⟩])
  | choice :: rest, errors =>
    match choice.asString env with
    | .error e => .error e
    | .ok t =>
      let r := ValidateSimpleType inst t path errors
      if r.1 then .ok (true, r.2)
      else ValidateChoices_loop env inst path original_num_errors rest
        (Errors.resize r.2 original_num_errors)

/-- The function `SchemaValidator::ValidateChoices`; `choices` is an array. -/
def ValidateChoices (env : Env) (inst : Value) (choices : Value) (path : Str)
    (errors : Errors) : Except Fault (Bool × Errors) :=
  ValidateChoices_loop env inst path errors.length choices.elements errors

/-- The function `SchemaValidator::ValidateType`. -/
def ValidateType (env : Env) (inst : Value) (type : Value) (path : Str) (errors : Errors) :
    Except Fault (Bool × Errors) :=
  if type.isArray then ValidateChoices env inst type path errors
  else
    match type.asString env with
    | .error e => .error e
    | .ok simple_type =>
      if simple_type.isEmpty then .ok (false, errors ++ [⟨path, kEmptyType⟩])
      else .ok (ValidateSimpleType inst simple_type path errors)

/-- The function `SchemaValidator::ValidateEnum`. -/
def ValidateEnum (inst : Value) (choices : Value) (path : Str) (errors : Errors) :
    Except Fault Errors :=
  match choices with
  | .array xs => .ok (if xs.any (fun c => Value.eq c inst) then errors
                      else errors ++ [⟨path, kInvalidEnum⟩])
  | .object ms => if ms.isEmpty then .ok (errors ++ [⟨path, kInvalidEnum⟩]) else .error .logic_error
  | _ => .ok (errors ++ [⟨path, kInvalidEnum⟩])

/-- An optional member: `schema.isMember(key) ? &schema[key] : NULL`. -/
def Node.member_opt (schema : Node) (key : Str) : Except Fault (Option Node) := do
  if (← schema.val.isMember key) then
    let n ← schema.get key
    pure (some n)
  else pure none

/-- The `required` block of `ValidateObject`. -/
def ValidateObject_required (env : Env) (inst : Value) (schema : Node) (path : Str)
    (errors : Errors) : Except Fault Errors := do
  if (← schema.val.isMember "required".toList) then
    let required ← schema.val.get "required".toList
    for_each (fun i errors => do
      let name ← (← required.index i).asString env
      if !(← inst.isMember name) then
        pure (errors ++ [⟨path, FormatErrorMessage kObjectPropertyIsRequired name⟩])
      else pure errors) (List.range required.size) errors
  else pure errors

/-- The `minProperties` block of `ValidateObject`, and its `maxProperties`
block: the bound `key`, violated when `violated size bound`. -/
def ValidateObject_count (inst : Value) (schema : Node) (key : Str)
    (violated : Nat → Nat → Bool) (message : Str) (path : Str) (errors : Errors) :
    Except Fault Errors := do
  if (← schema.val.isMember key) then
    let count ← (← schema.val.get key).asUInt
    if violated inst.size count then
      pure (errors ++ [⟨path, FormatErrorMessage message (UIntToString count)⟩])
    else pure errors
  else pure errors

/-- The vector `pattern_properties` of `ValidateObject`: each pattern with
its schema. -/
def ValidateObject_patterns (schema : Node) : Except Fault (List (Str × Node)) := do
  if (← schema.val.isMember "patternProperties".toList) then
    let pattern ← schema.get "patternProperties".toList
    let names ← pattern.val.getMemberNames
    for_each (fun name acc => do
      let n ← pattern.get name
      pure (acc ++ [(name, n)])) names []
  else pure []

/-- The `dependencies` block of `ValidateObject` for the member `name`. -/
def ValidateObject_dependency (env : Env) (V : ValidateFn) (inst : Value)
    (dependencies : Option Node) (name path : Str) (errors : Errors) : Except Fault Errors := do
  match dependencies with
  | none => pure errors
  | some deps =>
    if (← deps.val.isMember name) then
      let dependency ← deps.get name
      if dependency.val.isArray then
        for_each (fun (dependency_name : Value) errors => do
          let dn ← dependency_name.asString env
          if !(← inst.isMember dn) then
            pure (errors ++ [⟨path, FormatErrorMessage kObjectPropertyIsRequired dn⟩])
          else pure errors) dependency.val.elements errors
      else V inst dependency path errors
    else pure errors

/-- The `propertyNames` step for a member: the name is validated as a
string value. -/
def ValidateObject_name (V : ValidateFn) (property_names : Option Node) (name child_path : Str)
    (errors : Errors) : Except Fault Errors :=
  match property_names with
  | some pn => V (.string name) pn child_path errors
  | none => .ok errors

/-- The `properties` step for a member: `errors_` afterwards and `checked`. -/
def ValidateObject_property (V : ValidateFn) (properties : Option Node) (child : Value)
    (name child_path : Str) (errors : Errors) : Except Fault (Bool × Errors) :=
  match properties with
  | some props => do
    if (← props.val.isMember name) then
      let e ← V child (← props.get name) child_path errors
      pure (true, e)
    else pure (false, errors)
  | none => .ok (false, errors)

/-- The loop over `pattern_properties` for a member. -/
def ValidateObject_pattern (env : Env) (V : ValidateFn)
    (pattern_properties : List (Str × Node)) (child : Value) (name child_path : Str)
    (st : Bool × Errors) : Except Fault (Bool × Errors) :=
  for_each (fun (pair : Str × Node) (st : Bool × Errors) => do
    if env.PartialMatch pair.1 name then
      let e ← V child pair.2 child_path st.2
      pure (true, e)
    else pure st) pattern_properties st

/-- The `additionalProperties` step for a member. -/
def ValidateObject_additional (V : ValidateFn) (additional_properties : Option Node)
    (child : Value) (child_path : Str) (st : Bool × Errors) : Except Fault Errors :=
  match additional_properties with
  | some ap =>
    if !st.1 then
      match ap.val with
      | .bool false => .ok (st.2 ++ [⟨child_path, kUnexpectedProperty⟩])
      | _ => V child ap child_path st.2
    else .ok st.2
  | none => .ok st.2

/-- The body of the loop of `ValidateObject` over the member names of the
instance. -/
def ValidateObject_member (env : Env) (V : ValidateFn) (inst : Value) (path : Str)
    (properties property_names additional_properties : Option Node)
    (pattern_properties : List (Str × Node)) (dependencies : Option Node)
    (name : Str) (errors : Errors) : Except Fault Errors := do
  let child ← inst.get name
  let errors ← ValidateObject_name V property_names name (path_add path name) errors
  let st ← ValidateObject_property V properties child name (path_add path name) errors
  let st ← ValidateObject_pattern env V pattern_properties child name (path_add path name) st
  let errors ← ValidateObject_additional V additional_properties child (path_add path name) st
  ValidateObject_dependency env V inst dependencies name path errors

/-- The function `SchemaValidator::ValidateObject`. -/
def ValidateObject (env : Env) (V : ValidateFn) (inst : Value) (schema : Node) (path : Str)
    (errors : Errors) : Except Fault Errors := do
  let errors ← ValidateObject_required env inst schema path errors
  let errors ← ValidateObject_count inst schema "minProperties".toList (fun s c => s < c)
    kObjectMinProperties path errors
  let errors ← ValidateObject_count inst schema "maxProperties".toList (fun s c => s > c)
    kObjectMaxProperties path errors
  let properties ← schema.member_opt "properties".toList
  let property_names ← schema.member_opt "propertyNames".toList
  let additional_properties ← schema.member_opt "additionalProperties".toList
  let pattern_properties ← ValidateObject_patterns schema
  let dependencies ← schema.member_opt "dependencies".toList
  let names ← inst.getMemberNames
  for_each (ValidateObject_member env V inst path properties property_names
    additional_properties pattern_properties dependencies) names errors

/-- The `minItems` block of `ValidateArray`, and its `maxItems` block: the
bound `key`, violated when `violated size bound`. -/
def ValidateArray_count (inst : Value) (schema : Node) (key : Str)
    (violated : Nat → Nat → Bool) (message : Str) (path : Str) (errors : Errors) :
    Except Fault Errors := do
  if (← schema.val.isMember key) then
    let bound ← (← schema.val.get key).asInt
    if violated inst.size (to_size_t bound) then
      pure (errors ++ [⟨path, FormatErrorMessage message (IntToString bound)⟩])
    else pure errors
  else pure errors

/-- A loop `for (i = lo; i < hi; ++i) Validate(instance[i], schema_of i, path/i)`. -/
def ValidateArray_each (V : ValidateFn) (inst : Value) (schema_of : Nat → Except Fault Node)
    (path : Str) (lo hi : Nat) (errors : Errors) : Except Fault Errors :=
  for_each (fun i errors => do
    let item ← inst.index i
    let s ← schema_of i
    V item s (path_add path (UIntToString i)) errors) (List.range' lo (hi - lo)) errors

/-- The `items` block of `ValidateArray`: `errors_` afterwards, and whether
the function returns at the end of the block. -/
def ValidateArray_items (V : ValidateFn) (inst : Value) (schema : Node) (path : Str)
    (errors : Errors) : Except Fault (Errors × Bool) := do
  let instance_size := inst.size
  if (← schema.val.isMember "items".toList) then
    let items ← schema.get "items".toList
    if items.val.isArray then
      let items_size := items.val.size
      let errors ← ValidateArray_each V inst (fun i => items.index i) path 0
        (min items_size instance_size) errors
      if instance_size > items_size then
        if (← schema.val.isMember "additionalItems".toList) then
          let additional ← schema.get "additionalItems".toList
          match additional.val with
          | .bool b =>
            pure (if !b then errors ++ [⟨path, kNoAdditionalItems⟩] else errors, false)
          | _ =>
            let errors ← ValidateArray_each V inst (fun _ => pure additional) path items_size
              instance_size errors
            pure (errors, false)
        else pure (errors, false)
      else pure (errors, false)
    else
      let errors ← ValidateArray_each V inst (fun _ => pure items) path 0 instance_size errors
      pure (errors, true)
  else pure (errors, false)

/-- The two nested loops of the `uniqueItems` block over the elements `xs`. -/
def ValidateArray_unique_loop (xs : List Value) (path : Str) (errors : Errors) : Errors :=
  (List.range xs.length).foldl (fun errors i =>
    (List.range' (i + 1) (xs.length - (i + 1))).foldl (fun errors j =>
      if Value.eq (xs.getD i .null) (xs.getD j .null) then
        errors ++ [⟨path, kArrayItemsNotUnique⟩]
      else errors) errors) errors

/-- The `uniqueItems` block of `ValidateArray`. -/
def ValidateArray_unique (inst : Value) (schema : Node) (path : Str) (errors : Errors) :
    Except Fault Errors := do
  if (← schema.val.isMember "uniqueItems".toList) then
    if (← (← schema.val.get "uniqueItems".toList).asBool) then
      pure (ValidateArray_unique_loop inst.elements path errors)
    else pure errors
  else pure errors

/-- The loop of the `contains` block: whether an item is valid. -/
def ValidateArray_contains_loop (V : ValidateFn) (contains_schema : Node) :
    List Value → Errors → Except Fault (Bool × Errors)
  | [], errors => .ok (false, errors)
  | item :: rest, errors =>
    match isValid V item contains_schema errors with
    | .error e => .error e
    | .ok (true, errors1) => .ok (true, errors1)
    | .ok (false, errors1) => ValidateArray_contains_loop V contains_schema rest errors1

/-- The `contains` block of `ValidateArray`. -/
def ValidateArray_contains (V : ValidateFn) (inst : Value) (schema : Node) (path : Str)
    (errors : Errors) : Except Fault Errors := do
  if (← schema.val.isMember "contains".toList) then
    let contains_schema ← schema.get "contains".toList
    let r ← ValidateArray_contains_loop V contains_schema inst.elements errors
    if !r.1 then pure (r.2 ++ [⟨path, kArrayContains⟩]) else pure r.2
  else pure errors

/-- The function `SchemaValidator::ValidateArray`. -/
def ValidateArray (V : ValidateFn) (inst : Value) (schema : Node) (path : Str)
    (errors : Errors) : Except Fault Errors := do
  let errors ← ValidateArray_count inst schema "minItems".toList (fun s b => s < b)
    kArrayMinItems path errors
  let errors ← ValidateArray_count inst schema "maxItems".toList (fun s b => s > b)
    kArrayMaxItems path errors
  let r ← ValidateArray_items V inst schema path errors
  if r.2 then pure r.1
  else
    let errors ← ValidateArray_unique inst schema path r.1
    ValidateArray_contains V inst schema path errors

/-- The `minLength` block of `ValidateString`: `errors_` afterwards, and
whether the function returns. -/
def ValidateString_bound (schema : Node) (key : Str) (violated : Nat → Nat → Bool)
    (message : Str) (length : Nat) (path : Str) (errors : Errors) :
    Except Fault (Errors × Bool) := do
  if (← schema.val.isMember key) then
    let bound ← (← schema.val.get key).asInt
    if bound < 0 then pure (errors ++ [⟨path, FormatErrorMessage kNotNegative key⟩], true)
    else if violated length (to_size_t bound) then
      pure (errors ++ [⟨path, FormatErrorMessage message (IntToString bound)⟩], false)
    else pure (errors, false)
  else pure (errors, false)

/-- The function `SchemaValidator::ValidateString`. -/
def ValidateString (env : Env) (inst : Value) (schema : Node) (path : Str) (errors : Errors) :
    Except Fault Errors := do
  let value ← inst.asString env
  let length := count_utf8_characters value
  let r ← ValidateString_bound schema "minLength".toList (fun l b => l < b) kStringMinLength
    length path errors
  if r.2 then pure r.1
  else
    let r ← ValidateString_bound schema "maxLength".toList (fun l b => l > b) kStringMaxLength
      length path r.1
    if r.2 then pure r.1
    else
      if (← schema.val.isMember "pattern".toList) then
        let pattern ← (← schema.val.get "pattern".toList).asString env
        if !env.PartialMatch pattern value then
          pure (r.1 ++ [⟨path, FormatErrorMessage kStringPattern pattern⟩])
        else pure r.1
      else pure r.1

/-- One bound block of `ValidateNumber`. -/
def ValidateNumber_bound (env : Env) (schema : Node) (key : Str) (violated : Rat → Rat → Bool)
    (message : Str) (value : Rat) (path : Str) (errors : Errors) : Except Fault Errors := do
  if (← schema.val.isMember key) then
    let bound ← (← schema.val.get key).asDouble
    if violated value bound then
      pure (errors ++ [⟨path, FormatErrorMessage message (env.DoubleToString bound)⟩])
    else pure errors
  else pure errors

/-- The function `SchemaValidator::ValidateNumber`, the doubles kept as the
rationals they denote. -/
def ValidateNumber (env : Env) (inst : Value) (schema : Node) (path : Str) (errors : Errors) :
    Except Fault Errors := do
  let value ← inst.asDouble
  let errors ← ValidateNumber_bound env schema "minimum".toList (fun v m => v < m)
    kNumberMinimum value path errors
  let errors ← ValidateNumber_bound env schema "exclusiveMinimum".toList (fun v m => v ≤ m)
    kNumberExclusiveMinimum value path errors
  let errors ← ValidateNumber_bound env schema "maximum".toList (fun v m => v > m)
    kNumberMaximum value path errors
  let errors ← ValidateNumber_bound env schema "exclusiveMaximum".toList (fun v m => v ≥ m)
    kNumberExclusiveMaximum value path errors
  ValidateNumber_bound env schema "multipleOf".toList
    (fun v d => d != 0 && ((v / d).floor : Rat) != v / d) kNumberDivisible value path errors

/-- The `allOf` block of `Validate`. -/
def Validate_allOf (V : ValidateFn) (inst : Value) (schema : Node) (path : Str)
    (errors : Errors) : Except Fault Errors := do
  if (← schema.val.isMember "allOf".toList) then
    let schemata ← schema.get "allOf".toList
    for_each (fun i errors => do
      let s ← schemata.index i
      V inst s path errors) (List.range schemata.val.size) errors
  else pure errors

/-- The loop of the `anyOf` block: whether a schema is matched. -/
def Validate_anyOf_loop (V : ValidateFn) (inst : Value) (schemata : Node) :
    List Nat → Errors → Except Fault (Bool × Errors)
  | [], errors => .ok (false, errors)
  | i :: rest, errors =>
    match schemata.index i with
    | .error e => .error e
    | .ok s =>
      match isValid V inst s errors with
      | .error e => .error e
      | .ok (true, errors1) => .ok (true, errors1)
      | .ok (false, errors1) => Validate_anyOf_loop V inst schemata rest errors1

/-- The `anyOf` block of `Validate`. -/
def Validate_anyOf (V : ValidateFn) (inst : Value) (schema : Node) (path : Str)
    (errors : Errors) : Except Fault Errors := do
  if (← schema.val.isMember "anyOf".toList) then
    let schemata ← schema.get "anyOf".toList
    let r ← Validate_anyOf_loop V inst schemata (List.range schemata.val.size) errors
    if !r.1 then pure (r.2 ++ [⟨path, kAnyOfFailed⟩]) else pure r.2
  else pure errors

/-- The loop of the `oneOf` block: the number of schemata matched. -/
def Validate_oneOf_loop (V : ValidateFn) (inst : Value) (schemata : Node) :
    List Nat → Nat → Errors → Except Fault (Nat × Errors)
  | [], matched, errors => .ok (matched, errors)
  | i :: rest, matched, errors =>
    match schemata.index i with
    | .error e => .error e
    | .ok s =>
      match isValid V inst s errors with
      | .error e => .error e
      | .ok (ok, errors1) =>
        Validate_oneOf_loop V inst schemata rest (if ok then matched + 1 else matched) errors1

/-- The `oneOf` block of `Validate`. -/
def Validate_oneOf (V : ValidateFn) (inst : Value) (schema : Node) (path : Str)
    (errors : Errors) : Except Fault Errors := do
  if (← schema.val.isMember "oneOf".toList) then
    let schemata ← schema.get "oneOf".toList
    let r ← Validate_oneOf_loop V inst schemata (List.range schemata.val.size) 0 errors
    if r.1 ≠ 1 then pure (r.2 ++ [⟨path, kOneOfFailed⟩]) else pure r.2
  else pure errors

/-- The `not` block of `Validate`. -/
def Validate_not (V : ValidateFn) (inst : Value) (schema : Node) (path : Str)
    (errors : Errors) : Except Fault Errors := do
  if (← schema.val.isMember "not".toList) then
    let r ← isValid V inst (← schema.get "not".toList) errors
    if r.1 then pure (r.2 ++ [⟨path, kNotFailed⟩]) else pure r.2
  else pure errors

/-- The `if`/`then`/`else` block of `Validate`. -/
def Validate_if (V : ValidateFn) (inst : Value) (schema : Node) (path : Str)
    (errors : Errors) : Except Fault Errors := do
  if (← schema.val.isMember "if".toList) then
    let has_then ← schema.val.isMember "then".toList
    let has_else ← (if has_then then .ok false else schema.val.isMember "else".toList)
    if has_then || has_else then
      let r ← isValid V inst (← schema.get "if".toList) errors
      if r.1 then
        if (← schema.val.isMember "then".toList) then
          V inst (← schema.get "then".toList) path r.2
        else pure r.2
      else
        if (← schema.val.isMember "else".toList) then
          V inst (← schema.get "else".toList) path r.2
        else pure r.2
    else pure errors
  else pure errors

/-- The `const` block of `Validate`. -/
def Validate_const (inst : Value) (schema : Node) (path : Str) (errors : Errors) :
    Except Fault Errors := do
  if (← schema.val.isMember "const".toList) then
    if !Value.eq inst (← schema.val.get "const".toList) then
      pure (errors ++ [⟨path, kConst⟩])
    else pure errors
  else pure errors

/-- The end of `Validate`: the dispatch on the kind of the instance. -/
def Validate_kind (env : Env) (V : ValidateFn) (inst : Value) (schema : Node) (path : Str)
    (errors : Errors) : Except Fault Errors :=
  if inst.isNull || inst.isBool then .ok errors
  else if inst.isObject then ValidateObject env V inst schema path errors
  else if inst.isArray then ValidateArray V inst schema path errors
  else if inst.isString then ValidateString env inst schema path errors
  else if inst.isNumeric then ValidateNumber env inst schema path errors
  else .ok errors

/-- The `type` block of `Validate`: `errors_` afterwards and whether the
type is satisfied. -/
def Validate_type (env : Env) (inst : Value) (schema : Node) (path : Str) (errors : Errors) :
    Except Fault (Bool × Errors) := do
  if (← schema.val.isMember "type".toList) then
    ValidateType env inst (← schema.val.get "type".toList) path errors
  else pure (true, errors)

/-- The `$ref` block of `Validate`, for a schema that has the member. -/
def Validate_ref (env : Env) (refs_root : Value) (refs : List (Ref × Ref)) (V : ValidateFn)
    (inst : Value) (schema : Node) (path : Str) (errors : Errors) : Except Fault Errors :=
  match refs.lookup schema.ref with
  | none => do
    let r ← (← schema.val.get "$ref".toList).asString env
    pure (errors ++ [⟨path, FormatErrorMessage kUnknownTypeReference r⟩])
  | some target => V inst ⟨target, (refs_root.at target).getD .null⟩ path errors

/-- The end of `Validate`: the `enum` block, which returns, or the dispatch
on the kind of the instance. -/
def Validate_enum_or_kind (env : Env) (V : ValidateFn) (inst : Value) (schema : Node)
    (path : Str) (errors : Errors) : Except Fault Errors := do
  if (← schema.val.isMember "enum".toList) then
    ValidateEnum inst (← schema.val.get "enum".toList) path errors
  else Validate_kind env V inst schema path errors

/-- The keywords of `Validate` after the `type` block. -/
def Validate_keywords (env : Env) (V : ValidateFn) (inst : Value) (schema : Node)
    (path : Str) (errors : Errors) : Except Fault Errors := do
  let errors ← Validate_allOf V inst schema path errors
  let errors ← Validate_anyOf V inst schema path errors
  let errors ← Validate_oneOf V inst schema path errors
  let errors ← Validate_not V inst schema path errors
  let errors ← Validate_if V inst schema path errors
  let errors ← Validate_const inst schema path errors
  Validate_enum_or_kind env V inst schema path errors

/-- The body of `SchemaValidator::Validate`, with `V` the function called
recursively, `refs_root` the schema document and `refs` the resolved
references. -/
def Validate_body (env : Env) (refs_root : Value) (refs : List (Ref × Ref)) (V : ValidateFn) :
    ValidateFn := fun inst schema path errors =>
  match schema.val with
  | .bool b => .ok (if b == false then errors ++ [⟨path, kFalse⟩] else errors)
  | _ => do
    if (← schema.val.isMember "$ref".toList) then
      Validate_ref env refs_root refs V inst schema path errors
    else
      let t ← Validate_type env inst schema path errors
      if !t.1 then pure t.2
      else Validate_keywords env V inst schema path t.2

/-- The function `SchemaValidator::Validate`, with `n` bounding the depth of
the nested calls; beyond it the call has not returned. -/
def Validate (env : Env) (refs_root : Value) (refs : List (Ref × Ref)) : Nat → ValidateFn
  | 0 => fun _ _ _ _ => .error .diverged
  | n + 1 => Validate_body env refs_root refs (Validate env refs_root refs n)

/-- The class `SchemaValidator` after construction. -/
structure SchemaValidator where
  refs_root_ : Value
  schema_root_ : Ref
  refs : List (Ref × Ref)
  errors_ : Errors

/-- The function `SchemaValidator::validate(instance)`, with `n` bounding the
depth of the nested calls of `Validate`: the result and the validator
afterwards. -/
def SchemaValidator.validate (env : Env) (n : Nat) (v : SchemaValidator) (inst : Value) :
    Except Fault (Bool × SchemaValidator) :=
  match Validate env v.refs_root_ v.refs n inst
      ⟨v.schema_root_, (v.refs_root_.at v.schema_root_).getD .null⟩ ['/'] [] with
  | .ok errors => .ok (errors.length == 0, { v with errors_ := errors })
  | .error e => .error e

/-! ## SchemaValidator: construction -/

/-- The class `SchemaValidator::Options`. -/
structure Options where
  schema_pointer : Str

/-- The assignment `m[k] = v` on a map kept as a list of entries: an existing
entry is overwritten, a new one is added. -/
def map_set {κ β : Type} [DecidableEq κ] : List (κ × β) → κ → β → List (κ × β)
  | [], k, v => [(k, v)]
  | (k1, v1) :: rest, k, v =>
    if k1 = k then (k1, v) :: rest else (k1, v1) :: map_set rest k v

/-- The call `s.insert(x)` on a set kept as a list. -/
def set_insert {κ : Type} [DecidableEq κ] (s : List κ) (x : κ) : List κ :=
  if x ∈ s then s else s ++ [x]

/-- The maps `ids` and `refs` and the set `sub_schemata` during
construction; a node is the reference to it from `refs_root_`. -/
structure CollectState where
  ids : List (Str × Ref)
  refs : List (Ref × Ref)
  sub_schemata : List Ref

def schema_member_names : List Str :=
  ["additionalItems".toList, "additionalProperties".toList, "contains".toList, "else".toList,
   "if".toList, "items".toList, "not".toList, "propertyNames".toList, "then".toList]

def schema_array_member_names : List Str :=
  ["allOf".toList, "anyOf".toList, "items".toList, "oneOf".toList]

def schema_object_member_names : List Str :=
  ["definitions".toList, "dependencies".toList, "patternProperties".toList,
   "properties".toList]

/-- The node of the schema document a reference designates. -/
def node_at (refs_root : Value) (r : Ref) : Node := ⟨r, (refs_root.at r).getD .null⟩

/-- The `process_refs` block of `collect_ids_refs` for a node whose `$ref`
is the string `ref`: the node the reference resolves to. -/
def resolve_ref (env : Env) (refs_root : Value) (ids : List (Str × Ref)) (base_uri : URI)
    (ref : Str) : Except Fault Ref :=
  match base_uri.resolve_string ref with
  | .error e => .error (.library e)
  | .ok ref_uri0 =>
    let ref_string := ref_uri0.get_uri
    let fragment0 : Str := if ref_uri0.has_fragment then ref_uri0.get_fragment else []
    let ref_uri :=
      if fragment0.isEmpty then ref_uri0.clear_fragment
      else if fragment0.head? = some '/' then ref_uri0.clear_fragment
      else ref_uri0
    let fragment : Str :=
      if fragment0.isEmpty then fragment0
      else if fragment0.head? = some '/' then fragment0
      else []
    let found : Except Fault Ref :=
      if ref_uri.get_uri.isEmpty then .ok []
      else
        match ids.lookup ref_uri.get_uri with
        | none =>
          .error (.exception .POINTER [⟨[], "unresolved ref ".toList ++ ref_string⟩])
        | some n => .ok n
    match found with
    | .error e => .error e
    | .ok ref_node =>
      if !fragment.isEmpty then
        match Pointer.init fragment with
        | .error e => .error (.exception .POINTER [⟨[], env.what e⟩])
        | .ok pointer =>
          match pointer.get (node_at refs_root ref_node).val 0 with
          | .error e => .error (.exception .POINTER [⟨[], env.what e⟩])
          | .ok r => .ok (ref_node ++ r.1)
      else .ok ref_node

/-- The type of `collect_ids_refs(node, base_uri, process_refs)` acting on
the maps. -/
abbrev CollectFn := Node → URI → Bool → CollectState → Except Fault CollectState

/-- The `$ref` and `$id` part of `collect_ids_refs`: the maps and the base
URI afterwards. -/
def collect_node (env : Env) (refs_root : Value) (node : Node) (base_uri : URI)
    (process_refs : Bool) (st : CollectState) : Except Fault (CollectState × URI) := do
  if (← node.val.isMember "$ref".toList) then
    if process_refs then
      let ref ← (← node.val.get "$ref".toList).asString env
      let ref_node ← resolve_ref env refs_root st.ids base_uri ref
      pure ({ st with refs := map_set st.refs node.ref ref_node }, base_uri)
    else pure (st, base_uri)
  else if (← node.val.isMember "$id".toList) then
    let id ← (← node.val.get "$id".toList).asString env
    match base_uri.resolve_string id with
    | .error e => .error (.library e)
    | .ok resolved =>
      let base_uri :=
        if resolved.has_fragment && resolved.get_fragment.isEmpty then resolved.clear_fragment
        else resolved
      if !process_refs then
        pure ({ st with ids := map_set st.ids base_uri.get_uri node.ref }, base_uri)
      else pure (st, base_uri)
  else pure (st, base_uri)

/-- The loop of `collect_ids_refs` over `schema_member_names`. -/
def collect_members (C : CollectFn) (node : Node) (base_uri : URI) (process_refs : Bool)
    (st : CollectState) : Except Fault CollectState :=
  for_each (fun key st => do
    if (← node.val.isMember key) then
      let child ← node.get key
      if child.val.isObject then C child base_uri process_refs st else pure st
    else pure st) schema_member_names st

/-- The loop of `collect_ids_refs` over `schema_array_member_names`. -/
def collect_arrays (C : CollectFn) (node : Node) (base_uri : URI) (process_refs : Bool)
    (st : CollectState) : Except Fault CollectState :=
  for_each (fun key st => do
    if (← node.val.isMember key) then
      let member ← node.get key
      if member.val.isArray then
        for_each (fun i st => do
          let child ← member.index i
          C child base_uri process_refs st) (List.range member.val.size) st
      else pure st
    else pure st) schema_array_member_names st

/-- The loop of `collect_ids_refs` over `schema_object_member_names`. -/
def collect_objects (C : CollectFn) (node : Node) (base_uri : URI) (process_refs : Bool)
    (st : CollectState) : Except Fault CollectState :=
  for_each (fun key st => do
    if (← node.val.isMember key) then
      let member ← node.get key
      let names ← member.val.getMemberNames
      for_each (fun name st => do
        let child ← member.get name
        C child base_uri process_refs st) names st
    else pure st) schema_object_member_names st

/-- The body of `SchemaValidator::collect_ids_refs`, with `C` the function
called recursively. -/
def collect_body (env : Env) (refs_root : Value) (C : CollectFn) : CollectFn :=
  fun node base_uri process_refs st => do
    let st :=
      if !process_refs then { st with sub_schemata := set_insert st.sub_schemata node.ref }
      else st
    if !node.val.isObject then pure st
    else
      let r ← collect_node env refs_root node base_uri process_refs st
      let st ← collect_members C node r.2 process_refs r.1
      let st ← collect_arrays C node r.2 process_refs st
      collect_objects C node r.2 process_refs st

/-- The function `SchemaValidator::collect_ids_refs`, with `n` bounding the
depth of the nested calls. -/
def collect_ids_refs (env : Env) (refs_root : Value) : Nat → CollectFn
  | 0 => fun _ _ _ _ => .error .diverged
  | n + 1 => collect_body env refs_root (collect_ids_refs env refs_root n)

mutual
/-- The nesting depth of a value. -/
def Value.depth : Value → Nat
  | .array xs => Value.depth_list xs + 1
  | .object ms => Value.depth_members ms + 1
  | _ => 1
/-- The largest depth of an element. -/
def Value.depth_list : List Value → Nat
  | [] => 0
  | x :: xs => max (Value.depth x) (Value.depth_list xs)
/-- The largest depth of a member. -/
def Value.depth_members : List (Str × Value) → Nat
  | [] => 0
  | (_, x) :: ms => max (Value.depth x) (Value.depth_members ms)
end

mutual
/-- The number of nodes of a value. -/
def Value.nodes : Value → Nat
  | .array xs => Value.nodes_list xs + 1
  | .object ms => Value.nodes_members ms + 1
  | _ => 1
/-- The number of nodes of the elements. -/
def Value.nodes_list : List Value → Nat
  | [] => 0
  | x :: xs => Value.nodes x + Value.nodes_list xs
/-- The number of nodes of the members. -/
def Value.nodes_members : List (Str × Value) → Nat
  | [] => 0
  | (_, x) :: ms => Value.nodes x + Value.nodes_members ms
end

/-- The two calls `collect_ids_refs(node, URI(), false)` and
`collect_ids_refs(node, URI(), true)` of `init`. -/
def collect_both (env : Env) (refs_root : Value) (r : Ref) (st : CollectState) :
    Except Fault CollectState := do
  let st ← collect_ids_refs env refs_root (refs_root.depth + 1) (node_at refs_root r)
    URI.empty false st
  collect_ids_refs env refs_root (refs_root.depth + 1) (node_at refs_root r) URI.empty true st

/-- The errors `meta_validator->errors(prefix)`. -/
def prefixed (pre : Str) (errors : Errors) : Errors :=
  errors.map (fun e => ⟨pre ++ e.path, e.message⟩)

/-- The check of a schema by the meta-validator in `init`.  The meta-schema
is not part of the sources: `meta_errors` gives the errors the meta-validator
records for a schema (none when it is valid), and is absent when
`validate_schema` is false. -/
def meta_check (meta_errors : Option (Value → Errors)) (schema : Value) (pre : Str) :
    Except Fault Unit :=
  match meta_errors with
  | none => .ok ()
  | some f =>
    if (f schema).length == 0 then .ok ()
    else .error (.exception .SCHEMA_VALIDATION (prefixed pre (f schema)))

/-- The loop of `init` over the members of `definitions`. -/
def init_definitions (env : Env) (meta_errors : Option (Value → Errors)) (refs_root : Value)
    (st : CollectState) : Except Fault CollectState := do
  let definitions ← (node_at refs_root []).get "definitions".toList
  let names ← definitions.val.getMemberNames
  for_each (fun key st => do
    let schema ← definitions.get key
    meta_check meta_errors schema.val ("/definitions/".toList ++ key)
    collect_both env refs_root schema.ref st) names st

/-- The nodes `new_sub_schemata` of one round of the `do ... while` loop of
`init`. -/
def init_new_sub_schemata (meta_errors : Option (Value → Errors)) (refs_root : Value)
    (st : CollectState) : Except Fault (List Ref) :=
  for_each (fun (pair : Ref × Ref) new_sub_schemata => do
    if pair.2 ∈ st.sub_schemata then pure new_sub_schemata
    else
      meta_check meta_errors (node_at refs_root pair.2).val []
      pure (set_insert new_sub_schemata pair.2)) st.refs []

/-- The `do ... while` loop of `init`, with `n` bounding the rounds left. -/
def init_discover (env : Env) (meta_errors : Option (Value → Errors)) (refs_root : Value) :
    Nat → CollectState → Except Fault CollectState
  | 0, _ => .error .diverged
  | n + 1, st =>
    match init_new_sub_schemata meta_errors refs_root st with
    | .error e => .error e
    | .ok new_sub_schemata =>
      match for_each (fun node st => collect_both env refs_root node st) new_sub_schemata st with
      | .error e => .error e
      | .ok st1 =>
        if new_sub_schemata.isEmpty then .ok st1
        else init_discover env meta_errors refs_root n st1

/-- The test `node->isObject() && node->isMember("$ref")`. -/
def has_ref (v : Value) : Bool :=
  match v with
  | .object ms => Json.isMember ms "$ref".toList
  | _ => false

/-- The string `(*node)["$ref"].asString()`. -/
def ref_string (env : Env) (v : Value) : Except Fault Str :=
  match v.get "$ref".toList with
  | .ok r => r.asString env
  | .error e => .error e

/-- The loop `while (target->isObject() && target->isMember("$ref"))` of
`init` for the entry `first`, with `n` bounding the iterations left: the set
`nodes_seen` and the final target. -/
def follow_refs (env : Env) (refs_root : Value) (refs : List (Ref × Ref)) (first : Ref) :
    Nat → List Ref → Ref → Except Fault (List Ref × Ref)
  | 0, _, _ => .error .diverged
  | n + 1, nodes_seen, target =>
    if has_ref (node_at refs_root target).val then
      if target ∈ nodes_seen then
        match ref_string env (node_at refs_root first).val with
        | .error e => .error e
        | .ok r =>
          .error (.exception .SCHEMA_VALIDATION
            [⟨[], "reference loop including '".toList ++ r ++ "'".toList⟩])
      else
        match refs.lookup target with
        | none =>
          match ref_string env (node_at refs_root target).val with
          | .error e => .error e
          | .ok r =>
            .error (.exception .INTERNAL
              [⟨[], "unresolved reference '".toList ++ r ++ "'".toList⟩])
        | some t => follow_refs env refs_root refs first n (nodes_seen ++ [target]) t
    else .ok (nodes_seen, target)

/-- The loop `for (auto pair : refs)` of `init` that flattens the chains of
references, over the keys left to visit. -/
def init_flatten (env : Env) (refs_root : Value) :
    List Ref → List (Ref × Ref) → Except Fault (List (Ref × Ref))
  | [], refs => .ok refs
  | first :: rest, refs =>
    match refs.lookup first with
    | none => init_flatten env refs_root rest refs
    | some node =>
      if has_ref (node_at refs_root node).val then
        match follow_refs env refs_root refs first (refs.length + 1) [first] node with
        | .error e => .error e
        | .ok (nodes_seen, target) =>
          init_flatten env refs_root rest
            (nodes_seen.foldl (fun refs source => map_set refs source target) refs)
      else init_flatten env refs_root rest refs

/-- The first block of `init`: the node `schema_root_`. -/
def init_schema_root (env : Env) (refs_root : Value) (options : Options) : Except Fault Ref :=
  if options.schema_pointer.length > 0 then
    match Pointer.init options.schema_pointer with
    | .error e => .error (.exception .POINTER [⟨[], env.what e⟩])
    | .ok pointer =>
      match pointer.get refs_root 0 with
      | .error e => .error (.exception .POINTER [⟨[], env.what e⟩])
      | .ok r => .ok r.1
  else .ok []

/-- The block `if (refs_root_.isObject() && !refs_root_.isMember("$id"))` of
`init`. -/
def init_root_id (refs_root : Value) (st : CollectState) : Except Fault CollectState :=
  if refs_root.isObject then do
    if !(← refs_root.isMember "$id".toList) then pure { st with ids := map_set st.ids [] [] }
    else pure st
  else pure st

/-- The block `if (&refs_root_ != schema_root_ &&
refs_root_.isMember("definitions"))` of `init`. -/
def init_root_definitions (env : Env) (meta_errors : Option (Value → Errors))
    (refs_root : Value) (schema_root : Ref) (st : CollectState) : Except Fault CollectState :=
  if schema_root ≠ [] then do
    if (← refs_root.isMember "definitions".toList) then
      init_definitions env meta_errors refs_root st
    else pure st
  else pure st

/-- The part of `SchemaValidator::init` before the chains of references are
flattened: `schema_root_` and the maps. -/
def init_collect (env : Env) (meta_errors : Option (Value → Errors)) (refs_root : Value)
    (options : Options) : Except Fault (Ref × CollectState) := do
  let schema_root ← init_schema_root env refs_root options
  meta_check meta_errors (node_at refs_root schema_root).val options.schema_pointer
  let st ← init_root_id refs_root ⟨[], [], []⟩
  let st ← init_root_definitions env meta_errors refs_root schema_root st
  let st ← collect_both env refs_root schema_root st
  let st ← init_discover env meta_errors refs_root (refs_root.nodes + 1) st
  pure (schema_root, st)

/-- The function `SchemaValidator::init`, which the constructors run on the
schema document `refs_root`. -/
def SchemaValidator.init (env : Env) (meta_errors : Option (Value → Errors)) (refs_root : Value)
    (options : Options) : Except Fault SchemaValidator :=
  match init_collect env meta_errors refs_root options with
  | .error e => .error e
  | .ok (schema_root, st) =>
    match init_flatten env refs_root (st.refs.map Prod.fst) st.refs with
    | .error e => .error e
    | .ok refs => .ok ⟨refs_root, schema_root, refs, []⟩

/-! ## Examples used by the statements on the validator -/

/-- An environment for the examples; no result stated below depends on it. -/
def example_env : Env :=
  { PartialMatch := fun _ _ => false, DoubleToString := fun _ => [],
    valueToString := fun _ => [], what := fun _ => [] }

/-- The schema `{"type": "object", "properties": {"x": {"type": "string"}},
"required": ["x"], "additionalProperties": false}`. -/
def schema_object_x : Value :=
  .object [("type".toList, .string "object".toList),
    ("properties".toList, .object [("x".toList, .object [("type".toList, .string "string".toList)])]),
    ("required".toList, .array [.string "x".toList]),
    ("additionalProperties".toList, .bool false)]

/-- The schema `{"oneOf": [{"type": "integer"}, {"multipleOf": 2}]}`. -/
def schema_oneOf : Value :=
  .object [("oneOf".toList, .array [.object [("type".toList, .string "integer".toList)],
    .object [("multipleOf".toList, .int 2)]])]

/-- The schema `{"uniqueItems": true}`. -/
def schema_unique : Value := .object [("uniqueItems".toList, .bool true)]

/-- The schema `{"items": {}, "uniqueItems": true}`. -/
def schema_items_unique : Value :=
  .object [("items".toList, .object []), ("uniqueItems".toList, .bool true)]

/-- The schema `{"$ref": "#/definitions/a", "definitions": {"a": {"$ref":
"#/definitions/a"}}}`. -/
def schema_loop : Value :=
  .object [("$ref".toList, .string "#/definitions/a".toList),
    ("definitions".toList,
      .object [("a".toList, .object [("$ref".toList, .string "#/definitions/a".toList)])])]

/-- The schema `{"$ref": "#"}`. -/
def schema_self : Value := .object [("$ref".toList, .string "#".toList)]

/-- The schema `{"properties": {"p": {"$ref": "#foo"}}}`. -/
def schema_plain_fragment : Value :=
  .object [("properties".toList,
    .object [("p".toList, .object [("$ref".toList, .string "#foo".toList)])])]

/-- The validator of a schema document without references: `schema_root_`
is the document and `refs` is empty. -/
def plain_validator (schema : Value) : SchemaValidator := ⟨schema, [], [], []⟩

/-- The result of `validate` and the errors it leaves. -/
def outcome (r : Except Fault (Bool × SchemaValidator)) : Except Fault (Bool × Errors) :=
  match r with
  | .ok (b, v) => .ok (b, v.errors_)
  | .error e => .error e

/-- The paths `Validate` is called with: "/" for the document, "" in an
isolated trial, and `path_add` of such a path for a member or an item. -/
inductive ValidationPath : Str → Prop where
  | root : ValidationPath ['/']
  | trial : ValidationPath []
  | child (p n : Str) : ValidationPath p → ValidationPath (path_add p n)

/-- The reference "#foo" as `URI::parse` leaves it. -/
def example_foo_reference : URI :=
  { scheme_present := false, authority_present := false, query_present := false,
    fragment_present := true, scheme := [], authority := [], path := [], query := [],
    fragment := "foo".toList, uri := "#foo".toList, needs_update := false }

/-- Whether the instance passes a schema: the isolated trial `isValid`
returns true. -/
def passes (V : ValidateFn) (inst : Value) (schema : Node) (errors : Errors) : Bool :=
  match isValid V inst schema errors with
  | .ok (true, _) => true
  | _ => false

/-- A schema whose only keyword is `oneOf`, with the listed sub-schemas. -/
def oneOf_schema (subs : List Value) : Value := .object [("oneOf".toList, .array subs)]

/-- The node of the `i`-th sub-schema listed by the `oneOf` of the node at
`sref`. -/
def oneOf_branch (sref : Ref) (subs : List Value) (i : Nat) : Node :=
  ⟨sref ++ [Slot.member "oneOf".toList] ++ [Slot.index i], subs.getD i .null⟩

/-- The number of listed sub-schemas the instance passes. -/
def oneOf_passed (V : ValidateFn) (inst : Value) (sref : Ref) (subs : List Value)
    (errors : Errors) : Nat :=
  ((List.range subs.length).filter
    (fun i => passes V inst (oneOf_branch sref subs i) errors)).length

/-! ## Following references -/

/-- The target of the `$ref` of a node in the map `refs`: defined for a node
that is an object with a `$ref` member and has an entry. -/
def ref_next (refs_root : Value) (refs : List (Ref × Ref)) (x : Ref) : Option Ref :=
  if has_ref (node_at refs_root x).val then refs.lookup x else none

/-- The node reached from `x` by following `m` references. -/
def ref_chain (refs_root : Value) (refs : List (Ref × Ref)) : Nat → Ref → Option Ref
  | 0, x => some x
  | m + 1, x =>
    match ref_next refs_root refs x with
    | some y => ref_chain refs_root refs m y
    | none => none

/-- Following `$ref` targets from some `$ref` node revisits a node. -/
def RefCycle (refs_root : Value) (refs : List (Ref × Ref)) : Prop :=
  ∃ x m, 0 < m ∧ ref_chain refs_root refs m x = some x

/-- The message of the reference-loop error for the reference string `r`. -/
def loop_message (r : Str) : Str := "reference loop including '".toList ++ r ++ "'".toList

/-- Following references from `x` never comes to an end. -/
def Immortal (refs_root : Value) (refs : List (Ref × Ref)) (x : Ref) : Prop :=
  ∀ j, ref_chain refs_root refs j x ≠ none

/-- Every target in `refs` that is itself a `$ref` node has an entry. -/
def Closed (refs_root : Value) (refs : List (Ref × Ref)) : Prop :=
  ∀ k t, refs.lookup k = some t → has_ref (node_at refs_root t).val = true →
    (refs.lookup t).isSome = true

/-- Every node with an entry in `refs` has a `$ref` that converts to a
string. -/
def KeysOk (env : Env) (refs_root : Value) (refs : List (Ref × Ref)) : Prop :=
  ∀ k, (refs.lookup k).isSome = true → ∃ r, ref_string env (node_at refs_root k).val = .ok r

/-- Every entry of `refs` in `a` is still there in `b`. -/
def KeysMono (a b : CollectState) : Prop :=
  ∀ k, (a.refs.lookup k).isSome = true → (b.refs.lookup k).isSome = true

/-- What a call with `process_refs` true leaves as it was or extends. -/
def RefsPass (env : Env) (refs_root : Value) (a b : CollectState) : Prop :=
  b.sub_schemata = a.sub_schemata ∧ KeysMono a b ∧
    (KeysOk env refs_root a.refs → KeysOk env refs_root b.refs)

/-- What a call with `process_refs` false leaves as it was. -/
def IdsPass (a b : CollectState) : Prop := b.refs = a.refs

/-- Each node of `sub_schemata` in `b` was there in `a`, or it has an entry
in the `refs` of `c` if it is a `$ref` node. -/
def Covers (refs_root : Value) (a b c : CollectState) : Prop :=
  ∀ r ∈ b.sub_schemata, r ∈ a.sub_schemata ∨
    (has_ref (node_at refs_root r).val = true → (c.refs.lookup r).isSome = true)

/-- Each `$ref` node of `sub_schemata` has an entry in `refs`, and each node
with an entry has a `$ref` that converts to a string. -/
def Collected (env : Env) (refs_root : Value) (st : CollectState) : Prop :=
  (∀ r ∈ st.sub_schemata, has_ref (node_at refs_root r).val = true →
    (st.refs.lookup r).isSome = true) ∧ KeysOk env refs_root st.refs

/-- The schema `{"$ref": "#", "properties": {"p": {"$ref": "#/nope"}}}`: the
`$ref` of the document designates the document, and the `$ref` of `p`
designates no node. -/
def schema_loop_dangling : Value :=
  .object [("$ref".toList, .string "#".toList),
    ("properties".toList,
      .object [("p".toList, .object [("$ref".toList, .string "#/nope".toList)])])]

/-- The maps collected for `schema_loop`. -/
def schema_loop_state : CollectState :=
  { ids := [([], [])],
    refs := [([], [Slot.member "definitions".toList, Slot.member "a".toList]),
      ([Slot.member "definitions".toList, Slot.member "a".toList],
        [Slot.member "definitions".toList, Slot.member "a".toList])],
    sub_schemata := [[], [Slot.member "definitions".toList, Slot.member "a".toList]] }

/-- The property of a `Validate` function that every call which returns
leaves an error list that extends the one on entry. -/
def Extending (V : ValidateFn) : Prop :=
  ∀ inst schema path e e1, V inst schema path e = .ok e1 → e <+: e1

/-- The schema `{"type": "a*b"}`. -/
def schema_type_star : Value := .object [("type".toList, .string "a*b".toList)]

/-- The schema `{"$ref": "#/definitions/a", "type": "string", "definitions":
{"a": {}}}`. -/
def schema_ref_sibling : Value :=
  .object [("$ref".toList, .string "#/definitions/a".toList),
    ("type".toList, .string "string".toList),
    ("definitions".toList, .object [("a".toList, .object [])])]

/-- The validator constructed for `schema_ref_sibling`: the `$ref` of the
document is resolved to `definitions/a`. -/
def ref_sibling_validator : SchemaValidator :=
  ⟨schema_ref_sibling, [],
    [([], [Slot.member "definitions".toList, Slot.member "a".toList])], []⟩

/-- The schema `{"enum": [5], "minimum": 10}`. -/
def schema_enum_minimum : Value :=
  .object [("enum".toList, .array [.int 5]), ("minimum".toList, .int 10)]

/-- The schema `{"type": "string"}`. -/
def schema_type_string : Value := .object [("type".toList, .string "string".toList)]

/-- The schema `{"type": "integer"}`. -/
def schema_type_integer : Value := .object [("type".toList, .string "integer".toList)]

/-- The schema `{"type": "number"}`. -/
def schema_type_number : Value := .object [("type".toList, .string "number".toList)]

/-- The schema `{"propertyNames": {"maxLength": 1}}`. -/
def schema_property_names : Value :=
  .object [("propertyNames".toList, .object [("maxLength".toList, .int 1)])]

/-- The name is a key of `properties`. -/
def is_property_key (properties : Option Node) (name : Str) : Bool :=
  match properties with
  | some ⟨_, .object ms⟩ => isMember ms name
  | _ => false

/-- The patterns of `patternProperties` that partially match the name. -/
def matching_patterns (env : Env) (pattern_properties : List (Str × Node)) (name : Str) :
    List (Str × Node) :=
  pattern_properties.filter (fun p => env.PartialMatch p.1 name)

/-- The schema `{"patternProperties": {"a": {"type": "string"}, "b": {"type":
"integer"}}, "additionalProperties": false}`. -/
def schema_patterns : Value :=
  .object [("patternProperties".toList,
      .object [("a".toList, .object [("type".toList, .string "string".toList)]),
        ("b".toList, .object [("type".toList, .string "integer".toList)])]),
    ("additionalProperties".toList, .bool false)]

/-- The member `additionalItems` of a schema, as a node, when it is not a
boolean. -/
def additional_schema (sref : Ref) (ms : List (Str × Value)) : Option Node :=
  match member_get ms "additionalItems".toList with
  | some (.bool _) => none
  | some v => some ⟨sref ++ [Slot.member "additionalItems".toList], v⟩
  | none => none

/-- The member `additionalItems` of a schema is the literal false. -/
def additional_forbidden (ms : List (Str × Value)) : Bool :=
  match member_get ms "additionalItems".toList with
  | some (.bool false) => true
  | _ => false

/-- The validations of the elements `xs` of an array at `path` against the
tuple `ys` of schemas at `items`: element `i` against `ys[i]` for `i` below
both lengths, then the elements from the length of the tuple on against
`additionalItems` when that is a schema; each with the element, the schema
and the path of the element. -/
def tuple_checks (xs : List Value) (items : Ref) (ys : List Value) (additional : Option Node)
    (path : Str) : List (Value × Node × Str) :=
  (List.range (min xs.length ys.length)).map (fun i =>
    (xs.getD i .null, (⟨items ++ [Slot.index i], ys.getD i .null⟩ : Node),
      path_add path (UIntToString i))) ++
  match additional with
  | some a =>
    (List.range' ys.length (xs.length - ys.length)).map (fun i =>
      (xs.getD i .null, a, path_add path (UIntToString i)))
  | none => []

/-- The schema `{"items": [{"type": "integer"}], "additionalItems": false}`. -/
def schema_tuple : Value :=
  .object [("items".toList, .array [.object [("type".toList, .string "integer".toList)]]),
    ("additionalItems".toList, .bool false)]

/-- One left-to-right pass over a reference token: "~0" becomes '~' and
"~1" becomes '/', and the pass goes on after the two characters; `none` when
a '~' is followed by anything else. -/
def unescape : Str → Option Str
  | [] => some []
  | c :: rest =>
    if c = '~' then
      match rest with
      | x :: rest2 =>
        if x = '0' then (unescape rest2).map (fun d => '~' :: d)
        else if x = '1' then (unescape rest2).map (fun d => '/' :: d)
        else none
      | [] => none
    else (unescape rest).map (fun d => c :: d)

/-- The pieces of a string split at every '/'. -/
def split_slash : Str → List Str
  | [] => [[]]
  | c :: rest =>
    if c = '/' then [] :: split_slash rest
    else
      match split_slash rest with
      | h :: t => (c :: h) :: t
      | [] => [[c]]

/-- Every piece unescaped; `none` when one of them has a bad escape. -/
def unescape_all : List Str → Option (List Str)
  | [] => some []
  | s :: rest =>
    match unescape s, unescape_all rest with
    | some d, some ds => some (d :: ds)
    | _, _ => none

/-- The tokens of a plain pointer string: none for the empty string, and
otherwise the unescaped pieces of what follows the leading '/'. -/
def pointer_tokens : Str → Option (List Str)
  | [] => some []
  | c :: rest => if c = '/' then unescape_all (split_slash rest) else none

/-- The schema `{"allOf": [{"$ref": "#"}]}`. -/
def schema_allOf_self : Value :=
  .object [("allOf".toList, .array [.object [("$ref".toList, .string "#".toList)]])]

/-- The validator constructed for `schema_allOf_self`: the `$ref` of the
element of `allOf` is resolved to the document. -/
def allOf_self_validator : SchemaValidator :=
  ⟨schema_allOf_self, [], [([Slot.member "allOf".toList, Slot.index 0], [])], []⟩

/-- The string contains a '~' that is not immediately followed by '0' or
'1' (a '~' at the end included). -/
def BadTilde (s : Str) : Prop :=
  ∃ pre post, s = pre ++ '~' :: post ∧ post.head? ≠ some '0' ∧ post.head? ≠ some '1'

/-! ## Pointer: the fragment form -/

/-- The function `Pointer::decode_hex(escape, pos)`. -/
def Pointer.decode_hex (escape : Str) (pos : Nat) : Except Error Char :=
  match escape.get? pos, escape.get? (pos + 1) with
  | some d0, some d1 =>
    match hex_value d0 with
    | none => .error .invalid_argument
    | some a =>
      match hex_value d1 with
      | none => .error .invalid_argument
      | some b => .ok (Char.ofNat ((((0 * 16 + a) % 256) * 16 + b) % 256))
  | some d0, none =>
    match hex_value d0 with
    | none => .error .invalid_argument
    | some _ => .error .undefined
  | none, _ => .error .undefined

/-- The loop of `Pointer::decode_fragment`; `n` bounds the iterations left. -/
def decode_fragment_loop (fragment : Str) : Nat → Nat → Option Nat → Str → Except Error Str
  | _, i, none, str => .ok (str ++ substr_from fragment i)
  | 0, _, some _, _ => .error .diverged
  | n + 1, i, some j, str =>
    let str := str ++ substr fragment i (j - i)
    if fragment.get? j = some '+' then
      decode_fragment_loop fragment n (j + 1) (find_first_of fragment ['+', '%'] (j + 1))
        (str ++ [' '])
    else if j + 2 ≥ fragment.length then .error .invalid_argument
    else
      match Pointer.decode_hex fragment (j + 1) with
      | .error e => .error e
      | .ok c =>
        decode_fragment_loop fragment n (j + 3) (find_first_of fragment ['+', '%'] (j + 3))
          (str ++ [c])

/-- The function `Pointer::decode_fragment`. -/
def Pointer.decode_fragment (fragment : Str) : Except Error Str :=
  match find_first_of fragment ['+', '%'] 0 with
  | none => .ok (substr_from fragment 1)
  | some j => decode_fragment_loop fragment fragment.length 1 (some j) []

/-- The constructor `Pointer(pointer, is_fragment)`. -/
def Pointer.of_string (pointer : Str) (is_fragment : Bool) : Except Error Pointer :=
  if is_fragment then
    if pointer.head? ≠ some '#' then .error .invalid_argument
    else
      match Pointer.decode_fragment pointer with
      | .ok d => Pointer.init d
      | .error e => .error e
  else Pointer.init pointer

/-- One left-to-right pass over a fragment without its '#': every '+'
becomes a space and every "%XY" with hexadecimal digits X and Y the byte with
hex value XY; `none` when a '%' is not followed by two hexadecimal digits. -/
def fragment_decode : Str → Option Str
  | [] => some []
  | c :: rest =>
    if c = '+' then (fragment_decode rest).map (fun d => ' ' :: d)
    else if c = '%' then
      match rest with
      | x :: y :: rest2 =>
        match hex_value x, hex_value y with
        | some a, some b => (fragment_decode rest2).map (fun d => Char.ofNat (16 * a + b) :: d)
        | _, _ => none
      | _ => none
    else (fragment_decode rest).map (fun d => c :: d)

/-- The reference lookup: the tokens applied in order, each selecting the
element with the parsed index in an array or the member of that name in an
object. -/
def lookup_tokens : List Str → Value → Except Error Value
  | [], v => .ok v
  | t :: ts, .array xs =>
    match parse_array_index t xs.length false with
    | .error e => .error e
    | .ok i =>
      match xs.get? i with
      | some c => lookup_tokens ts c
      | none => .error .range_error
  | t :: ts, .object ms =>
    match member_get ms t with
    | some c => lookup_tokens ts c
    | none => .error .range_error
  | _ :: _, _ => .error .domain_error

/-- The UTF-8 encoding of a Unicode scalar value, as byte values. -/
def utf8_encode (c : Nat) : List Nat :=
  if c < 0x80 then [c]
  else if c < 0x800 then [0xC0 + c / 64, 0x80 + c % 64]
  else if c < 0x10000 then [0xE0 + c / 4096, 0x80 + c / 64 % 64, 0x80 + c % 64]
  else [0xF0 + c / 262144, 0x80 + c / 4096 % 64, 0x80 + c / 64 % 64, 0x80 + c % 64]

/-- The string that is the UTF-8 encoding of a sequence of scalar values. -/
def utf8_string (scalars : List Nat) : Str :=
  (scalars.map utf8_encode).flatten.map Char.ofNat

/-- The schema `{"maxLength": 1}`. -/
def schema_maxLength_one : Value := .object [("maxLength".toList, .int 1)]

/-! ## Pointer: the tree when a mutating operation is left -/

/-- The function `Pointer::erase(root, start_index)` with the tree threaded
through: the tree when the function is left, by `return` or by `throw`, and
the returned reference or the exception.  `get_internal` takes the tree as
`const`. -/
def Pointer.erase_st (p : Pointer) (root : Value) (start_index : Nat) :
    Value × Except Error Ref :=
  if start_index > p.elements.length then (root, .error .range_error)
  else
    match p.get_internal root start_index true with
    | .error e => (root, .error e)
    | .ok (last_ref, last) =>
      match p.last_element with
      | .error e => (root, .error e)
      | .ok element =>
        match last with
        | .array xs =>
          match parse_array_index element xs.length false with
          | .error e => (root, .error e)
          | .ok index =>
            let xs1 := erase_loop (xs.length + 1) index xs
            let xs2 := array_resize xs1 (index_sub xs1.length 1)
            (root.put_at last_ref (.array xs2), .ok (last_ref ++ [Slot.index index]))
        | .object ms =>
          if !isMember ms element then (root, .error .range_error)
          else
            (root.put_at last_ref (.object (removeMember ms element)),
              .ok (last_ref ++ [Slot.member element]))
        | _ => (root, .error .domain_error)

/-- The function `Pointer::insert(root, value, start_index)` with the tree
threaded through. -/
def Pointer.insert_st (p : Pointer) (root : Value) (value : Value) (start_index : Nat) :
    Value × Except Error Unit :=
  if start_index > p.elements.length then (root, .error .range_error)
  else
    match p.get_internal root start_index true with
    | .error e => (root, .error e)
    | .ok (last_ref, last) =>
      match p.last_element with
      | .error e => (root, .error e)
      | .ok element =>
        match last with
        | .array xs =>
          match parse_array_index element xs.length true with
          | .error e => (root, .error e)
          | .ok index =>
            let xs1 := array_resize xs ((xs.length + 1) % 2 ^ 32)
            let xs2 := insert_loop index (index_sub xs1.length 1) xs1
            (root.put_at last_ref (.array (array_set xs2 index value)), .ok ())
        | .object ms =>
          if isMember ms element then (root, .error .range_error)
          else (root.put_at last_ref (.object (member_set ms element value)), .ok ())
        | _ => (root, .error .domain_error)

/-- The function `Pointer::replace(root, value, start_index)` with the tree
threaded through. -/
def Pointer.replace_st (p : Pointer) (root : Value) (value : Value) (start_index : Nat) :
    Value × Except Error Ref :=
  if start_index > p.elements.length then (root, .error .range_error)
  else
    match p.get_internal root start_index true with
    | .error e => (root, .error e)
    | .ok (last_ref, last) =>
      match p.last_element with
      | .error e => (root, .error e)
      | .ok element =>
        match last with
        | .array xs =>
          match parse_array_index element xs.length false with
          | .error e => (root, .error e)
          | .ok index =>
            (root.put_at last_ref (.array (array_set xs index value)),
              .ok (last_ref ++ [Slot.index index]))
        | .object ms =>
          if !isMember ms element then (root, .error .range_error)
          else
            (root.put_at last_ref (.object (member_set ms element value)),
              .ok (last_ref ++ [Slot.member element]))
        | _ => (root, .error .domain_error)

/-- The function `Pointer::set(root, value, start_index)` with the tree
threaded through. -/
def Pointer.set_st (p : Pointer) (root : Value) (value : Value) (start_index : Nat) :
    Value × Except Error (Option Ref) :=
  if start_index > p.elements.length then (root, .error .range_error)
  else
    match p.get_internal root start_index true with
    | .error e => (root, .error e)
    | .ok (last_ref, last) =>
      match p.last_element with
      | .error e => (root, .error e)
      | .ok element =>
        match last with
        | .array xs =>
          match parse_array_index element xs.length true with
          | .error e => (root, .error e)
          | .ok index =>
            let old_value :=
              if index ≤ xs.length then some (last_ref ++ [Slot.index index]) else none
            let xs1 := if index ≤ xs.length then array_touch xs index else xs
            (root.put_at last_ref (.array (array_set xs1 index value)), .ok old_value)
        | .object ms =>
          let old_value :=
            if isMember ms element then some (last_ref ++ [Slot.member element]) else none
          (root.put_at last_ref (.object (member_set ms element value)), .ok old_value)
        | _ => (root, .error .domain_error)

/-- What an operation with the tree threaded through gives when the tree is
lost on failure. -/
def forget_tree {α : Type} (r : Value × Except Error α) : Except Error (Value × α) :=
  match r.2 with
  | .ok a => .ok (r.1, a)
  | .error e => .error e

/-! ## Pointer: what `replace` keeps -/

/-- The tokens that address the parent of the node a pointer addresses from
`start_index` on: all but the last. -/
def parent_tokens (p : Pointer) (start_index : Nat) : List Str :=
  (p.elements.drop start_index).dropLast

/-- The layout of a node: the length of an array, the member names of an
object in order, nothing for a scalar. -/
def Value.layout : Value → Option (Nat ⊕ List Str)
  | .array xs => some (.inl xs.length)
  | .object ms => some (.inr (ms.map Prod.fst))
  | _ => none

/-! ## Pointer: printing, erase, insert, set -/

/-- C1, at the input of the claim: the pointer string "/a~1b/c~0d" parses to
the tokens "a/b" and "c~d", and `as_string` renders them as "/~1b/~0d", which
is not the string parsed: `encode` copies `substr(i, j-1)` before an escaped
character, not `substr(i, j-i)`. -/
theorem as_string_drops_characters :
    Pointer.init "/a~1b/c~0d".toList = .ok ⟨["a/b".toList, "c~d".toList]⟩ ∧
    Pointer.as_string ⟨["a/b".toList, "c~d".toList]⟩ = "/~1b/~0d".toList ∧
    "/~1b/~0d".toList ≠ "/a~1b/c~0d".toList := by
  refine ⟨by rfl, by rfl, by decide⟩

/-- C2, at a failing input: erasing element 0 of [10, 20, 30] leaves [20, 20],
not [20, 30], and the returned reference designates slot 0, which holds 20
afterwards, not the removed 10. -/
theorem erase_first_of_three :
    Pointer.erase ⟨["0".toList]⟩ (uints [10, 20, 30]) 0 = .ok (uints [20, 20], [Slot.index 0]) ∧
    (uints [20, 20]).at [Slot.index 0] = some (Value.uint 20) := by
  refine ⟨by rfl, by rfl⟩

/-- C3, at a failing input: inserting at index 2 into the two-element array
[1, 2] (the append position) is rejected with a range error. -/
theorem insert_append_rejected :
    Pointer.insert ⟨["2".toList]⟩ (uints [1, 2]) (Value.uint 3) 0 = .error .range_error := by
  rfl

/-- C4, at a failing input: with `allow_growing = true` the token "2" is
rejected for size 2, as it is with `allow_growing = false`. -/
theorem parse_array_index_growing_rejected :
    parse_array_index "2".toList 2 true = .error .range_error ∧
    parse_array_index "2".toList 2 false = .error .range_error := by
  refine ⟨by rfl, by rfl⟩

/-- C6, at a failing input: inserting 9 at index 0 of [1, 2, 3] gives
[9, 1, 2, 3], and erasing with the same pointer gives [1, 2, 2], not the
original array. -/
theorem insert_erase_not_inverse :
    Pointer.insert ⟨["0".toList]⟩ (uints [1, 2, 3]) (Value.uint 9) 0 = .ok (uints [9, 1, 2, 3]) ∧
    Pointer.erase ⟨["0".toList]⟩ (uints [9, 1, 2, 3]) 0 = .ok (uints [1, 2, 2], [Slot.index 0]) := by
  refine ⟨by rfl, by rfl⟩

/-- C7, at a failing input: `set` of 2 at member "a" of the object with a = 1
returns a pointer to the member, which holds 2 when the call returns; a second
`set` with the value read through it leaves a = 2, not the original tree. -/
theorem set_returns_new_value :
    Pointer.set ⟨["a".toList]⟩ (.object [("a".toList, .uint 1)]) (.uint 2) 0 =
      .ok (.object [("a".toList, .uint 2)], some [Slot.member "a".toList]) ∧
    (Value.object [("a".toList, .uint 2)]).at [Slot.member "a".toList] = some (.uint 2) ∧
    Pointer.set ⟨["a".toList]⟩ (.object [("a".toList, .uint 2)]) (.uint 2) 0 =
      .ok (.object [("a".toList, .uint 2)], some [Slot.member "a".toList]) := by
  refine ⟨by rfl, by rfl, by rfl⟩

/-! ## URI: dot segments -/

/-- C8, at an input of the claim: on "/a/././b" the code returns "/a/./b"
while the routine of RFC 3986, section 5.2.4 returns "/a/b"; and on
"/a/b/c/./../../g" the code returns "/a/b/../g" while the RFC routine returns
"/a/g". -/
theorem remove_dot_segments_differs_from_rfc :
    remove_dot_segments "/a/././b".toList = "/a/./b".toList ∧
    rfc_remove_dot_segments "/a/././b".toList = "/a/b".toList ∧
    remove_dot_segments "/a/b/c/./../../g".toList = "/a/b/../g".toList ∧
    rfc_remove_dot_segments "/a/b/c/./../../g".toList = "/a/g".toList := by
  refine ⟨by rfl, by rfl, by rfl, by rfl⟩

/-- C9: `remove_dot_segments` maps "/a/b/../c" to "/a/c", "/a/./b/" to "/a/b/"
and "/../a" to "/a". -/
theorem remove_dot_segments_examples :
    remove_dot_segments "/a/b/../c".toList = "/a/c".toList ∧
    remove_dot_segments "/a/./b/".toList = "/a/b/".toList ∧
    remove_dot_segments "/../a".toList = "/a".toList := by
  refine ⟨by rfl, by rfl, by rfl⟩

/-! ## URI: resolve -/

/-- C10 as stated fails: the base has a scheme and neither query nor fragment,
the reference has no scheme, and the resolved URI carries the authority "c" of
the reference, not the authority "a" of the base. -/
theorem resolve_authority_of_reference :
    example_base.has_scheme = true ∧ example_base.has_query = false ∧
    example_base.has_fragment = false ∧ example_reference.has_scheme = false ∧
    (example_base.resolve example_reference).authority_opt = some "c".toList ∧
    (example_base.resolve example_reference).authority_opt ≠ example_base.authority_opt := by
  decide

theorem scheme_opt_copy_scheme (u o : URI) : (u.copy_scheme o).scheme_opt = o.scheme_opt := by
  unfold URI.copy_scheme URI.scheme_opt
  cases h : o.has_scheme <;> simp [URI.has_scheme, URI.get_scheme, URI.set_scheme, URI.clear_scheme]

theorem scheme_opt_copy_fragment (u o : URI) : (u.copy_fragment o).scheme_opt = u.scheme_opt := by
  unfold URI.copy_fragment URI.scheme_opt
  cases h : o.has_fragment <;>
    simp [URI.has_scheme, URI.get_scheme, URI.set_fragment, URI.clear_fragment]

theorem authority_opt_copy_authority (u o : URI) :
    (u.copy_authority o).authority_opt = o.authority_opt := by
  unfold URI.copy_authority URI.authority_opt
  cases h : o.has_authority <;>
    simp [URI.has_authority, URI.get_authority, URI.set_authority, URI.clear_authority]

theorem authority_opt_copy_fragment (u o : URI) :
    (u.copy_fragment o).authority_opt = u.authority_opt := by
  unfold URI.copy_fragment URI.authority_opt
  cases h : o.has_fragment <;>
    simp [URI.has_authority, URI.get_authority, URI.set_fragment, URI.clear_fragment]

theorem authority_opt_copy_scheme (u o : URI) :
    (u.copy_scheme o).authority_opt = u.authority_opt := by
  unfold URI.copy_scheme URI.authority_opt
  cases h : o.has_scheme <;>
    simp [URI.has_authority, URI.get_authority, URI.set_scheme, URI.clear_scheme]

theorem authority_opt_copy_query (u o : URI) :
    (u.copy_query o).authority_opt = u.authority_opt := by
  unfold URI.copy_query URI.authority_opt
  cases h : o.has_query <;>
    simp [URI.has_authority, URI.get_authority, URI.set_query, URI.clear_query]

theorem authority_opt_set_path (u : URI) (v : Str) : (u.set_path v).authority_opt = u.authority_opt := by
  simp [URI.authority_opt, URI.has_authority, URI.get_authority, URI.set_path]

/-- C10 as amended: for every base B and every reference R without a scheme,
`B.resolve(R)` has the scheme of B (presence and value); its authority
(presence and value) is that of B when R has no authority, and that of R
when R has one. -/
theorem resolve_scheme_authority (B R : URI) (hR : R.has_scheme = false) :
    (B.resolve R).scheme_opt = B.scheme_opt ∧
    (B.resolve R).authority_opt =
      (if R.has_authority then R.authority_opt else B.authority_opt) := by
  unfold URI.resolve
  simp only [hR, Bool.false_eq_true, if_false]
  constructor
  · rw [scheme_opt_copy_fragment, scheme_opt_copy_scheme]
  · rw [authority_opt_copy_fragment, authority_opt_copy_scheme]
    cases ha : R.has_authority
    · simp only [Bool.false_eq_true, if_false]
      rw [authority_opt_copy_authority]
    · simp only [if_true]
      rw [authority_opt_copy_query, authority_opt_set_path, authority_opt_copy_authority]

/-- Witness of `resolve_scheme_authority` at the example. -/
theorem resolve_scheme_authority_witness :
    example_reference.has_scheme = false ∧
    (example_base.resolve example_reference).scheme_opt = example_base.scheme_opt ∧
    (example_base.resolve example_reference).authority_opt =
      (if example_reference.has_authority then example_reference.authority_opt
       else example_base.authority_opt) :=
  ⟨rfl, resolve_scheme_authority example_base example_reference rfl⟩

/-! ## Array index tokens -/

theorem c_str_of_no_nul (s : Str) (h : '\x00' ∉ s) : c_str s = s := by
  unfold c_str
  rw [List.takeWhile_eq_self_iff]
  intro c hc
  have : c ≠ '\x00' := fun hcz => h (hcz ▸ hc)
  simpa using this

theorem isdigit_not_space (c : Char) (h : isdigit c = true) :
    isspace c = false ∧ c ≠ '+' ∧ c ≠ '-' := by
  refine ⟨?_, ?_, ?_⟩
  · by_contra hs
    simp only [isspace, Bool.not_eq_false, Bool.or_eq_true, beq_iff_eq] at hs
    rcases hs with ((((hs | hs) | hs) | hs) | hs) | hs <;> subst hs <;> exact absurd h (by decide)
  · rintro rfl; exact absurd h (by decide)
  · rintro rfl; exact absurd h (by decide)

theorem takeWhile_length_ge {α : Type} (p : α → Bool) (l : List α)
    (h : l.length ≤ (l.takeWhile p).length) : l.takeWhile p = l := by
  have h1 := List.takeWhile_append_dropWhile p l
  have h2 : (l.takeWhile p).length + (l.dropWhile p).length = l.length := by
    rw [← List.length_append, h1]
  have h3 : (l.dropWhile p).length = 0 := by omega
  rw [List.length_eq_zero] at h3
  rw [h3, List.append_nil] at h1
  exact h1

theorem drop_takeWhile_length {α : Type} (p : α → Bool) (l : List α) :
    l.drop (l.takeWhile p).length = l.dropWhile p := by
  induction l with
  | nil => rfl
  | cons a as ih =>
    by_cases h : p a = true
    · simp [List.takeWhile_cons_of_pos h, List.dropWhile_cons_of_pos h, ih]
    · simp [List.takeWhile_cons_of_neg h, List.dropWhile_cons_of_neg h]

theorem takeWhile_all {α : Type} (p : α → Bool) (l : List α) :
    ∀ c ∈ l.takeWhile p, p c = true := by
  induction l with
  | nil => simp
  | cons a as ih =>
    by_cases h : p a = true
    · simp only [List.takeWhile_cons_of_pos h, List.mem_cons]
      rintro c (rfl | hc)
      · exact h
      · exact ih c hc
    · simp [List.takeWhile_cons_of_neg h]

/-- The result of `strtoimax` on white space, an optional sign and digits. -/
theorem strtoimax_of_parts (ws sg ds : Str) (hws : ∀ c ∈ ws, isspace c = true)
    (hsg : sg = [] ∨ sg = ['+'] ∨ sg = ['-']) (hne : ds ≠ [])
    (hds : ∀ c ∈ ds, isdigit c = true) :
    strtoimax (ws ++ sg ++ ds) =
      (if sg = ['-'] then max (-(decimal ds : Int)) INTMAX_MIN
       else min (decimal ds : Int) INTMAX_MAX, (ws ++ sg ++ ds).length) := by
  obtain ⟨d, ds', rfl⟩ := List.exists_cons_of_ne_nil hne
  have hd := isdigit_not_space d (hds d (by simp))
  have hdd : isdigit d = true := hds d (by simp)
  have htw : (d :: ds').takeWhile isdigit = d :: ds' :=
    (List.takeWhile_eq_self_iff).2 hds
  unfold strtoimax
  rcases hsg with rfl | rfl | rfl
  · have h1 : (ws ++ [] ++ d :: ds').takeWhile isspace = ws := by
      rw [List.append_nil, List.takeWhile_append_of_pos hws, List.takeWhile_cons_of_neg (by simp [hd.1]),
        List.append_nil]
    simp only [h1]
    simp [hd.2.1, hd.2.2, htw]
  · have h1 : (ws ++ ['+'] ++ d :: ds').takeWhile isspace = ws := by
      rw [List.append_assoc, List.takeWhile_append_of_pos hws]
      simp [isspace]
    simp only [h1]
    simp [htw]
    omega
  · have h1 : (ws ++ ['-'] ++ d :: ds').takeWhile isspace = ws := by
      rw [List.append_assoc, List.takeWhile_append_of_pos hws]
      simp [isspace]
    simp only [h1]
    simp [htw]
    omega

/-- A non-empty string that `strtoimax` consumes to its end is white space, an
optional sign and digits. -/
theorem strtoimax_consumes (s : Str) (hs : s ≠ []) (hend : ¬ (strtoimax s).2 < s.length) :
    ∃ ws sg ds, s = ws ++ sg ++ ds ∧ (∀ c ∈ ws, isspace c = true) ∧
      (sg = [] ∨ sg = ['+'] ∨ sg = ['-']) ∧ ds ≠ [] ∧ (∀ c ∈ ds, isdigit c = true) := by
  have hsplit := List.takeWhile_append_dropWhile isspace s
  have hws := takeWhile_all isspace s
  unfold strtoimax at hend
  simp only [drop_takeWhile_length] at hend
  generalize s.takeWhile isspace = ws at *
  generalize hr : s.dropWhile isspace = rest at *
  match rest, hr with
  | [], _ =>
    simp at hend
    exact absurd hend hs
  | c :: cs, _ =>
    have hl : s.length = ws.length + (cs.length + 1) := by
      rw [← hsplit]; simp
    by_cases hm : c = '-'
    · subst hm
      simp only [List.head?_cons, beq_self_eq_true, Bool.true_or, if_true, List.drop_one,
        List.tail_cons] at hend
      by_cases he : (cs.takeWhile isdigit).isEmpty = true
      · simp [he] at hend
        exact absurd hend hs
      · simp only [he, Bool.false_eq_true, if_false] at hend
        have h2 : cs.takeWhile isdigit = cs := takeWhile_length_ge isdigit cs (by omega)
        refine ⟨ws, ['-'], cs, by rw [← hsplit]; simp, hws, Or.inr (Or.inr rfl), ?_, ?_⟩
        · intro h; rw [h2] at he; simp [h] at he
        · rw [← h2]; exact takeWhile_all isdigit cs
    · by_cases hp : c = '+'
      · subst hp
        simp only [List.head?_cons, beq_self_eq_true, Bool.or_true, if_true, List.drop_one,
          List.tail_cons] at hend
        by_cases he : (cs.takeWhile isdigit).isEmpty = true
        · simp [he] at hend
          exact absurd hend hs
        · simp only [he, Bool.false_eq_true, if_false] at hend
          have h2 : cs.takeWhile isdigit = cs := takeWhile_length_ge isdigit cs (by omega)
          refine ⟨ws, ['+'], cs, by rw [← hsplit]; simp, hws, Or.inr (Or.inl rfl), ?_, ?_⟩
          · intro h; rw [h2] at he; simp [h] at he
          · rw [← h2]; exact takeWhile_all isdigit cs
      · have hsign : (((c :: cs).head? == some '-') || ((c :: cs).head? == some '+')) = false := by
          simp [hm, hp]
        simp only [hsign, Bool.false_eq_true, if_false, List.drop_zero] at hend
        by_cases he : ((c :: cs).takeWhile isdigit).isEmpty = true
        · simp [he] at hend
          exact absurd hend hs
        · simp only [he, Bool.false_eq_true, if_false] at hend
          have h2 : (c :: cs).takeWhile isdigit = c :: cs :=
            takeWhile_length_ge isdigit (c :: cs) (by simp only [List.length_cons]; omega)
          refine ⟨ws, [], c :: cs, by rw [← hsplit]; simp, hws, Or.inl rfl, by simp, ?_⟩
          rw [← h2]; exact takeWhile_all isdigit (c :: cs)

/-- C5 as stated fails: the tokens "+1" and " 1" are accepted for size 2 with
index 1, and "-0" with index 0. -/
theorem parse_array_index_accepts_sign :
    parse_array_index "+1".toList 2 false = .ok 1 ∧
    parse_array_index " 1".toList 2 false = .ok 1 ∧
    parse_array_index "-0".toList 2 false = .ok 0 := by
  refine ⟨by rfl, by rfl, by rfl⟩

/-- C5 as amended: for every array length `size` (below 2^32) and every token
without a NUL character, `parse_array_index(token, size)` returns `v` if and
only if the token is white space, an optional sign '+' or '-' and a non-empty
run of decimal digits, whose value is `v` (zero after a minus sign) and below
`size`; every other token is rejected with a range error. -/
theorem parse_array_index_iff (token : Str) (size : Nat) (allow_growing : Bool)
    (hsize : size < 2 ^ 32) (hnul : '\x00' ∉ token) :
    (∀ v, parse_array_index token size allow_growing = .ok v ↔ IndexToken token size v) ∧
    (∀ e, parse_array_index token size allow_growing = .error e → e = .range_error) := by
  have hc := c_str_of_no_nul token hnul
  constructor
  · intro v
    constructor
    · intro h
      unfold parse_array_index at h
      rw [hc] at h
      by_cases h0 : token.length = 0
      · simp [h0] at h
      · simp only [h0, if_false] at h
        by_cases h1 : (strtoimax token).2 < token.length
        · simp [h1] at h
        · simp only [h1, if_false] at h
          by_cases h2 : (strtoimax token).1 < 0 ∨ size ≤ (strtoimax token).1.toNat
          · simp [h2] at h
          · simp only [h2, if_false] at h
            have hne : token ≠ [] := by
              intro hn; exact h0 (by simp [hn])
            obtain ⟨ws, sg, ds, htok, hws, hsg, hds, hdd⟩ := strtoimax_consumes token hne h1
            have hval := strtoimax_of_parts ws sg ds hws hsg hds hdd
            rw [← htok] at hval
            injection h with h
            rw [hval] at h h2
            simp only [INTMAX_MIN, INTMAX_MAX] at h h2
            refine ⟨ws, sg, ds, htok, hws, hsg, hds, hdd, ?_⟩
            by_cases hs : sg = ['-']
            · simp only [hs, if_true] at h h2 ⊢
              omega
            · simp only [hs, if_false] at h h2 ⊢
              omega
    · rintro ⟨ws, sg, ds, htok, hws, hsg, hds, hdd, hv, hlt⟩
      have hval := strtoimax_of_parts ws sg ds hws hsg hds hdd
      rw [← htok] at hval
      have hne : token.length ≠ 0 := by
        rw [htok]
        obtain ⟨d, ds', rfl⟩ := List.exists_cons_of_ne_nil hds
        simp
      unfold parse_array_index
      rw [hc, hval]
      simp only [hne, if_false, lt_irrefl, INTMAX_MIN, INTMAX_MAX]
      by_cases hs : sg = ['-']
      · simp only [hs, if_true] at hv ⊢
        obtain ⟨hv1, hv2⟩ := hv
        rw [hv1, hv2]
        simp
        omega
      · simp only [hs, if_false] at hv ⊢
        subst hv
        have h3 : ¬ ((min (decimal ds : Int) (2 ^ 63 - 1) < 0) ∨
            size ≤ (min (decimal ds : Int) (2 ^ 63 - 1)).toNat) := by omega
        simp only [h3, if_false]
        congr 1
        omega
  · intro e h
    unfold parse_array_index at h
    split at h
    · injection h with h; exact h.symm
    · dsimp only at h
      split at h
      · injection h with h; exact h.symm
      · split at h
        · injection h with h; exact h.symm
        · cases h

/-- Witness of `parse_array_index_iff` at the token "7" and size 10: the code
returns 7 and the token is an index token of value 7. -/
theorem parse_array_index_iff_witness :
    10 < 2 ^ 32 ∧ '\x00' ∉ "7".toList ∧
    parse_array_index "7".toList 10 false = .ok 7 ∧ IndexToken "7".toList 10 7 :=
  ⟨by decide, by decide, rfl,
    ((parse_array_index_iff "7".toList 10 false (by decide) (by decide)).1 7).1 rfl⟩

/-! ## URI: resolve, all components -/

theorem has_scheme_copy_fragment (u o : URI) :
    (u.copy_fragment o).has_scheme = u.has_scheme := by
  unfold URI.copy_fragment
  cases h : o.has_fragment <;> simp [URI.has_scheme, URI.set_fragment, URI.clear_fragment]

theorem has_scheme_copy_query (u o : URI) : (u.copy_query o).has_scheme = u.has_scheme := by
  unfold URI.copy_query
  cases h : o.has_query <;> simp [URI.has_scheme, URI.set_query, URI.clear_query]

theorem has_scheme_copy_authority (u o : URI) :
    (u.copy_authority o).has_scheme = u.has_scheme := by
  unfold URI.copy_authority
  cases h : o.has_authority <;>
    simp [URI.has_scheme, URI.set_authority, URI.clear_authority]

theorem has_scheme_copy_scheme (u o : URI) : (u.copy_scheme o).has_scheme = o.has_scheme := by
  unfold URI.copy_scheme
  cases h : o.has_scheme <;> simp [URI.has_scheme, URI.set_scheme, URI.clear_scheme]

theorem has_scheme_copy (o : URI) : (URI.copy o).has_scheme = o.has_scheme := by
  unfold URI.copy
  have h : (((((URI.empty.copy_scheme o).copy_authority o).copy_path o).copy_query
      o).copy_fragment o).has_scheme = o.has_scheme := by
    rw [has_scheme_copy_fragment, has_scheme_copy_query]
    simp only [URI.copy_path, URI.set_path, URI.has_scheme]
    exact (has_scheme_copy_authority _ o).trans (has_scheme_copy_scheme _ o)
  split
  · simpa [URI.has_scheme] using h
  · exact h

/-- C11: for every base B that has a scheme and every reference R, the
resolved URI `B.resolve(R)` has a scheme. -/
theorem resolve_has_scheme (B R : URI) (hB : B.has_scheme = true) :
    (B.resolve R).has_scheme = true := by
  unfold URI.resolve
  cases hR : R.has_scheme
  · simp only [Bool.false_eq_true, if_false]
    rw [has_scheme_copy_fragment, has_scheme_copy_scheme]
    exact hB
  · simp only [if_true]
    rw [has_scheme_copy]
    exact hR

/-- Witness of `resolve_has_scheme`: the base http://a/b and the reference
//c/d. -/
theorem resolve_has_scheme_witness :
    example_base.has_scheme = true ∧
    (example_base.resolve example_reference).has_scheme = true :=
  ⟨rfl, resolve_has_scheme example_base example_reference rfl⟩

theorem components_copy_scheme (u o : URI) :
    (u.copy_scheme o).components = { u.components with scheme := o.scheme_opt } := by
  unfold URI.copy_scheme
  cases h : o.has_scheme <;>
    simp [URI.components, URI.scheme_opt, URI.authority_opt, URI.query_opt, URI.fragment_opt,
      URI.has_scheme, URI.has_authority, URI.has_query, URI.has_fragment, URI.get_scheme,
      URI.get_authority, URI.get_path, URI.get_query, URI.get_fragment, URI.set_scheme,
      URI.clear_scheme] <;> simp_all [URI.has_scheme]

theorem components_copy_authority (u o : URI) :
    (u.copy_authority o).components = { u.components with authority := o.authority_opt } := by
  unfold URI.copy_authority
  cases h : o.has_authority <;>
    simp [URI.components, URI.scheme_opt, URI.authority_opt, URI.query_opt, URI.fragment_opt,
      URI.has_scheme, URI.has_authority, URI.has_query, URI.has_fragment, URI.get_scheme,
      URI.get_authority, URI.get_path, URI.get_query, URI.get_fragment, URI.set_authority,
      URI.clear_authority] <;> simp_all [URI.has_authority]

theorem components_copy_query (u o : URI) :
    (u.copy_query o).components = { u.components with query := o.query_opt } := by
  unfold URI.copy_query
  cases h : o.has_query <;>
    simp [URI.components, URI.scheme_opt, URI.authority_opt, URI.query_opt, URI.fragment_opt,
      URI.has_scheme, URI.has_authority, URI.has_query, URI.has_fragment, URI.get_scheme,
      URI.get_authority, URI.get_path, URI.get_query, URI.get_fragment, URI.set_query,
      URI.clear_query] <;> simp_all [URI.has_query]

theorem components_copy_fragment (u o : URI) :
    (u.copy_fragment o).components = { u.components with fragment := o.fragment_opt } := by
  unfold URI.copy_fragment
  cases h : o.has_fragment <;>
    simp [URI.components, URI.scheme_opt, URI.authority_opt, URI.query_opt, URI.fragment_opt,
      URI.has_scheme, URI.has_authority, URI.has_query, URI.has_fragment, URI.get_scheme,
      URI.get_authority, URI.get_path, URI.get_query, URI.get_fragment, URI.set_fragment,
      URI.clear_fragment] <;> simp_all [URI.has_fragment]

theorem components_set_path (u : URI) (v : Str) :
    (u.set_path v).components = { u.components with path := v } := by
  simp [URI.components, URI.scheme_opt, URI.authority_opt, URI.query_opt, URI.fragment_opt,
    URI.has_scheme, URI.has_authority, URI.has_query, URI.has_fragment, URI.get_scheme,
    URI.get_authority, URI.get_path, URI.get_query, URI.get_fragment, URI.set_path]

theorem components_copy_path (u o : URI) :
    (u.copy_path o).components = { u.components with path := o.get_path } := by
  unfold URI.copy_path
  exact components_set_path u o.get_path

theorem components_empty :
    URI.empty.components =
      { scheme := none, authority := none, path := [], query := none, fragment := none } := by
  rfl

theorem components_copy (o : URI) : (URI.copy o).components = o.components := by
  have h : (((((URI.empty.copy_scheme o).copy_authority o).copy_path o).copy_query
      o).copy_fragment o).components = o.components := by
    rw [components_copy_fragment, components_copy_query, components_copy_path,
      components_copy_authority, components_copy_scheme, components_empty]
    rfl
  unfold URI.copy
  split
  · rw [← h]
    rfl
  · exact h

theorem take_min_length {α : Type} (n : Nat) (l : List α) :
    l.take (min n l.length) = l.take n := by
  rcases Nat.le_total n l.length with h | h
  · rw [Nat.min_eq_left h]
  · rw [Nat.min_eq_right h, List.take_length, List.take_of_length_le h]

theorem merge_path_eq (u : URI) (rel : Str) :
    u.merge_path rel = reference_merge u.components rel := by
  unfold URI.merge_path reference_merge
  have ha : u.components.authority.isSome = u.has_authority := by
    simp only [URI.components, URI.authority_opt]
    cases u.has_authority <;> rfl
  have hp : u.components.path = u.get_path := rfl
  rw [hp]
  by_cases h1 : u.has_authority = true
  · by_cases h2 : u.get_path = []
    · simp [ha, h1, h2]
    · simp only [ha, h1, h2, and_false, if_false, List.isEmpty_iff, Bool.and_eq_true,
        decide_eq_true_eq, true_and]
      cases find_last_of u.get_path '/' <;> simp [substr, take_min_length]
  · simp only [ha, h1, false_and, if_false, Bool.and_eq_true, Bool.false_eq_true]
    cases find_last_of u.get_path '/' <;> simp [substr, take_min_length]

/-- C12: `B.resolve(R)` equals the five-case reference definition on the
components (scheme, authority, path, query, fragment, each optional one with
its presence). -/
theorem resolve_eq_reference (B R : URI) :
    (B.resolve R).components = reference_resolve B.components R.components := by
  unfold URI.resolve reference_resolve
  have hs : R.components.scheme.isSome = R.has_scheme := by
    simp only [URI.components, URI.scheme_opt]
    cases R.has_scheme <;> rfl
  have ha : R.components.authority.isSome = R.has_authority := by
    simp only [URI.components, URI.authority_opt]
    cases R.has_authority <;> rfl
  have hq : R.components.query.isSome = R.has_query := by
    simp only [URI.components, URI.query_opt]
    cases R.has_query <;> rfl
  have hp : R.components.path = R.get_path := rfl
  rw [hs, ha, hq, hp]
  cases h1 : R.has_scheme
  · simp only [Bool.false_eq_true, if_false]
    rw [components_copy_fragment, components_copy_scheme]
    cases h2 : R.has_authority
    · simp only [Bool.false_eq_true, if_false]
      rw [components_copy_authority]
      by_cases h3 : R.get_path = []
      · simp only [h3, List.isEmpty_nil, if_true]
        cases h4 : R.has_query
        · simp only [Bool.false_eq_true, if_false]
          rw [components_copy_query, components_copy_path, components_empty]
          rfl
        · simp only [if_true]
          rw [components_copy_query, components_copy_path, components_empty]
          rfl
      · have h3b : R.get_path.isEmpty = false := by
          cases hh : R.get_path with
          | nil => exact absurd hh h3
          | cons _ _ => rfl
        simp only [h3, h3b, Bool.false_eq_true, if_false]
        rw [components_copy_query]
        by_cases h5 : R.get_path.head? = some '/'
        · simp only [h5, if_true]
          rw [components_set_path, components_empty]
          simp [URI.components]
        · simp only [h5, if_false]
          rw [components_set_path, components_empty, merge_path_eq]
          simp [URI.components]
    · simp only [if_true]
      rw [components_copy_query, components_set_path, components_copy_authority,
        components_empty]
      simp [URI.components]
  · simp only [if_true]
    exact components_copy R

/-! ## URI: serialise and parse -/

/-- C13, at the example of the claim: for the URI with path "/a?b", `get_uri`
returns "/a%3" followed by a NUL character and "b", not "/a%3fb": the digit
table of `encode` lacks the '9', so the sixteenth entry read for the low digit
of '?' is the terminating NUL; and parsing that string fails with an
invalid-argument error. -/
theorem get_uri_question_mark :
    example_question.get_path = "/a?b".toList ∧
    example_question.get_uri = ['/', 'a', '%', '3', '\x00', 'b'] ∧
    example_question.get_uri ≠ "/a%3fb".toList ∧
    URI.parse example_question.get_uri = .error .invalid_argument := by
  refine ⟨by rfl, by rfl, by decide, by rfl⟩

theorem find_index_none (p : Char → Bool) (l : Str) (h : find_index p l = none) :
    ∀ c ∈ l, p c = false := by
  induction l with
  | nil => simp
  | cons a as ih =>
    unfold find_index at h
    by_cases hp : p a = true
    · simp [hp] at h
    · simp only [hp, Bool.false_eq_true, if_false, Option.map_eq_none'] at h
      intro c hc
      rcases List.mem_cons.1 hc with rfl | hc
      · simpa using hp
      · exact ih h c hc

theorem find_index_some (p : Char → Bool) (l : Str) (k : Nat) (h : find_index p l = some k) :
    ∃ pre c post, l = pre ++ c :: post ∧ pre.length = k ∧ p c = true ∧
      ∀ x ∈ pre, p x = false := by
  induction l generalizing k with
  | nil => simp [find_index] at h
  | cons a as ih =>
    unfold find_index at h
    by_cases hp : p a = true
    · simp only [hp, if_true, Option.some.injEq] at h
      exact ⟨[], a, as, rfl, by simpa using h, hp, by simp⟩
    · simp only [hp, Bool.false_eq_true, if_false, Option.map_eq_some'] at h
      obtain ⟨k', hk', rfl⟩ := h
      obtain ⟨pre, c, post, rfl, hlen, hc, hpre⟩ := ih k' hk'
      refine ⟨a :: pre, c, post, rfl, by simp [hlen], hc, ?_⟩
      intro x hx
      rcases List.mem_cons.1 hx with rfl | hx
      · simpa using hp
      · exact hpre x hx

theorem hex_value_lt (c : Char) (a : Nat) (h : hex_value c = some a) : a < 16 := by
  unfold hex_value at h
  split at h
  · rename_i hc
    have h1 : c.toNat ≤ '9'.toNat := hc.2
    have h2 : '0'.toNat ≤ c.toNat := hc.1
    simp only [Option.some.injEq] at h
    have : '9'.toNat = 57 := by decide
    have : '0'.toNat = 48 := by decide
    omega
  · split at h
    · rename_i hc
      have h1 : c.toNat ≤ 'f'.toNat := hc.2
      have h2 : 'a'.toNat ≤ c.toNat := hc.1
      simp only [Option.some.injEq] at h
      have : 'f'.toNat = 102 := by decide
      have : 'a'.toNat = 97 := by decide
      omega
    · split at h
      · rename_i hc
        have h1 : c.toNat ≤ 'F'.toNat := hc.2
        have h2 : 'A'.toNat ≤ c.toNat := hc.1
        simp only [Option.some.injEq] at h
        have : 'F'.toNat = 70 := by decide
        have : 'A'.toNat = 65 := by decide
        omega
      · cases h

theorem percent_decode_cons_ne (c : Char) (rest : Str) (h : c ≠ '%') :
    percent_decode (c :: rest) = (percent_decode rest).map (fun d => c :: d) := by
  conv => lhs; unfold percent_decode
  simp [h]

theorem percent_decode_escape (x y : Char) (rest : Str) :
    percent_decode ('%' :: x :: y :: rest) =
      match hex_value x, hex_value y with
      | some a, some b => (percent_decode rest).map (fun d => Char.ofNat (16 * a + b) :: d)
      | _, _ => none := by
  conv => lhs; unfold percent_decode
  simp

theorem percent_decode_short (post : Str) (h : post.length < 2) :
    percent_decode ('%' :: post) = none := by
  conv => lhs; unfold percent_decode
  match post, h with
  | [], _ => simp
  | [_], _ => simp
  | _ :: _ :: _, h => exact absurd h (by simp)

theorem percent_decode_free (l : Str) (h : ∀ c ∈ l, c ≠ '%') : percent_decode l = some l := by
  induction l with
  | nil => rfl
  | cons a as ih =>
    rw [percent_decode_cons_ne a as (h a (by simp)), ih (fun c hc => h c (by simp [hc]))]
    rfl

theorem percent_decode_append (pre l : Str) (h : ∀ c ∈ pre, c ≠ '%') :
    percent_decode (pre ++ l) = (percent_decode l).map (fun d => pre ++ d) := by
  induction pre with
  | nil => simp
  | cons a as ih =>
    rw [List.cons_append, percent_decode_cons_ne a _ (h a (by simp)),
      ih (fun c hc => h c (by simp [hc]))]
    cases percent_decode l <;> simp

theorem contains_percent (c : Char) : (['%'].contains c = true) ↔ c = '%' := by
  simp

theorem get?_of_drop (l pre post : Str) (i m : Nat) (c : Char)
    (hd : l.drop i = pre ++ post) (hc : post.get? m = some c) :
    l.get? (pre.length + i + m) = some c := by
  have h := List.getElem?_drop l i (pre.length + m)
  rw [hd, List.getElem?_append_right (by omega)] at h
  rw [List.get?_eq_getElem?] at hc ⊢
  rw [show pre.length + i + m = i + (pre.length + m) by omega, ← h,
    show pre.length + m - pre.length = m by omega]
  exact hc

theorem decode_hex_at (encoded pre : Str) (i : Nat) (x y : Char) (rest : Str)
    (hd : encoded.drop i = pre ++ '%' :: x :: y :: rest) :
    URI.decode_hex encoded (pre.length + i + 1) =
      match hex_value x, hex_value y with
      | some a, some b => .ok (Char.ofNat (16 * a + b))
      | _, _ => .error .invalid_argument := by
  have h1 : encoded.get? (pre.length + i + 1) = some x :=
    get?_of_drop encoded pre _ i 1 x hd rfl
  have h2 : encoded.get? (pre.length + i + 1 + 1) = some y :=
    get?_of_drop encoded pre _ i 2 y hd rfl
  unfold URI.decode_hex
  simp only [h1, h2]
  cases hx : hex_value x with
  | none => simp
  | some a =>
    cases hy : hex_value y with
    | none => simp
    | some b =>
      have ha := hex_value_lt x a hx
      have hb := hex_value_lt y b hy
      simp only
      congr 2
      omega

theorem decode_loop_spec (encoded : Str) : ∀ (n i : Nat) (str : Str),
    encoded.length ≤ i + n → i ≤ encoded.length →
    URI.decode_loop encoded n i (find_first_of encoded ['%'] i) str =
      match percent_decode (encoded.drop i) with
      | some d => .ok (str ++ d)
      | none => .error .invalid_argument := by
  intro n
  induction n with
  | zero =>
    intro i str hfuel hi
    have hnil : encoded.drop i = [] := List.drop_eq_nil_of_le (by omega)
    simp [find_first_of, hnil, find_index, URI.decode_loop, substr_from, percent_decode]
  | succ n ih =>
    intro i str hfuel hi
    unfold find_first_of
    cases hf : find_index (fun x => ['%'].contains x) (encoded.drop i) with
    | none =>
      have hfree : ∀ c ∈ encoded.drop i, c ≠ '%' := by
        intro c hc hcp
        have := find_index_none _ _ hf c hc
        rw [hcp] at this
        simp at this
      rw [percent_decode_free _ hfree]
      simp [URI.decode_loop, substr_from]
    | some k =>
      obtain ⟨pre, c, post, hd, hlen, hc, hpre⟩ := find_index_some _ _ _ hf
      have hcp : c = '%' := (contains_percent c).1 hc
      subst hcp
      have hfree : ∀ x ∈ pre, x ≠ '%' := by
        intro x hx hxp
        have := hpre x hx
        rw [hxp] at this
        simp at this
      have hL : encoded.length = i + (pre.length + 1 + post.length) := by
        have h1 : (encoded.drop i).length = encoded.length - i := List.length_drop i encoded
        rw [hd] at h1
        simp only [List.length_append, List.length_cons] at h1
        omega
      have hsub : substr encoded i (k + i - i) = pre := by
        unfold substr
        rw [hd, ← hlen]
        have : min (pre.length + i - i) (encoded.length - i) = pre.length := by omega
        rw [this]
        simp
      rw [hd, percent_decode_append pre _ hfree]
      simp only [Option.map_some', URI.decode_loop]
      rw [hsub]
      match post, hd, hL with
      | [], hd, hL =>
        rw [percent_decode_short [] (by simp)]
        simp only [List.length_nil] at hL
        have : k + i + 2 ≥ encoded.length := by omega
        simp [this]
      | [x], hd, hL =>
        rw [percent_decode_short [x] (by simp)]
        simp only [List.length_singleton] at hL
        have : k + i + 2 ≥ encoded.length := by omega
        simp [this]
      | x :: y :: rest, hd, hL =>
        simp only [List.length_cons] at hL
        have hlt : ¬ (k + i + 2 ≥ encoded.length) := by omega
        simp only [hlt, if_false]
        rw [← hlen, decode_hex_at encoded pre i x y rest hd,
          percent_decode_escape]
        cases hx : hex_value x with
        | none => rfl
        | some a =>
          cases hy : hex_value y with
          | none => rfl
          | some b =>
            simp only
            have hdrop : encoded.drop (pre.length + i + 3) = rest := by
              have := List.drop_drop (pre.length + 3) i encoded
              rw [hd] at this
              rw [show pre.length + i + 3 = i + (pre.length + 3) by omega, ← this]
              simp [List.drop_append_eq_append_drop]
            have hrec := ih (pre.length + i + 3) (str ++ pre ++ [Char.ofNat (16 * a + b)])
              (by omega) (by omega)
            rw [hdrop] at hrec
            rw [hrec]
            cases percent_decode rest <;> simp

theorem decode_spec (s : Str) :
    URI.decode s =
      match percent_decode s with
      | some d => .ok d
      | none => .error .invalid_argument := by
  unfold URI.decode
  cases hf : find_first_of s ['%'] 0 with
  | none =>
    have hnone : find_index (fun x => ['%'].contains x) s = none := by
      unfold find_first_of at hf
      simpa using hf
    have hfree : ∀ c ∈ s, c ≠ '%' := by
      intro c hc hcp
      have := find_index_none _ _ hnone c hc
      rw [hcp] at this
      simp at this
    rw [percent_decode_free s hfree]
  | some j =>
    have h := decode_loop_spec s s.length 0 [] (by omega) (by omega)
    rw [hf] at h
    simpa using h

theorem hex_value_percent : hex_value '%' = none := by decide

theorem not_badEscape_nil : ¬ BadEscape [] := by
  rintro ⟨pre, post, h, _⟩
  cases pre <;> simp at h

theorem badEscape_cons_ne (c : Char) (rest : Str) (hc : c ≠ '%') :
    BadEscape (c :: rest) ↔ BadEscape rest := by
  constructor
  · rintro ⟨pre, post, h, hbad⟩
    cases pre with
    | nil =>
      simp only [List.nil_append, List.cons.injEq] at h
      exact absurd h.1 hc
    | cons a pre' =>
      simp only [List.cons_append, List.cons.injEq] at h
      exact ⟨pre', post, h.2, hbad⟩
  · rintro ⟨pre, post, h, hbad⟩
    exact ⟨c :: pre, post, by simp [h], hbad⟩

theorem badEscape_escape (x y : Char) (rest : Str) (a b : Nat)
    (hx : hex_value x = some a) (hy : hex_value y = some b) :
    BadEscape ('%' :: x :: y :: rest) ↔ BadEscape rest := by
  have hxp : x ≠ '%' := by
    rintro rfl
    rw [hex_value_percent] at hx
    cases hx
  have hyp : y ≠ '%' := by
    rintro rfl
    rw [hex_value_percent] at hy
    cases hy
  constructor
  · rintro ⟨pre, post, h, hbad⟩
    cases pre with
    | nil =>
      simp only [List.nil_append, List.cons.injEq, true_and] at h
      exact absurd ⟨x, y, rest, h.symm, by simp [hx], by simp [hy]⟩ hbad
    | cons p0 pre1 =>
      simp only [List.cons_append, List.cons.injEq] at h
      obtain ⟨_, h⟩ := h
      cases pre1 with
      | nil =>
        simp only [List.nil_append, List.cons.injEq] at h
        exact absurd h.1 hxp
      | cons p1 pre2 =>
        simp only [List.cons_append, List.cons.injEq] at h
        obtain ⟨_, h⟩ := h
        cases pre2 with
        | nil =>
          simp only [List.nil_append, List.cons.injEq] at h
          exact absurd h.1 hyp
        | cons p2 pre3 =>
          simp only [List.cons_append, List.cons.injEq] at h
          obtain ⟨_, h⟩ := h
          exact ⟨pre3, post, h, hbad⟩
  · rintro ⟨pre, post, h, hbad⟩
    exact ⟨'%' :: x :: y :: pre, post, by simp [h], hbad⟩

theorem percent_decode_none_iff : ∀ (n : Nat) (s : Str), s.length = n →
    (percent_decode s = none ↔ BadEscape s) := by
  intro n
  induction n using Nat.strong_induction_on with
  | _ n ih =>
    intro s hs
    match s, hs with
    | [], _ =>
      simp [percent_decode, not_badEscape_nil]
    | c :: rest, hs =>
      by_cases hc : c = '%'
      · subst hc
        match rest, hs with
        | [], _ =>
          rw [percent_decode_short [] (by simp)]
          simp only [true_iff]
          exact ⟨[], [], rfl, by simp⟩
        | [x], _ =>
          rw [percent_decode_short [x] (by simp)]
          simp only [true_iff]
          exact ⟨[], [x], rfl, by simp⟩
        | x :: y :: rest2, hs =>
          rw [percent_decode_escape]
          cases hx : hex_value x with
          | none =>
            simp only [true_iff]
            refine ⟨[], x :: y :: rest2, rfl, ?_⟩
            rintro ⟨x', y', r', h, h1, _⟩
            simp only [List.cons.injEq] at h
            rw [← h.1, hx] at h1
            simp at h1
          | some a =>
            cases hy : hex_value y with
            | none =>
              simp only [true_iff]
              refine ⟨[], x :: y :: rest2, rfl, ?_⟩
              rintro ⟨x', y', r', h, _, h2⟩
              simp only [List.cons.injEq] at h
              rw [← h.2.1, hy] at h2
              simp at h2
            | some b =>
              simp only [Option.map_eq_none']
              rw [badEscape_escape x y rest2 a b hx hy]
              simp only [List.length_cons] at hs
              exact ih rest2.length (by omega) rest2 rfl
      · rw [percent_decode_cons_ne c rest hc, badEscape_cons_ne c rest hc]
        simp only [Option.map_eq_none']
        simp only [List.length_cons] at hs
        exact ih rest.length (by omega) rest rfl

theorem badEscape_iff (s : Str) : BadEscape s ↔ percent_decode s = none :=
  (percent_decode_none_iff s.length s rfl).symm

theorem decode_component_spec (x : Str) (n : Bool) :
    URI.decode_component x n =
      match percent_decode x with
      | some d => .ok (d, n || URI.is_encoded x)
      | none => .error .invalid_argument := by
  unfold URI.decode_component
  cases he : URI.is_encoded x
  · have hnone : find_index (fun c => c == '%') x = none := by
      unfold URI.is_encoded find at he
      simpa using he
    have hfree : ∀ c ∈ x, c ≠ '%' := by
      intro c hc hcp
      have := find_index_none _ _ hnone c hc
      rw [hcp] at this
      simp at this
    rw [percent_decode_free x hfree]
    simp
  · simp only [if_true, decode_spec]
    cases percent_decode x <;> simp

/-- C14: with the authority, path, query and fragment being the pieces the
pattern of `parse` captures: parsing fails with an invalid-argument error if
and only if one of them contains a '%' that is not followed by two
hexadecimal digits, and it fails in no other way; otherwise each of them is
decoded by one left-to-right pass replacing every "%XY" by the byte with hex
value XY, and the scheme is kept; "%2541" decodes to "%41". -/
theorem parse_percent_escapes (uri : Str) :
    (URI.parse uri = .error .invalid_argument ↔
      BadEscape (URI.capture uri).authority ∨ BadEscape (URI.capture uri).path ∨
      BadEscape (URI.capture uri).query ∨ BadEscape (URI.capture uri).fragment) ∧
    (∀ e, URI.parse uri = .error e → e = .invalid_argument) ∧
    (∀ u, URI.parse uri = .ok u →
      percent_decode (URI.capture uri).authority = some u.authority ∧
      percent_decode (URI.capture uri).path = some u.path ∧
      percent_decode (URI.capture uri).query = some u.query ∧
      percent_decode (URI.capture uri).fragment = some u.fragment ∧
      u.scheme = (URI.capture uri).scheme) ∧
    URI.decode "%2541".toList = .ok "%41".toList := by
  refine ⟨?_, ?_, ?_, by rfl⟩
  all_goals
    unfold URI.parse
    simp only [decode_component_spec, badEscape_iff]
    generalize URI.capture uri = c
    cases h1 : percent_decode c.authority <;> cases h2 : percent_decode c.path <;>
      cases h3 : percent_decode c.query <;> cases h4 : percent_decode c.fragment <;> simp

/-! ## SchemaValidator: the examples of validation -/

/-- C17 as stated fails: validating `{"x": 1}` against the schema leaves one
finding, not two. -/
theorem validate_x_one_finding :
    outcome ((plain_validator schema_object_x).validate example_env 2
      (.object [("x".toList, .int 1)])) =
      .ok (false, [⟨"/x".toList, "Expected 'string' but got 'integer'.".toList⟩]) ∧
    [(⟨"/x".toList, "Expected 'string' but got 'integer'.".toList⟩ :
      SchemaValidator.Error)].length ≠ 2 := by
  refine ⟨by rfl, by decide⟩

/-- C17 as amended: the validator constructed for the schema validates
`{"x": 1}` with exactly one finding, the type mismatch "Expected 'string' but
got 'integer'." at path "/x", and no "Unexpected property." finding. -/
theorem validate_x_type_mismatch (env : Env) (n : Nat) :
    SchemaValidator.init env none schema_object_x ⟨[]⟩ = .ok (plain_validator schema_object_x) ∧
    outcome ((plain_validator schema_object_x).validate env (n + 2)
      (.object [("x".toList, .int 1)])) =
      .ok (false, [⟨"/x".toList, "Expected 'string' but got 'integer'.".toList⟩]) := by
  refine ⟨by rfl, by rfl⟩

theorem validationPath_head (p : Str) (h : ValidationPath p) : p = [] ∨ p.head? = some '/' := by
  induction h with
  | root => right; rfl
  | trial => left; rfl
  | child p n _ ih =>
    right
    unfold path_add
    rcases ih with rfl | ih
    · simp
    · cases p with
      | nil => simp at ih
      | cons c cs =>
        simp only [List.head?_cons, Option.some.injEq] at ih
        subst ih
        split <;> simp

/-- C18: the validator constructed for the schema validates `{"y": 1}` with
exactly the findings "Required property x is missing." at path "/" and then
"Unexpected property." at path "/y"; the path of a member `n` is "/" + n for
the node at path "/", and p + "/" + n for a node at any other path p. -/
theorem validate_y_findings :
    (∀ (env : Env) (n : Nat),
      outcome ((plain_validator schema_object_x).validate env (n + 1)
        (.object [("y".toList, .int 1)])) =
        .ok (false, [⟨"/".toList, "Required property x is missing.".toList⟩,
          ⟨"/y".toList, "Unexpected property.".toList⟩])) ∧
    (∀ n : Str, path_add ['/'] n = '/' :: n) ∧
    (∀ p n : Str, ValidationPath p → p ≠ ['/'] → path_add p n = p ++ ['/'] ++ n) := by
  refine ⟨fun env n => by rfl, fun n => by rfl, ?_⟩
  intro p n hp hne
  unfold path_add
  have hlen : p.length ≠ 1 := by
    intro h1
    rcases validationPath_head p hp with rfl | hh
    · simp at h1
    · match p, h1, hh with
      | [c], _, hh =>
        simp only [List.head?_cons, Option.some.injEq] at hh
        exact hne (by rw [hh])
  simp [hlen]

/-- Witness of `validate_y_findings`: the member "b" of the node at path
"/a". -/
theorem validate_y_findings_witness :
    path_add "/a".toList "b".toList = "/a/b".toList :=
  validate_y_findings.2.2 "/a".toList "b".toList
    (ValidationPath.child ['/'] "a".toList ValidationPath.root) (by decide)

/-- C20, at a failing input: against `{"items": {}, "uniqueItems": true}` the
array [1, 2, 1] is valid with no finding, although elements 0 and 2 are
equal: `ValidateArray` returns after the loop of a single-schema `items`,
before the `uniqueItems` block; against `{"uniqueItems": true}` the same
array gives one "Items not unique." finding. -/
theorem uniqueItems_skipped_after_items (env : Env) (n : Nat) :
    outcome ((plain_validator schema_items_unique).validate env (n + 2)
      (.array [.int 1, .int 2, .int 1])) = .ok (true, []) ∧
    Value.eq (.int 1) (.int 1) = true ∧
    outcome ((plain_validator schema_unique).validate env (n + 1)
      (.array [.int 1, .int 2, .int 1])) =
      .ok (false, [⟨"/".toList, "Items not unique.".toList⟩]) := by
  refine ⟨by rfl, by rfl, by rfl⟩

/-! ## SchemaValidator: references -/

/-- C16 as stated fails: constructing a validator for
`{"properties": {"p": {"$ref": "#foo"}}}` fails with a POINTER exception
"unresolved ref #foo". -/
theorem init_plain_fragment_unresolved :
    (SchemaValidator.init example_env none schema_plain_fragment ⟨[]⟩).toOption.isNone = true ∧
    (match SchemaValidator.init example_env none schema_plain_fragment ⟨[]⟩ with
      | .error e => e = .exception .POINTER [⟨[], "unresolved ref #foo".toList⟩]
      | .ok _ => False) := by
  refine ⟨by rfl, ?_⟩
  show Fault.exception _ _ = _
  rfl

theorem encode_loop_extends (decoded : Str) : ∀ (n i : Nat) (j : Option Nat) (out : Str),
    ∃ t, URI.encode_loop decoded n i j out = out ++ t := by
  intro n
  induction n with
  | zero =>
    intro i j out
    cases j with
    | none => exact ⟨_, rfl⟩
    | some j => exact ⟨[], by simp [URI.encode_loop]⟩
  | succ n ih =>
    intro i j out
    cases j with
    | none => exact ⟨_, rfl⟩
    | some j =>
      simp only [URI.encode_loop]
      obtain ⟨t, ht⟩ := ih (j + 1) (find_first_of decoded ['?', '#', '%'] (j + 1))
        (out ++ substr decoded i (j - i) ++
          ['%', URI.digits.getD ((decoded.getD j '\x00').toNat / 16) '\x00',
            URI.digits.getD ((decoded.getD j '\x00').toNat % 16) '\x00'])
      exact ⟨_, by rw [ht, List.append_assoc, List.append_assoc]⟩

theorem encode_ne_nil (out decoded : Str) (h : out ≠ []) : URI.encode out decoded ≠ [] := by
  obtain ⟨t, ht⟩ := encode_loop_extends decoded (decoded.length + 1) 0
    (find_first_of decoded ['?', '#', '%'] 0) out
  unfold URI.encode
  rw [ht]
  simp [h]

theorem update_uri_ne_nil (u : URI) (h : u.has_fragment = true) : u.update.uri ≠ [] := by
  unfold URI.update
  simp only [h, if_true]
  exact encode_ne_nil _ _ (by simp)

theorem group_text_ne_nil (s : Str) (caps : Caps) (i : Nat) (h : group_text s caps i ≠ []) :
    s ≠ [] := by
  rintro rfl
  apply h
  unfold group_text
  cases List.lookup i caps with
  | none => rfl
  | some be => simp [substr]

theorem parse_uri_eq (s : Str) (r : URI) (h : URI.parse s = .ok r) :
    r.uri = s ∧ r.fragment_present = !(URI.capture s).fragment_sep.isEmpty := by
  unfold URI.parse at h
  simp only at h
  split at h
  · cases h
  · split at h
    · cases h
    · split at h
      · cases h
      · split at h
        · cases h
        · injection h with h
          subst h
          exact ⟨rfl, rfl⟩

theorem parse_uri_ne_nil (s : Str) (r : URI) (h : URI.parse s = .ok r)
    (hf : r.has_fragment = true) : s ≠ [] := by
  obtain ⟨_, h2⟩ := parse_uri_eq s r h
  have h3 : (URI.capture s).fragment_sep ≠ [] := by
    intro hnil
    rw [URI.has_fragment, h2, hnil] at hf
    simp at hf
  unfold URI.capture at h3
  cases hm : FullMatch uri_regex s with
  | none => simp [hm] at h3
  | some caps =>
    simp only [hm] at h3
    exact group_text_ne_nil s caps 8 h3

theorem copy_fragment_needs_update (u o : URI) : (u.copy_fragment o).needs_update = true := by
  unfold URI.copy_fragment
  split <;> rfl

theorem has_fragment_copy_fragment (u o : URI) :
    (u.copy_fragment o).has_fragment = o.has_fragment := by
  unfold URI.copy_fragment
  cases h : o.has_fragment <;> simp [URI.has_fragment, URI.set_fragment, URI.clear_fragment]

theorem resolve_get_uri_ne_nil (base r : URI) (s : Str) (hr : URI.parse s = .ok r)
    (hf : (base.resolve r).has_fragment = true) : (base.resolve r).get_uri ≠ [] := by
  have key : ∀ u : URI, u.has_fragment = true →
      (u.needs_update = true ∨ (u.uri = s ∧ r.has_fragment = true)) → u.get_uri ≠ [] := by
    intro u hu hcase
    unfold URI.get_uri
    rcases hcase with hn | ⟨hs, hrf⟩
    · simp only [hn, if_true]
      exact update_uri_ne_nil u hu
    · split
      · exact update_uri_ne_nil u hu
      · rw [hs]
        exact parse_uri_ne_nil s r hr hrf
  apply key _ hf
  unfold URI.resolve at hf ⊢
  cases hsch : r.has_scheme
  · left
    simp only [Bool.false_eq_true, if_false]
    exact copy_fragment_needs_update _ _
  · simp only [hsch, if_true] at hf ⊢
    unfold URI.copy at hf ⊢
    cases hn : r.needs_update
    · right
      simp only [hn, if_true] at hf ⊢
      refine ⟨(parse_uri_eq s r hr).1, ?_⟩
      have : (((((URI.empty.copy_scheme r).copy_authority r).copy_path r).copy_query
          r).copy_fragment r).has_fragment = r.has_fragment := has_fragment_copy_fragment _ _
      rw [← this]
      simpa [URI.has_fragment] using hf
    · left
      simp only [Bool.true_eq_false, if_false]
      exact copy_fragment_needs_update _ _

/-- C16 as amended: when the `$ref` of a node resolves to a URI whose
fragment is not empty and does not start with '/', the fragment is not
applied as a pointer and is kept in the URI that is looked up: the reference
resolves to the node registered in `ids` under the resolved URI with its
fragment, and construction fails with a POINTER exception "unresolved ref"
when no node is registered under it. -/
theorem resolve_ref_plain_fragment (env : Env) (refs_root : Value) (ids : List (Str × Ref))
    (base_uri : URI) (ref : Str) (ref_uri : URI)
    (hparse : base_uri.resolve_string ref = .ok ref_uri)
    (hfrag : ref_uri.has_fragment = true) (hne : ref_uri.get_fragment ≠ [])
    (hslash : ref_uri.get_fragment.head? ≠ some '/') :
    resolve_ref env refs_root ids base_uri ref =
      match ids.lookup ref_uri.get_uri with
      | some n => .ok n
      | none =>
        .error (.exception .POINTER [⟨[], "unresolved ref ".toList ++ ref_uri.get_uri⟩]) := by
  have hget : ref_uri.get_uri ≠ [] := by
    unfold URI.resolve_string at hparse
    cases hp : URI.parse ref with
    | error e => simp [hp] at hparse
    | ok r =>
      simp only [hp, Except.ok.injEq] at hparse
      subst hparse
      exact resolve_get_uri_ne_nil base_uri r ref hp hfrag
  have hemp : ref_uri.get_fragment.isEmpty = false := by
    cases h : ref_uri.get_fragment with
    | nil => exact absurd h hne
    | cons _ _ => rfl
  have hget2 : ref_uri.get_uri.isEmpty = false := by
    cases h : ref_uri.get_uri with
    | nil => exact absurd h hget
    | cons _ _ => rfl
  unfold resolve_ref
  simp only [hparse, hfrag, if_true, hemp, Bool.false_eq_true, if_false, hslash, hget2]
  cases List.lookup ref_uri.get_uri ids <;> simp

/-- Witness of `resolve_ref_plain_fragment`: the reference "#foo" with a node
registered under "#foo". -/
theorem resolve_ref_plain_fragment_witness :
    resolve_ref example_env schema_plain_fragment
      [("#foo".toList, [Slot.member "q".toList])] URI.empty "#foo".toList =
      .ok [Slot.member "q".toList] :=
  resolve_ref_plain_fragment example_env schema_plain_fragment
    [("#foo".toList, [Slot.member "q".toList])] URI.empty "#foo".toList
    (URI.empty.resolve example_foo_reference)
    (by rfl) (by rfl) (by decide) (by decide)

/-! ## SchemaValidator: every call extends the error list -/

theorem bind_ok {α β : Type} {x : Except Fault α} {f : α → Except Fault β} {b : β}
    (h : (x >>= f) = .ok b) : ∃ a, x = .ok a ∧ f a = .ok b := by
  cases x with
  | error e => cases h
  | ok a => exact ⟨a, rfl, h⟩

theorem pure_ok {α : Type} {a b : α} (h : (pure a : Except Fault α) = .ok b) : a = b := by
  cases h
  rfl

theorem for_each_rel {α σ : Type} (R : σ → σ → Prop) (hrefl : ∀ s, R s s)
    (htrans : ∀ a b c, R a b → R b c → R a c) (f : α → σ → Except Fault σ) :
    ∀ (xs : List α) (s s1 : σ), (∀ x ∈ xs, ∀ a b, f x a = .ok b → R a b) →
      for_each f xs s = .ok s1 → R s s1 := by
  intro xs
  induction xs with
  | nil =>
    intro s s1 _ h
    cases h
    exact hrefl s
  | cons x xs ih =>
    intro s s1 hstep h
    unfold for_each at h
    split at h
    · rename_i s2 hs2
      exact htrans _ _ _ (hstep x (by simp) s s2 hs2)
        (ih s2 s1 (fun y hy => hstep y (by simp [hy])) h)
    · cases h

theorem for_each_extends {α : Type} (f : α → Errors → Except Fault Errors) (xs : List α)
    (e e1 : Errors) (hstep : ∀ x ∈ xs, ∀ a b, f x a = .ok b → a <+: b)
    (h : for_each f xs e = .ok e1) : e <+: e1 :=
  for_each_rel (fun a b => a <+: b) (fun s => List.prefix_refl s)
    (fun _ _ _ h1 h2 => List.IsPrefix.trans h1 h2) f xs e e1 hstep h

theorem prefix_push (e : Errors) (x : SchemaValidator.Error) : e <+: e ++ [x] :=
  List.prefix_append e [x]

theorem resize_of_extends (e e1 : Errors) (h : e <+: e1) : Errors.resize e1 e.length = e := by
  obtain ⟨t, rfl⟩ := h
  unfold Errors.resize
  simp

theorem isValid_restores (V : ValidateFn) (hV : Extending V) (inst : Value) (schema : Node)
    (e : Errors) (r : Bool × Errors) (h : isValid V inst schema e = .ok r) : r.2 = e := by
  unfold isValid at h
  split at h
  · rename_i e1 he1
    cases h
    exact resize_of_extends e e1 (hV _ _ _ _ _ he1)
  · cases h

theorem ValidateSimpleType_extends (inst : Value) (t path : Str) (e : Errors) :
    e <+: (ValidateSimpleType inst t path e).2 := by
  unfold ValidateSimpleType
  simp only
  split
  · exact List.prefix_refl e
  · exact prefix_push e _

theorem ValidateChoices_loop_extends (env : Env) (inst : Value) (path : Str) (e0 : Errors) :
    ∀ (choices : List Value) (e : Errors) (r : Bool × Errors), e0 <+: e →
      ValidateChoices_loop env inst path e0.length choices e = .ok r → e0 <+: r.2 := by
  intro choices
  induction choices with
  | nil =>
    intro e r he h
    cases h
    exact List.IsPrefix.trans he (prefix_push e _)
  | cons c rest ih =>
    intro e r he h
    unfold ValidateChoices_loop at h
    split at h
    · cases h
    · rename_i t ht
      simp only at h
      split at h
      · cases h
        exact List.IsPrefix.trans he (ValidateSimpleType_extends inst t path e)
      · apply ih _ r _ h
        rw [resize_of_extends e0 _
          (List.IsPrefix.trans he (ValidateSimpleType_extends inst t path e))]

theorem ValidateType_extends (env : Env) (inst type : Value) (path : Str) (e : Errors)
    (r : Bool × Errors) (h : ValidateType env inst type path e = .ok r) : e <+: r.2 := by
  unfold ValidateType at h
  split at h
  · exact ValidateChoices_loop_extends env inst path e _ e r (List.prefix_refl e) h
  · split at h
    · cases h
    · split at h
      · cases h
        exact prefix_push e _
      · cases h
        exact ValidateSimpleType_extends inst _ path e

theorem ValidateEnum_extends (inst choices : Value) (path : Str) (e e1 : Errors)
    (h : ValidateEnum inst choices path e = .ok e1) : e <+: e1 := by
  unfold ValidateEnum at h
  split at h
  · cases h
    split
    · exact List.prefix_refl e
    · exact prefix_push e _
  · split at h
    · cases h
      exact prefix_push e _
    · cases h
  · cases h
    exact prefix_push e _

theorem Validate_allOf_extends (V : ValidateFn) (hV : Extending V) (inst : Value)
    (schema : Node) (path : Str) (e e1 : Errors)
    (h : Validate_allOf V inst schema path e = .ok e1) : e <+: e1 := by
  unfold Validate_allOf at h
  obtain ⟨c, _, h⟩ := bind_ok h
  split at h
  · obtain ⟨schemata, _, h⟩ := bind_ok h
    refine for_each_extends _ _ e e1 ?_ h
    intro i _ a b hab
    obtain ⟨s, _, hab⟩ := bind_ok hab
    exact hV _ _ _ _ _ hab
  · cases pure_ok h
    exact List.prefix_refl e

theorem Validate_anyOf_loop_restores (V : ValidateFn) (hV : Extending V) (inst : Value)
    (schemata : Node) : ∀ (is : List Nat) (e : Errors) (r : Bool × Errors),
      Validate_anyOf_loop V inst schemata is e = .ok r → r.2 = e := by
  intro is
  induction is with
  | nil =>
    intro e r h
    cases h
    rfl
  | cons i rest ih =>
    intro e r h
    unfold Validate_anyOf_loop at h
    split at h
    · cases h
    · split at h
      · cases h
      · rename_i e2 hv
        cases h
        exact isValid_restores V hV _ _ _ _ hv
      · rename_i e2 hv
        have h2 := isValid_restores V hV _ _ _ _ hv
        simp only at h2
        subst h2
        exact ih _ r h

theorem Validate_anyOf_extends (V : ValidateFn) (hV : Extending V) (inst : Value)
    (schema : Node) (path : Str) (e e1 : Errors)
    (h : Validate_anyOf V inst schema path e = .ok e1) : e <+: e1 := by
  unfold Validate_anyOf at h
  obtain ⟨c, _, h⟩ := bind_ok h
  split at h
  · obtain ⟨schemata, _, h⟩ := bind_ok h
    obtain ⟨r, hr, h⟩ := bind_ok h
    have h2 := Validate_anyOf_loop_restores V hV inst schemata _ e r hr
    split at h
    · cases pure_ok h
      rw [h2]
      exact prefix_push e _
    · cases pure_ok h
      rw [h2]
  · cases pure_ok h
    exact List.prefix_refl e

theorem Validate_oneOf_loop_restores (V : ValidateFn) (hV : Extending V) (inst : Value)
    (schemata : Node) : ∀ (is : List Nat) (m : Nat) (e : Errors) (r : Nat × Errors),
      Validate_oneOf_loop V inst schemata is m e = .ok r → r.2 = e := by
  intro is
  induction is with
  | nil =>
    intro m e r h
    cases h
    rfl
  | cons i rest ih =>
    intro m e r h
    unfold Validate_oneOf_loop at h
    split at h
    · cases h
    · split at h
      · cases h
      · rename_i ok e2 hv
        have h2 := isValid_restores V hV _ _ _ _ hv
        simp only at h2
        subst h2
        exact ih _ _ r h

theorem Validate_oneOf_extends (V : ValidateFn) (hV : Extending V) (inst : Value)
    (schema : Node) (path : Str) (e e1 : Errors)
    (h : Validate_oneOf V inst schema path e = .ok e1) : e <+: e1 := by
  unfold Validate_oneOf at h
  obtain ⟨c, _, h⟩ := bind_ok h
  split at h
  · obtain ⟨schemata, _, h⟩ := bind_ok h
    obtain ⟨r, hr, h⟩ := bind_ok h
    have h2 := Validate_oneOf_loop_restores V hV inst schemata _ 0 e r hr
    split at h
    · cases pure_ok h
      rw [h2]
      exact prefix_push e _
    · cases pure_ok h
      rw [h2]
  · cases pure_ok h
    exact List.prefix_refl e

theorem Validate_not_extends (V : ValidateFn) (hV : Extending V) (inst : Value)
    (schema : Node) (path : Str) (e e1 : Errors)
    (h : Validate_not V inst schema path e = .ok e1) : e <+: e1 := by
  unfold Validate_not at h
  obtain ⟨c, _, h⟩ := bind_ok h
  split at h
  · obtain ⟨s, _, h⟩ := bind_ok h
    obtain ⟨r, hr, h⟩ := bind_ok h
    have h2 := isValid_restores V hV _ _ _ _ hr
    split at h
    · cases pure_ok h
      rw [h2]
      exact prefix_push e _
    · cases pure_ok h
      rw [h2]
  · cases pure_ok h
    exact List.prefix_refl e

theorem Validate_if_extends (V : ValidateFn) (hV : Extending V) (inst : Value)
    (schema : Node) (path : Str) (e e1 : Errors)
    (h : Validate_if V inst schema path e = .ok e1) : e <+: e1 := by
  unfold Validate_if at h
  obtain ⟨c, _, h⟩ := bind_ok h
  split at h
  · obtain ⟨ht, _, h⟩ := bind_ok h
    obtain ⟨he, _, h⟩ := bind_ok h
    split at h
    · obtain ⟨s, _, h⟩ := bind_ok h
      obtain ⟨r, hr, h⟩ := bind_ok h
      have h2 := isValid_restores V hV _ _ _ _ hr
      split at h
      · obtain ⟨c2, _, h⟩ := bind_ok h
        split at h
        · obtain ⟨s2, _, h⟩ := bind_ok h
          rw [h2] at h
          exact hV _ _ _ _ _ h
        · cases pure_ok h
          rw [h2]
      · obtain ⟨c2, _, h⟩ := bind_ok h
        split at h
        · obtain ⟨s2, _, h⟩ := bind_ok h
          rw [h2] at h
          exact hV _ _ _ _ _ h
        · cases pure_ok h
          rw [h2]
    · cases pure_ok h
      exact List.prefix_refl e
  · cases pure_ok h
    exact List.prefix_refl e

theorem Validate_const_extends (inst : Value) (schema : Node) (path : Str) (e e1 : Errors)
    (h : Validate_const inst schema path e = .ok e1) : e <+: e1 := by
  unfold Validate_const at h
  obtain ⟨c, _, h⟩ := bind_ok h
  split at h
  · obtain ⟨s, _, h⟩ := bind_ok h
    split at h
    · cases pure_ok h
      exact prefix_push e _
    · cases pure_ok h
      exact List.prefix_refl e
  · cases pure_ok h
    exact List.prefix_refl e

theorem ValidateObject_required_extends (env : Env) (inst : Value) (schema : Node)
    (path : Str) (e e1 : Errors)
    (h : ValidateObject_required env inst schema path e = .ok e1) : e <+: e1 := by
  unfold ValidateObject_required at h
  obtain ⟨c, _, h⟩ := bind_ok h
  split at h
  · obtain ⟨required, _, h⟩ := bind_ok h
    refine for_each_extends _ _ e e1 ?_ h
    intro i _ a b hab
    obtain ⟨x, _, hab⟩ := bind_ok hab
    obtain ⟨name, _, hab⟩ := bind_ok hab
    obtain ⟨m, _, hab⟩ := bind_ok hab
    split at hab
    · cases pure_ok hab
      exact prefix_push a _
    · cases pure_ok hab
      exact List.prefix_refl a
  · cases pure_ok h
    exact List.prefix_refl e

theorem ValidateObject_count_extends (inst : Value) (schema : Node) (key : Str)
    (violated : Nat → Nat → Bool) (message path : Str) (e e1 : Errors)
    (h : ValidateObject_count inst schema key violated message path e = .ok e1) :
    e <+: e1 := by
  unfold ValidateObject_count at h
  obtain ⟨c, _, h⟩ := bind_ok h
  split at h
  · obtain ⟨x, _, h⟩ := bind_ok h
    obtain ⟨count, _, h⟩ := bind_ok h
    split at h
    · cases pure_ok h
      exact prefix_push e _
    · cases pure_ok h
      exact List.prefix_refl e
  · cases pure_ok h
    exact List.prefix_refl e

theorem ValidateObject_dependency_extends (env : Env) (V : ValidateFn) (hV : Extending V)
    (inst : Value) (dependencies : Option Node) (name path : Str) (e e1 : Errors)
    (h : ValidateObject_dependency env V inst dependencies name path e = .ok e1) :
    e <+: e1 := by
  unfold ValidateObject_dependency at h
  split at h
  · cases pure_ok h
    exact List.prefix_refl e
  · obtain ⟨c, _, h⟩ := bind_ok h
    split at h
    · obtain ⟨dependency, _, h⟩ := bind_ok h
      split at h
      · refine for_each_extends _ _ e e1 ?_ h
        intro x _ a b hab
        obtain ⟨dn, _, hab⟩ := bind_ok hab
        obtain ⟨m, _, hab⟩ := bind_ok hab
        split at hab
        · cases pure_ok hab
          exact prefix_push a _
        · cases pure_ok hab
          exact List.prefix_refl a
      · exact hV _ _ _ _ _ h
    · cases pure_ok h
      exact List.prefix_refl e

theorem ValidateObject_name_extends (V : ValidateFn) (hV : Extending V)
    (property_names : Option Node) (name child_path : Str) (e e1 : Errors)
    (h : ValidateObject_name V property_names name child_path e = .ok e1) : e <+: e1 := by
  unfold ValidateObject_name at h
  split at h
  · exact hV _ _ _ _ _ h
  · cases h
    exact List.prefix_refl e

theorem ValidateObject_property_extends (V : ValidateFn) (hV : Extending V)
    (properties : Option Node) (child : Value) (name child_path : Str) (e : Errors)
    (r : Bool × Errors)
    (h : ValidateObject_property V properties child name child_path e = .ok r) :
    e <+: r.2 := by
  unfold ValidateObject_property at h
  split at h
  · obtain ⟨c, _, h⟩ := bind_ok h
    split at h
    · obtain ⟨s, _, h⟩ := bind_ok h
      obtain ⟨e2, he2, h⟩ := bind_ok h
      cases pure_ok h
      exact hV _ _ _ _ _ he2
    · cases pure_ok h
      exact List.prefix_refl e
  · cases h
    exact List.prefix_refl e

theorem ValidateObject_pattern_extends (env : Env) (V : ValidateFn) (hV : Extending V)
    (pattern_properties : List (Str × Node)) (child : Value) (name child_path : Str)
    (st r : Bool × Errors)
    (h : ValidateObject_pattern env V pattern_properties child name child_path st = .ok r) :
    st.2 <+: r.2 := by
  unfold ValidateObject_pattern at h
  refine for_each_rel (fun (a b : Bool × Errors) => a.2 <+: b.2)
    (fun s => List.prefix_refl s.2) (fun _ _ _ h1 h2 => List.IsPrefix.trans h1 h2) _ _ st r ?_ h
  intro pair _ a b hab
  split at hab
  · obtain ⟨e2, he2, hab⟩ := bind_ok hab
    cases pure_ok hab
    exact hV _ _ _ _ _ he2
  · cases pure_ok hab
    exact List.prefix_refl a.2

theorem ValidateObject_additional_extends (V : ValidateFn) (hV : Extending V)
    (additional_properties : Option Node) (child : Value) (child_path : Str)
    (st : Bool × Errors) (e1 : Errors)
    (h : ValidateObject_additional V additional_properties child child_path st = .ok e1) :
    st.2 <+: e1 := by
  unfold ValidateObject_additional at h
  split at h
  · split at h
    · split at h
      · cases h
        exact prefix_push st.2 _
      · exact hV _ _ _ _ _ h
    · cases h
      exact List.prefix_refl st.2
  · cases h
    exact List.prefix_refl st.2

theorem ValidateObject_member_extends (env : Env) (V : ValidateFn) (hV : Extending V)
    (inst : Value) (path : Str) (properties property_names additional_properties : Option Node)
    (pattern_properties : List (Str × Node)) (dependencies : Option Node) (name : Str)
    (e e1 : Errors)
    (h : ValidateObject_member env V inst path properties property_names
      additional_properties pattern_properties dependencies name e = .ok e1) : e <+: e1 := by
  unfold ValidateObject_member at h
  obtain ⟨child, _, h⟩ := bind_ok h
  obtain ⟨e2, h2, h⟩ := bind_ok h
  obtain ⟨st, h3, h⟩ := bind_ok h
  obtain ⟨st2, h4, h⟩ := bind_ok h
  obtain ⟨e5, h5, h⟩ := bind_ok h
  exact (ValidateObject_name_extends V hV _ _ _ _ _ h2).trans
    ((ValidateObject_property_extends V hV _ _ _ _ _ _ h3).trans
    ((ValidateObject_pattern_extends env V hV _ _ _ _ _ _ h4).trans
    ((ValidateObject_additional_extends V hV _ _ _ _ _ h5).trans
    (ValidateObject_dependency_extends env V hV _ _ _ _ _ _ h))))

theorem ValidateObject_extends (env : Env) (V : ValidateFn) (hV : Extending V)
    (inst : Value) (schema : Node) (path : Str) (e e1 : Errors)
    (h : ValidateObject env V inst schema path e = .ok e1) : e <+: e1 := by
  unfold ValidateObject at h
  obtain ⟨e2, h2, h⟩ := bind_ok h
  obtain ⟨e3, h3, h⟩ := bind_ok h
  obtain ⟨e4, h4, h⟩ := bind_ok h
  obtain ⟨properties, _, h⟩ := bind_ok h
  obtain ⟨property_names, _, h⟩ := bind_ok h
  obtain ⟨additional_properties, _, h⟩ := bind_ok h
  obtain ⟨pattern_properties, _, h⟩ := bind_ok h
  obtain ⟨dependencies, _, h⟩ := bind_ok h
  obtain ⟨names, _, h⟩ := bind_ok h
  refine (ValidateObject_required_extends env _ _ _ _ _ h2).trans
    ((ValidateObject_count_extends _ _ _ _ _ _ _ _ h3).trans
    ((ValidateObject_count_extends _ _ _ _ _ _ _ _ h4).trans ?_))
  refine for_each_extends _ _ e4 e1 ?_ h
  intro name _ a b hab
  exact ValidateObject_member_extends env V hV _ _ _ _ _ _ _ _ _ _ hab

theorem ValidateArray_count_extends (inst : Value) (schema : Node) (key : Str)
    (violated : Nat → Nat → Bool) (message path : Str) (e e1 : Errors)
    (h : ValidateArray_count inst schema key violated message path e = .ok e1) :
    e <+: e1 := by
  unfold ValidateArray_count at h
  obtain ⟨c, _, h⟩ := bind_ok h
  split at h
  · obtain ⟨x, _, h⟩ := bind_ok h
    obtain ⟨count, _, h⟩ := bind_ok h
    split at h
    · cases pure_ok h
      exact prefix_push e _
    · cases pure_ok h
      exact List.prefix_refl e
  · cases pure_ok h
    exact List.prefix_refl e

theorem ValidateArray_each_extends (V : ValidateFn) (hV : Extending V) (inst : Value)
    (schema_of : Nat → Except Fault Node) (path : Str) (lo hi : Nat) (e e1 : Errors)
    (h : ValidateArray_each V inst schema_of path lo hi e = .ok e1) : e <+: e1 := by
  unfold ValidateArray_each at h
  refine for_each_extends _ _ e e1 ?_ h
  intro i _ a b hab
  obtain ⟨item, _, hab⟩ := bind_ok hab
  obtain ⟨s, _, hab⟩ := bind_ok hab
  exact hV _ _ _ _ _ hab

theorem ValidateArray_items_extends (V : ValidateFn) (hV : Extending V) (inst : Value)
    (schema : Node) (path : Str) (e : Errors) (r : Errors × Bool)
    (h : ValidateArray_items V inst schema path e = .ok r) : e <+: r.1 := by
  unfold ValidateArray_items at h
  obtain ⟨c, _, h⟩ := bind_ok h
  split at h
  · obtain ⟨items, _, h⟩ := bind_ok h
    split at h
    · obtain ⟨e2, h2, h⟩ := bind_ok h
      have hp := ValidateArray_each_extends V hV _ _ _ _ _ _ _ h2
      split at h
      · obtain ⟨c2, _, h⟩ := bind_ok h
        split at h
        · obtain ⟨additional, _, h⟩ := bind_ok h
          split at h
          · cases pure_ok h
            simp only
            split
            · exact hp.trans (prefix_push e2 _)
            · exact hp
          · obtain ⟨e3, h3, h⟩ := bind_ok h
            cases pure_ok h
            exact hp.trans (ValidateArray_each_extends V hV _ _ _ _ _ _ _ h3)
        · cases pure_ok h
          exact hp
      · cases pure_ok h
        exact hp
    · obtain ⟨e2, h2, h⟩ := bind_ok h
      cases pure_ok h
      exact ValidateArray_each_extends V hV _ _ _ _ _ _ _ h2
  · cases pure_ok h
    exact List.prefix_refl e

theorem foldl_extends {α : Type} (f : Errors → α → Errors) (hf : ∀ e x, e <+: f e x) :
    ∀ (xs : List α) (e : Errors), e <+: xs.foldl f e := by
  intro xs
  induction xs with
  | nil => intro e; exact List.prefix_refl e
  | cons x xs ih => intro e; exact (hf e x).trans (ih (f e x))

theorem ValidateArray_unique_loop_extends (xs : List Value) (path : Str) (e : Errors) :
    e <+: ValidateArray_unique_loop xs path e := by
  unfold ValidateArray_unique_loop
  apply foldl_extends
  intro e1 i
  apply foldl_extends
  intro e2 j
  split
  · exact prefix_push e2 _
  · exact List.prefix_refl e2

theorem ValidateArray_unique_extends (inst : Value) (schema : Node) (path : Str)
    (e e1 : Errors) (h : ValidateArray_unique inst schema path e = .ok e1) : e <+: e1 := by
  unfold ValidateArray_unique at h
  obtain ⟨c, _, h⟩ := bind_ok h
  split at h
  · obtain ⟨x, _, h⟩ := bind_ok h
    obtain ⟨b, _, h⟩ := bind_ok h
    split at h
    · cases pure_ok h
      exact ValidateArray_unique_loop_extends _ _ _
    · cases pure_ok h
      exact List.prefix_refl e
  · cases pure_ok h
    exact List.prefix_refl e

theorem ValidateArray_contains_loop_restores (V : ValidateFn) (hV : Extending V)
    (contains_schema : Node) : ∀ (items : List Value) (e : Errors) (r : Bool × Errors),
      ValidateArray_contains_loop V contains_schema items e = .ok r → r.2 = e := by
  intro items
  induction items with
  | nil =>
    intro e r h
    cases h
    rfl
  | cons i rest ih =>
    intro e r h
    unfold ValidateArray_contains_loop at h
    split at h
    · cases h
    · rename_i e2 hv
      cases h
      exact isValid_restores V hV _ _ _ _ hv
    · rename_i e2 hv
      have h2 := isValid_restores V hV _ _ _ _ hv
      simp only at h2
      subst h2
      exact ih _ r h

theorem ValidateArray_contains_extends (V : ValidateFn) (hV : Extending V) (inst : Value)
    (schema : Node) (path : Str) (e e1 : Errors)
    (h : ValidateArray_contains V inst schema path e = .ok e1) : e <+: e1 := by
  unfold ValidateArray_contains at h
  obtain ⟨c, _, h⟩ := bind_ok h
  split at h
  · obtain ⟨s, _, h⟩ := bind_ok h
    obtain ⟨r, hr, h⟩ := bind_ok h
    have h2 := ValidateArray_contains_loop_restores V hV _ _ _ _ hr
    split at h
    · cases pure_ok h
      rw [h2]
      exact prefix_push e _
    · cases pure_ok h
      rw [h2]
  · cases pure_ok h
    exact List.prefix_refl e

theorem ValidateArray_extends (V : ValidateFn) (hV : Extending V) (inst : Value)
    (schema : Node) (path : Str) (e e1 : Errors)
    (h : ValidateArray V inst schema path e = .ok e1) : e <+: e1 := by
  unfold ValidateArray at h
  obtain ⟨e2, h2, h⟩ := bind_ok h
  obtain ⟨e3, h3, h⟩ := bind_ok h
  obtain ⟨r, h4, h⟩ := bind_ok h
  have hp := (ValidateArray_count_extends _ _ _ _ _ _ _ _ h2).trans
    ((ValidateArray_count_extends _ _ _ _ _ _ _ _ h3).trans
    (ValidateArray_items_extends V hV _ _ _ _ _ h4))
  split at h
  · cases pure_ok h
    exact hp
  · obtain ⟨e5, h5, h⟩ := bind_ok h
    exact hp.trans ((ValidateArray_unique_extends _ _ _ _ _ h5).trans
      (ValidateArray_contains_extends V hV _ _ _ _ _ h))

theorem ValidateString_bound_extends (schema : Node) (key : Str) (violated : Nat → Nat → Bool)
    (message : Str) (length : Nat) (path : Str) (e : Errors) (r : Errors × Bool)
    (h : ValidateString_bound schema key violated message length path e = .ok r) :
    e <+: r.1 := by
  unfold ValidateString_bound at h
  obtain ⟨c, _, h⟩ := bind_ok h
  split at h
  · obtain ⟨x, _, h⟩ := bind_ok h
    obtain ⟨bound, _, h⟩ := bind_ok h
    split at h
    · cases pure_ok h
      exact prefix_push e _
    · split at h
      · cases pure_ok h
        exact prefix_push e _
      · cases pure_ok h
        exact List.prefix_refl e
  · cases pure_ok h
    exact List.prefix_refl e

theorem ValidateString_extends (env : Env) (inst : Value) (schema : Node) (path : Str)
    (e e1 : Errors) (h : ValidateString env inst schema path e = .ok e1) : e <+: e1 := by
  unfold ValidateString at h
  obtain ⟨value, _, h⟩ := bind_ok h
  obtain ⟨r, hr, h⟩ := bind_ok h
  have hp := ValidateString_bound_extends _ _ _ _ _ _ _ _ hr
  split at h
  · cases pure_ok h
    exact hp
  · obtain ⟨r2, hr2, h⟩ := bind_ok h
    have hp2 := hp.trans (ValidateString_bound_extends _ _ _ _ _ _ _ _ hr2)
    split at h
    · cases pure_ok h
      exact hp2
    · obtain ⟨c, _, h⟩ := bind_ok h
      split at h
      · obtain ⟨x, _, h⟩ := bind_ok h
        obtain ⟨pattern, _, h⟩ := bind_ok h
        split at h
        · cases pure_ok h
          exact hp2.trans (prefix_push _ _)
        · cases pure_ok h
          exact hp2
      · cases pure_ok h
        exact hp2

theorem ValidateNumber_bound_extends (env : Env) (schema : Node) (key : Str)
    (violated : Rat → Rat → Bool) (message : Str) (value : Rat) (path : Str) (e e1 : Errors)
    (h : ValidateNumber_bound env schema key violated message value path e = .ok e1) :
    e <+: e1 := by
  unfold ValidateNumber_bound at h
  obtain ⟨c, _, h⟩ := bind_ok h
  split at h
  · obtain ⟨x, _, h⟩ := bind_ok h
    obtain ⟨bound, _, h⟩ := bind_ok h
    split at h
    · cases pure_ok h
      exact prefix_push e _
    · cases pure_ok h
      exact List.prefix_refl e
  · cases pure_ok h
    exact List.prefix_refl e

theorem ValidateNumber_extends (env : Env) (inst : Value) (schema : Node) (path : Str)
    (e e1 : Errors) (h : ValidateNumber env inst schema path e = .ok e1) : e <+: e1 := by
  unfold ValidateNumber at h
  obtain ⟨value, _, h⟩ := bind_ok h
  obtain ⟨e2, h2, h⟩ := bind_ok h
  obtain ⟨e3, h3, h⟩ := bind_ok h
  obtain ⟨e4, h4, h⟩ := bind_ok h
  obtain ⟨e5, h5, h⟩ := bind_ok h
  exact (ValidateNumber_bound_extends _ _ _ _ _ _ _ _ _ h2).trans
    ((ValidateNumber_bound_extends _ _ _ _ _ _ _ _ _ h3).trans
    ((ValidateNumber_bound_extends _ _ _ _ _ _ _ _ _ h4).trans
    ((ValidateNumber_bound_extends _ _ _ _ _ _ _ _ _ h5).trans
    (ValidateNumber_bound_extends _ _ _ _ _ _ _ _ _ h))))

theorem Validate_kind_extends (env : Env) (V : ValidateFn) (hV : Extending V) (inst : Value)
    (schema : Node) (path : Str) (e e1 : Errors)
    (h : Validate_kind env V inst schema path e = .ok e1) : e <+: e1 := by
  unfold Validate_kind at h
  split at h
  · cases h
    exact List.prefix_refl e
  · split at h
    · exact ValidateObject_extends env V hV _ _ _ _ _ h
    · split at h
      · exact ValidateArray_extends V hV _ _ _ _ _ h
      · split at h
        · exact ValidateString_extends env _ _ _ _ _ h
        · split at h
          · exact ValidateNumber_extends env _ _ _ _ _ h
          · cases h
            exact List.prefix_refl e

theorem Validate_body_extending (env : Env) (refs_root : Value) (refs : List (Ref × Ref))
    (V : ValidateFn) (hV : Extending V) : Extending (Validate_body env refs_root refs V) := by
  intro inst schema path e e1 h
  unfold Validate_body at h
  split at h
  · cases h
    split
    · exact prefix_push e _
    · exact List.prefix_refl e
  · obtain ⟨c, _, h⟩ := bind_ok h
    split at h
    · unfold Validate_ref at h
      split at h
      · obtain ⟨x, _, h⟩ := bind_ok h
        obtain ⟨r, _, h⟩ := bind_ok h
        cases pure_ok h
        exact prefix_push e _
      · exact hV _ _ _ _ _ h
    · obtain ⟨t, ht, h⟩ := bind_ok h
      have hp : e <+: t.2 := by
        unfold Validate_type at ht
        obtain ⟨c2, _, ht⟩ := bind_ok ht
        split at ht
        · obtain ⟨x, _, ht⟩ := bind_ok ht
          exact ValidateType_extends env _ _ _ _ _ ht
        · cases pure_ok ht
          exact List.prefix_refl e
      split at h
      · cases pure_ok h
        exact hp
      · unfold Validate_keywords at h
        obtain ⟨e2, h2, h⟩ := bind_ok h
        obtain ⟨e3, h3, h⟩ := bind_ok h
        obtain ⟨e4, h4, h⟩ := bind_ok h
        obtain ⟨e5, h5, h⟩ := bind_ok h
        obtain ⟨e6, h6, h⟩ := bind_ok h
        obtain ⟨e7, h7, h⟩ := bind_ok h
        refine hp.trans ((Validate_allOf_extends V hV _ _ _ _ _ h2).trans
          ((Validate_anyOf_extends V hV _ _ _ _ _ h3).trans
          ((Validate_oneOf_extends V hV _ _ _ _ _ h4).trans
          ((Validate_not_extends V hV _ _ _ _ _ h5).trans
          ((Validate_if_extends V hV _ _ _ _ _ h6).trans
          ((Validate_const_extends _ _ _ _ _ h7).trans ?_))))))
        unfold Validate_enum_or_kind at h
        obtain ⟨c3, _, h⟩ := bind_ok h
        split at h
        · obtain ⟨x, _, h⟩ := bind_ok h
          exact ValidateEnum_extends _ _ _ _ _ h
        · exact Validate_kind_extends env V hV _ _ _ _ _ h

/-- Every call of `Validate` that returns leaves an error list that extends
the list on entry. -/
theorem Validate_extending (env : Env) (refs_root : Value) (refs : List (Ref × Ref)) :
    ∀ n, Extending (Validate env refs_root refs n) := by
  intro n
  induction n with
  | zero =>
    intro inst schema path e e1 h
    cases h
  | succ n ih => exact Validate_body_extending env refs_root refs _ ih

/-! ## SchemaValidator: oneOf -/

theorem isMember_oneOf_schema (subs : List Value) (key : Str) (h : key ≠ "oneOf".toList) :
    (oneOf_schema subs).isMember key = .ok false := by
  have h2 : ¬ ['o', 'n', 'e', 'O', 'f'] = key := fun hh => h hh.symm
  simp [oneOf_schema, Value.isMember, isMember, h2]

theorem for_each_id {α σ : Type} (f : α → σ → Except Fault σ) (xs : List α) (s : σ)
    (h : ∀ x ∈ xs, f x s = .ok s) : for_each f xs s = .ok s := by
  induction xs with
  | nil => rfl
  | cons x xs ih =>
    unfold for_each
    rw [h x (by simp)]
    exact ih (fun y hy => h y (by simp [hy]))

theorem Validate_kind_oneOf_schema (env : Env) (V : ValidateFn) (inst : Value) (sref : Ref)
    (subs : List Value) (path : Str) (e : Errors) :
    Validate_kind env V inst ⟨sref, oneOf_schema subs⟩ path e = .ok e := by
  have hm : ∀ key : Str, key ≠ "oneOf".toList →
      (oneOf_schema subs).isMember key = .ok false := isMember_oneOf_schema subs
  cases inst with
  | null => rfl
  | bool b => rfl
  | object ms =>
    simp only [Validate_kind, Value.isNull, Value.isBool, Value.isObject, Bool.or_self,
      Bool.false_eq_true, if_false, if_true]
    simp only [ValidateObject, ValidateObject_required, ValidateObject_count,
      ValidateObject_patterns, Node.member_opt, hm _ (by decide : "required".toList ≠ _),
      hm _ (by decide : "minProperties".toList ≠ _),
      hm _ (by decide : "maxProperties".toList ≠ _),
      hm _ (by decide : "properties".toList ≠ _),
      hm _ (by decide : "propertyNames".toList ≠ _),
      hm _ (by decide : "additionalProperties".toList ≠ _),
      hm _ (by decide : "patternProperties".toList ≠ _),
      hm _ (by decide : "dependencies".toList ≠ _),
      bind, Except.bind, pure, Except.pure, Bool.false_eq_true, if_false,
      Value.getMemberNames]
    apply for_each_id
    intro name _
    simp [ValidateObject_member, Value.get, ValidateObject_name, ValidateObject_property,
      ValidateObject_pattern, ValidateObject_additional, ValidateObject_dependency, for_each,
      bind, Except.bind, pure, Except.pure]
  | array xs =>
    simp only [Validate_kind, Value.isNull, Value.isBool, Value.isObject, Value.isArray,
      Bool.or_self, Bool.false_eq_true, if_false, if_true]
    simp only [ValidateArray, ValidateArray_count, ValidateArray_items, ValidateArray_unique,
      ValidateArray_contains, hm _ (by decide : "minItems".toList ≠ _),
      hm _ (by decide : "maxItems".toList ≠ _), hm _ (by decide : "items".toList ≠ _),
      hm _ (by decide : "uniqueItems".toList ≠ _), hm _ (by decide : "contains".toList ≠ _),
      bind, Except.bind, pure, Except.pure, Bool.false_eq_true, if_false]
  | string s =>
    simp only [Validate_kind, Value.isNull, Value.isBool, Value.isObject, Value.isArray,
      Value.isString, Bool.or_self, Bool.false_eq_true, if_false, if_true]
    simp only [ValidateString, ValidateString_bound, Value.asString,
      hm _ (by decide : "minLength".toList ≠ _), hm _ (by decide : "maxLength".toList ≠ _),
      hm _ (by decide : "pattern".toList ≠ _),
      bind, Except.bind, pure, Except.pure, Bool.false_eq_true, if_false]
  | int i =>
    simp only [Validate_kind, Value.isNull, Value.isBool, Value.isObject, Value.isArray,
      Value.isString, Value.isNumeric, Bool.or_self, Bool.false_eq_true, if_false, if_true]
    simp only [ValidateNumber, ValidateNumber_bound, Value.asDouble,
      hm _ (by decide : "minimum".toList ≠ _), hm _ (by decide : "exclusiveMinimum".toList ≠ _),
      hm _ (by decide : "maximum".toList ≠ _), hm _ (by decide : "exclusiveMaximum".toList ≠ _),
      hm _ (by decide : "multipleOf".toList ≠ _),
      bind, Except.bind, pure, Except.pure, Bool.false_eq_true, if_false]
  | uint i =>
    simp only [Validate_kind, Value.isNull, Value.isBool, Value.isObject, Value.isArray,
      Value.isString, Value.isNumeric, Bool.or_self, Bool.false_eq_true, if_false, if_true]
    simp only [ValidateNumber, ValidateNumber_bound, Value.asDouble,
      hm _ (by decide : "minimum".toList ≠ _), hm _ (by decide : "exclusiveMinimum".toList ≠ _),
      hm _ (by decide : "maximum".toList ≠ _), hm _ (by decide : "exclusiveMaximum".toList ≠ _),
      hm _ (by decide : "multipleOf".toList ≠ _),
      bind, Except.bind, pure, Except.pure, Bool.false_eq_true, if_false]
  | real r =>
    simp only [Validate_kind, Value.isNull, Value.isBool, Value.isObject, Value.isArray,
      Value.isString, Value.isNumeric, Bool.or_self, Bool.false_eq_true, if_false, if_true]
    simp only [ValidateNumber, ValidateNumber_bound, Value.asDouble,
      hm _ (by decide : "minimum".toList ≠ _), hm _ (by decide : "exclusiveMinimum".toList ≠ _),
      hm _ (by decide : "maximum".toList ≠ _), hm _ (by decide : "exclusiveMaximum".toList ≠ _),
      hm _ (by decide : "multipleOf".toList ≠ _),
      bind, Except.bind, pure, Except.pure, Bool.false_eq_true, if_false]

theorem oneOf_loop_count (V : ValidateFn) (hV : Extending V) (inst : Value) (sref : Ref)
    (subs : List Value) (errors : Errors)
    (hterm : ∀ i, i < subs.length →
      ∃ r, isValid V inst (oneOf_branch sref subs i) errors = .ok r) :
    ∀ (is : List Nat) (m : Nat), (∀ i ∈ is, i < subs.length) →
      Validate_oneOf_loop V inst ⟨sref ++ [Slot.member "oneOf".toList], .array subs⟩ is m
        errors =
      .ok (m + (is.filter
        (fun i => passes V inst (oneOf_branch sref subs i) errors)).length, errors) := by
  intro is
  induction is with
  | nil =>
    intro m _
    simp [Validate_oneOf_loop]
  | cons i rest ih =>
    intro m hlt
    obtain ⟨r, hr⟩ := hterm i (hlt i (by simp))
    have hrest := isValid_restores V hV _ _ _ _ hr
    have hidx : (Node.mk (sref ++ [Slot.member "oneOf".toList]) (.array subs)).index i =
        .ok (oneOf_branch sref subs i) := rfl
    unfold Validate_oneOf_loop
    rw [hidx]
    simp only
    rw [hr]
    obtain ⟨b, e2⟩ := r
    simp only at hrest
    subst hrest
    simp only
    rw [ih _ (fun j hj => hlt j (by simp [hj]))]
    have hp : passes V inst (oneOf_branch sref subs i) e2 = b := by
      unfold passes
      rw [hr]
      cases b <;> rfl
    rw [List.filter_cons, hp]
    cases b
    · simp
    · simp only [if_true, List.length_cons]
      congr 2
      omega

/-- C19: for every instance and every schema whose only keyword is `oneOf`,
when the isolated trials of the listed sub-schemas return, `Validate` leaves
the error list unchanged if the instance passes exactly one of them, and
otherwise appends exactly one error "Not exactly one of the option schemata
was matched." at the instance path and none of the errors of the trials. -/
theorem Validate_oneOf_only (env : Env) (refs_root : Value) (refs : List (Ref × Ref)) (n : Nat)
    (inst : Value) (sref : Ref) (subs : List Value) (path : Str) (errors : Errors)
    (hterm : ∀ i, i < subs.length →
      ∃ r, isValid (Validate env refs_root refs n) inst (oneOf_branch sref subs i) errors =
        .ok r) :
    Validate env refs_root refs (n + 1) inst ⟨sref, oneOf_schema subs⟩ path errors =
      .ok (if oneOf_passed (Validate env refs_root refs n) inst sref subs errors = 1 then errors
           else errors ++ [⟨path, kOneOfFailed⟩]) := by
  have hm : ∀ key : Str, key ≠ "oneOf".toList →
      (oneOf_schema subs).isMember key = .ok false := isMember_oneOf_schema subs
  have hone : (oneOf_schema subs).isMember "oneOf".toList = .ok true := rfl
  have hget : (Node.mk sref (oneOf_schema subs)).get "oneOf".toList =
      .ok ⟨sref ++ [Slot.member "oneOf".toList], .array subs⟩ := rfl
  have hloop := oneOf_loop_count (Validate env refs_root refs n)
    (Validate_extending env refs_root refs n) inst sref subs errors hterm
    (List.range subs.length) 0 (fun i hi => List.mem_range.1 hi)
  have hkind := Validate_kind_oneOf_schema env (Validate env refs_root refs n) inst sref subs
  show Validate_body env refs_root refs (Validate env refs_root refs n) inst
    ⟨sref, oneOf_schema subs⟩ path errors = _
  unfold Validate_body
  simp only [oneOf_schema]
  simp only [← oneOf_schema.eq_1 subs]
  simp only [Validate_type, Validate_keywords, Validate_allOf, Validate_anyOf, Validate_oneOf,
    Validate_not, Validate_if, Validate_const, Validate_enum_or_kind,
    hm _ (by decide : "$ref".toList ≠ _), hm _ (by decide : "type".toList ≠ _),
    hm _ (by decide : "allOf".toList ≠ _), hm _ (by decide : "anyOf".toList ≠ _),
    hm _ (by decide : "not".toList ≠ _), hm _ (by decide : "if".toList ≠ _),
    hm _ (by decide : "const".toList ≠ _), hm _ (by decide : "enum".toList ≠ _),
    hone, hget, bind, Except.bind, pure, Except.pure, Bool.false_eq_true, if_false, if_true,
    Bool.not_true, Value.size, hloop, hkind, Nat.zero_add]
  unfold oneOf_passed
  by_cases hc : ((List.range subs.length).filter (fun i =>
      passes (Validate env refs_root refs n) inst (oneOf_branch sref subs i) errors)).length = 1
  · simp [hc, hkind]
  · simp [hc, hkind]

/-! ## SchemaValidator: reference loops -/

theorem rat_floor_eq (q : Rat) : q.floor = ⌊q⌋ := rfl

theorem multipleOf_even :
    (((2 : Int) : Rat) != 0 && ((((4 : Int) : Rat) / ((2 : Int) : Rat)).floor : Rat) !=
      ((4 : Int) : Rat) / ((2 : Int) : Rat)) = false := by
  have h : (((4 : Int) : Rat) / ((2 : Int) : Rat)) = ((2 : Int) : Rat) := by norm_num
  rw [h, rat_floor_eq, Int.floor_intCast]
  simp

theorem multipleOf_odd :
    (((2 : Int) : Rat) != 0 && ((((3 : Int) : Rat) / ((2 : Int) : Rat)).floor : Rat) !=
      ((3 : Int) : Rat) / ((2 : Int) : Rat)) = true := by
  have h1 : ((((3 : Int) : Rat) / ((2 : Int) : Rat)).floor) = 1 := by
    rw [rat_floor_eq, Int.floor_eq_iff]
    norm_num
  rw [h1]
  have h2 : (((2 : Int) : Rat) != 0) = true := by
    simp
  have h3 : ((((1 : Int) : Rat)) != ((3 : Int) : Rat) / ((2 : Int) : Rat)) = true := by
    rw [bne_iff_ne]
    norm_num
  rw [h2, h3]
  rfl

theorem Validate_multipleOf_two (a : Int) (sref : Ref) (path : Str) (errors : Errors) :
    Validate example_env schema_oneOf [] 1 (.int a)
        ⟨sref, .object [("multipleOf".toList, .int 2)]⟩ path errors =
      if (((2 : Int) : Rat) != 0 && ((((a : Int) : Rat) / ((2 : Int) : Rat)).floor : Rat) !=
          ((a : Int) : Rat) / ((2 : Int) : Rat)) then
        .ok (errors ++ [⟨path, FormatErrorMessage kNumberDivisible
          (example_env.DoubleToString ((2 : Int) : Rat))⟩])
      else .ok errors := rfl

theorem isValid_integer_branch (a : Int) :
    isValid (Validate example_env schema_oneOf [] 1) (.int a)
      (oneOf_branch [] [.object [("type".toList, .string "integer".toList)],
        .object [("multipleOf".toList, .int 2)]] 0) [] = .ok (true, []) := rfl

theorem isValid_even_branch :
    isValid (Validate example_env schema_oneOf [] 1) (.int 4)
      (oneOf_branch [] [.object [("type".toList, .string "integer".toList)],
        .object [("multipleOf".toList, .int 2)]] 1) [] = .ok (true, []) := by
  unfold isValid oneOf_branch
  rw [show ([.object [("type".toList, .string "integer".toList)],
        .object [("multipleOf".toList, .int 2)]] : List Value).getD 1 .null =
      .object [("multipleOf".toList, .int 2)] from rfl]
  rw [Validate_multipleOf_two, multipleOf_even]
  rfl

theorem isValid_odd_branch :
    isValid (Validate example_env schema_oneOf [] 1) (.int 3)
      (oneOf_branch [] [.object [("type".toList, .string "integer".toList)],
        .object [("multipleOf".toList, .int 2)]] 1) [] = .ok (false, []) := by
  unfold isValid oneOf_branch
  rw [show ([.object [("type".toList, .string "integer".toList)],
        .object [("multipleOf".toList, .int 2)]] : List Value).getD 1 .null =
      .object [("multipleOf".toList, .int 2)] from rfl]
  rw [Validate_multipleOf_two, multipleOf_odd]
  rfl

/-- C19, on the example of the claim: `{"oneOf": [{"type": "integer"},
{"multipleOf": 2}]}` rejects 4 with the single finding and accepts 3. -/
theorem Validate_oneOf_only_witness :
    Validate example_env schema_oneOf [] 2 (.int 4) ⟨[], schema_oneOf⟩ ['/'] [] =
      .ok [⟨['/'], kOneOfFailed⟩] ∧
    Validate example_env schema_oneOf [] 2 (.int 3) ⟨[], schema_oneOf⟩ ['/'] [] = .ok [] := by
  constructor
  · refine (Validate_oneOf_only example_env schema_oneOf [] 1 (.int 4) []
      [.object [("type".toList, .string "integer".toList)],
        .object [("multipleOf".toList, .int 2)]] ['/'] [] ?_).trans ?_
    · intro i hi
      have h2 : i < 2 := hi
      interval_cases i
      · exact ⟨_, isValid_integer_branch 4⟩
      · exact ⟨_, isValid_even_branch⟩
    · have h : oneOf_passed (Validate example_env schema_oneOf [] 1) (.int 4) []
          [.object [("type".toList, .string "integer".toList)],
            .object [("multipleOf".toList, .int 2)]] [] = 2 := by
        have h0 : oneOf_passed (Validate example_env schema_oneOf [] 1) (.int 4) []
            [.object [("type".toList, .string "integer".toList)],
              .object [("multipleOf".toList, .int 2)]] [] =
            ([0, 1].filter (fun i => passes (Validate example_env schema_oneOf [] 1) (.int 4)
              (oneOf_branch [] [.object [("type".toList, .string "integer".toList)],
                .object [("multipleOf".toList, .int 2)]] i) [])).length := rfl
        rw [h0]
        simp only [List.filter, passes, isValid_integer_branch, isValid_even_branch]
        rfl
      rw [h]
      rfl
  · refine (Validate_oneOf_only example_env schema_oneOf [] 1 (.int 3) []
      [.object [("type".toList, .string "integer".toList)],
        .object [("multipleOf".toList, .int 2)]] ['/'] [] ?_).trans ?_
    · intro i hi
      have h2 : i < 2 := hi
      interval_cases i
      · exact ⟨_, isValid_integer_branch 3⟩
      · exact ⟨_, isValid_odd_branch⟩
    · have h : oneOf_passed (Validate example_env schema_oneOf [] 1) (.int 3) []
          [.object [("type".toList, .string "integer".toList)],
            .object [("multipleOf".toList, .int 2)]] [] = 1 := by
        have h0 : oneOf_passed (Validate example_env schema_oneOf [] 1) (.int 3) []
            [.object [("type".toList, .string "integer".toList)],
              .object [("multipleOf".toList, .int 2)]] [] =
            ([0, 1].filter (fun i => passes (Validate example_env schema_oneOf [] 1) (.int 3)
              (oneOf_branch [] [.object [("type".toList, .string "integer".toList)],
                .object [("multipleOf".toList, .int 2)]] i) [])).length := rfl
        rw [h0]
        simp only [List.filter, passes, isValid_integer_branch, isValid_odd_branch]
        rfl
      rw [h]
      rfl

theorem lookup_map_set_self {β : Type} (m : List (Ref × β)) (k : Ref) (v : β) :
    (map_set m k v).lookup k = some v := by
  induction m with
  | nil => simp [map_set, List.lookup]
  | cons p rest ih =>
    obtain ⟨k1, v1⟩ := p
    unfold map_set
    by_cases h : k1 = k
    · subst h
      simp [List.lookup]
    · have h2 : (k == k1) = false := by
        simp only [beq_eq_false_iff_ne, ne_eq]
        exact fun hh => h hh.symm
      simp [h, List.lookup, h2, ih]

theorem lookup_map_set_ne {β : Type} (m : List (Ref × β)) (k k2 : Ref) (v : β) (hne : k2 ≠ k) :
    (map_set m k v).lookup k2 = m.lookup k2 := by
  induction m with
  | nil =>
    have h2 : (k2 == k) = false := by simpa using hne
    simp [map_set, List.lookup, h2]
  | cons p rest ih =>
    obtain ⟨k1, v1⟩ := p
    unfold map_set
    by_cases h : k1 = k
    · subst h
      have h2 : (k2 == k1) = false := by simpa using hne
      simp [List.lookup, h2]
    · simp only [h, if_false, List.lookup]
      cases hk : k2 == k1
      · simpa using ih
      · rfl

theorem lookup_foldl_map_set (seen : List Ref) (t : Ref) :
    ∀ (refs : List (Ref × Ref)) (k : Ref),
      (seen.foldl (fun refs source => map_set refs source t) refs).lookup k =
        if k ∈ seen then some t else refs.lookup k := by
  induction seen with
  | nil => intro refs k; simp
  | cons s rest ih =>
    intro refs k
    simp only [List.foldl_cons, ih, List.mem_cons]
    by_cases hk : k ∈ rest
    · simp [hk]
    · by_cases hs : k = s
      · subst hs
        simp [hk, lookup_map_set_self]
      · simp [hk, hs, lookup_map_set_ne _ _ _ _ hs]

theorem length_map_set_of_lookup {β : Type} (m : List (Ref × β)) (k : Ref) (v : β)
    (h : (m.lookup k).isSome) : (map_set m k v).length = m.length := by
  induction m with
  | nil => simp [List.lookup] at h
  | cons p rest ih =>
    obtain ⟨k1, v1⟩ := p
    unfold map_set
    by_cases hk : k1 = k
    · simp [hk]
    · have h2 : (k == k1) = false := by
        simp only [beq_eq_false_iff_ne, ne_eq]
        exact fun hh => hk hh.symm
      simp only [List.lookup, h2] at h
      simp [hk, ih h]

theorem mem_keys_of_lookup {β : Type} (m : List (Ref × β)) (k : Ref) (v : β)
    (h : m.lookup k = some v) : k ∈ m.map Prod.fst := by
  induction m with
  | nil => simp [List.lookup] at h
  | cons p rest ih =>
    obtain ⟨k1, v1⟩ := p
    simp only [List.lookup] at h
    cases hk : k == k1
    · simp only [hk] at h
      simp [ih h]
    · have : k = k1 := by simpa using hk
      simp [this]

theorem nodup_subset_length (seen keys : List Ref) (hn : seen.Nodup)
    (hs : ∀ c ∈ seen, c ∈ keys) : seen.length ≤ keys.length :=
  (List.subperm_of_subset hn hs).length_le

theorem ref_next_eq_some (refs_root : Value) (refs : List (Ref × Ref)) (x y : Ref) :
    ref_next refs_root refs x = some y ↔
      has_ref (node_at refs_root x).val = true ∧ refs.lookup x = some y := by
  unfold ref_next
  by_cases h : has_ref (node_at refs_root x).val = true
  · simp [h]
  · simp [h]

theorem ref_chain_add (refs_root : Value) (refs : List (Ref × Ref)) (m k : Nat) :
    ∀ x, ref_chain refs_root refs (m + k) x =
      (ref_chain refs_root refs m x).bind (ref_chain refs_root refs k) := by
  induction m with
  | zero => intro x; simp [ref_chain]
  | succ m ih =>
    intro x
    rw [Nat.succ_add]
    simp only [ref_chain]
    cases ref_next refs_root refs x with
    | none => rfl
    | some y => exact ih y

theorem ref_chain_mul (refs_root : Value) (refs : List (Ref × Ref)) (m : Nat) (x : Ref)
    (h : ref_chain refs_root refs m x = some x) :
    ∀ j, ref_chain refs_root refs (j * m) x = some x := by
  intro j
  induction j with
  | zero => simp [ref_chain]
  | succ j ih =>
    rw [Nat.succ_mul, ref_chain_add, ih]
    exact h

theorem immortal_of_cycle (refs_root : Value) (refs : List (Ref × Ref)) (m : Nat) (x : Ref)
    (hm : 0 < m) (h : ref_chain refs_root refs m x = some x) : Immortal refs_root refs x := by
  intro j hj
  have h1 := ref_chain_mul refs_root refs m x h j
  have h2 : j * m = j + (j * m - j) := by
    have : j ≤ j * m := Nat.le_mul_of_pos_right j hm
    omega
  rw [h2, ref_chain_add, hj] at h1
  simp at h1

theorem immortal_next (refs_root : Value) (refs : List (Ref × Ref)) (x : Ref)
    (h : Immortal refs_root refs x) :
    ∃ y, has_ref (node_at refs_root x).val = true ∧ refs.lookup x = some y ∧
      Immortal refs_root refs y := by
  have h1 := h 1
  simp only [ref_chain] at h1
  cases hn : ref_next refs_root refs x with
  | none => simp [hn] at h1
  | some y =>
    have h2 := (ref_next_eq_some refs_root refs x y).mp hn
    refine ⟨y, h2.1, h2.2, ?_⟩
    intro j
    have h3 := h (j + 1)
    simp only [ref_chain, hn] at h3
    exact h3

theorem not_immortal_of_not_has_ref (refs_root : Value) (refs : List (Ref × Ref)) (x : Ref)
    (h : has_ref (node_at refs_root x).val = false) : ¬ Immortal refs_root refs x := by
  intro hi
  obtain ⟨y, h1, _, _⟩ := immortal_next refs_root refs x hi
  rw [h] at h1
  cases h1

theorem asString_not_diverged (env : Env) (v : Value) :
    v.asString env ≠ .error .diverged := by
  cases v <;> simp [Value.asString]

theorem ref_string_not_diverged (env : Env) (v : Value) :
    ref_string env v ≠ .error .diverged := by
  unfold ref_string
  cases v <;> simp [Value.get, asString_not_diverged]

/-- When the loop of `init` over a chain comes to an end, the chain started
at a node from which references come to an end, each node added to
`nodes_seen` is such a node with an entry, and the final target has no
`$ref`. -/
theorem follow_refs_ok (env : Env) (refs_root : Value) (refs : List (Ref × Ref)) (first : Ref) :
    ∀ (n : Nat) (seen : List Ref) (t : Ref) (seen1 : List Ref) (t1 : Ref),
      follow_refs env refs_root refs first n seen t = .ok (seen1, t1) →
      ¬ Immortal refs_root refs t ∧ has_ref (node_at refs_root t1).val = false ∧
      ∀ c ∈ seen1, c ∈ seen ∨ (¬ Immortal refs_root refs c ∧ (refs.lookup c).isSome = true) := by
  intro n
  induction n with
  | zero => intro seen t seen1 t1 h; simp [follow_refs] at h
  | succ n ih =>
    intro seen t seen1 t1 h
    unfold follow_refs at h
    by_cases hr : has_ref (node_at refs_root t).val = true
    · simp only [hr, if_true] at h
      by_cases hs : t ∈ seen
      · simp only [hs, if_true] at h
        split at h <;> cases h
      · simp only [hs, if_false] at h
        cases hl : refs.lookup t with
        | none =>
          simp only [hl] at h
          split at h <;> cases h
        | some t2 =>
          simp only [hl] at h
          obtain ⟨h1, h2, h3⟩ := ih _ _ _ _ h
          have hnt : ¬ Immortal refs_root refs t := by
            intro hi
            obtain ⟨y, _, hy, hiy⟩ := immortal_next refs_root refs t hi
            rw [hl] at hy
            cases hy
            exact h1 hiy
          refine ⟨hnt, h2, ?_⟩
          intro c hc
          rcases h3 c hc with h4 | h4
          · rcases List.mem_append.mp h4 with h5 | h5
            · exact Or.inl h5
            · have : c = t := by simpa using h5
              subst this
              exact Or.inr ⟨hnt, by simp [hl]⟩
          · exact Or.inr h4
    · have hr2 : has_ref (node_at refs_root t).val = false := by simpa using hr
      simp only [hr2] at h
      cases h
      exact ⟨not_immortal_of_not_has_ref refs_root refs t hr2, hr2, fun c hc => Or.inl hc⟩

/-- The loop of `init` over a chain does not run out of iterations when it
is given one more than the number of entries of `refs`. -/
theorem follow_refs_not_diverged (env : Env) (refs_root : Value) (refs : List (Ref × Ref))
    (first : Ref) :
    ∀ (n : Nat) (seen : List Ref) (t : Ref), seen.Nodup →
      (∀ c ∈ seen, c ∈ refs.map Prod.fst) → refs.length + 1 ≤ n + seen.length →
      follow_refs env refs_root refs first n seen t ≠ .error .diverged := by
  intro n
  induction n with
  | zero =>
    intro seen t hn hs hl
    have := nodup_subset_length seen (refs.map Prod.fst) hn hs
    simp at this
    omega
  | succ n ih =>
    intro seen t hn hs hl
    unfold follow_refs
    by_cases hr : has_ref (node_at refs_root t).val = true
    · simp only [hr, if_true]
      by_cases hm : t ∈ seen
      · simp only [hm, if_true]
        have := ref_string_not_diverged env (node_at refs_root first).val
        split
        · rename_i e he
          intro hh
          cases hh
          exact this he
        · simp
      · simp only [hm, if_false]
        cases hl2 : refs.lookup t with
        | none =>
          simp only
          have := ref_string_not_diverged env (node_at refs_root t).val
          split
          · rename_i e he
            intro hh
            cases hh
            exact this he
          · simp
        | some t2 =>
          simp only
          apply ih
          · exact List.nodup_append.mpr ⟨hn, List.nodup_singleton t, by
              intro a ha hb
              have : a = t := by simpa using hb
              subst this
              exact hm ha⟩
          · intro c hc
            rcases List.mem_append.mp hc with h5 | h5
            · exact hs c h5
            · have : c = t := by simpa using h5
              subst this
              exact mem_keys_of_lookup refs c t2 hl2
          · simp
            omega
    · have hr2 : has_ref (node_at refs_root t).val = false := by simpa using hr
      simp [hr2]

/-- The loop of `init` that flattens the chains of references does not run
out of iterations, whatever the entries. -/
theorem init_flatten_not_diverged (env : Env) (refs_root : Value) :
    ∀ (ks : List Ref) (refs : List (Ref × Ref)),
      init_flatten env refs_root ks refs ≠ .error .diverged := by
  intro ks
  induction ks with
  | nil => intro refs; simp [init_flatten]
  | cons first rest ih =>
    intro refs
    unfold init_flatten
    cases hl : refs.lookup first with
    | none => exact ih refs
    | some node =>
      simp only
      by_cases hr : has_ref (node_at refs_root node).val = true
      · simp only [hr, if_true]
        have hf := follow_refs_not_diverged env refs_root refs first (refs.length + 1) [first] node
          (List.nodup_singleton first)
          (by intro c hc
              have : c = first := by simpa using hc
              subst this
              exact mem_keys_of_lookup refs c node hl)
          (by simp)
        split
        · rename_i e he
          intro hh
          cases hh
          exact hf he
        · exact ih _
      · have hr2 : has_ref (node_at refs_root node).val = false := by simpa using hr
        simp only [hr2]
        exact ih refs

/-- With every `$ref` target that is a `$ref` node entered in `refs`, the
loop of `init` over a chain either comes to an end or reports the reference
loop. -/
theorem follow_refs_closed (env : Env) (refs_root : Value) (refs : List (Ref × Ref))
    (first : Ref) (r : Str) (hclosed : Closed refs_root refs)
    (hfirst : ref_string env (node_at refs_root first).val = .ok r) :
    ∀ (n : Nat) (seen : List Ref) (t : Ref), seen.Nodup →
      (∀ c ∈ seen, c ∈ refs.map Prod.fst) → refs.length + 1 ≤ n + seen.length →
      (has_ref (node_at refs_root t).val = true → (refs.lookup t).isSome = true) →
      (∃ res, follow_refs env refs_root refs first n seen t = .ok res) ∨
      follow_refs env refs_root refs first n seen t =
        .error (.exception .SCHEMA_VALIDATION [⟨[], loop_message r⟩]) := by
  intro n
  induction n with
  | zero =>
    intro seen t hn hs hl _
    have := nodup_subset_length seen (refs.map Prod.fst) hn hs
    simp at this
    omega
  | succ n ih =>
    intro seen t hn hs hl ht
    unfold follow_refs
    by_cases hr : has_ref (node_at refs_root t).val = true
    · simp only [hr, if_true]
      by_cases hm : t ∈ seen
      · simp only [hm, if_true, hfirst]
        exact Or.inr rfl
      · simp only [hm, if_false]
        cases hl2 : refs.lookup t with
        | none =>
          have := ht hr
          simp [hl2] at this
        | some t2 =>
          simp only
          apply ih
          · exact List.nodup_append.mpr ⟨hn, List.nodup_singleton t, by
              intro a ha hb
              have : a = t := by simpa using hb
              subst this
              exact hm ha⟩
          · intro c hc
            rcases List.mem_append.mp hc with h5 | h5
            · exact hs c h5
            · have : c = t := by simpa using h5
              subst this
              exact mem_keys_of_lookup refs c t2 hl2
          · simp
            omega
          · exact hclosed t t2 hl2
    · have hr2 : has_ref (node_at refs_root t).val = false := by simpa using hr
      simp only [hr2]
      exact Or.inl ⟨_, rfl⟩

theorem ref_chain_congr (refs_root : Value) (refs refs1 : List (Ref × Ref))
    (h : ∀ c, Immortal refs_root refs c → refs1.lookup c = refs.lookup c) :
    ∀ (j : Nat) (x : Ref), Immortal refs_root refs x →
      ref_chain refs_root refs1 j x = ref_chain refs_root refs j x := by
  intro j
  induction j with
  | zero => intro x _; rfl
  | succ j ih =>
    intro x hx
    obtain ⟨y, hr, hy, hiy⟩ := immortal_next refs_root refs x hx
    have h1 : ref_next refs_root refs x = some y :=
      (ref_next_eq_some refs_root refs x y).mpr ⟨hr, hy⟩
    have h2 : ref_next refs_root refs1 x = some y :=
      (ref_next_eq_some refs_root refs1 x y).mpr ⟨hr, by rw [h x hx]; exact hy⟩
    simp only [ref_chain, h1, h2]
    exact ih y hiy

theorem immortal_congr (refs_root : Value) (refs refs1 : List (Ref × Ref))
    (h : ∀ c, Immortal refs_root refs c → refs1.lookup c = refs.lookup c) (x : Ref)
    (hx : Immortal refs_root refs x) : Immortal refs_root refs1 x := by
  intro j
  rw [ref_chain_congr refs_root refs refs1 h j x hx]
  exact hx j

/-- With every `$ref` target that is a `$ref` node entered in `refs` and a
node left to visit from which references never come to an end, the loop of
`init` that flattens the chains reports a reference loop. -/
theorem init_flatten_loop (env : Env) (refs_root : Value) (x : Ref) :
    ∀ (ks : List Ref) (refs : List (Ref × Ref)), Closed refs_root refs →
      KeysOk env refs_root refs → Immortal refs_root refs x → x ∈ ks →
      ∃ r, init_flatten env refs_root ks refs =
        .error (.exception .SCHEMA_VALIDATION [⟨[], loop_message r⟩]) := by
  intro ks
  induction ks with
  | nil => intro refs _ _ _ hx; cases hx
  | cons first rest ih =>
    intro refs hclosed hkeys hx hmem
    obtain ⟨y, hrx, hlx, hiy⟩ := immortal_next refs_root refs x hx
    unfold init_flatten
    cases hl : refs.lookup first with
    | none =>
      simp only
      have hne : x ≠ first := by
        intro he
        rw [he, hl] at hlx
        cases hlx
      have : x ∈ rest := by
        rcases List.mem_cons.mp hmem with h | h
        · exact absurd h hne
        · exact h
      exact ih refs hclosed hkeys hx this
    | some node =>
      simp only
      by_cases hr : has_ref (node_at refs_root node).val = true
      · simp only [hr, if_true]
        obtain ⟨r, hr1⟩ := hkeys first (by simp [hl])
        have hcases := follow_refs_closed env refs_root refs first r hclosed hr1
          (refs.length + 1) [first] node (List.nodup_singleton first)
          (by intro c hc
              have : c = first := by simpa using hc
              subst this
              exact mem_keys_of_lookup refs c node hl)
          (by simp) (hclosed first node hl)
        rcases hcases with ⟨⟨seen1, t1⟩, hok⟩ | herr
        · rw [hok]
          simp only
          obtain ⟨h1, h2, h3⟩ := follow_refs_ok env refs_root refs first _ _ _ _ _ hok
          have hnf : ¬ Immortal refs_root refs first := by
            intro hi
            obtain ⟨z, _, hz, hiz⟩ := immortal_next refs_root refs first hi
            rw [hl] at hz
            cases hz
            exact h1 hiz
          have hseen : ∀ c ∈ seen1, ¬ Immortal refs_root refs c ∧
              (refs.lookup c).isSome = true := by
            intro c hc
            rcases h3 c hc with h4 | h4
            · have : c = first := by simpa using h4
              subst this
              exact ⟨hnf, by simp [hl]⟩
            · exact h4
          have hne : x ≠ first := by
            intro he
            rw [he] at hx
            exact hnf hx
          have hrest : x ∈ rest := by
            rcases List.mem_cons.mp hmem with h | h
            · exact absurd h hne
            · exact h
          have hlook := lookup_foldl_map_set seen1 t1 refs
          apply ih _ _ _ _ hrest
          · intro k t hk ht
            rw [hlook] at hk
            rw [hlook]
            by_cases hks : k ∈ seen1
            · simp only [hks, if_true] at hk
              cases hk
              rw [h2] at ht
              cases ht
            · simp only [hks, if_false] at hk
              have := hclosed k t hk ht
              by_cases hts : t ∈ seen1
              · simp [hts]
              · simpa [hts] using this
          · intro k hk
            rw [hlook] at hk
            by_cases hks : k ∈ seen1
            · exact hkeys k (hseen k hks).2
            · simp only [hks, if_false] at hk
              exact hkeys k hk
          · apply immortal_congr refs_root refs _ _ x hx
            intro c hc
            rw [hlook]
            have : c ∉ seen1 := fun hcs => (hseen c hcs).1 hc
            simp [this]
        · rw [herr]
          exact ⟨r, rfl⟩
      · have hr2 : has_ref (node_at refs_root node).val = false := by simpa using hr
        simp only [hr2]
        have hne : x ≠ first := by
          intro he
          rw [he, hl] at hlx
          cases hlx
          obtain ⟨z, hrz, _, _⟩ := immortal_next refs_root refs y hiy
          rw [hr2] at hrz
          cases hrz
        have : x ∈ rest := by
          rcases List.mem_cons.mp hmem with h | h
          · exact absurd h hne
          · exact h
        exact ih refs hclosed hkeys hx this

/-! ## SchemaValidator: what the collecting passes establish -/

theorem at_snoc (s : Slot) : ∀ (a : Ref) (v : Value),
    v.at (a ++ [s]) = (v.at a).bind (fun c => c.child s) := by
  intro a
  induction a with
  | nil =>
    intro v
    simp only [List.nil_append, Value.at, Option.some_bind]
    cases v.child s <;> rfl
  | cons x a ih =>
    intro v
    simp only [List.cons_append, Value.at]
    cases v.child x with
    | none => rfl
    | some c => exact ih c

theorem node_get_eq (refs_root : Value) (a : Ref) (key : Str) (c : Node)
    (h : (node_at refs_root a).get key = .ok c) :
    c = node_at refs_root (a ++ [Slot.member key]) := by
  unfold Node.get node_at at h
  unfold node_at
  rw [at_snoc]
  cases hv : refs_root.at a with
  | none =>
    simp only [hv, Option.getD_none, Value.get] at h
    cases h
    rfl
  | some v =>
    simp only [hv, Option.getD_some] at h
    cases v <;> simp only [Value.get] at h <;> cases h <;> rfl

theorem node_index_eq (refs_root : Value) (a : Ref) (i : Nat) (c : Node)
    (h : (node_at refs_root a).index i = .ok c) :
    c = node_at refs_root (a ++ [Slot.index i]) := by
  unfold Node.index node_at at h
  unfold node_at
  rw [at_snoc]
  cases hv : refs_root.at a with
  | none =>
    simp only [hv, Option.getD_none, Value.index] at h
    cases h
    rfl
  | some v =>
    simp only [hv, Option.getD_some] at h
    cases v <;> simp only [Value.index] at h <;> cases h <;>
      simp [Value.child, List.getD_eq_getElem?_getD]

theorem collect_members_rel (refs_root : Value) (M : CollectState → CollectState → Prop)
    (hrefl : ∀ s, M s s) (htrans : ∀ a b c, M a b → M b c → M a c) (C : CollectFn)
    (pr : Bool)
    (hC : ∀ a b st st1, C (node_at refs_root a) b pr st = .ok st1 → M st st1)
    (a : Ref) (b : URI) (st st1 : CollectState)
    (h : collect_members C (node_at refs_root a) b pr st = .ok st1) : M st st1 := by
  unfold collect_members at h
  refine for_each_rel M hrefl htrans _ _ _ _ ?_ h
  intro key _ s s1 hs
  obtain ⟨m, _, hs⟩ := bind_ok hs
  split at hs
  · obtain ⟨child, hchild, hs⟩ := bind_ok hs
    cases node_get_eq refs_root a key child hchild
    split at hs
    · exact hC _ _ _ _ hs
    · cases pure_ok hs
      exact hrefl s
  · cases pure_ok hs
    exact hrefl s

theorem collect_arrays_rel (refs_root : Value) (M : CollectState → CollectState → Prop)
    (hrefl : ∀ s, M s s) (htrans : ∀ a b c, M a b → M b c → M a c) (C : CollectFn)
    (pr : Bool)
    (hC : ∀ a b st st1, C (node_at refs_root a) b pr st = .ok st1 → M st st1)
    (a : Ref) (b : URI) (st st1 : CollectState)
    (h : collect_arrays C (node_at refs_root a) b pr st = .ok st1) : M st st1 := by
  unfold collect_arrays at h
  refine for_each_rel M hrefl htrans _ _ _ _ ?_ h
  intro key _ s s1 hs
  obtain ⟨m, _, hs⟩ := bind_ok hs
  split at hs
  · obtain ⟨member, hmember, hs⟩ := bind_ok hs
    cases node_get_eq refs_root a key member hmember
    split at hs
    · refine for_each_rel M hrefl htrans _ _ _ _ ?_ hs
      intro i _ t t1 ht
      obtain ⟨child, hchild, ht⟩ := bind_ok ht
      cases node_index_eq refs_root _ i child hchild
      exact hC _ _ _ _ ht
    · cases pure_ok hs
      exact hrefl s
  · cases pure_ok hs
    exact hrefl s

theorem collect_objects_rel (refs_root : Value) (M : CollectState → CollectState → Prop)
    (hrefl : ∀ s, M s s) (htrans : ∀ a b c, M a b → M b c → M a c) (C : CollectFn)
    (pr : Bool)
    (hC : ∀ a b st st1, C (node_at refs_root a) b pr st = .ok st1 → M st st1)
    (a : Ref) (b : URI) (st st1 : CollectState)
    (h : collect_objects C (node_at refs_root a) b pr st = .ok st1) : M st st1 := by
  unfold collect_objects at h
  refine for_each_rel M hrefl htrans _ _ _ _ ?_ h
  intro key _ s s1 hs
  obtain ⟨m, _, hs⟩ := bind_ok hs
  split at hs
  · obtain ⟨member, hmember, hs⟩ := bind_ok hs
    cases node_get_eq refs_root a key member hmember
    obtain ⟨names, _, hs⟩ := bind_ok hs
    refine for_each_rel M hrefl htrans _ _ _ _ ?_ hs
    intro name _ t t1 ht
    obtain ⟨child, hchild, ht⟩ := bind_ok ht
    cases node_get_eq refs_root _ name child hchild
    exact hC _ _ _ _ ht
  · cases pure_ok hs
    exact hrefl s

theorem lookup_map_set_isSome {β : Type} (m : List (Ref × β)) (k k2 : Ref) (v : β) :
    ((map_set m k v).lookup k2).isSome = true ↔ k2 = k ∨ (m.lookup k2).isSome = true := by
  by_cases h : k2 = k
  · subst h
    simp [lookup_map_set_self]
  · simp [lookup_map_set_ne m k k2 v h, h]

theorem has_ref_isMember (v : Value) (h : v.isObject = true) :
    v.isMember "$ref".toList = .ok (has_ref v) := by
  cases v <;> simp [Value.isObject] at h
  rfl

theorem collect_node_false (env : Env) (refs_root : Value) (node : Node) (b : URI)
    (st : CollectState) (r : CollectState × URI)
    (h : collect_node env refs_root node b false st = .ok r) :
    r.1.refs = st.refs ∧ r.1.sub_schemata = st.sub_schemata := by
  unfold collect_node at h
  obtain ⟨m, _, h⟩ := bind_ok h
  split at h
  · simp only [Bool.false_eq_true, if_false] at h
    cases pure_ok h
    exact ⟨rfl, rfl⟩
  · obtain ⟨m2, _, h⟩ := bind_ok h
    split at h
    · obtain ⟨idv, _, h⟩ := bind_ok h
      obtain ⟨id, _, h⟩ := bind_ok h
      split at h
      · cases h
      · simp only [Bool.not_false, if_true] at h
        cases pure_ok h
        exact ⟨rfl, rfl⟩
    · cases pure_ok h
      exact ⟨rfl, rfl⟩

theorem collect_node_true (env : Env) (refs_root : Value) (a : Ref) (b : URI)
    (st : CollectState) (r : CollectState × URI)
    (hobj : (node_at refs_root a).val.isObject = true)
    (h : collect_node env refs_root (node_at refs_root a) b true st = .ok r) :
    RefsPass env refs_root st r.1 ∧
      (has_ref (node_at refs_root a).val = true → (r.1.refs.lookup a).isSome = true) := by
  unfold collect_node at h
  rw [has_ref_isMember _ hobj] at h
  obtain ⟨m, hm, h⟩ := bind_ok h
  cases pure_ok hm
  split at h
  · rename_i hr
    simp only [if_true] at h
    obtain ⟨v, hv, h⟩ := bind_ok h
    obtain ⟨ref, href, h⟩ := bind_ok h
    obtain ⟨ref_node, _, h⟩ := bind_ok h
    cases pure_ok h
    refine ⟨⟨rfl, ?_, ?_⟩, ?_⟩
    · intro k hk
      exact (lookup_map_set_isSome _ _ _ _).mpr (Or.inr hk)
    · intro hkeys k hk
      rcases (lookup_map_set_isSome _ _ _ _).mp hk with h1 | h1
      · subst h1
        refine ⟨ref, ?_⟩
        unfold ref_string
        rw [hv]
        exact href
      · exact hkeys k h1
    · intro _
      exact (lookup_map_set_isSome _ _ _ _).mpr (Or.inl rfl)
  · rename_i hr
    have hr2 : has_ref (node_at refs_root a).val = false := by simpa using hr
    have hdone : r.1 = st := by
      obtain ⟨m2, _, h⟩ := bind_ok h
      split at h
      · obtain ⟨idv, _, h⟩ := bind_ok h
        obtain ⟨id, _, h⟩ := bind_ok h
        split at h
        · cases h
        · simp only [Bool.not_true, Bool.false_eq_true, if_false] at h
          cases pure_ok h
          rfl
      · cases pure_ok h
        rfl
    rw [hdone]
    refine ⟨⟨rfl, fun k hk => hk, fun hk => hk⟩, ?_⟩
    intro hh
    rw [hr2] at hh
    cases hh

theorem refsPass_refl (env : Env) (refs_root : Value) (s : CollectState) :
    RefsPass env refs_root s s := ⟨rfl, fun _ hk => hk, fun hk => hk⟩

theorem refsPass_trans (env : Env) (refs_root : Value) (a b c : CollectState)
    (h1 : RefsPass env refs_root a b) (h2 : RefsPass env refs_root b c) :
    RefsPass env refs_root a c :=
  ⟨h2.1.trans h1.1, fun k hk => h2.2.1 k (h1.2.1 k hk), fun hk => h2.2.2 (h1.2.2 hk)⟩

/-- A call of `collect_ids_refs` with `process_refs` true leaves
`sub_schemata` as it was and keeps the entries of `refs`. -/
theorem collect_true_pass (env : Env) (refs_root : Value) :
    ∀ (n : Nat) (a : Ref) (b : URI) (st st1 : CollectState),
      collect_ids_refs env refs_root n (node_at refs_root a) b true st = .ok st1 →
      RefsPass env refs_root st st1 := by
  intro n
  induction n with
  | zero => intro a b st st1 h; cases h
  | succ n ih =>
    intro a b st st1 h
    simp only [collect_ids_refs] at h
    unfold collect_body at h
    simp only [Bool.not_true, Bool.false_eq_true, if_false] at h
    split at h
    · cases pure_ok h
      exact refsPass_refl env refs_root st
    · rename_i hobj
      have hobj2 : (node_at refs_root a).val.isObject = true := by simpa using hobj
      obtain ⟨r, hr, h⟩ := bind_ok h
      obtain ⟨s1, hs1, h⟩ := bind_ok h
      obtain ⟨s2, hs2, h⟩ := bind_ok h
      have h0 := (collect_node_true env refs_root a b st r hobj2 hr).1
      have h1 := collect_members_rel refs_root (RefsPass env refs_root)
        (refsPass_refl env refs_root) (refsPass_trans env refs_root) _ true ih _ _ _ _ hs1
      have h2 := collect_arrays_rel refs_root (RefsPass env refs_root)
        (refsPass_refl env refs_root) (refsPass_trans env refs_root) _ true ih _ _ _ _ hs2
      have h3 := collect_objects_rel refs_root (RefsPass env refs_root)
        (refsPass_refl env refs_root) (refsPass_trans env refs_root) _ true ih _ _ _ _ h
      exact refsPass_trans env refs_root _ _ _ h0
        (refsPass_trans env refs_root _ _ _ h1 (refsPass_trans env refs_root _ _ _ h2 h3))

/-- A call of `collect_ids_refs` with `process_refs` false leaves `refs` as
it was. -/
theorem collect_false_pass (env : Env) (refs_root : Value) :
    ∀ (n : Nat) (a : Ref) (b : URI) (st st1 : CollectState),
      collect_ids_refs env refs_root n (node_at refs_root a) b false st = .ok st1 →
      IdsPass st st1 := by
  intro n
  induction n with
  | zero => intro a b st st1 h; cases h
  | succ n ih =>
    intro a b st st1 h
    simp only [collect_ids_refs] at h
    unfold collect_body at h
    simp only [Bool.not_false, if_true] at h
    split at h
    · cases pure_ok h
      rfl
    · obtain ⟨r, hr, h⟩ := bind_ok h
      obtain ⟨s1, hs1, h⟩ := bind_ok h
      obtain ⟨s2, hs2, h⟩ := bind_ok h
      have h0 := (collect_node_false env refs_root _ b _ r hr).1
      have hrefl : ∀ s : CollectState, IdsPass s s := fun _ => rfl
      have htrans : ∀ x y z : CollectState, IdsPass x y → IdsPass y z → IdsPass x z :=
        fun _ _ _ hxy hyz => Eq.trans hyz hxy
      have h1 := collect_members_rel refs_root IdsPass hrefl htrans _ false ih _ _ _ _ hs1
      have h2 := collect_arrays_rel refs_root IdsPass hrefl htrans _ false ih _ _ _ _ hs2
      have h3 := collect_objects_rel refs_root IdsPass hrefl htrans _ false ih _ _ _ _ h
      unfold IdsPass at *
      rw [h3, h2, h1, h0]

theorem for_each_pair {α σ : Type} (Q : σ → σ → σ → Prop) (M : σ → σ → Prop)
    (hQ : ∀ s1 s2, Q s1 s1 s2)
    (hcomp : ∀ s1 s1a s1b s2a s2b, Q s1 s1a s2a → Q s1a s1b s2b → M s2a s2b → Q s1 s1b s2b)
    (hrefl : ∀ s, M s s) (htrans : ∀ a b c, M a b → M b c → M a c)
    (f g : α → σ → Except Fault σ) :
    ∀ (xs : List α) (s1 s1b s2 s2b : σ),
      (∀ x ∈ xs, ∀ a b, g x a = .ok b → M a b) →
      (∀ x ∈ xs, ∀ a b c d, f x a = .ok b → g x c = .ok d → Q a b d) →
      for_each f xs s1 = .ok s1b → for_each g xs s2 = .ok s2b → Q s1 s1b s2b := by
  intro xs
  induction xs with
  | nil =>
    intro s1 s1b s2 s2b _ _ h1 h2
    cases h1
    cases h2
    exact hQ _ _
  | cons x xs ih =>
    intro s1 s1b s2 s2b hM hstep h1 h2
    unfold for_each at h1 h2
    split at h1
    · rename_i s1a hs1a
      split at h2
      · rename_i s2a hs2a
        have hrest : ∀ y ∈ xs, ∀ a b, g y a = .ok b → M a b :=
          fun y hy => hM y (by simp [hy])
        exact hcomp _ _ _ _ _ (hstep x (by simp) _ _ _ _ hs1a hs2a)
          (ih _ _ _ _ hrest (fun y hy => hstep y (by simp [hy])) h1 h2)
          (for_each_rel M hrefl htrans g xs _ _ hrest h2)
      · cases h2
    · cases h1

theorem covers_refl (refs_root : Value) (s1 s2 : CollectState) : Covers refs_root s1 s1 s2 :=
  fun _ hr => Or.inl hr

theorem covers_comp (env : Env) (refs_root : Value) (s1 s1a s1b s2a s2b : CollectState)
    (h1 : Covers refs_root s1 s1a s2a) (h2 : Covers refs_root s1a s1b s2b)
    (hM : RefsPass env refs_root s2a s2b) : Covers refs_root s1 s1b s2b := by
  intro r hr
  rcases h2 r hr with h3 | h3
  · rcases h1 r h3 with h4 | h4
    · exact Or.inl h4
    · exact Or.inr (fun hh => hM.2.1 r (h4 hh))
  · exact Or.inr h3

theorem collect_members_covers (env : Env) (refs_root : Value) (C : CollectFn)
    (hM : ∀ a b st st1, C (node_at refs_root a) b true st = .ok st1 →
      RefsPass env refs_root st st1)
    (hC : ∀ a b1 b2 s1 s1b s2 s2b, C (node_at refs_root a) b1 false s1 = .ok s1b →
      C (node_at refs_root a) b2 true s2 = .ok s2b → Covers refs_root s1 s1b s2b)
    (a : Ref) (b1 b2 : URI) (s1 s1b s2 s2b : CollectState)
    (h1 : collect_members C (node_at refs_root a) b1 false s1 = .ok s1b)
    (h2 : collect_members C (node_at refs_root a) b2 true s2 = .ok s2b) :
    Covers refs_root s1 s1b s2b := by
  unfold collect_members at h1 h2
  refine for_each_pair (Covers refs_root) (RefsPass env refs_root) (covers_refl refs_root)
    (covers_comp env refs_root) (refsPass_refl env refs_root) (refsPass_trans env refs_root)
    _ _ _ _ _ _ _ ?_ ?_ h1 h2
  · intro key _ s t hs
    obtain ⟨m, _, hs⟩ := bind_ok hs
    split at hs
    · obtain ⟨child, hchild, hs⟩ := bind_ok hs
      cases node_get_eq refs_root a key child hchild
      split at hs
      · exact hM _ _ _ _ hs
      · cases pure_ok hs
        exact refsPass_refl env refs_root s
    · cases pure_ok hs
      exact refsPass_refl env refs_root s
  · intro key _ s t u v hs hu
    obtain ⟨m, hm, hs⟩ := bind_ok hs
    obtain ⟨m2, hm2, hu⟩ := bind_ok hu
    rw [hm] at hm2
    cases hm2
    split at hs
    · rename_i hmt
      simp only [hmt, if_true] at hu
      obtain ⟨child, hchild, hs⟩ := bind_ok hs
      obtain ⟨child2, hchild2, hu⟩ := bind_ok hu
      cases node_get_eq refs_root a key child hchild
      cases node_get_eq refs_root a key child2 hchild2
      split at hs
      · rename_i ho
        simp only [ho, if_true] at hu
        exact hC _ _ _ _ _ _ _ hs hu
      · cases pure_ok hs
        exact covers_refl refs_root s v
    · cases pure_ok hs
      exact covers_refl refs_root s v

theorem collect_arrays_covers (env : Env) (refs_root : Value) (C : CollectFn)
    (hM : ∀ a b st st1, C (node_at refs_root a) b true st = .ok st1 →
      RefsPass env refs_root st st1)
    (hC : ∀ a b1 b2 s1 s1b s2 s2b, C (node_at refs_root a) b1 false s1 = .ok s1b →
      C (node_at refs_root a) b2 true s2 = .ok s2b → Covers refs_root s1 s1b s2b)
    (a : Ref) (b1 b2 : URI) (s1 s1b s2 s2b : CollectState)
    (h1 : collect_arrays C (node_at refs_root a) b1 false s1 = .ok s1b)
    (h2 : collect_arrays C (node_at refs_root a) b2 true s2 = .ok s2b) :
    Covers refs_root s1 s1b s2b := by
  unfold collect_arrays at h1 h2
  refine for_each_pair (Covers refs_root) (RefsPass env refs_root) (covers_refl refs_root)
    (covers_comp env refs_root) (refsPass_refl env refs_root) (refsPass_trans env refs_root)
    _ _ _ _ _ _ _ ?_ ?_ h1 h2
  · intro key _ s t hs
    obtain ⟨m, _, hs⟩ := bind_ok hs
    split at hs
    · obtain ⟨member, hmember, hs⟩ := bind_ok hs
      cases node_get_eq refs_root a key member hmember
      split at hs
      · refine for_each_rel (RefsPass env refs_root) (refsPass_refl env refs_root)
          (refsPass_trans env refs_root) _ _ _ _ ?_ hs
        intro i _ x y hx
        obtain ⟨child, hchild, hx⟩ := bind_ok hx
        cases node_index_eq refs_root _ i child hchild
        exact hM _ _ _ _ hx
      · cases pure_ok hs
        exact refsPass_refl env refs_root s
    · cases pure_ok hs
      exact refsPass_refl env refs_root s
  · intro key _ s t u v hs hu
    obtain ⟨m, hm, hs⟩ := bind_ok hs
    obtain ⟨m2, hm2, hu⟩ := bind_ok hu
    rw [hm] at hm2
    cases hm2
    split at hs
    · rename_i hmt
      simp only [hmt, if_true] at hu
      obtain ⟨member, hmember, hs⟩ := bind_ok hs
      obtain ⟨member2, hmember2, hu⟩ := bind_ok hu
      cases node_get_eq refs_root a key member hmember
      cases node_get_eq refs_root a key member2 hmember2
      split at hs
      · rename_i ho
        simp only [ho, if_true] at hu
        refine for_each_pair (Covers refs_root) (RefsPass env refs_root) (covers_refl refs_root)
          (covers_comp env refs_root) (refsPass_refl env refs_root)
          (refsPass_trans env refs_root) _ _ _ _ _ _ _ ?_ ?_ hs hu
        · intro i _ x y hx
          obtain ⟨child, hchild, hx⟩ := bind_ok hx
          cases node_index_eq refs_root _ i child hchild
          exact hM _ _ _ _ hx
        · intro i _ x y z w hx hz
          obtain ⟨child, hchild, hx⟩ := bind_ok hx
          obtain ⟨child2, hchild2, hz⟩ := bind_ok hz
          cases node_index_eq refs_root _ i child hchild
          cases node_index_eq refs_root _ i child2 hchild2
          exact hC _ _ _ _ _ _ _ hx hz
      · cases pure_ok hs
        exact covers_refl refs_root s v
    · cases pure_ok hs
      exact covers_refl refs_root s v

theorem collect_objects_covers (env : Env) (refs_root : Value) (C : CollectFn)
    (hM : ∀ a b st st1, C (node_at refs_root a) b true st = .ok st1 →
      RefsPass env refs_root st st1)
    (hC : ∀ a b1 b2 s1 s1b s2 s2b, C (node_at refs_root a) b1 false s1 = .ok s1b →
      C (node_at refs_root a) b2 true s2 = .ok s2b → Covers refs_root s1 s1b s2b)
    (a : Ref) (b1 b2 : URI) (s1 s1b s2 s2b : CollectState)
    (h1 : collect_objects C (node_at refs_root a) b1 false s1 = .ok s1b)
    (h2 : collect_objects C (node_at refs_root a) b2 true s2 = .ok s2b) :
    Covers refs_root s1 s1b s2b := by
  unfold collect_objects at h1 h2
  refine for_each_pair (Covers refs_root) (RefsPass env refs_root) (covers_refl refs_root)
    (covers_comp env refs_root) (refsPass_refl env refs_root) (refsPass_trans env refs_root)
    _ _ _ _ _ _ _ ?_ ?_ h1 h2
  · intro key _ s t hs
    obtain ⟨m, _, hs⟩ := bind_ok hs
    split at hs
    · obtain ⟨member, hmember, hs⟩ := bind_ok hs
      cases node_get_eq refs_root a key member hmember
      obtain ⟨names, _, hs⟩ := bind_ok hs
      refine for_each_rel (RefsPass env refs_root) (refsPass_refl env refs_root)
        (refsPass_trans env refs_root) _ _ _ _ ?_ hs
      intro name _ x y hx
      obtain ⟨child, hchild, hx⟩ := bind_ok hx
      cases node_get_eq refs_root _ name child hchild
      exact hM _ _ _ _ hx
    · cases pure_ok hs
      exact refsPass_refl env refs_root s
  · intro key _ s t u v hs hu
    obtain ⟨m, hm, hs⟩ := bind_ok hs
    obtain ⟨m2, hm2, hu⟩ := bind_ok hu
    rw [hm] at hm2
    cases hm2
    split at hs
    · rename_i hmt
      simp only [hmt, if_true] at hu
      obtain ⟨member, hmember, hs⟩ := bind_ok hs
      obtain ⟨member2, hmember2, hu⟩ := bind_ok hu
      cases node_get_eq refs_root a key member hmember
      cases node_get_eq refs_root a key member2 hmember2
      obtain ⟨names, hnames, hs⟩ := bind_ok hs
      obtain ⟨names2, hnames2, hu⟩ := bind_ok hu
      rw [hnames] at hnames2
      cases hnames2
      refine for_each_pair (Covers refs_root) (RefsPass env refs_root) (covers_refl refs_root)
        (covers_comp env refs_root) (refsPass_refl env refs_root)
        (refsPass_trans env refs_root) _ _ _ _ _ _ _ ?_ ?_ hs hu
      · intro name _ x y hx
        obtain ⟨child, hchild, hx⟩ := bind_ok hx
        cases node_get_eq refs_root _ name child hchild
        exact hM _ _ _ _ hx
      · intro name _ x y z w hx hz
        obtain ⟨child, hchild, hx⟩ := bind_ok hx
        obtain ⟨child2, hchild2, hz⟩ := bind_ok hz
        cases node_get_eq refs_root _ name child hchild
        cases node_get_eq refs_root _ name child2 hchild2
        exact hC _ _ _ _ _ _ _ hx hz
    · cases pure_ok hs
      exact covers_refl refs_root s v

theorem mem_set_insert (s : List Ref) (x y : Ref) :
    x ∈ set_insert s y ↔ x ∈ s ∨ x = y := by
  unfold set_insert
  by_cases h : y ∈ s
  · simp only [h, if_true]
    constructor
    · exact Or.inl
    · rintro (h1 | h1)
      · exact h1
      · rw [h1]
        exact h
  · simp [h]

theorem has_ref_isObject (v : Value) (h : has_ref v = true) : v.isObject = true := by
  cases v <;> simp [has_ref] at h
  rfl

/-- Every node a call of `collect_ids_refs` with `process_refs` false adds to
`sub_schemata` gets an entry in `refs` from the call with `process_refs`
true on the same node, if it is a `$ref` node. -/
theorem collect_covers (env : Env) (refs_root : Value) :
    ∀ (n : Nat) (a : Ref) (b1 b2 : URI) (s1 s1b s2 s2b : CollectState),
      collect_ids_refs env refs_root n (node_at refs_root a) b1 false s1 = .ok s1b →
      collect_ids_refs env refs_root n (node_at refs_root a) b2 true s2 = .ok s2b →
      Covers refs_root s1 s1b s2b := by
  intro n
  induction n with
  | zero => intro a b1 b2 s1 s1b s2 s2b h; cases h
  | succ n ih =>
    intro a b1 b2 s1 s1b s2 s2b h1 h2
    simp only [collect_ids_refs] at h1 h2
    unfold collect_body at h1 h2
    simp only [Bool.not_false, if_true] at h1
    simp only [Bool.not_true, Bool.false_eq_true, if_false] at h2
    by_cases hobj : (node_at refs_root a).val.isObject = true
    · simp only [hobj, Bool.not_true, Bool.false_eq_true, if_false] at h1 h2
      obtain ⟨r1, hr1, h1⟩ := bind_ok h1
      obtain ⟨m1, hm1, h1⟩ := bind_ok h1
      obtain ⟨a1, ha1, h1⟩ := bind_ok h1
      obtain ⟨r2, hr2, h2⟩ := bind_ok h2
      obtain ⟨m2, hm2, h2⟩ := bind_ok h2
      obtain ⟨a2, ha2, h2⟩ := bind_ok h2
      have hn1 := collect_node_false env refs_root _ _ _ _ hr1
      have hn2 := collect_node_true env refs_root a b2 s2 r2 hobj hr2
      have hp := collect_true_pass env refs_root n
      have c0 : Covers refs_root s1 r1.1 r2.1 := by
        intro r hr
        rw [hn1.2] at hr
        rcases (mem_set_insert _ _ _).mp hr with h3 | h3
        · exact Or.inl h3
        · refine Or.inr ?_
          intro hh
          have h4 : r = a := h3
          rw [h4] at hh ⊢
          exact hn2.2 hh
      have c1 := collect_members_covers env refs_root _ hp ih _ _ _ _ _ _ _ hm1 hm2
      have c2 := collect_arrays_covers env refs_root _ hp ih _ _ _ _ _ _ _ ha1 ha2
      have c3 := collect_objects_covers env refs_root _ hp ih _ _ _ _ _ _ _ h1 h2
      have p1 := collect_members_rel refs_root (RefsPass env refs_root)
        (refsPass_refl env refs_root) (refsPass_trans env refs_root) _ true hp _ _ _ _ hm2
      have p2 := collect_arrays_rel refs_root (RefsPass env refs_root)
        (refsPass_refl env refs_root) (refsPass_trans env refs_root) _ true hp _ _ _ _ ha2
      have p3 := collect_objects_rel refs_root (RefsPass env refs_root)
        (refsPass_refl env refs_root) (refsPass_trans env refs_root) _ true hp _ _ _ _ h2
      exact covers_comp env refs_root _ _ _ _ _
        (covers_comp env refs_root _ _ _ _ _ (covers_comp env refs_root _ _ _ _ _ c0 c1 p1)
          c2 p2) c3 p3
    · have hobj2 : (node_at refs_root a).val.isObject = false := by simpa using hobj
      simp only [hobj2, Bool.not_false, if_true] at h1 h2
      cases pure_ok h1
      cases pure_ok h2
      intro r hr
      rcases (mem_set_insert _ _ _).mp hr with h3 | h3
      · exact Or.inl h3
      · refine Or.inr ?_
        intro hh
        have h4 : r = a := h3
        rw [h4] at hh
        rw [has_ref_isObject _ hh] at hobj2
        cases hobj2

/-- The two calls of `init` on a node keep the maps collected. -/
theorem collect_both_collected (env : Env) (refs_root : Value) (r : Ref)
    (st st1 : CollectState) (hst : Collected env refs_root st)
    (h : collect_both env refs_root r st = .ok st1) : Collected env refs_root st1 := by
  unfold collect_both at h
  obtain ⟨sa, hsa, h⟩ := bind_ok h
  have hf : sa.refs = st.refs := collect_false_pass env refs_root _ _ _ _ _ hsa
  have ht := collect_true_pass env refs_root _ _ _ _ _ h
  have hc := collect_covers env refs_root _ _ _ _ _ _ _ _ hsa h
  constructor
  · intro x hx hr
    rw [ht.1] at hx
    rcases hc x hx with h1 | h1
    · have h2 := hst.1 x h1 hr
      rw [← hf] at h2
      exact ht.2.1 x h2
    · exact h1 hr
  · apply ht.2.2
    rw [hf]
    exact hst.2

theorem for_each_inv {α σ : Type} (P : σ → Prop) (f : α → σ → Except Fault σ) (xs : List α)
    (s s1 : σ) (hstep : ∀ x ∈ xs, ∀ a b, f x a = .ok b → P a → P b)
    (h : for_each f xs s = .ok s1) (hs : P s) : P s1 :=
  for_each_rel (fun a b => P a → P b) (fun _ h => h) (fun _ _ _ h1 h2 h => h2 (h1 h)) f xs s s1
    hstep h hs

theorem init_definitions_collected (env : Env) (meta_errors : Option (Value → Errors))
    (refs_root : Value) (st st1 : CollectState) (hst : Collected env refs_root st)
    (h : init_definitions env meta_errors refs_root st = .ok st1) :
    Collected env refs_root st1 := by
  unfold init_definitions at h
  obtain ⟨d, _, h⟩ := bind_ok h
  obtain ⟨names, _, h⟩ := bind_ok h
  refine for_each_inv (Collected env refs_root) _ _ _ _ ?_ h hst
  intro key _ a b hab ha
  obtain ⟨schema, _, hab⟩ := bind_ok hab
  obtain ⟨u, _, hab⟩ := bind_ok hab
  exact collect_both_collected env refs_root _ _ _ ha hab

theorem set_insert_ne_nil (s : List Ref) (x : Ref) : set_insert s x ≠ [] := by
  unfold set_insert
  by_cases h : x ∈ s
  · simp only [h, if_true]
    intro hs
    rw [hs] at h
    cases h
  · simp [h]

theorem new_sub_schemata_nil (meta_errors : Option (Value → Errors)) (refs_root : Value)
    (sub : List Ref) :
    ∀ (xs : List (Ref × Ref)) (acc : List Ref),
      for_each (fun (pair : Ref × Ref) new_sub_schemata => do
        if pair.2 ∈ sub then pure new_sub_schemata
        else
          meta_check meta_errors (node_at refs_root pair.2).val []
          pure (set_insert new_sub_schemata pair.2)) xs acc = .ok [] →
      ∀ p ∈ xs, p.2 ∈ sub := by
  intro xs
  induction xs with
  | nil => intro acc _ p hp; cases hp
  | cons x xs ih =>
    intro acc h p hp
    unfold for_each at h
    split at h
    · rename_i acc1 hacc1
      by_cases hx : x.2 ∈ sub
      · rcases List.mem_cons.mp hp with h1 | h1
        · rw [h1]
          exact hx
        · exact ih acc1 h p h1
      · exfalso
        simp only [hx, if_false] at hacc1
        obtain ⟨u, _, hacc1⟩ := bind_ok hacc1
        cases pure_ok hacc1
        have hmono : ∀ (ys : List (Ref × Ref)) (acc2 : List Ref), acc2 ≠ [] →
            for_each (fun (pair : Ref × Ref) new_sub_schemata => do
              if pair.2 ∈ sub then pure new_sub_schemata
              else
                meta_check meta_errors (node_at refs_root pair.2).val []
                pure (set_insert new_sub_schemata pair.2)) ys acc2 ≠ .ok [] := by
          intro ys
          induction ys with
          | nil =>
            intro acc2 hne hh
            cases hh
            exact hne rfl
          | cons y ys ih2 =>
            intro acc2 hne hh
            unfold for_each at hh
            split at hh
            · rename_i acc3 hacc3
              by_cases hy : y.2 ∈ sub
              · simp only [hy, if_true] at hacc3
                cases pure_ok hacc3
                exact ih2 _ hne hh
              · simp only [hy, if_false] at hacc3
                obtain ⟨u2, _, hacc3⟩ := bind_ok hacc3
                cases pure_ok hacc3
                exact ih2 _ (set_insert_ne_nil _ _) hh
            · cases hh
        exact hmono xs _ (set_insert_ne_nil _ _) h
    · cases h

theorem mem_of_lookup {β : Type} (m : List (Ref × β)) (k : Ref) (v : β)
    (h : m.lookup k = some v) : (k, v) ∈ m := by
  induction m with
  | nil => simp [List.lookup] at h
  | cons p rest ih =>
    obtain ⟨k1, v1⟩ := p
    simp only [List.lookup] at h
    cases hk : k == k1
    · simp only [hk] at h
      exact List.mem_cons_of_mem _ (ih h)
    · simp only [hk] at h
      cases h
      have : k = k1 := by simpa using hk
      simp [this]

/-- When the `do ... while` loop of `init` ends, the maps are collected and
every target of `refs` is in `sub_schemata`. -/
theorem init_discover_collected (env : Env) (meta_errors : Option (Value → Errors))
    (refs_root : Value) :
    ∀ (n : Nat) (st st1 : CollectState), Collected env refs_root st →
      init_discover env meta_errors refs_root n st = .ok st1 →
      Collected env refs_root st1 ∧ ∀ p ∈ st1.refs, p.2 ∈ st1.sub_schemata := by
  intro n
  induction n with
  | zero => intro st st1 _ h; cases h
  | succ n ih =>
    intro st st1 hst h
    unfold init_discover at h
    split at h
    · cases h
    · rename_i new hnew
      split at h
      · cases h
      · rename_i sa hsa
        have hca : Collected env refs_root sa := by
          refine for_each_inv (Collected env refs_root) _ _ _ _ ?_ hsa hst
          intro r _ a b hab ha
          exact collect_both_collected env refs_root _ _ _ ha hab
        split at h
        · rename_i hempty
          cases h
          have hnil : new = [] := by simpa using hempty
          subst hnil
          cases hsa
          refine ⟨hst, ?_⟩
          unfold init_new_sub_schemata at hnew
          exact new_sub_schemata_nil meta_errors refs_root _ _ _ hnew
        · exact ih _ _ hca h

/-- After the collecting part of `init`, every `$ref` target that is a
`$ref` node has an entry in `refs`, and every node with an entry has a `$ref`
that converts to a string. -/
theorem init_collect_closed (env : Env) (meta_errors : Option (Value → Errors))
    (refs_root : Value) (options : Options) (schema_root : Ref) (st : CollectState)
    (h : init_collect env meta_errors refs_root options = .ok (schema_root, st)) :
    Closed refs_root st.refs ∧ KeysOk env refs_root st.refs := by
  unfold init_collect at h
  obtain ⟨root, _, h⟩ := bind_ok h
  obtain ⟨u, _, h⟩ := bind_ok h
  obtain ⟨s0, hs0, h⟩ := bind_ok h
  obtain ⟨s1, hs1, h⟩ := bind_ok h
  obtain ⟨s2, hs2, h⟩ := bind_ok h
  obtain ⟨s3, hs3, h⟩ := bind_ok h
  cases pure_ok h
  have h0 : Collected env refs_root s0 := by
    have hrefs : s0.refs = [] ∧ s0.sub_schemata = [] := by
      unfold init_root_id at hs0
      split at hs0
      · obtain ⟨m, _, hs0⟩ := bind_ok hs0
        split at hs0 <;> cases pure_ok hs0 <;> exact ⟨rfl, rfl⟩
      · cases pure_ok hs0
        exact ⟨rfl, rfl⟩
    constructor
    · intro r hr
      rw [hrefs.2] at hr
      cases hr
    · intro k hk
      rw [hrefs.1] at hk
      simp [List.lookup] at hk
  have h1 : Collected env refs_root s1 := by
    unfold init_root_definitions at hs1
    split at hs1
    · obtain ⟨m, _, hs1⟩ := bind_ok hs1
      split at hs1
      · exact init_definitions_collected env meta_errors refs_root _ _ h0 hs1
      · cases pure_ok hs1
        exact h0
    · cases pure_ok hs1
      exact h0
  have h2 := collect_both_collected env refs_root _ _ _ h1 hs2
  obtain ⟨h3, h4⟩ := init_discover_collected env meta_errors refs_root _ _ _ h2 hs3
  refine ⟨?_, h3.2⟩
  intro k t hk ht
  exact h3.1 t (h4 (k, t) (mem_of_lookup _ _ _ hk)) ht

/-! ## SchemaValidator: the reference loop is reported -/

/-- C15 as stated fails: in `{"$ref": "#", "properties": {"p": {"$ref":
"#/nope"}}}` the `$ref` of the document resolves to the document itself, so
following it revisits a node, and construction fails with a POINTER
exception for the other `$ref`, not with the reference loop. -/
theorem init_loop_unresolved :
    has_ref (node_at schema_loop_dangling []).val = true ∧
    (∀ env : Env, resolve_ref env schema_loop_dangling [([], [])] URI.empty "#".toList = .ok []) ∧
    (∀ env : Env, ∃ e, SchemaValidator.init env none schema_loop_dangling ⟨[]⟩ =
      .error (.exception .POINTER [⟨[], env.what e⟩])) := by
  refine ⟨rfl, fun env => rfl, fun env => ⟨_, rfl⟩⟩

/-- C15 as amended: when the part of `init` that collects the ids and the
references completes (meta-schema validation bypassed or passing, every
`$ref` resolved) and following `$ref` targets from some `$ref` node revisits
a node, construction fails with a SCHEMA_VALIDATION exception "reference
loop including '...'", in whatever order the entries of `refs` are visited;
the loop that follows the chains never exhausts its iterations, whatever the
entries; and construction fails so for `{"$ref": "#/definitions/a",
"definitions": {"a": {"$ref": "#/definitions/a"}}}` and for `{"$ref": "#"}`. -/
theorem init_reference_loop :
    (∀ (env : Env) (meta_errors : Option (Value → Errors)) (refs_root : Value)
        (options : Options) (schema_root : Ref) (st : CollectState),
      init_collect env meta_errors refs_root options = .ok (schema_root, st) →
      RefCycle refs_root st.refs →
      (∃ r, SchemaValidator.init env meta_errors refs_root options =
        .error (.exception .SCHEMA_VALIDATION [⟨[], loop_message r⟩])) ∧
      ∀ ks : List Ref, (∀ k ∈ st.refs.map Prod.fst, k ∈ ks) →
        ∃ r, init_flatten env refs_root ks st.refs =
          .error (.exception .SCHEMA_VALIDATION [⟨[], loop_message r⟩])) ∧
    (∀ (env : Env) (refs_root : Value) (ks : List Ref) (refs : List (Ref × Ref)),
      init_flatten env refs_root ks refs ≠ .error .diverged) ∧
    (∀ env : Env, SchemaValidator.init env none schema_loop ⟨[]⟩ =
      .error (.exception .SCHEMA_VALIDATION [⟨[], loop_message "#/definitions/a".toList⟩])) ∧
    (∀ env : Env, SchemaValidator.init env none schema_self ⟨[]⟩ =
      .error (.exception .SCHEMA_VALIDATION [⟨[], loop_message "#".toList⟩])) := by
  refine ⟨?_, fun env refs_root ks refs => init_flatten_not_diverged env refs_root ks refs,
    fun env => rfl, fun env => rfl⟩
  intro env meta_errors refs_root options schema_root st hc hcycle
  obtain ⟨hclosed, hkeys⟩ := init_collect_closed env meta_errors refs_root options _ _ hc
  obtain ⟨x, m, hm, hx⟩ := hcycle
  have hi := immortal_of_cycle refs_root st.refs m x hm hx
  obtain ⟨y, _, hy, _⟩ := immortal_next refs_root st.refs x hi
  have hmem := mem_keys_of_lookup st.refs x y hy
  constructor
  · obtain ⟨r, hr⟩ := init_flatten_loop env refs_root x _ _ hclosed hkeys hi hmem
    refine ⟨r, ?_⟩
    unfold SchemaValidator.init
    rw [hc]
    simp only
    rw [hr]
  · intro ks hks
    exact init_flatten_loop env refs_root x ks _ hclosed hkeys hi (hks x hmem)

/-- C15, on the first example of the claim: the collecting part of `init`
completes, the `$ref` of `definitions/a` designates `definitions/a`, and
construction reports a reference loop. -/
theorem init_reference_loop_witness :
    init_collect example_env none schema_loop ⟨[]⟩ = .ok ([], schema_loop_state) ∧
    RefCycle schema_loop schema_loop_state.refs ∧
    ∃ r, SchemaValidator.init example_env none schema_loop ⟨[]⟩ =
      .error (.exception .SCHEMA_VALIDATION [⟨[], loop_message r⟩]) :=
  ⟨rfl, ⟨[Slot.member "definitions".toList, Slot.member "a".toList], 1, by decide, rfl⟩,
    (init_reference_loop.1 example_env none schema_loop ⟨[]⟩ [] schema_loop_state rfl
      ⟨[Slot.member "definitions".toList, Slot.member "a".toList], 1, by decide, rfl⟩).1⟩

/-! ## SchemaValidator: messages, validate, `$ref`, `enum` -/

/-- C29, at a failing input: `FormatErrorMessage("Expected '*' but got '*'.",
"a*b", "integer")` is "Expected 'aintegerb' but got '*'.", not "Expected 'a*b'
but got 'integer'.": the second replacement starts again at offset 0 and
replaces the '*' that the first argument brought in.  The validator records
this message for the instance 1 against `{"type": "a*b"}`. -/
theorem FormatErrorMessage_star_in_argument :
    FormatErrorMessage2 kInvalidType "a*b".toList "integer".toList =
      "Expected 'aintegerb' but got '*'.".toList ∧
    FormatErrorMessage2 kInvalidType "a*b".toList "integer".toList ≠
      "Expected 'a*b' but got 'integer'.".toList ∧
    (∀ (env : Env) (n : Nat),
      outcome ((plain_validator schema_type_star).validate env (n + 1) (.int 1)) =
        .ok (false, [⟨"/".toList, "Expected 'aintegerb' but got '*'.".toList⟩])) := by
  refine ⟨by rfl, by decide, fun env n => by rfl⟩

/-- C28: `validate` returns true if and only if the error list it leaves is
empty; the result and the error list do not depend on the error list the
validator held before the call; and after validating `y`, validating `x`
gives what validating `x` gives on the validator before. -/
theorem validate_clears_errors :
    (∀ (env : Env) (n : Nat) (v : SchemaValidator) (inst : Value) (b : Bool)
        (v1 : SchemaValidator),
      v.validate env n inst = .ok (b, v1) → (b = true ↔ v1.errors_ = [])) ∧
    (∀ (env : Env) (n : Nat) (v : SchemaValidator) (e : Errors) (inst : Value),
      SchemaValidator.validate env n { v with errors_ := e } inst =
        SchemaValidator.validate env n { v with errors_ := [] } inst) ∧
    (∀ (env : Env) (n : Nat) (v : SchemaValidator) (x y : Value) (b : Bool)
        (v1 : SchemaValidator),
      v.validate env n y = .ok (b, v1) → v1.validate env n x = v.validate env n x) := by
  refine ⟨?_, ?_, ?_⟩
  · intro env n v inst b v1 h
    unfold SchemaValidator.validate at h
    split at h
    · rename_i errors _
      cases h
      cases errors <;> simp
    · cases h
  · intro env n v e inst
    rfl
  · intro env n v x y b v1 h
    unfold SchemaValidator.validate at h
    split at h
    · cases h
      rfl
    · cases h

/-- Witness of `validate_clears_errors`: after `{"y": 1}`, which leaves two
errors, `{"x": 1}` is validated as on the validator before. -/
theorem validate_clears_errors_witness :
    SchemaValidator.validate example_env 2
        { plain_validator schema_object_x with
          errors_ := [⟨"/".toList, "Required property x is missing.".toList⟩,
            ⟨"/y".toList, "Unexpected property.".toList⟩] }
        (.object [("x".toList, .int 1)]) =
      (plain_validator schema_object_x).validate example_env 2
        (.object [("x".toList, .int 1)]) :=
  validate_clears_errors.2.2 example_env 2 (plain_validator schema_object_x)
    (.object [("x".toList, .int 1)]) (.object [("y".toList, .int 1)]) false _ rfl

theorem isMember_of_member_get (ms : List (Str × Value)) (key : Str) (v : Value)
    (h : member_get ms key = some v) : isMember ms key = true := by
  induction ms with
  | nil => cases h
  | cons m ms ih =>
    obtain ⟨k, w⟩ := m
    unfold member_get at h
    unfold isMember
    by_cases hk : k = key
    · simp [hk]
    · simp only [hk, if_false] at h
      have := ih h
      unfold isMember at this
      simp [this]

/-- C24: for a schema node that has a `$ref` member and an entry in `refs`
with target T, `Validate` is the call of `Validate` for T with the same
instance, path and error list, whatever the other members of the node; the
validator constructed for `{"$ref": "#/definitions/a", "type": "string",
"definitions": {"a": {}}}` accepts 1. -/
theorem Validate_ref_target :
    (∀ (env : Env) (refs_root : Value) (refs : List (Ref × Ref)) (n : Nat) (inst : Value)
        (sref : Ref) (ms : List (Str × Value)) (target : Ref) (path : Str) (errors : Errors),
      isMember ms "$ref".toList = true → refs.lookup sref = some target →
      Validate env refs_root refs (n + 1) inst ⟨sref, .object ms⟩ path errors =
        Validate env refs_root refs n inst ⟨target, (refs_root.at target).getD .null⟩
          path errors) ∧
    (∀ env : Env,
      SchemaValidator.init env none schema_ref_sibling ⟨[]⟩ = .ok ref_sibling_validator) ∧
    (∀ (env : Env) (n : Nat),
      outcome (ref_sibling_validator.validate env (n + 2) (.int 1)) = .ok (true, [])) := by
  refine ⟨?_, fun env => rfl, fun env n => rfl⟩
  intro env refs_root refs n inst sref ms target path errors hm hl
  simp only [Validate]
  unfold Validate_body
  simp only [Value.isMember, hm]
  show Validate_ref env refs_root refs _ inst _ path errors = _
  unfold Validate_ref
  simp only [hl]

/-- Witness of `Validate_ref_target`: the document node of the example. -/
theorem Validate_ref_target_witness :
    Validate example_env schema_ref_sibling ref_sibling_validator.refs 2 (.int 1)
        ⟨[], schema_ref_sibling⟩ ['/'] [] =
      Validate example_env schema_ref_sibling ref_sibling_validator.refs 1 (.int 1)
        ⟨[Slot.member "definitions".toList, Slot.member "a".toList], .object []⟩ ['/'] [] :=
  Validate_ref_target.1 example_env schema_ref_sibling ref_sibling_validator.refs 1 (.int 1) []
    _ [Slot.member "definitions".toList, Slot.member "a".toList] ['/'] [] rfl rfl

/-- C23: for a schema node whose `enum` member is an array, the end of
`Validate` is the `enum` check alone: the error list is left as it is when
some element of the array equals the instance, and gets the one error "Value
does not match any valid enum choices." at the path otherwise; the checks for
the kind of the instance are not run.  `{"enum": [5], "minimum": 10}` accepts
5. -/
theorem Validate_enum_replaces_kind :
    (∀ (env : Env) (V : ValidateFn) (inst : Value) (sref : Ref) (ms : List (Str × Value))
        (xs : List Value) (path : Str) (errors : Errors),
      member_get ms "enum".toList = some (.array xs) →
      Validate_enum_or_kind env V inst ⟨sref, .object ms⟩ path errors =
        .ok (if xs.any (fun c => Value.eq c inst) then errors
             else errors ++ [⟨path, kInvalidEnum⟩])) ∧
    (∀ (env : Env) (n : Nat),
      outcome ((plain_validator schema_enum_minimum).validate env (n + 1) (.int 5)) =
        .ok (true, [])) := by
  refine ⟨?_, fun env n => rfl⟩
  intro env V inst sref ms xs path errors h
  unfold Validate_enum_or_kind
  simp only [Value.isMember, isMember_of_member_get ms _ _ h, Value.get, h]
  rfl

/-- Witness of `Validate_enum_replaces_kind`: the instance 7 against
`{"enum": [5], "minimum": 10}` gets the one `enum` error. -/
theorem Validate_enum_replaces_kind_witness :
    Validate_enum_or_kind example_env (Validate example_env schema_enum_minimum [] 0) (.int 7)
        ⟨[], schema_enum_minimum⟩ ['/'] [] = .ok [⟨['/'], kInvalidEnum⟩] :=
  Validate_enum_replaces_kind.1 example_env _ (.int 7) [] _ [.int 5] ['/'] [] rfl

/-! ## SchemaValidator: the `type` keyword -/

theorem ValidateSimpleType_false (inst : Value) (t path : Str) (e e1 : Errors)
    (h : ValidateSimpleType inst t path e = (false, e1)) :
    e1 = e ++ [⟨path, FormatErrorMessage2 kInvalidType t (GetSchemaType inst)⟩] := by
  unfold ValidateSimpleType at h
  simp only at h
  split at h
  · cases h
  · cases h
    rfl

theorem ValidateChoices_loop_false (env : Env) (inst : Value) (path : Str) (e0 : Errors) :
    ∀ (choices : List Value) (e1 : Errors),
      ValidateChoices_loop env inst path e0.length choices e0 = .ok (false, e1) →
      e1 = e0 ++ [⟨path, kInvalidChoice⟩] := by
  intro choices
  induction choices with
  | nil =>
    intro e1 h
    cases h
    rfl
  | cons c rest ih =>
    intro e1 h
    unfold ValidateChoices_loop at h
    split at h
    · cases h
    · rename_i t ht
      simp only at h
      split at h
      · cases h
      · rw [resize_of_extends e0 _ (ValidateSimpleType_extends inst t path e0)] at h
        exact ih e1 h

theorem ValidateType_false (env : Env) (inst type : Value) (path : Str) (e e1 : Errors)
    (h : ValidateType env inst type path e = .ok (false, e1)) :
    ∃ message, e1 = e ++ [⟨path, message⟩] := by
  unfold ValidateType at h
  split at h
  · exact ⟨_, ValidateChoices_loop_false env inst path e _ e1 h⟩
  · split at h
    · cases h
    · split at h
      · cases h
        exact ⟨_, rfl⟩
      · injection h with h
        exact ⟨_, ValidateSimpleType_false inst _ path e e1 h⟩

/-- C22: for every instance and every object schema without `$ref` whose
`type` member the instance does not satisfy, `Validate` returns with the
error list that `ValidateType` leaves, which is the list on entry with exactly
one error more, at the instance path; no other keyword of the node adds
anything, and no nested call is made. -/
theorem Validate_type_mismatch (env : Env) (refs_root : Value) (refs : List (Ref × Ref))
    (n : Nat) (inst : Value) (sref : Ref) (ms : List (Str × Value)) (t : Value) (path : Str)
    (errors e1 : Errors)
    (href : isMember ms "$ref".toList = false)
    (htype : member_get ms "type".toList = some t)
    (hmis : ValidateType env inst t path errors = .ok (false, e1)) :
    Validate env refs_root refs (n + 1) inst ⟨sref, .object ms⟩ path errors = .ok e1 ∧
    ∃ message, e1 = errors ++ [⟨path, message⟩] := by
  refine ⟨?_, ValidateType_false env inst t path errors e1 hmis⟩
  simp only [Validate]
  unfold Validate_body
  simp only [Value.isMember, href]
  show (Validate_type env inst _ path errors >>= _) = _
  unfold Validate_type
  simp only [Value.isMember, isMember_of_member_get ms _ _ htype, Value.get, htype]
  show (ValidateType env inst t path errors >>= _) = _
  rw [hmis]
  rfl

/-- Witness of `Validate_type_mismatch`: the instance 1 against `{"type":
"string"}`. -/
theorem Validate_type_mismatch_witness :
    Validate example_env schema_type_string [] 1 (.int 1) ⟨[], schema_type_string⟩ ['/'] [] =
      .ok [⟨['/'], "Expected 'string' but got 'integer'.".toList⟩] ∧
    ∃ message, [(⟨['/'], "Expected 'string' but got 'integer'.".toList⟩ :
      SchemaValidator.Error)] = [] ++ [⟨['/'], message⟩] :=
  Validate_type_mismatch example_env schema_type_string [] 0 (.int 1) [] _
    (.string "string".toList) ['/'] [] _ rfl rfl rfl

theorem rat_eq_floor_iff (r : Rat) : r = (r.floor : Rat) ↔ ∃ z : Int, r = z := by
  constructor
  · intro h
    exact ⟨r.floor, h⟩
  · rintro ⟨z, rfl⟩
    rw [rat_floor_eq, Int.floor_intCast]

theorem GetSchemaType_real_integer (r : Rat) (hz : ∃ z : Int, r = z) (hb : |r| ≤ 2 ^ 53) :
    GetSchemaType (.real r) = "integer".toList := by
  show (if |r| ≤ 2 ^ 53 ∧ r = (r.floor : Rat) then "integer".toList else "number".toList) = _
  rw [if_pos ⟨hb, (rat_eq_floor_iff r).mpr hz⟩]

theorem GetSchemaType_real_number (r : Rat) (h : ¬ ((∃ z : Int, r = z) ∧ |r| ≤ 2 ^ 53)) :
    GetSchemaType (.real r) = "number".toList := by
  show (if |r| ≤ 2 ^ 53 ∧ r = (r.floor : Rat) then "integer".toList else "number".toList) = _
  rw [if_neg]
  rintro ⟨hb, hf⟩
  exact h ⟨(rat_eq_floor_iff r).mp hf, hb⟩

theorem GetSchemaType_two : GetSchemaType (.real 2) = "integer".toList :=
  GetSchemaType_real_integer 2 ⟨2, by norm_num⟩ (by norm_num [abs_le])

theorem GetSchemaType_five_halves : GetSchemaType (.real (5 / 2)) = "number".toList := by
  apply GetSchemaType_real_number
  rintro ⟨⟨z, hz⟩, _⟩
  have h2 : ((5 : Int) : Rat) = ((2 * z : Int) : Rat) := by
    push_cast
    linarith
  have h3 : (5 : Int) = 2 * z := by exact_mod_cast h2
  omega

theorem validate_type_of_real (env : Env) (n : Nat) (t : Str) (r : Rat) :
    outcome ((plain_validator (.object [("type".toList, .string t)])).validate env (n + 1)
      (.real r)) =
      if t.isEmpty then .ok (false, [⟨['/'], kEmptyType⟩])
      else if t = GetSchemaType (.real r) ∨
          (t = "number".toList ∧ GetSchemaType (.real r) = "integer".toList) then
        .ok (true, [])
      else .ok (false, [⟨['/'], FormatErrorMessage2 kInvalidType t (GetSchemaType (.real r))⟩]) := by
  have h : Validate env (.object [("type".toList, .string t)]) [] (n + 1) (.real r)
      ⟨[], .object [("type".toList, .string t)]⟩ ['/'] [] =
      if t.isEmpty then .ok [⟨['/'], kEmptyType⟩]
      else if t = GetSchemaType (.real r) ∨
          (t = "number".toList ∧ GetSchemaType (.real r) = "integer".toList) then .ok []
      else .ok [⟨['/'], FormatErrorMessage2 kInvalidType t (GetSchemaType (.real r))⟩] := by
    simp only [Validate]
    unfold Validate_body
    simp only
    show (Validate_type env (.real r) _ ['/'] [] >>= _) = _
    unfold Validate_type
    show (ValidateType env (.real r) (.string t) ['/'] [] >>= _) = _
    unfold ValidateType
    simp only [Value.isArray, Bool.false_eq_true, if_false, Value.asString]
    by_cases ht : t.isEmpty = true
    · simp only [ht, if_true]
      rfl
    · simp only [ht, if_false]
      unfold ValidateSimpleType
      simp only
      by_cases hc : t = GetSchemaType (.real r) ∨
          (t = "number".toList ∧ GetSchemaType (.real r) = "integer".toList)
      · simp only [hc, if_true]
        rfl
      · simp only [hc, if_false]
        rfl
  unfold SchemaValidator.validate outcome plain_validator
  simp only [Value.at, Option.getD_some]
  rw [h]
  by_cases ht : t.isEmpty = true
  · simp only [ht, if_true]
    rfl
  · simp only [ht, if_false]
    by_cases hc : t = GetSchemaType (.real r) ∨
        (t = "number".toList ∧ GetSchemaType (.real r) = "integer".toList)
    · simp only [hc, if_true]
      rfl
    · simp only [hc, if_false]
      rfl

/-- C21: `GetSchemaType` gives "integer" for every signed and every unsigned
integer value and for every real value that is a whole number of magnitude at
most 2^53, and "number" for every other real value; `{"type": "integer"}`
accepts the real 2.0 and rejects the real 2.5, and `{"type": "number"}`
accepts both. -/
theorem GetSchemaType_numbers :
    (∀ i : Int, GetSchemaType (.int i) = "integer".toList) ∧
    (∀ n : Nat, GetSchemaType (.uint n) = "integer".toList) ∧
    (∀ r : Rat, (∃ z : Int, r = z) → |r| ≤ 2 ^ 53 →
      GetSchemaType (.real r) = "integer".toList) ∧
    (∀ r : Rat, ¬ ((∃ z : Int, r = z) ∧ |r| ≤ 2 ^ 53) →
      GetSchemaType (.real r) = "number".toList) ∧
    (∀ (env : Env) (n : Nat),
      outcome ((plain_validator schema_type_integer).validate env (n + 1) (.real 2)) =
        .ok (true, []) ∧
      outcome ((plain_validator schema_type_integer).validate env (n + 1) (.real (5 / 2))) =
        .ok (false, [⟨['/'], "Expected 'integer' but got 'number'.".toList⟩]) ∧
      outcome ((plain_validator schema_type_number).validate env (n + 1) (.real 2)) =
        .ok (true, []) ∧
      outcome ((plain_validator schema_type_number).validate env (n + 1) (.real (5 / 2))) =
        .ok (true, [])) := by
  refine ⟨fun _ => rfl, fun _ => rfl, GetSchemaType_real_integer, GetSchemaType_real_number,
    fun env n => ⟨?_, ?_, ?_, ?_⟩⟩
  · unfold schema_type_integer
    rw [validate_type_of_real, GetSchemaType_two]
    rfl
  · unfold schema_type_integer
    rw [validate_type_of_real, GetSchemaType_five_halves]
    rfl
  · unfold schema_type_number
    rw [validate_type_of_real, GetSchemaType_two]
    rfl
  · unfold schema_type_number
    rw [validate_type_of_real, GetSchemaType_five_halves]
    rfl

/-- Witness of `GetSchemaType_numbers`: the real 2.0. -/
theorem GetSchemaType_numbers_witness : GetSchemaType (.real 2) = "integer".toList :=
  GetSchemaType_numbers.2.2.1 2 ⟨2, by norm_num⟩ (by norm_num [abs_le])

/-! ## SchemaValidator: the members of an object -/

/-- C25 as stated fails: validating `{"ab": 1}` against `{"propertyNames":
{"maxLength": 1}}` records the error of the name check at the path "/ab" of
the member, not at the empty path. -/
theorem propertyNames_error_at_member_path :
    outcome ((plain_validator schema_property_names).validate example_env 2
      (.object [("ab".toList, .int 1)])) =
      .ok (false, [⟨"/ab".toList, "String must not be more than 1 characters long.".toList⟩]) ∧
    "/ab".toList ≠ ([] : Str) := by
  refine ⟨by rfl, by decide⟩

/-- C25 as amended: for every object instance and every schema with
`propertyNames`, the step of `ValidateObject` for a member validates the name,
as a string value, against the `propertyNames` schema at the path of the
member (`path_add` of the path of the object and the name), and then goes on
as without `propertyNames`; so the errors of a failing name check carry the
path of the member, e.g. "/ab" for `{"ab": 1}` against `{"propertyNames":
{"maxLength": 1}}`. -/
theorem propertyNames_at_member_path :
    (∀ (env : Env) (V : ValidateFn) (members : List (Str × Value)) (path : Str)
        (properties : Option Node) (pn : Node) (additional_properties : Option Node)
        (pattern_properties : List (Str × Node)) (dependencies : Option Node) (name : Str)
        (errors : Errors),
      ValidateObject_member env V (.object members) path properties (some pn)
          additional_properties pattern_properties dependencies name errors =
        match V (.string name) pn (path_add path name) errors with
        | .ok e =>
          ValidateObject_member env V (.object members) path properties none
            additional_properties pattern_properties dependencies name e
        | .error f => .error f) ∧
    (∀ (sref : Ref) (ms : List (Str × Value)) (pn : Value),
      member_get ms "propertyNames".toList = some pn →
      Node.member_opt ⟨sref, .object ms⟩ "propertyNames".toList =
        .ok (some ⟨sref ++ [Slot.member "propertyNames".toList], pn⟩)) ∧
    (∀ (env : Env) (n : Nat),
      outcome ((plain_validator schema_property_names).validate env (n + 2)
        (.object [("ab".toList, .int 1)])) =
        .ok (false, [⟨"/ab".toList,
          "String must not be more than 1 characters long.".toList⟩])) := by
  refine ⟨?_, ?_, fun env n => rfl⟩
  · intro env V members path properties pn ap pats deps name errors
    unfold ValidateObject_member
    simp only [Value.get, ValidateObject_name]
    cases V (.string name) pn (path_add path name) errors <;> rfl
  · intro sref ms pn h
    unfold Node.member_opt
    simp only [Value.isMember, isMember_of_member_get ms _ _ h, Node.get, Value.get, h]
    rfl

/-- Witness of `propertyNames_at_member_path`: the `propertyNames` member of
the example. -/
theorem propertyNames_at_member_path_witness :
    Node.member_opt ⟨[], schema_property_names⟩ "propertyNames".toList =
      .ok (some ⟨[Slot.member "propertyNames".toList],
        .object [("maxLength".toList, .int 1)]⟩) :=
  propertyNames_at_member_path.2.1 [] _ _ rfl

theorem ValidateObject_pattern_eq (env : Env) (V : ValidateFn) (child : Value)
    (name child_path : Str) :
    ∀ (pattern_properties : List (Str × Node)) (st : Bool × Errors),
      ValidateObject_pattern env V pattern_properties child name child_path st =
        match for_each (fun (p : Str × Node) e => V child p.2 child_path e)
            (matching_patterns env pattern_properties name) st.2 with
        | .ok e => .ok (st.1 || !(matching_patterns env pattern_properties name).isEmpty, e)
        | .error f => .error f := by
  intro pats
  induction pats with
  | nil =>
    intro st
    obtain ⟨b, e⟩ := st
    simp [ValidateObject_pattern, matching_patterns, for_each]
  | cons p rest ih =>
    intro st
    obtain ⟨b, e⟩ := st
    have ih2 := ih
    unfold ValidateObject_pattern at ih2 ⊢
    unfold matching_patterns at ih2 ⊢
    simp only [bind, Except.bind, pure, Except.pure] at ih2 ⊢
    by_cases hp : env.PartialMatch p.1 name = true
    · simp only [List.filter_cons, hp, if_true, for_each]
      cases hv : V child p.2 child_path e with
      | error f => rfl
      | ok e1 =>
        simp only
        rw [ih2 (true, e1)]
        simp only
        cases for_each (fun (p : Str × Node) e => V child p.2 child_path e)
          (List.filter (fun p => env.PartialMatch p.1 name) rest) e1 <;> simp
    · have hp2 : env.PartialMatch p.1 name = false := by simpa using hp
      simp only [List.filter_cons, hp2, Bool.false_eq_true, if_false, for_each]
      exact ih2 (b, e)

theorem ValidateObject_property_flag (V : ValidateFn) (properties : Option Node)
    (child : Value) (name child_path : Str) (errors : Errors) (st : Bool × Errors)
    (h : ValidateObject_property V properties child name child_path errors = .ok st) :
    st.1 = is_property_key properties name := by
  unfold ValidateObject_property at h
  unfold is_property_key
  cases properties with
  | none =>
    cases h
    rfl
  | some props =>
    obtain ⟨r, v⟩ := props
    simp only at h
    obtain ⟨m, hm, h⟩ := bind_ok h
    cases v <;> simp only [Value.isMember] at hm <;> cases hm
    · simp only [Bool.false_eq_true, if_false] at h
      cases pure_ok h
      rfl
    · split at h
      · rename_i hmem
        obtain ⟨n1, _, h⟩ := bind_ok h
        obtain ⟨e1, _, h⟩ := bind_ok h
        cases pure_ok h
        simp only
        exact hmem.symm
      · rename_i hmem
        cases pure_ok h
        simp only
        simpa using hmem

/-- C26: in the step of `ValidateObject` for a member, the member is
validated against the schema of every pattern of `patternProperties` that
partially matches its name; `checked` is true exactly when the name is a key
of `properties` or some pattern matches it; with `additionalProperties` false
the error "Unexpected property." is recorded at the path of the member exactly
when `checked` is false, and with any other `additionalProperties` the member
is validated against it exactly when `checked` is false. -/
theorem additionalProperties_unmatched :
    (∀ (env : Env) (V : ValidateFn) (pattern_properties : List (Str × Node)) (child : Value)
        (name child_path : Str) (st : Bool × Errors),
      ValidateObject_pattern env V pattern_properties child name child_path st =
        match for_each (fun (p : Str × Node) e => V child p.2 child_path e)
            (matching_patterns env pattern_properties name) st.2 with
        | .ok e => .ok (st.1 || !(matching_patterns env pattern_properties name).isEmpty, e)
        | .error f => .error f) ∧
    (∀ (env : Env) (V : ValidateFn) (properties : Option Node)
        (pattern_properties : List (Str × Node)) (child : Value) (name child_path : Str)
        (errors : Errors) (st1 st2 : Bool × Errors),
      ValidateObject_property V properties child name child_path errors = .ok st1 →
      ValidateObject_pattern env V pattern_properties child name child_path st1 = .ok st2 →
      (st2.1 = true ↔ (is_property_key properties name = true ∨
        ∃ p ∈ pattern_properties, env.PartialMatch p.1 name = true))) ∧
    (∀ (V : ValidateFn) (r : Ref) (child : Value) (child_path : Str) (st : Bool × Errors),
      ValidateObject_additional V (some ⟨r, .bool false⟩) child child_path st =
        .ok (if st.1 then st.2 else st.2 ++ [⟨child_path, kUnexpectedProperty⟩])) ∧
    (∀ (V : ValidateFn) (ap : Node) (child : Value) (child_path : Str) (st : Bool × Errors),
      ap.val ≠ .bool false →
      ValidateObject_additional V (some ap) child child_path st =
        if st.1 then .ok st.2 else V child ap child_path st.2) := by
  refine ⟨fun env V pats child name cp st => ValidateObject_pattern_eq env V child name cp pats st,
    ?_, ?_, ?_⟩
  · intro env V properties pats child name cp errors st1 st2 h1 h2
    have hf := ValidateObject_property_flag V properties child name cp errors st1 h1
    rw [ValidateObject_pattern_eq] at h2
    split at h2
    · cases h2
      simp only [Bool.or_eq_true, hf, Bool.not_eq_true', List.isEmpty_eq_false,
        matching_patterns]
      constructor
      · rintro (h | h)
        · exact Or.inl h
        · refine Or.inr ?_
          obtain ⟨p, hp⟩ := List.exists_mem_of_ne_nil _ h
          have := List.mem_filter.mp hp
          exact ⟨p, this.1, this.2⟩
      · rintro (h | ⟨p, hp, hm⟩)
        · exact Or.inl h
        · refine Or.inr ?_
          intro hnil
          have : p ∈ List.filter (fun p => env.PartialMatch p.1 name) pats :=
            List.mem_filter.mpr ⟨hp, hm⟩
          rw [hnil] at this
          cases this
    · cases h2
  · intro V r child cp st
    unfold ValidateObject_additional
    cases st.1 <;> rfl
  · intro V ap child cp st hne
    unfold ValidateObject_additional
    obtain ⟨r, v⟩ := ap
    cases hst : st.1
    · simp only [Bool.not_false, if_true, Bool.false_eq_true, if_false]
    · simp

/-- Witness of `additionalProperties_unmatched`: `additionalProperties` true
leaves an unmatched member without error. -/
theorem additionalProperties_unmatched_witness :
    ValidateObject_additional (Validate example_env schema_patterns [] 1)
        (some ⟨[], .bool true⟩) (.int 1) "/c".toList (false, []) =
      Validate example_env schema_patterns [] 1 (.int 1) ⟨[], .bool true⟩ "/c".toList [] :=
  additionalProperties_unmatched.2.2.2 _ ⟨[], .bool true⟩ (.int 1) "/c".toList (false, [])
    (by intro h; cases h)

/-! ## SchemaValidator: the items of an array -/

theorem for_each_map {α β σ : Type} (f : β → σ → Except Fault σ) (g : α → β) :
    ∀ (xs : List α) (s : σ), for_each f (xs.map g) s = for_each (fun x => f (g x)) xs s := by
  intro xs
  induction xs with
  | nil => intro s; rfl
  | cons x xs ih =>
    intro s
    simp only [List.map_cons, for_each]
    cases f (g x) s with
    | error e => rfl
    | ok s1 => exact ih s1

theorem for_each_append {α σ : Type} (f : α → σ → Except Fault σ) :
    ∀ (xs ys : List α) (s : σ),
      for_each f (xs ++ ys) s =
        match for_each f xs s with
        | .ok s1 => for_each f ys s1
        | .error e => .error e := by
  intro xs
  induction xs with
  | nil => intro ys s; rfl
  | cons x xs ih =>
    intro ys s
    simp only [List.cons_append, for_each]
    cases f x s with
    | error e => rfl
    | ok s1 => exact ih ys s1

theorem ValidateArray_each_eq (V : ValidateFn) (xs : List Value) (schema_of : Nat → Node)
    (path : Str) (lo hi : Nat) (errors : Errors) :
    ValidateArray_each V (.array xs) (fun i => .ok (schema_of i)) path lo hi errors =
      for_each (fun (c : Value × Node × Str) e => V c.1 c.2.1 c.2.2 e)
        ((List.range' lo (hi - lo)).map (fun i =>
          (xs.getD i .null, schema_of i, path_add path (UIntToString i)))) errors := by
  unfold ValidateArray_each
  rw [for_each_map]
  rfl

theorem ValidateArray_each_pure (V : ValidateFn) (xs : List Value) (a : Node)
    (path : Str) (lo hi : Nat) (errors : Errors) :
    ValidateArray_each V (.array xs) (fun _ => pure a) path lo hi errors =
      for_each (fun (c : Value × Node × Str) e => V c.1 c.2.1 c.2.2 e)
        ((List.range' lo (hi - lo)).map (fun i =>
          (xs.getD i .null, a, path_add path (UIntToString i)))) errors :=
  ValidateArray_each_eq V xs (fun _ => a) path lo hi errors

theorem isMember_eq_isSome (ms : List (Str × Value)) (key : Str) :
    isMember ms key = (member_get ms key).isSome := by
  induction ms with
  | nil => rfl
  | cons m ms ih =>
    obtain ⟨k, w⟩ := m
    unfold member_get
    by_cases hk : k = key
    · simp [isMember, hk]
    · simp only [hk, if_false, ← ih]
      simp [isMember, hk]

/-- C27: for every array instance with elements `xs` and every schema whose
`items` is an array `ys` of schemas, the `items` block of `ValidateArray`
validates element i against `ys[i]` at the path of the element for every i
below both lengths, in order, then, when the instance is longer than the
tuple, the elements from the length of the tuple on against `additionalItems`
if that is a schema, and records "Additional items not allowed." at the path
of the array if `additionalItems` is false; nothing else happens for an absent
or true `additionalItems`; and without `items` the block does nothing,
whatever `additionalItems` is. -/
theorem ValidateArray_items_tuple :
    (∀ (V : ValidateFn) (xs : List Value) (sref : Ref) (ms : List (Str × Value))
        (ys : List Value) (path : Str) (errors : Errors),
      member_get ms "items".toList = some (.array ys) →
      ValidateArray_items V (.array xs) ⟨sref, .object ms⟩ path errors =
        match for_each (fun (c : Value × Node × Str) e => V c.1 c.2.1 c.2.2 e)
            (tuple_checks xs (sref ++ [Slot.member "items".toList]) ys
              (additional_schema sref ms) path) errors with
        | .ok e =>
          .ok (if ys.length < xs.length ∧ additional_forbidden ms = true then
            e ++ [⟨path, kNoAdditionalItems⟩] else e, false)
        | .error f => .error f) ∧
    (∀ (V : ValidateFn) (inst : Value) (sref : Ref) (ms : List (Str × Value)) (path : Str)
        (errors : Errors),
      isMember ms "items".toList = false →
      ValidateArray_items V inst ⟨sref, .object ms⟩ path errors = .ok (errors, false)) := by
  constructor
  · intro V xs sref ms ys path errors h
    unfold ValidateArray_items
    simp only [Value.isMember, isMember_of_member_get ms _ _ h, Node.get, Value.get, h,
      Option.getD_some, Value.isArray, Value.size, if_true]
    show (ValidateArray_each V (.array xs)
      (fun i => .ok ⟨sref ++ [Slot.member "items".toList] ++ [Slot.index i], ys.getD i .null⟩)
      path 0 (min ys.length xs.length) errors >>= _) = _
    rw [ValidateArray_each_eq]
    unfold tuple_checks
    rw [for_each_append, Nat.sub_zero, ← List.range_eq_range', Nat.min_comm]
    cases for_each (fun (c : Value × Node × Str) e => V c.1 c.2.1 c.2.2 e)
      ((List.range (min xs.length ys.length)).map (fun i =>
        (xs.getD i .null,
          (⟨sref ++ [Slot.member "items".toList] ++ [Slot.index i], ys.getD i .null⟩ : Node),
          path_add path (UIntToString i)))) errors with
    | error f => rfl
    | ok e1 =>
      simp only [bind, Except.bind]
      by_cases hgt : ys.length < xs.length
      · simp only [gt_iff_lt, hgt, if_true, true_and]
        cases hadd : member_get ms "additionalItems".toList with
        | none =>
          simp only [isMember_eq_isSome, hadd, additional_schema, additional_forbidden,
            Option.isSome_none, Bool.false_eq_true, if_false, for_each]
          rfl
        | some a =>
          simp only [isMember_eq_isSome, hadd, additional_schema, additional_forbidden,
            Option.isSome_some, if_true, Option.getD_some]
          cases a with
          | bool b =>
            cases b <;> simp [for_each, pure, Except.pure]
          | _ =>
            simp only []
            rw [ValidateArray_each_pure]
            cases for_each (fun (c : Value × Node × Str) e => V c.1 c.2.1 c.2.2 e)
              ((List.range' ys.length (xs.length - ys.length)).map (fun i =>
                (xs.getD i .null,
                  (⟨sref ++ [Slot.member "additionalItems".toList], _⟩ : Node),
                  path_add path (UIntToString i)))) e1 <;> simp [pure, Except.pure]
      · have hle : xs.length - ys.length = 0 := by omega
        simp only [gt_iff_lt, hgt, if_false, false_and, hle, List.range'_zero, List.map_nil]
        cases additional_schema sref ms <;> rfl
  · intro V inst sref ms path errors h
    unfold ValidateArray_items
    simp only [Value.isMember, h]
    rfl

/-- Witness of `ValidateArray_items_tuple`: [1, 2] against `{"items":
[{"type": "integer"}], "additionalItems": false}` passes the tuple and gets
the error for the additional item. -/
theorem ValidateArray_items_tuple_witness :
    ValidateArray_items (Validate example_env schema_tuple [] 1) (.array [.int 1, .int 2])
        ⟨[], schema_tuple⟩ ['/'] [] = .ok ([⟨['/'], kNoAdditionalItems⟩], false) :=
  (ValidateArray_items_tuple.1 (Validate example_env schema_tuple [] 1) [.int 1, .int 2] []
    [("items".toList, .array [.object [("type".toList, .string "integer".toList)]]),
      ("additionalItems".toList, .bool false)]
    [.object [("type".toList, .string "integer".toList)]] ['/'] [] rfl).trans (by rfl)

/-! ## Pointer: the tokens of a plain pointer string -/

theorem unescape_cons_ne (c : Char) (rest : Str) (h : c ≠ '~') :
    unescape (c :: rest) = (unescape rest).map (fun d => c :: d) := by
  conv => lhs; unfold unescape
  simp [h]

theorem unescape_tilde (x : Char) (rest : Str) :
    unescape ('~' :: x :: rest) =
      if x = '0' then (unescape rest).map (fun d => '~' :: d)
      else if x = '1' then (unescape rest).map (fun d => '/' :: d)
      else none := by
  conv => lhs; unfold unescape
  simp

theorem unescape_tilde_end : unescape ['~'] = none := by
  unfold unescape
  simp

theorem unescape_free (l : Str) (h : ∀ c ∈ l, c ≠ '~') : unescape l = some l := by
  induction l with
  | nil => rfl
  | cons a as ih =>
    rw [unescape_cons_ne a as (h a (by simp)), ih (fun c hc => h c (by simp [hc]))]
    rfl

theorem unescape_append (pre l : Str) (h : ∀ c ∈ pre, c ≠ '~') :
    unescape (pre ++ l) = (unescape l).map (fun d => pre ++ d) := by
  induction pre with
  | nil => simp
  | cons a as ih =>
    rw [List.cons_append, unescape_cons_ne a _ (h a (by simp)),
      ih (fun c hc => h c (by simp [hc]))]
    cases unescape l <;> simp

theorem pointer_decode_loop_spec (element : Str) : ∀ (n i : Nat) (decoded : Str),
    element.length ≤ i + n → i ≤ element.length →
    decode_loop element n i (find element '~' i) decoded =
      match unescape (element.drop i) with
      | some d => .ok (decoded ++ d)
      | none => .error .invalid_argument := by
  intro n
  induction n with
  | zero =>
    intro i decoded hfuel hi
    have hnil : element.drop i = [] := List.drop_eq_nil_of_le (by omega)
    simp [find, hnil, find_index, decode_loop, substr_from, unescape]
  | succ n ih =>
    intro i decoded hfuel hi
    unfold find
    cases hf : find_index (fun x => x == '~') (element.drop i) with
    | none =>
      have hfree : ∀ c ∈ element.drop i, c ≠ '~' := by
        intro c hc hcp
        have := find_index_none _ _ hf c hc
        rw [hcp] at this
        simp at this
      rw [unescape_free _ hfree]
      simp [decode_loop, substr_from]
    | some k =>
      obtain ⟨pre, c, post, hd, hlen, hc, hpre⟩ := find_index_some _ _ _ hf
      have hcp : c = '~' := by simpa using hc
      subst hcp
      have hfree : ∀ x ∈ pre, x ≠ '~' := by
        intro x hx hxp
        have := hpre x hx
        rw [hxp] at this
        simp at this
      have hL : element.length = i + (pre.length + 1 + post.length) := by
        have h1 : (element.drop i).length = element.length - i := List.length_drop i element
        rw [hd] at h1
        simp only [List.length_append, List.length_cons] at h1
        omega
      have hsub : substr element i (k + i - i) = pre := by
        unfold substr
        rw [hd, ← hlen]
        have : min (pre.length + i - i) (element.length - i) = pre.length := by omega
        rw [this]
        simp
      rw [hd, unescape_append pre _ hfree]
      simp only [Option.map_some', decode_loop]
      rw [hsub]
      match post, hd, hL with
      | [], hd, hL =>
        rw [unescape_tilde_end]
        simp only [List.length_nil] at hL
        have : k + i + 1 ≥ element.length := by omega
        simp [this]
      | x :: rest, hd, hL =>
        simp only [List.length_cons] at hL
        have hlt : ¬ (k + i + 1 ≥ element.length) := by omega
        simp only [hlt, if_false]
        have hget : element.get? (k + i + 1) = some x := by
          rw [← hlen]
          exact get?_of_drop element pre _ i 1 x hd rfl
        rw [hget, unescape_tilde]
        have hdrop : element.drop (k + i + 2) = rest := by
          have := List.drop_drop (pre.length + 2) i element
          rw [hd] at this
          rw [← hlen, show pre.length + i + 2 = i + (pre.length + 2) by omega, ← this]
          simp [List.drop_append_eq_append_drop]
        by_cases h0 : x = '0'
        · subst h0
          simp only [if_true]
          have hrec := ih (k + i + 2) (decoded ++ pre ++ ['~']) (by omega) (by omega)
          rw [hdrop] at hrec
          rw [hrec]
          cases unescape rest <;> simp
        · by_cases h1 : x = '1'
          · subst h1
            simp only [if_true, h0, if_false]
            have hrec := ih (k + i + 2) (decoded ++ pre ++ ['/']) (by omega) (by omega)
            rw [hdrop] at hrec
            rw [hrec]
            cases unescape rest <;> simp
          · simp only [h0, h1, if_false, Option.map_none']
            split
            · rename_i heq
              simp only [Option.some.injEq] at heq
              exact absurd heq h0
            · rename_i heq
              simp only [Option.some.injEq] at heq
              exact absurd heq h1
            · rfl

theorem pointer_decode_spec (s : Str) :
    decode s =
      match unescape s with
      | some d => .ok d
      | none => .error .invalid_argument := by
  unfold decode
  cases hf : find s '~' 0 with
  | none =>
    have hnone : find_index (fun x => x == '~') s = none := by
      unfold find at hf
      simpa using hf
    have hfree : ∀ c ∈ s, c ≠ '~' := by
      intro c hc hcp
      have := find_index_none _ _ hnone c hc
      rw [hcp] at this
      simp at this
    rw [unescape_free s hfree]
  | some j =>
    have h := pointer_decode_loop_spec s s.length 0 [] (by omega) (by omega)
    rw [hf] at h
    simpa using h

theorem split_slash_ne_nil (l : Str) : split_slash l ≠ [] := by
  cases l with
  | nil => simp [split_slash]
  | cons a as =>
    unfold split_slash
    by_cases h : a = '/'
    · simp [h]
    · simp only [h, if_false]
      cases split_slash as <;> simp

theorem split_slash_free (l : Str) (h : ∀ c ∈ l, c ≠ '/') : split_slash l = [l] := by
  induction l with
  | nil => rfl
  | cons a as ih =>
    unfold split_slash
    simp only [h a (by simp), if_false, ih (fun c hc => h c (by simp [hc]))]

theorem split_slash_append (pre post : Str) (h : ∀ c ∈ pre, c ≠ '/') :
    split_slash (pre ++ '/' :: post) = pre :: split_slash post := by
  induction pre with
  | nil =>
    conv => lhs; unfold split_slash
    simp
  | cons a as ih =>
    rw [List.cons_append]
    conv => lhs; unfold split_slash
    simp only [h a (by simp), if_false, ih (fun c hc => h c (by simp [hc]))]

theorem split_slash_length (l : Str) : (split_slash l).length = l.count '/' + 1 := by
  induction l with
  | nil => rfl
  | cons a as ih =>
    unfold split_slash
    by_cases h : a = '/'
    · subst h
      simp [ih]
    · simp only [h, if_false]
      have hne := split_slash_ne_nil as
      cases hs : split_slash as with
      | nil => exact absurd hs hne
      | cons x xs =>
        rw [hs] at ih
        simp only [List.length_cons] at ih ⊢
        rw [List.count_cons_of_ne (fun hh => h hh.symm)]
        exact ih

theorem unescape_all_length : ∀ (l ds : List Str), unescape_all l = some ds →
    ds.length = l.length := by
  intro l
  induction l with
  | nil =>
    intro ds h
    cases h
    rfl
  | cons s rest ih =>
    intro ds h
    unfold unescape_all at h
    cases hu : unescape s with
    | none => simp [hu] at h
    | some d =>
      cases hr : unescape_all rest with
      | none => simp [hu, hr] at h
      | some ds1 =>
        simp only [hu, hr, Option.some.injEq] at h
        subst h
        simp [ih ds1 hr]

theorem init_loop_spec (pointer : Str) : ∀ (n i : Nat) (elements : List Str),
    pointer.length ≤ i + n → i ≤ pointer.length →
    init_loop pointer n i (find pointer '/' i) elements =
      match unescape_all (split_slash (pointer.drop i)) with
      | some ds => .ok (elements ++ ds)
      | none => .error .invalid_argument := by
  intro n
  induction n with
  | zero =>
    intro i elements hfuel hi
    have hnil : pointer.drop i = [] := List.drop_eq_nil_of_le (by omega)
    simp [find, hnil, find_index, init_loop, substr_from, split_slash, unescape_all, unescape,
      decode]
  | succ n ih =>
    intro i elements hfuel hi
    unfold find
    cases hf : find_index (fun x => x == '/') (pointer.drop i) with
    | none =>
      have hfree : ∀ c ∈ pointer.drop i, c ≠ '/' := by
        intro c hc hcp
        have := find_index_none _ _ hf c hc
        rw [hcp] at this
        simp at this
      rw [split_slash_free _ hfree]
      simp only [Option.map_none', init_loop, substr_from, pointer_decode_spec, unescape_all]
      cases unescape (pointer.drop i) <;> rfl
    | some k =>
      obtain ⟨pre, c, post, hd, hlen, hc, hpre⟩ := find_index_some _ _ _ hf
      have hcp : c = '/' := by simpa using hc
      subst hcp
      have hfree : ∀ x ∈ pre, x ≠ '/' := by
        intro x hx hxp
        have := hpre x hx
        rw [hxp] at this
        simp at this
      have hL : pointer.length = i + (pre.length + 1 + post.length) := by
        have h1 : (pointer.drop i).length = pointer.length - i := List.length_drop i pointer
        rw [hd] at h1
        simp only [List.length_append, List.length_cons] at h1
        omega
      have hsub : substr pointer i (k + i - i) = pre := by
        unfold substr
        rw [hd, ← hlen]
        have : min (pre.length + i - i) (pointer.length - i) = pre.length := by omega
        rw [this]
        simp
      have hdrop : pointer.drop (k + i + 1) = post := by
        have := List.drop_drop (pre.length + 1) i pointer
        rw [hd] at this
        rw [← hlen, show pre.length + i + 1 = i + (pre.length + 1) by omega, ← this]
        simp [List.drop_append_eq_append_drop]
      rw [hd, split_slash_append pre post hfree]
      simp only [Option.map_some', init_loop]
      rw [hsub, pointer_decode_spec]
      conv => rhs; unfold unescape_all
      cases hu : unescape pre with
      | none => rfl
      | some d =>
        simp only
        have hrec := ih (k + i + 1) (elements ++ [d]) (by omega) (by omega)
        rw [hdrop] at hrec
        rw [hrec]
        cases unescape_all (split_slash post) <;> simp

theorem Pointer_init_spec (P : Str) :
    Pointer.init P =
      match pointer_tokens P with
      | some ts => .ok ⟨ts⟩
      | none => .error .invalid_argument := by
  cases P with
  | nil => rfl
  | cons c rest =>
    unfold Pointer.init pointer_tokens
    by_cases hc : c = '/'
    · subst hc
      have h := init_loop_spec ('/' :: rest) ('/' :: rest).length 1 [] (by omega) (by simp)
      simp only [List.drop_succ_cons, List.drop_zero] at h
      simp only [List.isEmpty_cons, Bool.false_eq_true, if_false, List.head?_cons, ne_eq,
        not_true_eq_false, if_true, h]
      cases unescape_all (split_slash rest) <;> rfl
    · simp [hc]

/-- C30: `Pointer(P)` is accepted exactly when P is empty or starts with
'/' and no piece has a '~' followed by anything but '0' or '1'; its tokens
are then the pieces of P after the leading '/', split at every '/', each
unescaped in one left-to-right pass ("~0" to '~', "~1" to '/'); there are as
many tokens as P has '/' characters; `Pointer("/~01")` has the token "~1" and
`Pointer("/a~1b/")` the tokens "a/b" and "". -/
theorem Pointer_init_tokens :
    (∀ P : Str, Pointer.init P =
      match pointer_tokens P with
      | some ts => .ok ⟨ts⟩
      | none => .error .invalid_argument) ∧
    (∀ (P : Str) (p : Pointer), Pointer.init P = .ok p →
      p.elements.length = P.count '/') ∧
    Pointer.init "/~01".toList = .ok ⟨["~1".toList]⟩ ∧
    Pointer.init "/a~1b/".toList = .ok ⟨["a/b".toList, []]⟩ := by
  refine ⟨Pointer_init_spec, ?_, by rfl, by rfl⟩
  intro P p h
  rw [Pointer_init_spec] at h
  cases P with
  | nil =>
    simp only [pointer_tokens] at h
    cases h
    rfl
  | cons c rest =>
    unfold pointer_tokens at h
    by_cases hc : c = '/'
    · subst hc
      simp only [if_true] at h
      cases hu : unescape_all (split_slash rest) with
      | none => simp [hu] at h
      | some ts =>
        simp only [hu, Except.ok.injEq] at h
        subst h
        simp [unescape_all_length _ _ hu, split_slash_length]
    · simp [hc] at h

/-- Witness of `Pointer_init_tokens`: "/a/b" has two tokens. -/
theorem Pointer_init_tokens_witness :
    (⟨["a".toList, "b".toList]⟩ : Pointer).elements.length = "/a/b".toList.count '/' :=
  Pointer_init_tokens.2.1 "/a/b".toList ⟨["a".toList, "b".toList]⟩ (by rfl)

/-! ## Pointer: the root pointer -/

theorem get_internal_root_pointer (root : Value) (start_index : Nat) (h : start_index < 2 ^ 64 - 1) :
    (⟨[]⟩ : Pointer).get_internal root start_index true = .error .undefined := by
  unfold Pointer.get_internal
  have h1 : size_sub ([] : List Str).length 1 = 2 ^ 64 - 1 := by decide
  simp only [h1, if_true]
  have h2 : ¬ start_index = 2 ^ 64 - 1 := by omega
  have h3 : ¬ start_index > 2 ^ 64 - 1 := by omega
  simp only [h2, h3, if_false]
  obtain ⟨m, hm⟩ : ∃ m, 2 ^ 64 - 1 - start_index = m + 1 := ⟨2 ^ 64 - 1 - start_index - 1, by omega⟩
  rw [hm]
  rfl

/-- C40, at a failing input: for the pointer with zero tokens, which the
empty string gives, `erase`, `insert`, `replace` and `set` with start_index 0
pass the test on start_index and call `get_internal` with `skip_last`, whose
`end_index` is 0 - 1 = 2^64 - 1; its loop then takes `elements[0]` of the empty
token sequence for every tree: index 0 is not below `size()`. -/
theorem root_pointer_reads_past_end :
    Pointer.init [] = .ok ⟨[]⟩ ∧
    size_sub (⟨[]⟩ : Pointer).elements.length 1 = 2 ^ 64 - 1 ∧
    (⟨[]⟩ : Pointer).elements.get? 0 = none ∧
    (∀ root : Value, (⟨[]⟩ : Pointer).get_internal root 0 true = .error .undefined) ∧
    (∀ root : Value, (⟨[]⟩ : Pointer).erase root 0 = .error .undefined) ∧
    (∀ root value : Value, (⟨[]⟩ : Pointer).insert root value 0 = .error .undefined) ∧
    (∀ root value : Value, (⟨[]⟩ : Pointer).replace root value 0 = .error .undefined) ∧
    (∀ root value : Value, (⟨[]⟩ : Pointer).set root value 0 = .error .undefined) := by
  have hg : ∀ root : Value, (⟨[]⟩ : Pointer).get_internal root 0 true = .error .undefined :=
    fun root => get_internal_root_pointer root 0 (by decide)
  refine ⟨rfl, by decide, rfl, hg, ?_, ?_, ?_, ?_⟩
  · intro root
    unfold Pointer.erase
    rw [hg root]
    rfl
  · intro root value
    unfold Pointer.insert
    rw [hg root]
    rfl
  · intro root value
    unfold Pointer.replace
    rw [hg root]
    rfl
  · intro root value
    unfold Pointer.set
    rw [hg root]
    rfl

/-! ## SchemaValidator: a reference back to an enclosing schema -/

theorem Validate_allOf_self_ref (env : Env) (n : Nat) (inst : Value) (path : Str)
    (errors : Errors) :
    Validate env schema_allOf_self allOf_self_validator.refs (n + 1) inst
        ⟨[Slot.member "allOf".toList, Slot.index 0],
          .object [("$ref".toList, .string "#".toList)]⟩ path errors =
      Validate env schema_allOf_self allOf_self_validator.refs n inst
        ⟨[], schema_allOf_self⟩ path errors := rfl

theorem Validate_allOf_self_step (V : ValidateFn) (inst : Value) (path : Str) (errors : Errors)
    (h : V inst ⟨[Slot.member "allOf".toList, Slot.index 0],
        .object [("$ref".toList, .string "#".toList)]⟩ path errors = .error .diverged) :
    Validate_allOf V inst ⟨[], schema_allOf_self⟩ path errors = .error .diverged := by
  have h2 : Validate_allOf V inst ⟨[], schema_allOf_self⟩ path errors =
      for_each (fun i errors => do
        let s ← (⟨[Slot.member "allOf".toList],
          .array [.object [("$ref".toList, .string "#".toList)]]⟩ : Node).index i
        V inst s path errors) [0] errors := rfl
  rw [h2]
  simp only [for_each, Node.index, Value.index, bind, Except.bind, List.getD_cons_zero,
    List.cons_append, List.nil_append]
  rw [h]

theorem Validate_allOf_self_root (env : Env) (n : Nat) (inst : Value) (path : Str)
    (errors : Errors)
    (h : Validate env schema_allOf_self allOf_self_validator.refs n inst
        ⟨[Slot.member "allOf".toList, Slot.index 0],
          .object [("$ref".toList, .string "#".toList)]⟩ path errors = .error .diverged) :
    Validate env schema_allOf_self allOf_self_validator.refs (n + 1) inst
        ⟨[], schema_allOf_self⟩ path errors = .error .diverged := by
  have h1 := Validate_allOf_self_step _ inst path errors h
  have h3 : Validate env schema_allOf_self allOf_self_validator.refs (n + 1) inst
      ⟨[], schema_allOf_self⟩ path errors =
      Validate_keywords env (Validate env schema_allOf_self allOf_self_validator.refs n) inst
        ⟨[], schema_allOf_self⟩ path errors := rfl
  rw [h3]
  unfold Validate_keywords
  rw [h1]
  rfl

theorem Validate_allOf_self_diverges (env : Env) (inst : Value) :
    ∀ (n : Nat) (path : Str) (errors : Errors),
      Validate env schema_allOf_self allOf_self_validator.refs n inst
          ⟨[], schema_allOf_self⟩ path errors = .error .diverged ∧
      Validate env schema_allOf_self allOf_self_validator.refs n inst
          ⟨[Slot.member "allOf".toList, Slot.index 0],
            .object [("$ref".toList, .string "#".toList)]⟩ path errors = .error .diverged := by
  intro n
  induction n with
  | zero => intro path errors; exact ⟨rfl, rfl⟩
  | succ n ih =>
    intro path errors
    refine ⟨Validate_allOf_self_root env n inst path errors (ih path errors).2, ?_⟩
    rw [Validate_allOf_self_ref]
    exact (ih path errors).1

/-- C36, at a failing input: the validator for `{"allOf": [{"$ref": "#"}]}` is
constructed (the `$ref` is resolved to the document, which has no `$ref`
itself), and for every instance `validate` does not return within any depth
of nested calls: `Validate` on the document calls `Validate` on the element
of `allOf`, which calls `Validate` on the document with the same instance. -/
theorem validate_allOf_self_never_returns :
    (∀ env : Env,
      SchemaValidator.init env none schema_allOf_self ⟨[]⟩ = .ok allOf_self_validator) ∧
    (∀ (env : Env) (n : Nat) (inst : Value),
      allOf_self_validator.validate env n inst = .error .diverged) := by
  refine ⟨fun env => rfl, ?_⟩
  intro env n inst
  have h := (Validate_allOf_self_diverges env inst n ['/'] []).1
  unfold SchemaValidator.validate
  have h2 : Validate env allOf_self_validator.refs_root_ allOf_self_validator.refs n inst
      ⟨allOf_self_validator.schema_root_,
        (allOf_self_validator.refs_root_.at allOf_self_validator.schema_root_).getD .null⟩
      ['/'] [] = .error .diverged := h
  rw [h2]

/-! ## Pointer: which plain pointer strings are rejected -/

theorem not_badTilde_nil : ¬ BadTilde [] := by
  rintro ⟨pre, post, h, _⟩
  cases pre <;> simp at h

theorem badTilde_cons_ne (c : Char) (rest : Str) (hc : c ≠ '~') :
    BadTilde (c :: rest) ↔ BadTilde rest := by
  constructor
  · rintro ⟨pre, post, h, hbad⟩
    cases pre with
    | nil =>
      simp only [List.nil_append, List.cons.injEq] at h
      exact absurd h.1 hc
    | cons a pre1 =>
      simp only [List.cons_append, List.cons.injEq] at h
      exact ⟨pre1, post, h.2, hbad⟩
  · rintro ⟨pre, post, h, hbad⟩
    exact ⟨c :: pre, post, by simp [h], hbad⟩

theorem badTilde_escape (x : Char) (rest : Str) (hx : x = '0' ∨ x = '1') :
    BadTilde ('~' :: x :: rest) ↔ BadTilde rest := by
  have hxt : x ≠ '~' := by
    rcases hx with h | h <;> (rw [h]; decide)
  constructor
  · rintro ⟨pre, post, h, hbad⟩
    cases pre with
    | nil =>
      simp only [List.nil_append, List.cons.injEq, true_and] at h
      rw [← h] at hbad
      rcases hx with h1 | h1
      · exact absurd (by simp [h1]) hbad.1
      · exact absurd (by simp [h1]) hbad.2
    | cons p0 pre1 =>
      simp only [List.cons_append, List.cons.injEq] at h
      obtain ⟨_, h⟩ := h
      cases pre1 with
      | nil =>
        simp only [List.nil_append, List.cons.injEq] at h
        exact absurd h.1 hxt
      | cons p1 pre2 =>
        simp only [List.cons_append, List.cons.injEq] at h
        exact ⟨pre2, post, h.2, hbad⟩
  · rintro ⟨pre, post, h, hbad⟩
    exact ⟨'~' :: x :: pre, post, by simp [h], hbad⟩

theorem badTilde_bad (rest : Str) (h0 : rest.head? ≠ some '0') (h1 : rest.head? ≠ some '1') :
    BadTilde ('~' :: rest) := ⟨[], rest, rfl, h0, h1⟩

theorem unescape_all_cons_map (c : Char) (h : Str) (t : List Str)
    (hc : unescape (c :: h) = (unescape h).map (fun d => c :: d)) :
    (unescape_all ((c :: h) :: t) = none ↔ unescape_all (h :: t) = none) := by
  unfold unescape_all
  rw [hc]
  cases unescape h <;> cases unescape_all t <;> simp

theorem split_slash_cons_slash (rest : Str) :
    split_slash ('/' :: rest) = [] :: split_slash rest := by
  conv => lhs; unfold split_slash
  simp

theorem split_slash_cons_ne (c : Char) (rest h : Str) (t : List Str) (hc : c ≠ '/')
    (hsp : split_slash rest = h :: t) : split_slash (c :: rest) = (c :: h) :: t := by
  conv => lhs; unfold split_slash
  simp only [hc, if_false, hsp]

theorem unescape_all_split_none_iff : ∀ (n : Nat) (s : Str), s.length = n →
    (unescape_all (split_slash s) = none ↔ BadTilde s) := by
  intro n
  induction n using Nat.strong_induction_on with
  | _ n ih =>
    intro s hs
    match s, hs with
    | [], _ =>
      simp [split_slash, unescape_all, unescape, not_badTilde_nil]
    | c :: rest, hs =>
      simp only [List.length_cons] at hs
      by_cases hsl : c = '/'
      · subst hsl
        rw [badTilde_cons_ne '/' rest (by decide), ← ih rest.length (by omega) rest rfl,
          split_slash_cons_slash]
        conv => lhs; unfold unescape_all
        simp only [unescape]
        cases unescape_all (split_slash rest) <;> simp
      · by_cases hc : c = '~'
        · subst hc
          match rest, hs with
          | [], _ =>
            have : BadTilde ['~'] := badTilde_bad [] (by simp) (by simp)
            simp only [this, iff_true]
            rfl
          | x :: rest2, hs =>
            simp only [List.length_cons] at hs
            by_cases hx : x = '0' ∨ x = '1'
            · have hxs : x ≠ '/' := by
                rcases hx with h | h <;> (rw [h]; decide)
              rw [badTilde_escape x rest2 hx, ← ih rest2.length (by omega) rest2 rfl]
              have hne := split_slash_ne_nil rest2
              cases hsp : split_slash rest2 with
              | nil => exact absurd hsp hne
              | cons h t =>
                rw [split_slash_cons_ne '~' (x :: rest2) (x :: h) t (by decide)
                  (split_slash_cons_ne x rest2 h t hxs hsp)]
                unfold unescape_all
                rw [unescape_tilde]
                rcases hx with h0 | h1
                · subst h0
                  simp only [if_true]
                  cases unescape h <;> cases unescape_all t <;> simp
                · subst h1
                  simp only [show ¬ ('1' = '0') by decide, if_false, if_true]
                  cases unescape h <;> cases unescape_all t <;> simp
            · have hx0 : x ≠ '0' := fun h => hx (Or.inl h)
              have hx1 : x ≠ '1' := fun h => hx (Or.inr h)
              have hbad : BadTilde ('~' :: x :: rest2) :=
                badTilde_bad (x :: rest2) (by simp [hx0]) (by simp [hx1])
              simp only [hbad, iff_true]
              by_cases hxs : x = '/'
              · subst hxs
                have hne := split_slash_ne_nil rest2
                rw [split_slash_cons_ne '~' ('/' :: rest2) [] (split_slash rest2) (by decide)
                  (split_slash_cons_slash rest2)]
                unfold unescape_all
                rw [unescape_tilde_end]
              · have hne := split_slash_ne_nil rest2
                cases hsp : split_slash rest2 with
                | nil => exact absurd hsp hne
                | cons h t =>
                  rw [split_slash_cons_ne '~' (x :: rest2) (x :: h) t (by decide)
                    (split_slash_cons_ne x rest2 h t hxs hsp)]
                  unfold unescape_all
                  rw [unescape_tilde]
                  simp only [hx0, hx1, if_false]
        · rw [badTilde_cons_ne c rest hc, ← ih rest.length (by omega) rest rfl]
          have hne := split_slash_ne_nil rest
          cases hsp : split_slash rest with
          | nil => exact absurd hsp hne
          | cons h t =>
            rw [split_slash_cons_ne c rest h t hsl hsp]
            exact unescape_all_cons_map c h t (unescape_cons_ne c h hc)

theorem pointer_tokens_none_iff (P : Str) :
    pointer_tokens P = none ↔ (P ≠ [] ∧ P.head? ≠ some '/') ∨ BadTilde P := by
  cases P with
  | nil => simp [pointer_tokens, not_badTilde_nil]
  | cons c rest =>
    unfold pointer_tokens
    by_cases hc : c = '/'
    · subst hc
      simp only [if_true, ne_eq, List.head?_cons, not_true_eq_false, and_false, false_or]
      rw [badTilde_cons_ne '/' rest (by decide)]
      exact unescape_all_split_none_iff rest.length rest rfl
    · simp [hc]

/-- C31: a plain pointer string is rejected, and then with an
invalid-argument error, exactly when it is not empty and does not start with
'/', or it contains a '~' that is not immediately followed by '0' or '1' (a
'~' at the end included); no other error occurs; and the empty string is
accepted with zero tokens. -/
theorem Pointer_init_rejects :
    (∀ P : Str, Pointer.init P = .error .invalid_argument ↔
      (P ≠ [] ∧ P.head? ≠ some '/') ∨ BadTilde P) ∧
    (∀ (P : Str) (e : Error), Pointer.init P = .error e → e = .invalid_argument) ∧
    Pointer.init [] = .ok ⟨[]⟩ := by
  refine ⟨?_, ?_, rfl⟩
  · intro P
    rw [Pointer_init_spec, ← pointer_tokens_none_iff]
    cases pointer_tokens P <;> simp
  · intro P e h
    rw [Pointer_init_spec] at h
    cases hp : pointer_tokens P with
    | none =>
      rw [hp] at h
      cases h
      rfl
    | some ts =>
      rw [hp] at h
      cases h

/-- Witness of `Pointer_init_rejects`: the string "a" is not empty and does
not start with '/', and is rejected with an invalid-argument error. -/
theorem Pointer_init_rejects_witness :
    ((['a'] : Str) ≠ [] ∧ (['a'] : Str).head? ≠ some '/') ∧
    Pointer.init ['a'] = .error .invalid_argument :=
  ⟨⟨by decide, by decide⟩,
    (Pointer_init_rejects.1 ['a']).mpr (Or.inl ⟨by decide, by decide⟩)⟩

/-! ## Pointer: the fragment form is the plain form of the decoded fragment -/

theorem fragment_decode_cons_ne (c : Char) (rest : Str) (h1 : c ≠ '+') (h2 : c ≠ '%') :
    fragment_decode (c :: rest) = (fragment_decode rest).map (fun d => c :: d) := by
  conv => lhs; unfold fragment_decode
  simp [h1, h2]

theorem fragment_decode_plus (rest : Str) :
    fragment_decode ('+' :: rest) = (fragment_decode rest).map (fun d => ' ' :: d) := by
  conv => lhs; unfold fragment_decode
  simp

theorem fragment_decode_escape (x y : Char) (rest : Str) :
    fragment_decode ('%' :: x :: y :: rest) =
      match hex_value x, hex_value y with
      | some a, some b => (fragment_decode rest).map (fun d => Char.ofNat (16 * a + b) :: d)
      | _, _ => none := by
  conv => lhs; unfold fragment_decode
  simp

theorem fragment_decode_short (post : Str) (h : post.length < 2) :
    fragment_decode ('%' :: post) = none := by
  conv => lhs; unfold fragment_decode
  match post, h with
  | [], _ => simp
  | [_], _ => simp
  | _ :: _ :: _, h => exact absurd h (by simp)

theorem fragment_decode_free (l : Str) (h : ∀ c ∈ l, c ≠ '+' ∧ c ≠ '%') :
    fragment_decode l = some l := by
  induction l with
  | nil => rfl
  | cons a as ih =>
    rw [fragment_decode_cons_ne a as (h a (by simp)).1 (h a (by simp)).2,
      ih (fun c hc => h c (by simp [hc]))]
    rfl

theorem fragment_decode_append (pre l : Str) (h : ∀ c ∈ pre, c ≠ '+' ∧ c ≠ '%') :
    fragment_decode (pre ++ l) = (fragment_decode l).map (fun d => pre ++ d) := by
  induction pre with
  | nil => simp
  | cons a as ih =>
    rw [List.cons_append, fragment_decode_cons_ne a _ (h a (by simp)).1 (h a (by simp)).2,
      ih (fun c hc => h c (by simp [hc]))]
    cases fragment_decode l <;> simp

theorem pointer_decode_hex_eq (escape : Str) (pos : Nat) :
    Pointer.decode_hex escape pos = URI.decode_hex escape pos := rfl

theorem decode_fragment_loop_spec (fragment : Str) : ∀ (n i : Nat) (str : Str),
    fragment.length ≤ i + n → i ≤ fragment.length →
    decode_fragment_loop fragment n i (find_first_of fragment ['+', '%'] i) str =
      match fragment_decode (fragment.drop i) with
      | some d => .ok (str ++ d)
      | none => .error .invalid_argument := by
  intro n
  induction n with
  | zero =>
    intro i str hfuel hi
    have hnil : fragment.drop i = [] := List.drop_eq_nil_of_le (by omega)
    simp [find_first_of, hnil, find_index, decode_fragment_loop, substr_from, fragment_decode]
  | succ n ih =>
    intro i str hfuel hi
    unfold find_first_of
    cases hf : find_index (fun x => ['+', '%'].contains x) (fragment.drop i) with
    | none =>
      have hfree : ∀ c ∈ fragment.drop i, c ≠ '+' ∧ c ≠ '%' := by
        intro c hc
        have := find_index_none _ _ hf c hc
        constructor
        · intro hcp
          rw [hcp] at this
          simp at this
        · intro hcp
          rw [hcp] at this
          simp at this
      rw [fragment_decode_free _ hfree]
      simp [decode_fragment_loop, substr_from]
    | some k =>
      obtain ⟨pre, c, post, hd, hlen, hc, hpre⟩ := find_index_some _ _ _ hf
      have hfree : ∀ x ∈ pre, x ≠ '+' ∧ x ≠ '%' := by
        intro x hx
        have := hpre x hx
        constructor
        · intro hxp
          rw [hxp] at this
          simp at this
        · intro hxp
          rw [hxp] at this
          simp at this
      have hL : fragment.length = i + (pre.length + 1 + post.length) := by
        have h1 : (fragment.drop i).length = fragment.length - i := List.length_drop i fragment
        rw [hd] at h1
        simp only [List.length_append, List.length_cons] at h1
        omega
      have hsub : substr fragment i (k + i - i) = pre := by
        unfold substr
        rw [hd, ← hlen]
        have : min (pre.length + i - i) (fragment.length - i) = pre.length := by omega
        rw [this]
        simp
      have hget : fragment.get? (k + i) = some c := by
        have := get?_of_drop fragment pre (c :: post) i 0 c hd rfl
        rw [← hlen]
        simpa using this
      rw [hd, fragment_decode_append pre _ hfree]
      simp only [Option.map_some', decode_fragment_loop]
      rw [hsub, hget]
      have hcc : c = '+' ∨ c = '%' := by simpa using hc
      rcases hcc with hplus | hpercent
      · subst hplus
        simp only [if_true]
        have hdrop : fragment.drop (k + i + 1) = post := by
          have := List.drop_drop (pre.length + 1) i fragment
          rw [hd] at this
          rw [← hlen, show pre.length + i + 1 = i + (pre.length + 1) by omega, ← this]
          simp [List.drop_append_eq_append_drop]
        have hrec := ih (k + i + 1) (str ++ pre ++ [' ']) (by omega) (by omega)
        rw [hdrop] at hrec
        rw [hrec, fragment_decode_plus]
        cases fragment_decode post <;> simp
      · subst hpercent
        simp only [show ¬ (some '%' = some '+') by decide, if_false]
        match post, hd, hL with
        | [], hd, hL =>
          rw [fragment_decode_short [] (by simp)]
          simp only [List.length_nil] at hL
          have : k + i + 2 ≥ fragment.length := by omega
          simp [this]
        | [x], hd, hL =>
          rw [fragment_decode_short [x] (by simp)]
          simp only [List.length_singleton] at hL
          have : k + i + 2 ≥ fragment.length := by omega
          simp [this]
        | x :: y :: rest, hd, hL =>
          simp only [List.length_cons] at hL
          have hlt : ¬ (k + i + 2 ≥ fragment.length) := by omega
          simp only [hlt, if_false]
          rw [← hlen, pointer_decode_hex_eq, decode_hex_at fragment pre i x y rest hd,
            fragment_decode_escape]
          cases hx : hex_value x with
          | none => rfl
          | some a =>
            cases hy : hex_value y with
            | none => rfl
            | some b =>
              simp only
              have hdrop : fragment.drop (pre.length + i + 3) = rest := by
                have := List.drop_drop (pre.length + 3) i fragment
                rw [hd] at this
                rw [show pre.length + i + 3 = i + (pre.length + 3) by omega, ← this]
                simp [List.drop_append_eq_append_drop]
              have hrec := ih (pre.length + i + 3) (str ++ pre ++ [Char.ofNat (16 * a + b)])
                (by omega) (by omega)
              rw [hdrop] at hrec
              rw [hrec]
              cases fragment_decode rest <;> simp

theorem decode_fragment_spec (rest : Str) :
    Pointer.decode_fragment ('#' :: rest) =
      match fragment_decode rest with
      | some d => .ok d
      | none => .error .invalid_argument := by
  unfold Pointer.decode_fragment
  have h01 : find_first_of ('#' :: rest) ['+', '%'] 0 = find_first_of ('#' :: rest) ['+', '%'] 1 := by
    unfold find_first_of
    simp only [List.drop_zero, List.drop_succ_cons, find_index]
    have : (['+', '%'].contains '#') = false := by decide
    simp only [this, Bool.false_eq_true, if_false]
    cases find_index (fun x => ['+', '%'].contains x) rest <;> simp
  have h := decode_fragment_loop_spec ('#' :: rest) ('#' :: rest).length 1 [] (by omega)
    (by simp)
  simp only [List.drop_succ_cons, List.drop_zero, List.nil_append] at h
  rw [h01]
  cases hf : find_first_of ('#' :: rest) ['+', '%'] 1 with
  | none =>
    rw [hf] at h
    simp only [decode_fragment_loop, substr_from, List.drop_succ_cons, List.drop_zero,
      List.nil_append] at h
    simp only [substr_from, List.drop_succ_cons, List.drop_zero]
    exact h
  | some j =>
    rw [hf] at h
    simpa using h

/-- C35: the fragment form `Pointer(F, true)` fails with an invalid-argument
error unless F begins with '#'; for F = "#" + R it is the plain form of the
string got from R by one pass that turns every '+' into a space and every
"%XY" into the byte with hex value XY, and fails with an invalid-argument
error when a '%' is not followed by two hexadecimal digits; for every P
without '+' and '%', `Pointer("#" + P, true)` is `Pointer(P)`. -/
theorem Pointer_fragment_form :
    (∀ F : Str, F.head? ≠ some '#' → Pointer.of_string F true = .error .invalid_argument) ∧
    (∀ R : Str, Pointer.of_string ('#' :: R) true =
      match fragment_decode R with
      | some D => Pointer.of_string D false
      | none => .error .invalid_argument) ∧
    (∀ P : Str, (∀ c ∈ P, c ≠ '+' ∧ c ≠ '%') →
      Pointer.of_string ('#' :: P) true = Pointer.of_string P false) := by
  have h2 : ∀ R : Str, Pointer.of_string ('#' :: R) true =
      match fragment_decode R with
      | some D => Pointer.of_string D false
      | none => .error .invalid_argument := by
    intro R
    unfold Pointer.of_string
    simp only [if_true, List.head?_cons, ne_eq, not_true_eq_false, if_false,
      decode_fragment_spec, Bool.false_eq_true]
    cases fragment_decode R <;> rfl
  refine ⟨?_, h2, ?_⟩
  · intro F hF
    unfold Pointer.of_string
    simp [hF]
  · intro P hP
    rw [h2, fragment_decode_free P hP]

/-- Witness of `Pointer_fragment_form`: "#/a/b" gives the tokens of "/a/b",
and "/a" in the fragment form is rejected. -/
theorem Pointer_fragment_form_witness :
    Pointer.of_string "#/a/b".toList true = Pointer.of_string "/a/b".toList false ∧
    Pointer.of_string "/a".toList true = .error .invalid_argument :=
  ⟨Pointer_fragment_form.2.2 "/a/b".toList (by decide),
    Pointer_fragment_form.1 "/a".toList (by decide)⟩

/-! ## Pointer: get is the reference lookup -/

theorem parse_array_index_lt (element : Str) (size : Nat) (b : Bool) (i : Nat)
    (h : parse_array_index element size b = .ok i) : i < size := by
  unfold parse_array_index at h
  split at h
  · cases h
  · simp only at h
    split at h
    · cases h
    · split at h
      · cases h
      · rename_i hr
        simp only [Except.ok.injEq] at h
        have h1 : (strtoimax (c_str element)).1.toNat < size := by
          by_contra hc
          exact hr (Or.inr (by omega))
        have h2 : (strtoimax (c_str element)).1.toNat % 2 ^ 32 ≤
            (strtoimax (c_str element)).1.toNat := Nat.mod_le _ _
        omega

theorem parse_array_index_error (element : Str) (size : Nat) (b : Bool) (e : Error)
    (h : parse_array_index element size b = .error e) : e = .range_error := by
  unfold parse_array_index at h
  split at h
  · cases h
    rfl
  · simp only at h
    split at h
    · cases h
      rfl
    · split at h
      · cases h
        rfl
      · cases h

theorem member_get_isSome (ms : List (Str × Value)) (key : Str) :
    (member_get ms key).isSome = isMember ms key := by
  induction ms with
  | nil => rfl
  | cons m ms ih =>
    obtain ⟨k, w⟩ := m
    unfold member_get
    by_cases hk : k = key
    · simp [isMember, hk]
    · simp only [hk, if_false, ih]
      simp [isMember, hk]

theorem get_internal_loop_values (elements : List Str) :
    ∀ (n index : Nat) (ref : Ref) (node : Value), index + n = elements.length →
      (get_internal_loop elements n index ref node).map Prod.snd =
        lookup_tokens (elements.drop index) node := by
  intro n
  induction n with
  | zero =>
    intro index ref node h
    have hnil : elements.drop index = [] := List.drop_eq_nil_of_le (by omega)
    rw [hnil]
    rfl
  | succ n ih =>
    intro index ref node h
    have hlt : index < elements.length := by omega
    have hdrop : elements.drop index = elements[index] :: elements.drop (index + 1) :=
      List.drop_eq_getElem_cons hlt
    have hget : elements.get? index = some elements[index] := by
      rw [List.get?_eq_getElem?]
      exact List.getElem?_eq_getElem hlt
    rw [hdrop]
    unfold get_internal_loop
    simp only [hget]
    cases node with
    | array xs =>
      simp only [lookup_tokens]
      cases hp : parse_array_index elements[index] xs.length false with
      | error e => rfl
      | ok i =>
        simp only
        have hi := parse_array_index_lt _ _ _ _ hp
        have hx : xs.get? i = some xs[i] := by
          rw [List.get?_eq_getElem?]
          exact List.getElem?_eq_getElem hi
        have hd : xs.getD i .null = xs[i] := by
          rw [List.getD_eq_getElem?_getD, List.getElem?_eq_getElem hi]
          rfl
        rw [hx, hd]
        exact ih (index + 1) _ _ (by omega)
    | object ms =>
      simp only [lookup_tokens]
      cases hm : member_get ms elements[index] with
      | none =>
        have : isMember ms elements[index] = false := by
          rw [← member_get_isSome, hm]
          rfl
        simp only [this]
        rfl
      | some c =>
        have : isMember ms elements[index] = true := by
          rw [← member_get_isSome, hm]
          rfl
        simp only [this, Bool.not_true, Bool.false_eq_true, if_false, Option.getD_some]
        exact ih (index + 1) _ _ (by omega)
    | null => rfl
    | bool b => rfl
    | int i => rfl
    | uint u => rfl
    | real r => rfl
    | string s => rfl

theorem at_append (v : Value) : ∀ (a b : Ref) (w : Value), v.at a = some w →
    v.at (a ++ b) = w.at b := by
  intro a
  induction a generalizing v with
  | nil =>
    intro b w h
    simp only [Value.at, Option.some.injEq] at h
    subst h
    rfl
  | cons s a ih =>
    intro b w h
    simp only [List.cons_append, Value.at] at h ⊢
    cases hc : v.child s with
    | none => simp [hc] at h
    | some c =>
      simp only [hc] at h ⊢
      exact ih c b w h

theorem get_internal_loop_ref (elements : List Str) :
    ∀ (n index : Nat) (ref : Ref) (node : Value) (r : Ref) (v : Value),
      get_internal_loop elements n index ref node = .ok (r, v) →
      ∃ q, r = ref ++ q ∧ node.at q = some v := by
  intro n
  induction n with
  | zero =>
    intro index ref node r v h
    cases h
    exact ⟨[], by simp, rfl⟩
  | succ n ih =>
    intro index ref node r v h
    unfold get_internal_loop at h
    cases hg : elements.get? index with
    | none =>
      simp only [hg] at h
      cases h
    | some element =>
      simp only [hg] at h
      cases node with
      | array xs =>
        simp only at h
        cases hp : parse_array_index element xs.length false with
        | error e =>
          simp only [hp] at h
          cases h
        | ok i =>
          simp only [hp] at h
          have hi := parse_array_index_lt _ _ _ _ hp
          obtain ⟨q, hq, hat⟩ := ih _ _ _ _ _ h
          refine ⟨Slot.index i :: q, by simp [hq], ?_⟩
          have hd : xs.getD i .null = xs[i] := by
            rw [List.getD_eq_getElem?_getD, List.getElem?_eq_getElem hi]
            rfl
          have hx : xs.get? i = some xs[i] := by
            rw [List.get?_eq_getElem?]
            exact List.getElem?_eq_getElem hi
          simp only [Value.at, Value.child, hx]
          rw [← hd]
          exact hat
      | object ms =>
        simp only at h
        cases hm : member_get ms element with
        | none =>
          have : isMember ms element = false := by
            rw [← member_get_isSome, hm]
            rfl
          simp [this] at h
        | some c =>
          have : isMember ms element = true := by
            rw [← member_get_isSome, hm]
            rfl
          simp only [this, Bool.not_true, Bool.false_eq_true, if_false, hm,
            Option.getD_some] at h
          obtain ⟨q, hq, hat⟩ := ih _ _ _ _ _ h
          refine ⟨Slot.member element :: q, by simp [hq], ?_⟩
          simp only [Value.at, Value.child, hm]
          exact hat
      | null => cases h
      | bool b => cases h
      | int i => cases h
      | uint u => cases h
      | real r => cases h
      | string s => cases h

theorem lookup_tokens_error : ∀ (ts : List Str) (v : Value) (e : Error),
    lookup_tokens ts v = .error e → e = .range_error ∨ e = .domain_error := by
  intro ts
  induction ts with
  | nil => intro v e h; cases h
  | cons t ts ih =>
    intro v e h
    cases v with
    | array xs =>
      simp only [lookup_tokens] at h
      cases hp : parse_array_index t xs.length false with
      | error e1 =>
        simp only [hp] at h
        cases h
        exact Or.inl (parse_array_index_error _ _ _ _ hp)
      | ok i =>
        simp only [hp] at h
        cases hx : xs.get? i with
        | none =>
          simp only [hx] at h
          cases h
          exact Or.inl rfl
        | some c =>
          simp only [hx] at h
          exact ih c e h
    | object ms =>
      simp only [lookup_tokens] at h
      cases hm : member_get ms t with
      | none =>
        simp only [hm] at h
        cases h
        exact Or.inl rfl
      | some c =>
        simp only [hm] at h
        exact ih c e h
    | null => cases h; exact Or.inr rfl
    | bool b => cases h; exact Or.inr rfl
    | int i => cases h; exact Or.inr rfl
    | uint u => cases h; exact Or.inr rfl
    | real r => cases h; exact Or.inr rfl
    | string s => cases h; exact Or.inr rfl

theorem size_sub_zero (a : Nat) (h : a < 2 ^ 64) : size_sub a 0 = a := by
  unfold size_sub
  simp only [Nat.zero_mod, Nat.sub_zero]
  omega

/-- C32: for a pointer whose token count fits `size_t`: `get` with a
start_index up to the token count returns the node that the reference lookup
of the tokens from start_index on gives, and fails with the error of the
lookup, which is a range error (index token invalid or not below the length
of the array, member absent) or a domain error (token applied to a scalar);
with start_index equal to the token count (so with zero tokens) it returns
the root; with start_index above the token count it fails with a range
error; and the reference it returns designates the returned node in the tree,
which `get` leaves as it is. -/
theorem Pointer_get_lookup :
    (∀ (p : Pointer) (root : Value) (start_index : Nat), p.elements.length < 2 ^ 64 →
      start_index ≤ p.elements.length →
      (p.get root start_index).map Prod.snd =
        lookup_tokens (p.elements.drop start_index) root) ∧
    (∀ (p : Pointer) (root : Value), p.elements.length < 2 ^ 64 →
      p.get root p.elements.length = .ok ([], root)) ∧
    (∀ (p : Pointer) (root : Value) (start_index : Nat), p.elements.length < 2 ^ 64 →
      p.elements.length < start_index → p.get root start_index = .error .range_error) ∧
    (∀ (ts : List Str) (v : Value) (e : Error), lookup_tokens ts v = .error e →
      e = .range_error ∨ e = .domain_error) ∧
    (∀ (p : Pointer) (root : Value) (start_index : Nat) (r : Ref) (v : Value),
      p.get root start_index = .ok (r, v) → root.at r = some v) := by
  refine ⟨?_, ?_, ?_, lookup_tokens_error, ?_⟩
  · intro p root start_index hsize hstart
    unfold Pointer.get Pointer.get_internal
    simp only [Bool.false_eq_true, if_false, size_sub_zero _ hsize]
    by_cases heq : start_index = p.elements.length
    · simp only [heq, if_true, List.drop_length]
      rfl
    · have hgt : ¬ start_index > p.elements.length := by omega
      simp only [heq, hgt, if_false]
      exact get_internal_loop_values p.elements _ _ _ _ (by omega)
  · intro p root hsize
    unfold Pointer.get Pointer.get_internal
    simp only [Bool.false_eq_true, if_false, size_sub_zero _ hsize, if_true]
  · intro p root start_index hsize hstart
    unfold Pointer.get Pointer.get_internal
    simp only [Bool.false_eq_true, if_false, size_sub_zero _ hsize]
    have heq : ¬ start_index = p.elements.length := by omega
    have hgt : start_index > p.elements.length := hstart
    simp only [heq, hgt, if_false, if_true]
  · intro p root start_index r v h
    unfold Pointer.get Pointer.get_internal at h
    simp only [Bool.false_eq_true, if_false] at h
    split at h
    · cases h
      rfl
    · split at h
      · cases h
      · obtain ⟨q, hq, hat⟩ := get_internal_loop_ref _ _ _ _ _ _ _ h
        simp only [List.nil_append] at hq
        rw [hq]
        exact hat

/-- Witness of `Pointer_get_lookup`: "/a/1" in `{"a": [10, 20]}`. -/
theorem Pointer_get_lookup_witness :
    ((⟨["a".toList, "1".toList]⟩ : Pointer).get
        (.object [("a".toList, .array [.int 10, .int 20])]) 0).map Prod.snd =
      lookup_tokens (["a".toList, "1".toList].drop 0)
        (.object [("a".toList, .array [.int 10, .int 20])]) :=
  Pointer_get_lookup.1 ⟨["a".toList, "1".toList]⟩
    (.object [("a".toList, .array [.int 10, .int 20])]) 0 (by decide) (by decide)

/-! ## SchemaValidator: the references are flattened -/

theorem follow_refs_seen (env : Env) (refs_root : Value) (refs : List (Ref × Ref)) (first : Ref) :
    ∀ (n : Nat) (seen : List Ref) (t : Ref) (seen1 : List Ref) (t1 : Ref),
      follow_refs env refs_root refs first n seen t = .ok (seen1, t1) →
      ∀ c ∈ seen, c ∈ seen1 := by
  intro n
  induction n with
  | zero => intro seen t seen1 t1 h; simp [follow_refs] at h
  | succ n ih =>
    intro seen t seen1 t1 h
    unfold follow_refs at h
    by_cases hr : has_ref (node_at refs_root t).val = true
    · simp only [hr, if_true] at h
      by_cases hs : t ∈ seen
      · simp only [hs, if_true] at h
        split at h <;> cases h
      · simp only [hs, if_false] at h
        cases hl : refs.lookup t with
        | none =>
          simp only [hl] at h
          split at h <;> cases h
        | some t2 =>
          simp only [hl] at h
          intro c hc
          exact ih _ _ _ _ h c (List.mem_append_left _ hc)
    · have hr2 : has_ref (node_at refs_root t).val = false := by simpa using hr
      simp only [hr2] at h
      cases h
      exact fun c hc => hc

theorem init_flatten_targets (env : Env) (refs_root : Value) :
    ∀ (ks : List Ref) (refs refs1 : List (Ref × Ref)),
      init_flatten env refs_root ks refs = .ok refs1 →
      ∀ k t, refs1.lookup k = some t →
        has_ref (node_at refs_root t).val = false ∨ (k ∉ ks ∧ refs.lookup k = some t) := by
  intro ks
  induction ks with
  | nil =>
    intro refs refs1 h k t hk
    cases h
    exact Or.inr ⟨by simp, hk⟩
  | cons first rest ih =>
    intro refs refs1 h k t hk
    unfold init_flatten at h
    cases hl : refs.lookup first with
    | none =>
      simp only [hl] at h
      rcases ih refs refs1 h k t hk with h1 | ⟨h1, h2⟩
      · exact Or.inl h1
      · refine Or.inr ⟨?_, h2⟩
        intro hmem
        rcases List.mem_cons.mp hmem with h3 | h3
        · rw [h3, hl] at h2
          cases h2
        · exact h1 h3
    | some node =>
      simp only [hl] at h
      by_cases hr : has_ref (node_at refs_root node).val = true
      · simp only [hr, if_true] at h
        split at h
        · cases h
        · rename_i seen1 t1 hf
          obtain ⟨_, ht1, _⟩ := follow_refs_ok env refs_root refs first _ _ _ _ _ hf
          have hfirst : first ∈ seen1 :=
            follow_refs_seen env refs_root refs first _ _ _ _ _ hf first (by simp)
          rcases ih _ refs1 h k t hk with h1 | ⟨h1, h2⟩
          · exact Or.inl h1
          · rw [lookup_foldl_map_set] at h2
            by_cases hks : k ∈ seen1
            · simp only [hks, if_true, Option.some.injEq] at h2
              rw [← h2]
              exact Or.inl ht1
            · simp only [hks, if_false] at h2
              refine Or.inr ⟨?_, h2⟩
              intro hmem
              rcases List.mem_cons.mp hmem with h3 | h3
              · rw [h3] at hks
                exact hks hfirst
              · exact h1 h3
      · have hr2 : has_ref (node_at refs_root node).val = false := by simpa using hr
        simp only [hr2] at h
        rcases ih refs refs1 h k t hk with h1 | ⟨h1, h2⟩
        · exact Or.inl h1
        · by_cases hkf : k = first
          · rw [hkf, hl] at h2
            cases h2
            exact Or.inl hr2
          · refine Or.inr ⟨?_, h2⟩
            intro hmem
            rcases List.mem_cons.mp hmem with h3 | h3
            · exact hkf h3
            · exact h1 h3

/-- C37: when `init` completes, every node that `refs` gives for a key is
not an object with a `$ref` member, so the node `Validate` passes to from a
`$ref` node is not a `$ref` node; this holds in whatever order the loop of
`init` visits the entries of `refs`. -/
theorem init_refs_flattened :
    (∀ (env : Env) (meta_errors : Option (Value → Errors)) (refs_root : Value)
        (options : Options) (v : SchemaValidator),
      SchemaValidator.init env meta_errors refs_root options = .ok v →
      ∀ k t, v.refs.lookup k = some t → has_ref (node_at v.refs_root_ t).val = false) ∧
    (∀ (env : Env) (refs_root : Value) (ks : List Ref) (refs refs1 : List (Ref × Ref)),
      (∀ k ∈ refs.map Prod.fst, k ∈ ks) →
      init_flatten env refs_root ks refs = .ok refs1 →
      ∀ k t, refs1.lookup k = some t → has_ref (node_at refs_root t).val = false) := by
  have hany : ∀ (env : Env) (refs_root : Value) (ks : List Ref) (refs refs1 : List (Ref × Ref)),
      (∀ k ∈ refs.map Prod.fst, k ∈ ks) →
      init_flatten env refs_root ks refs = .ok refs1 →
      ∀ k t, refs1.lookup k = some t → has_ref (node_at refs_root t).val = false := by
    intro env refs_root ks refs refs1 hks h k t hk
    rcases init_flatten_targets env refs_root ks refs refs1 h k t hk with h1 | ⟨h1, h2⟩
    · exact h1
    · exact absurd (hks k (mem_keys_of_lookup refs k t h2)) h1
  refine ⟨?_, hany⟩
  intro env meta_errors refs_root options v h k t hk
  unfold SchemaValidator.init at h
  split at h
  · cases h
  · rename_i schema_root st hc
    split at h
    · cases h
    · rename_i refs1 hf
      cases h
      exact hany env refs_root _ _ _ (fun k hk => hk) hf k t hk

/-- Witness of `init_refs_flattened`: in the validator constructed for
`{"allOf": [{"$ref": "#"}]}` the entry of the `$ref` node is the document. -/
theorem init_refs_flattened_witness :
    has_ref (node_at allOf_self_validator.refs_root_ []).val = false :=
  init_refs_flattened.1 example_env none schema_allOf_self ⟨[]⟩ allOf_self_validator rfl
    [Slot.member "allOf".toList, Slot.index 0] [] rfl

/-! ## SchemaValidator: the isolated trial -/

/-- C38: every call of `Validate` that returns leaves an error list that has
the list on entry as a beginning, and so does `ValidateChoices`; hence a call
of `isValid` that returns leaves the error list as it was on entry and
returns true exactly when `Validate` with the empty path adds no error; and
the `anyOf` block leaves the list as it was or adds the one error "None of
the option schemata was matched." at the path, never an error of a branch. -/
theorem isValid_isolated_trial :
    (∀ (env : Env) (refs_root : Value) (refs : List (Ref × Ref)) (n : Nat),
      Extending (Validate env refs_root refs n)) ∧
    (∀ (env : Env) (inst choices : Value) (path : Str) (e : Errors) (r : Bool × Errors),
      ValidateChoices env inst choices path e = .ok r → e <+: r.2) ∧
    (∀ (env : Env) (refs_root : Value) (refs : List (Ref × Ref)) (n : Nat) (inst : Value)
        (schema : Node) (E : Errors) (b : Bool) (E1 : Errors),
      isValid (Validate env refs_root refs n) inst schema E = .ok (b, E1) →
      E1 = E ∧ (b = true ↔ Validate env refs_root refs n inst schema [] E = .ok E)) ∧
    (∀ (env : Env) (refs_root : Value) (refs : List (Ref × Ref)) (n : Nat) (inst : Value)
        (schema : Node) (path : Str) (E E1 : Errors),
      Validate_anyOf (Validate env refs_root refs n) inst schema path E = .ok E1 →
      E1 = E ∨ E1 = E ++ [⟨path, kAnyOfFailed⟩]) := by
  refine ⟨Validate_extending, ?_, ?_, ?_⟩
  · intro env inst choices path e r h
    exact ValidateChoices_loop_extends env inst path e _ e r (List.prefix_refl e) h
  · intro env refs_root refs n inst schema E b E1 h
    have hV := Validate_extending env refs_root refs n
    have h1 := isValid_restores _ hV inst schema E (b, E1) h
    refine ⟨h1, ?_⟩
    unfold isValid at h
    split at h
    · rename_i e1 he1
      simp only [Except.ok.injEq, Prod.mk.injEq] at h
      have hp : E <+: e1 := hV _ _ _ _ _ he1
      rw [he1, ← h.1]
      constructor
      · intro hb
        have hlen : e1.length = E.length := by simpa using hb
        have : E = e1 := List.IsPrefix.eq_of_length hp hlen.symm
        rw [this]
      · intro heq
        simp only [Except.ok.injEq] at heq
        simp [heq]
    · cases h
  · intro env refs_root refs n inst schema path E E1 h
    have hV := Validate_extending env refs_root refs n
    unfold Validate_anyOf at h
    obtain ⟨c, _, h⟩ := bind_ok h
    split at h
    · obtain ⟨schemata, _, h⟩ := bind_ok h
      obtain ⟨r, hr, h⟩ := bind_ok h
      have hres := Validate_anyOf_loop_restores _ hV inst schemata _ _ _ hr
      split at h
      · cases pure_ok h
        exact Or.inr (by rw [hres])
      · cases pure_ok h
        exact Or.inl hres
    · cases pure_ok h
      exact Or.inl rfl

/-- Witness of `isValid_isolated_trial`: the trial of 1 against `{"type":
"string"}` fails and leaves the error list as it was. -/
theorem isValid_isolated_trial_witness :
    ([] : Errors) = [] ∧
    (false = true ↔ Validate example_env schema_type_string [] 1 (.int 1)
      ⟨[], schema_type_string⟩ [] [] = .ok []) :=
  isValid_isolated_trial.2.2.1 example_env schema_type_string [] 1 (.int 1)
    ⟨[], schema_type_string⟩ [] false [] rfl

/-! ## SchemaValidator: the length of a string -/

theorem char_byte (b : Nat) (h : b < 256) : (Char.ofNat b).toNat = b := by
  have hv : b.isValidChar := Or.inl (by omega)
  unfold Char.ofNat
  rw [dif_pos hv]
  simp [Char.ofNatAux, Char.toNat, UInt32.toNat]

theorem count_utf8_characters_append (a b : Str) :
    count_utf8_characters (a ++ b) = count_utf8_characters a + count_utf8_characters b := by
  unfold count_utf8_characters
  simp

theorem count_utf8_lead (b : Nat) (rest : Str) (h : b < 256) (hl : b < 0x80 ∨ 0xc0 ≤ b) :
    count_utf8_characters (Char.ofNat b :: rest) = count_utf8_characters rest + 1 := by
  unfold count_utf8_characters
  have : (decide ((Char.ofNat b).toNat < 0x80) || decide ((Char.ofNat b).toNat ≥ 0xc0)) = true := by
    rw [char_byte b h]
    rcases hl with h1 | h1
    · simp [h1]
    · simp [h1]
  simp [List.filter_cons, this]

theorem count_utf8_continuation (b : Nat) (rest : Str) (h1 : 0x80 ≤ b) (h2 : b < 0xc0) :
    count_utf8_characters (Char.ofNat b :: rest) = count_utf8_characters rest := by
  unfold count_utf8_characters
  have : (decide ((Char.ofNat b).toNat < 0x80) || decide ((Char.ofNat b).toNat ≥ 0xc0)) = false := by
    rw [char_byte b (by omega)]
    have h3 : ¬ b < 0x80 := by omega
    have h4 : ¬ b ≥ 0xc0 := by omega
    simp [h3, h4]
  simp [List.filter_cons, this]

theorem count_utf8_encode (c : Nat) (h : c < 0x110000) :
    count_utf8_characters ((utf8_encode c).map Char.ofNat) = 1 := by
  unfold utf8_encode
  by_cases h1 : c < 0x80
  · simp only [h1, if_true, List.map_cons, List.map_nil]
    rw [count_utf8_lead c [] (by omega) (Or.inl h1)]
    rfl
  · by_cases h2 : c < 0x800
    · simp only [h1, h2, if_true, if_false, List.map_cons, List.map_nil]
      rw [count_utf8_lead _ _ (by omega) (Or.inr (by omega)),
        count_utf8_continuation _ _ (by omega) (by omega)]
      rfl
    · by_cases h3 : c < 0x10000
      · simp only [h1, h2, h3, if_true, if_false, List.map_cons, List.map_nil]
        rw [count_utf8_lead _ _ (by omega) (Or.inr (by omega)),
          count_utf8_continuation _ _ (by omega) (by omega),
          count_utf8_continuation _ _ (by omega) (by omega)]
        rfl
      · simp only [h1, h2, h3, if_false, List.map_cons, List.map_nil]
        rw [count_utf8_lead _ _ (by omega) (Or.inr (by omega)),
          count_utf8_continuation _ _ (by omega) (by omega),
          count_utf8_continuation _ _ (by omega) (by omega),
          count_utf8_continuation _ _ (by omega) (by omega)]
        rfl

/-- C39: for the UTF-8 encoding of every sequence of Unicode scalar values,
`count_utf8_characters` returns the number of scalar values; it counts the
bytes below 0x80 or from 0xC0 on; and `maxLength` compares this count:
`{"maxLength": 1}` accepts the string of the one scalar value U+00E9, which
has two bytes. -/
theorem count_utf8_characters_scalars :
    (∀ scalars : List Nat, (∀ c ∈ scalars, c < 0x110000) →
      count_utf8_characters (utf8_string scalars) = scalars.length) ∧
    (∀ str : Str, count_utf8_characters str =
      (str.filter (fun c => c.toNat < 0x80 || c.toNat ≥ 0xc0)).length) ∧
    (utf8_string [0xE9]).length = 2 ∧
    (∀ (env : Env) (n : Nat),
      outcome ((plain_validator schema_maxLength_one).validate env (n + 1)
        (.string (utf8_string [0xE9]))) = .ok (true, [])) := by
  refine ⟨?_, fun _ => rfl, by rfl, fun env n => by rfl⟩
  intro scalars
  induction scalars with
  | nil =>
    intro _
    rfl
  | cons c rest ih =>
    intro h
    unfold utf8_string at ih ⊢
    simp only [List.map_cons, List.flatten_cons, List.map_append, count_utf8_characters_append,
      List.length_cons]
    rw [count_utf8_encode c (h c (by simp)), ih (fun x hx => h x (by simp [hx]))]
    omega

/-- Witness of `count_utf8_characters_scalars`: "aé€" has three scalar
values. -/
theorem count_utf8_characters_scalars_witness :
    count_utf8_characters (utf8_string [0x61, 0xE9, 0x20AC]) = [0x61, 0xE9, 0x20AC].length :=
  count_utf8_characters_scalars.1 [0x61, 0xE9, 0x20AC] (by decide)

/-! ## Pointer: a failing operation leaves the tree as it was -/

theorem get_internal_loop_defined (elements : List Str) :
    ∀ (n index : Nat) (ref : Ref) (node : Value), index + n ≤ elements.length →
      get_internal_loop elements n index ref node ≠ .error .undefined := by
  intro n
  induction n with
  | zero =>
    intro index ref node _ h
    cases h
  | succ n ih =>
    intro index ref node hle
    have hlt : index < elements.length := by omega
    have hget : elements.get? index = some elements[index] := by
      rw [List.get?_eq_getElem?]
      exact List.getElem?_eq_getElem hlt
    unfold get_internal_loop
    simp only [hget]
    cases node with
    | array xs =>
      simp only
      cases hp : parse_array_index elements[index] xs.length false with
      | error e =>
        simp only
        rw [parse_array_index_error _ _ _ _ hp]
        intro h
        cases h
      | ok i => exact ih _ _ _ (by omega)
    | object ms =>
      simp only
      split
      · intro h
        cases h
      · exact ih _ _ _ (by omega)
    | null => intro h; cases h
    | bool b => intro h; cases h
    | int i => intro h; cases h
    | uint u => intro h; cases h
    | real r => intro h; cases h
    | string s => intro h; cases h

theorem size_sub_one (a : Nat) (h0 : 0 < a) (h : a < 2 ^ 64) : size_sub a 1 = a - 1 := by
  unfold size_sub
  have : (1 : Nat) % 2 ^ 64 = 1 := by decide
  rw [this]
  omega

theorem get_internal_defined (p : Pointer) (root : Value) (start_index : Nat)
    (h0 : 0 < p.elements.length) (h : p.elements.length < 2 ^ 64) :
    p.get_internal root start_index true ≠ .error .undefined := by
  unfold Pointer.get_internal
  simp only [if_true, size_sub_one _ h0 h]
  split
  · intro hh
    cases hh
  · split
    · intro hh
      cases hh
    · exact get_internal_loop_defined _ _ _ _ _ (by omega)

theorem last_element_defined (p : Pointer) (h0 : 0 < p.elements.length)
    (h : p.elements.length < 2 ^ 64) : ∃ element, p.last_element = .ok element := by
  unfold Pointer.last_element
  rw [size_sub_one _ h0 h]
  have hlt : p.elements.length - 1 < p.elements.length := by omega
  have hget : p.elements.get? (p.elements.length - 1) =
      some p.elements[p.elements.length - 1] := by
    rw [List.get?_eq_getElem?]
    exact List.getElem?_eq_getElem hlt
  rw [hget]
  exact ⟨_, rfl⟩

theorem erase_st_eq (p : Pointer) (root : Value) (start_index : Nat) :
    forget_tree (p.erase_st root start_index) = p.erase root start_index ∧
    (∀ e, (p.erase_st root start_index).2 = .error e →
      (p.erase_st root start_index).1 = root) := by
  unfold Pointer.erase_st Pointer.erase
  by_cases h1 : start_index > p.elements.length
  · simp only [h1, if_true]
    exact ⟨rfl, fun _ _ => trivial⟩
  · simp only [h1, if_false]
    cases p.get_internal root start_index true with
    | error e => exact ⟨rfl, fun _ _ => rfl⟩
    | ok r =>
      obtain ⟨last_ref, last⟩ := r
      simp only
      cases p.last_element with
      | error e => exact ⟨rfl, fun _ _ => rfl⟩
      | ok element =>
        simp only
        cases last with
        | array xs =>
          simp only
          cases parse_array_index element xs.length false with
          | error e => exact ⟨rfl, fun _ _ => rfl⟩
          | ok index => exact ⟨rfl, fun e h => by cases h⟩
        | object ms =>
          simp only
          by_cases h2 : (!isMember ms element) = true
          · simp only [h2, if_true]
            exact ⟨rfl, fun _ _ => trivial⟩
          · simp only [h2, if_false]
            exact ⟨rfl, fun e h => by cases h⟩
        | null => exact ⟨rfl, fun _ _ => rfl⟩
        | bool b => exact ⟨rfl, fun _ _ => rfl⟩
        | int i => exact ⟨rfl, fun _ _ => rfl⟩
        | uint u => exact ⟨rfl, fun _ _ => rfl⟩
        | real r => exact ⟨rfl, fun _ _ => rfl⟩
        | string s => exact ⟨rfl, fun _ _ => rfl⟩

theorem insert_st_eq (p : Pointer) (root value : Value) (start_index : Nat) :
    (forget_tree (p.insert_st root value start_index)).map Prod.fst =
      p.insert root value start_index ∧
    (∀ e, (p.insert_st root value start_index).2 = .error e →
      (p.insert_st root value start_index).1 = root) := by
  unfold Pointer.insert_st Pointer.insert
  by_cases h1 : start_index > p.elements.length
  · simp only [h1, if_true]
    exact ⟨rfl, fun _ _ => trivial⟩
  · simp only [h1, if_false]
    cases p.get_internal root start_index true with
    | error e => exact ⟨rfl, fun _ _ => rfl⟩
    | ok r =>
      obtain ⟨last_ref, last⟩ := r
      simp only
      cases p.last_element with
      | error e => exact ⟨rfl, fun _ _ => rfl⟩
      | ok element =>
        simp only
        cases last with
        | array xs =>
          simp only
          cases parse_array_index element xs.length true with
          | error e => exact ⟨rfl, fun _ _ => rfl⟩
          | ok index => exact ⟨rfl, fun e h => by cases h⟩
        | object ms =>
          simp only
          by_cases h2 : isMember ms element = true
          · simp only [h2, if_true]
            exact ⟨rfl, fun _ _ => trivial⟩
          · simp only [h2, if_false]
            exact ⟨rfl, fun e h => by cases h⟩
        | null => exact ⟨rfl, fun _ _ => rfl⟩
        | bool b => exact ⟨rfl, fun _ _ => rfl⟩
        | int i => exact ⟨rfl, fun _ _ => rfl⟩
        | uint u => exact ⟨rfl, fun _ _ => rfl⟩
        | real r => exact ⟨rfl, fun _ _ => rfl⟩
        | string s => exact ⟨rfl, fun _ _ => rfl⟩

theorem replace_st_eq (p : Pointer) (root value : Value) (start_index : Nat) :
    forget_tree (p.replace_st root value start_index) = p.replace root value start_index ∧
    (∀ e, (p.replace_st root value start_index).2 = .error e →
      (p.replace_st root value start_index).1 = root) := by
  unfold Pointer.replace_st Pointer.replace
  by_cases h1 : start_index > p.elements.length
  · simp only [h1, if_true]
    exact ⟨rfl, fun _ _ => trivial⟩
  · simp only [h1, if_false]
    cases p.get_internal root start_index true with
    | error e => exact ⟨rfl, fun _ _ => rfl⟩
    | ok r =>
      obtain ⟨last_ref, last⟩ := r
      simp only
      cases p.last_element with
      | error e => exact ⟨rfl, fun _ _ => rfl⟩
      | ok element =>
        simp only
        cases last with
        | array xs =>
          simp only
          cases parse_array_index element xs.length false with
          | error e => exact ⟨rfl, fun _ _ => rfl⟩
          | ok index => exact ⟨rfl, fun e h => by cases h⟩
        | object ms =>
          simp only
          by_cases h2 : (!isMember ms element) = true
          · simp only [h2, if_true]
            exact ⟨rfl, fun _ _ => trivial⟩
          · simp only [h2, if_false]
            exact ⟨rfl, fun e h => by cases h⟩
        | null => exact ⟨rfl, fun _ _ => rfl⟩
        | bool b => exact ⟨rfl, fun _ _ => rfl⟩
        | int i => exact ⟨rfl, fun _ _ => rfl⟩
        | uint u => exact ⟨rfl, fun _ _ => rfl⟩
        | real r => exact ⟨rfl, fun _ _ => rfl⟩
        | string s => exact ⟨rfl, fun _ _ => rfl⟩

theorem set_st_eq (p : Pointer) (root value : Value) (start_index : Nat) :
    forget_tree (p.set_st root value start_index) = p.set root value start_index ∧
    (∀ e, (p.set_st root value start_index).2 = .error e →
      (p.set_st root value start_index).1 = root) := by
  unfold Pointer.set_st Pointer.set
  by_cases h1 : start_index > p.elements.length
  · simp only [h1, if_true]
    exact ⟨rfl, fun _ _ => trivial⟩
  · simp only [h1, if_false]
    cases p.get_internal root start_index true with
    | error e => exact ⟨rfl, fun _ _ => rfl⟩
    | ok r =>
      obtain ⟨last_ref, last⟩ := r
      simp only
      cases p.last_element with
      | error e => exact ⟨rfl, fun _ _ => rfl⟩
      | ok element =>
        simp only
        cases last with
        | array xs =>
          simp only
          cases parse_array_index element xs.length true with
          | error e => exact ⟨rfl, fun _ _ => rfl⟩
          | ok index => exact ⟨rfl, fun e h => by cases h⟩
        | object ms => exact ⟨rfl, fun e h => by cases h⟩
        | null => exact ⟨rfl, fun _ _ => rfl⟩
        | bool b => exact ⟨rfl, fun _ _ => rfl⟩
        | int i => exact ⟨rfl, fun _ _ => rfl⟩
        | uint u => exact ⟨rfl, fun _ _ => rfl⟩
        | real r => exact ⟨rfl, fun _ _ => rfl⟩
        | string s => exact ⟨rfl, fun _ _ => rfl⟩

theorem erase_defined (p : Pointer) (root : Value) (start_index : Nat)
    (h0 : 0 < p.elements.length) (h : p.elements.length < 2 ^ 64) :
    p.erase root start_index ≠ .error .undefined := by
  unfold Pointer.erase
  split
  · intro hh
    cases hh
  · have hg := get_internal_defined p root start_index h0 h
    obtain ⟨element, hl⟩ := last_element_defined p h0 h
    cases hgi : p.get_internal root start_index true with
    | error e =>
      simp only
      intro hh
      injection hh with hh
      rw [hgi, hh] at hg
      exact hg rfl
    | ok r =>
      obtain ⟨last_ref, last⟩ := r
      simp only [hl]
      cases last with
      | array xs =>
        simp only
        cases hp : parse_array_index element xs.length false with
        | error e =>
          simp only
          rw [parse_array_index_error _ _ _ _ hp]
          intro hh
          cases hh
        | ok index =>
          intro hh
          cases hh
      | object ms =>
          simp only
          split
          · intro hh
            cases hh
          · intro hh
            cases hh
      | null => intro hh; cases hh
      | bool b => intro hh; cases hh
      | int i => intro hh; cases hh
      | uint u => intro hh; cases hh
      | real r => intro hh; cases hh
      | string s => intro hh; cases hh

theorem insert_defined (p : Pointer) (root value : Value) (start_index : Nat)
    (h0 : 0 < p.elements.length) (h : p.elements.length < 2 ^ 64) :
    p.insert root value start_index ≠ .error .undefined := by
  unfold Pointer.insert
  split
  · intro hh
    cases hh
  · have hg := get_internal_defined p root start_index h0 h
    obtain ⟨element, hl⟩ := last_element_defined p h0 h
    cases hgi : p.get_internal root start_index true with
    | error e =>
      simp only
      intro hh
      injection hh with hh
      rw [hgi, hh] at hg
      exact hg rfl
    | ok r =>
      obtain ⟨last_ref, last⟩ := r
      simp only [hl]
      cases last with
      | array xs =>
        simp only
        cases hp : parse_array_index element xs.length true with
        | error e =>
          simp only
          rw [parse_array_index_error _ _ _ _ hp]
          intro hh
          cases hh
        | ok index =>
          intro hh
          cases hh
      | object ms =>
          simp only
          split
          · intro hh
            cases hh
          · intro hh
            cases hh
      | null => intro hh; cases hh
      | bool b => intro hh; cases hh
      | int i => intro hh; cases hh
      | uint u => intro hh; cases hh
      | real r => intro hh; cases hh
      | string s => intro hh; cases hh

theorem replace_defined (p : Pointer) (root value : Value) (start_index : Nat)
    (h0 : 0 < p.elements.length) (h : p.elements.length < 2 ^ 64) :
    p.replace root value start_index ≠ .error .undefined := by
  unfold Pointer.replace
  split
  · intro hh
    cases hh
  · have hg := get_internal_defined p root start_index h0 h
    obtain ⟨element, hl⟩ := last_element_defined p h0 h
    cases hgi : p.get_internal root start_index true with
    | error e =>
      simp only
      intro hh
      injection hh with hh
      rw [hgi, hh] at hg
      exact hg rfl
    | ok r =>
      obtain ⟨last_ref, last⟩ := r
      simp only [hl]
      cases last with
      | array xs =>
        simp only
        cases hp : parse_array_index element xs.length false with
        | error e =>
          simp only
          rw [parse_array_index_error _ _ _ _ hp]
          intro hh
          cases hh
        | ok index =>
          intro hh
          cases hh
      | object ms =>
          simp only
          split
          · intro hh
            cases hh
          · intro hh
            cases hh
      | null => intro hh; cases hh
      | bool b => intro hh; cases hh
      | int i => intro hh; cases hh
      | uint u => intro hh; cases hh
      | real r => intro hh; cases hh
      | string s => intro hh; cases hh

theorem set_defined (p : Pointer) (root value : Value) (start_index : Nat)
    (h0 : 0 < p.elements.length) (h : p.elements.length < 2 ^ 64) :
    p.set root value start_index ≠ .error .undefined := by
  unfold Pointer.set
  split
  · intro hh
    cases hh
  · have hg := get_internal_defined p root start_index h0 h
    obtain ⟨element, hl⟩ := last_element_defined p h0 h
    cases hgi : p.get_internal root start_index true with
    | error e =>
      simp only
      intro hh
      injection hh with hh
      rw [hgi, hh] at hg
      exact hg rfl
    | ok r =>
      obtain ⟨last_ref, last⟩ := r
      simp only [hl]
      cases last with
      | array xs =>
        simp only
        cases hp : parse_array_index element xs.length true with
        | error e =>
          simp only
          rw [parse_array_index_error _ _ _ _ hp]
          intro hh
          cases hh
        | ok index =>
          intro hh
          cases hh
      | object ms =>
          intro hh
          cases hh
      | null => intro hh; cases hh
      | bool b => intro hh; cases hh
      | int i => intro hh; cases hh
      | uint u => intro hh; cases hh
      | real r => intro hh; cases hh
      | string s => intro hh; cases hh

theorem forget_tree_error {α : Type} (r : Value × Except Error α) (e : Error)
    (h : r.2 = .error e) : forget_tree r = .error e := by
  unfold forget_tree
  rw [h]

/-- C34: atomicity on failure.  For every tree, value, start index and
pointer with at least one token, when `Pointer::erase`, `insert`, `replace`
or `set` is left by an exception, the tree is the one before the call, and
the exception is one the code throws (no element of the token vector is read
out of bounds); the operations with the tree threaded through agree with the
operations that give the tree on success only. -/
theorem mutation_failure_leaves_tree (p : Pointer) (root value : Value) (start_index : Nat)
    (e : Error) (h0 : 0 < p.elements.length) (h : p.elements.length < 2 ^ 64) :
    ((p.erase_st root start_index).2 = .error e →
      (p.erase_st root start_index).1 = root ∧ e ≠ .undefined) ∧
    ((p.insert_st root value start_index).2 = .error e →
      (p.insert_st root value start_index).1 = root ∧ e ≠ .undefined) ∧
    ((p.replace_st root value start_index).2 = .error e →
      (p.replace_st root value start_index).1 = root ∧ e ≠ .undefined) ∧
    ((p.set_st root value start_index).2 = .error e →
      (p.set_st root value start_index).1 = root ∧ e ≠ .undefined) ∧
    forget_tree (p.erase_st root start_index) = p.erase root start_index ∧
    (forget_tree (p.insert_st root value start_index)).map Prod.fst =
      p.insert root value start_index ∧
    forget_tree (p.replace_st root value start_index) = p.replace root value start_index ∧
    forget_tree (p.set_st root value start_index) = p.set root value start_index := by
  refine ⟨?_, ?_, ?_, ?_, (erase_st_eq p root start_index).1,
    (insert_st_eq p root value start_index).1, (replace_st_eq p root value start_index).1,
    (set_st_eq p root value start_index).1⟩
  · intro he
    refine ⟨(erase_st_eq p root start_index).2 e he, ?_⟩
    intro hu
    have h1 := forget_tree_error _ e he
    rw [(erase_st_eq p root start_index).1, hu] at h1
    exact erase_defined p root start_index h0 h h1
  · intro he
    refine ⟨(insert_st_eq p root value start_index).2 e he, ?_⟩
    intro hu
    have h1 := forget_tree_error _ e he
    have h2 := (insert_st_eq p root value start_index).1
    rw [h1, hu] at h2
    exact insert_defined p root value start_index h0 h h2.symm
  · intro he
    refine ⟨(replace_st_eq p root value start_index).2 e he, ?_⟩
    intro hu
    have h1 := forget_tree_error _ e he
    rw [(replace_st_eq p root value start_index).1, hu] at h1
    exact replace_defined p root value start_index h0 h h1
  · intro he
    refine ⟨(set_st_eq p root value start_index).2 e he, ?_⟩
    intro hu
    have h1 := forget_tree_error _ e he
    rw [(set_st_eq p root value start_index).1, hu] at h1
    exact set_defined p root value start_index h0 h h1

/-- C34 at the pointer `/a/0` on the tree `{"a": 1}`: the descent into the
scalar fails in `insert`, and the tree is the one before the call. -/
theorem mutation_failure_leaves_tree_witness :
    (Pointer.insert_st ⟨[['a'], ['0']]⟩ (.object [(['a'], .int 1)]) (.int 2) 0).2 =
      .error .domain_error ∧
    (Pointer.insert_st ⟨[['a'], ['0']]⟩ (.object [(['a'], .int 1)]) (.int 2) 0).1 =
      .object [(['a'], .int 1)] :=
  ⟨rfl, ((mutation_failure_leaves_tree ⟨[['a'], ['0']]⟩ (.object [(['a'], .int 1)]) (.int 2) 0
    .domain_error (by decide) (by decide)).2.1 rfl).1⟩

/-! ## Pointer: replace -/

theorem array_set_lt (xs : List Value) (i : Nat) (v : Value) (h : i < xs.length) :
    array_set xs i v = xs.set i v := by
  unfold array_set array_touch
  rw [if_pos h]

theorem member_get_member_set_self : ∀ (ms : List (Str × Value)) (k : Str) (v : Value),
    member_get (member_set ms k v) k = some v := by
  intro ms
  induction ms with
  | nil =>
    intro k v
    simp [member_set, member_get]
  | cons m ms ih =>
    intro k v
    obtain ⟨k1, w⟩ := m
    by_cases hk : k1 = k
    · simp [member_set, member_get, hk]
    · simp only [member_set, hk, if_false, member_get]
      exact ih k v

theorem member_get_member_set_ne : ∀ (ms : List (Str × Value)) (k k2 : Str) (v : Value),
    k2 ≠ k → member_get (member_set ms k v) k2 = member_get ms k2 := by
  intro ms
  induction ms with
  | nil =>
    intro k k2 v hne
    have : ¬ k = k2 := fun h => hne h.symm
    simp [member_set, member_get, this]
  | cons m ms ih =>
    intro k k2 v hne
    obtain ⟨k1, w⟩ := m
    by_cases hk : k1 = k
    · have : ¬ k1 = k2 := fun h => hne (h.symm.trans hk)
      simp only [member_set, hk, if_true, member_get]
      rw [← hk]
      simp only [this, if_false]
    · simp only [member_set, hk, if_false, member_get]
      by_cases hk2 : k1 = k2
      · simp only [hk2, if_true]
      · simp only [hk2, if_false]
        exact ih k k2 v hne

theorem member_set_names : ∀ (ms : List (Str × Value)) (k : Str) (v c : Value),
    member_get ms k = some c → (member_set ms k v).map Prod.fst = ms.map Prod.fst := by
  intro ms
  induction ms with
  | nil =>
    intro k v c h
    cases h
  | cons m ms ih =>
    intro k v c h
    obtain ⟨k1, w⟩ := m
    by_cases hk : k1 = k
    · simp [member_set, hk]
    · simp only [member_get, hk, if_false] at h
      simp only [member_set, hk, if_false, List.map_cons]
      rw [ih k v c h]

theorem get?_set_self (xs : List Value) (i : Nat) (c v : Value) (h : xs.get? i = some c) :
    (xs.set i v).get? i = some v := by
  have hi : i < xs.length := by
    rw [List.get?_eq_getElem?] at h
    by_contra hc
    rw [List.getElem?_eq_none (by omega)] at h
    cases h
  rw [List.get?_eq_getElem?, List.getElem?_set_self hi]

theorem get?_set_ne (xs : List Value) (i j : Nat) (v : Value) (h : i ≠ j) :
    (xs.set i v).get? j = xs.get? j := by
  rw [List.get?_eq_getElem?, List.get?_eq_getElem?, List.getElem?_set_ne h]

theorem put_at_nil (v w : Value) : v.put_at [] w = w := by
  cases v <;> rfl

theorem put_at_append : ∀ (a : Ref) (v w : Value) (b : Ref) (x : Value), v.at a = some w →
    v.put_at (a ++ b) x = v.put_at a (w.put_at b x) := by
  intro a
  induction a with
  | nil =>
    intro v w b x h
    simp only [Value.at, Option.some.injEq] at h
    subst h
    rw [List.nil_append, put_at_nil]
  | cons s a ih =>
    intro v w b x h
    simp only [Value.at] at h
    cases hc : v.child s with
    | none => simp [hc] at h
    | some c =>
      simp only [hc] at h
      cases v with
      | array xs =>
        cases s with
        | index i =>
          simp only [Value.child] at hc
          simp only [List.cons_append, Value.put_at, hc]
          have hih := ih c w b x h
          simp only [HAppend.hAppend, Append.append] at hih
          rw [hih]
        | member k => cases hc
      | object ms =>
        cases s with
        | index i => cases hc
        | member k =>
          simp only [Value.child] at hc
          simp only [List.cons_append, Value.put_at, hc]
          have hih := ih c w b x h
          simp only [HAppend.hAppend, Append.append] at hih
          rw [hih]
      | null => cases hc
      | bool b => cases hc
      | int i => cases hc
      | uint u => cases hc
      | real r => cases hc
      | string s => cases hc

theorem at_put_at_self : ∀ (a : Ref) (v w x : Value), v.at a = some w →
    (v.put_at a x).at a = some x := by
  intro a
  induction a with
  | nil =>
    intro v w x _
    rw [put_at_nil]
    rfl
  | cons s a ih =>
    intro v w x h
    simp only [Value.at] at h
    cases hc : v.child s with
    | none => simp [hc] at h
    | some c =>
      simp only [hc] at h
      cases v with
      | array xs =>
        cases s with
        | index i =>
          simp only [Value.child] at hc
          simp only [Value.put_at, hc, Value.at, Value.child, get?_set_self xs i c _ hc]
          exact ih c w x h
        | member k => cases hc
      | object ms =>
        cases s with
        | index i => cases hc
        | member k =>
          simp only [Value.child] at hc
          simp only [Value.put_at, hc, Value.at, Value.child, member_get_member_set_self]
          exact ih c w x h
      | null => cases hc
      | bool b => cases hc
      | int i => cases hc
      | uint u => cases hc
      | real r => cases hc
      | string s => cases hc

theorem at_put_at_frame : ∀ (a : Ref) (v x : Value) (q : Ref), ¬ a <+: q → ¬ q <+: a →
    (v.put_at a x).at q = v.at q := by
  intro a
  induction a with
  | nil =>
    intro v x q h1 _
    exact absurd (List.nil_prefix) h1
  | cons s a ih =>
    intro v x q h1 h2
    cases q with
    | nil => exact absurd (List.nil_prefix) h2
    | cons s2 q =>
      cases v with
      | array xs =>
        cases s with
        | index i =>
          cases hc : xs.get? i with
          | none => simp only [Value.put_at, hc]
          | some c =>
            simp only [Value.put_at, hc, Value.at]
            cases s2 with
            | index j =>
              by_cases hij : i = j
              · subst hij
                simp only [Value.child, get?_set_self xs i c _ hc, hc]
                apply ih
                · intro hp
                  exact h1 ((List.prefix_cons_inj _).mpr hp)
                · intro hp
                  exact h2 ((List.prefix_cons_inj _).mpr hp)
              · simp only [Value.child, get?_set_ne xs i j _ hij]
            | member k => rfl
        | member k => rfl
      | object ms =>
        cases s with
        | index i => rfl
        | member k =>
          cases hc : member_get ms k with
          | none => simp only [Value.put_at, hc]
          | some c =>
            simp only [Value.put_at, hc, Value.at]
            cases s2 with
            | index j => rfl
            | member k2 =>
              by_cases hk : k2 = k
              · subst hk
                simp only [Value.child, member_get_member_set_self, hc]
                apply ih
                · intro hp
                  exact h1 ((List.prefix_cons_inj _).mpr hp)
                · intro hp
                  exact h2 ((List.prefix_cons_inj _).mpr hp)
              · simp only [Value.child, member_get_member_set_ne ms k k2 _ hk]
      | null => rfl
      | bool b => rfl
      | int i => rfl
      | uint u => rfl
      | real r => rfl
      | string s => rfl

theorem at_put_at_layout : ∀ (a : Ref) (v w x : Value) (q : Ref), v.at a = some w →
    q <+: a → q ≠ a →
    ((v.put_at a x).at q).map Value.layout = (v.at q).map Value.layout := by
  intro a
  induction a with
  | nil =>
    intro v w x q _ h1 h2
    exact absurd (List.prefix_nil.mp h1) h2
  | cons s a ih =>
    intro v w x q h h1 h2
    simp only [Value.at] at h
    cases hc : v.child s with
    | none => simp [hc] at h
    | some c =>
      simp only [hc] at h
      cases v with
      | array xs =>
        cases s with
        | index i =>
          simp only [Value.child] at hc
          cases q with
          | nil =>
            simp only [Value.put_at, hc, Value.at, Option.map_some', Value.layout,
              List.length_set]
          | cons s2 q =>
            have hs : s2 = Slot.index i := by
              obtain ⟨t, ht⟩ := h1
              simp only [List.cons_append, List.cons.injEq] at ht
              exact ht.1
            subst hs
            simp only [Value.put_at, hc, Value.at, Value.child, get?_set_self xs i c _ hc]
            apply ih c w x q h
            · exact (List.prefix_cons_inj _).mp h1
            · intro he
              exact h2 (by rw [he])
        | member k => cases hc
      | object ms =>
        cases s with
        | index i => cases hc
        | member k =>
          simp only [Value.child] at hc
          cases q with
          | nil =>
            simp only [Value.put_at, hc, Value.at, Option.map_some', Value.layout,
              member_set_names ms k _ c hc]
          | cons s2 q =>
            have hs : s2 = Slot.member k := by
              obtain ⟨t, ht⟩ := h1
              simp only [List.cons_append, List.cons.injEq] at ht
              exact ht.1
            subst hs
            simp only [Value.put_at, hc, Value.at, Value.child, member_get_member_set_self]
            apply ih c w x q h
            · exact (List.prefix_cons_inj _).mp h1
            · intro he
              exact h2 (by rw [he])
      | null => cases hc
      | bool b => cases hc
      | int i => cases hc
      | uint u => cases hc
      | real r => cases hc
      | string s => cases hc

theorem get_internal_loop_snoc (elements : List Str) :
    ∀ (n index : Nat) (ref : Ref) (node : Value),
      get_internal_loop elements (n + 1) index ref node =
        (get_internal_loop elements n index ref node).bind
          (fun r => get_internal_loop elements 1 (index + n) r.1 r.2) := by
  intro n
  induction n with
  | zero =>
    intro index ref node
    rfl
  | succ n ih =>
    intro index ref node
    have e : index + 1 + n = index + (n + 1) := by omega
    generalize hK : (fun r : Ref × Value =>
      get_internal_loop elements 1 (index + (n + 1)) r.1 r.2) = K
    have ih2 : ∀ (ref : Ref) (node : Value),
        get_internal_loop elements (n + 1) (index + 1) ref node =
          (get_internal_loop elements n (index + 1) ref node).bind K := by
      intro ref node
      rw [ih, ← hK, e]
    clear ih hK
    conv => lhs; unfold get_internal_loop
    conv => rhs; unfold get_internal_loop
    cases elements.get? index with
    | none => rfl
    | some element =>
      simp only
      cases node with
      | array xs =>
        simp only
        cases parse_array_index element xs.length false with
        | error e => rfl
        | ok i =>
          simp only
          rw [ih2]
      | object ms =>
        simp only
        cases hm : isMember ms element with
        | false => rfl
        | true =>
          simp only [Bool.not_true, Bool.false_eq_true, if_false]
          rw [ih2]
      | null => rfl
      | bool b => rfl
      | int i => rfl
      | uint u => rfl
      | real r => rfl
      | string s => rfl

theorem get_internal_loop_put (elements : List Str) :
    ∀ (n index : Nat) (ref : Ref) (node : Value) (r : Ref) (last : Value),
      get_internal_loop elements n index ref node = .ok (r, last) →
      ∃ q, r = ref ++ q ∧ node.at q = some last ∧
        ∀ new, get_internal_loop elements n index ref (node.put_at q new) = .ok (r, new) := by
  intro n
  induction n with
  | zero =>
    intro index ref node r last h
    cases h
    refine ⟨[], by simp, rfl, ?_⟩
    intro new
    rw [put_at_nil]
    rfl
  | succ n ih =>
    intro index ref node r last h
    unfold get_internal_loop at h
    cases hg : elements.get? index with
    | none =>
      simp only [hg] at h
      cases h
    | some element =>
      simp only [hg] at h
      cases node with
      | array xs =>
        simp only at h
        cases hp : parse_array_index element xs.length false with
        | error e =>
          simp only [hp] at h
          cases h
        | ok i =>
          simp only [hp] at h
          have hi := parse_array_index_lt _ _ _ _ hp
          have hd : xs.getD i .null = xs[i] := by
            rw [List.getD_eq_getElem?_getD, List.getElem?_eq_getElem hi]
            rfl
          have hx : xs.get? i = some xs[i] := by
            rw [List.get?_eq_getElem?]
            exact List.getElem?_eq_getElem hi
          rw [hd] at h
          obtain ⟨q, hq, hat, hput⟩ := ih _ _ _ _ _ h
          refine ⟨Slot.index i :: q, by simp [hq], ?_, ?_⟩
          · simp only [Value.at, Value.child, hx]
            exact hat
          · intro new
            simp only [Value.put_at, hx]
            unfold get_internal_loop
            simp only [hg, List.length_set, hp]
            have hd2 : (xs.set i (xs[i].put_at q new)).getD i .null = xs[i].put_at q new := by
              rw [List.getD_eq_getElem?_getD, List.getElem?_set_self hi]
              rfl
            rw [hd2]
            exact hput new
      | object ms =>
        simp only at h
        cases hm : member_get ms element with
        | none =>
          have : isMember ms element = false := by
            rw [← member_get_isSome, hm]
            rfl
          simp [this] at h
        | some c =>
          have hmem : isMember ms element = true := by
            rw [← member_get_isSome, hm]
            rfl
          simp only [hmem, Bool.not_true, Bool.false_eq_true, if_false, hm,
            Option.getD_some] at h
          obtain ⟨q, hq, hat, hput⟩ := ih _ _ _ _ _ h
          refine ⟨Slot.member element :: q, by simp [hq], ?_, ?_⟩
          · simp only [Value.at, Value.child, hm]
            exact hat
          · intro new
            simp only [Value.put_at, hm]
            unfold get_internal_loop
            have hmem2 : isMember (member_set ms element (c.put_at q new)) element = true := by
              rw [← member_get_isSome, member_get_member_set_self]
              rfl
            simp only [hg, hmem2, Bool.not_true, Bool.false_eq_true, if_false,
              member_get_member_set_self, Option.getD_some]
            exact hput new
      | null => cases h
      | bool b => cases h
      | int i => cases h
      | uint u => cases h
      | real r => cases h
      | string s => cases h

theorem get_internal_loop_take (elements : List Str) :
    ∀ (n index : Nat) (ref : Ref) (node : Value), index + n ≤ elements.length →
      (get_internal_loop elements n index ref node).map Prod.snd =
        lookup_tokens ((elements.drop index).take n) node := by
  intro n
  induction n with
  | zero =>
    intro index ref node h
    rw [List.take_zero]
    rfl
  | succ n ih =>
    intro index ref node h
    have hlt : index < elements.length := by omega
    have hdrop : elements.drop index = elements[index] :: elements.drop (index + 1) :=
      List.drop_eq_getElem_cons hlt
    have hget : elements.get? index = some elements[index] := by
      rw [List.get?_eq_getElem?]
      exact List.getElem?_eq_getElem hlt
    rw [hdrop, List.take_succ_cons]
    unfold get_internal_loop
    simp only [hget]
    cases node with
    | array xs =>
      simp only [lookup_tokens]
      cases hp : parse_array_index elements[index] xs.length false with
      | error e => rfl
      | ok i =>
        simp only
        have hi := parse_array_index_lt _ _ _ _ hp
        have hx : xs.get? i = some xs[i] := by
          rw [List.get?_eq_getElem?]
          exact List.getElem?_eq_getElem hi
        have hd : xs.getD i .null = xs[i] := by
          rw [List.getD_eq_getElem?_getD, List.getElem?_eq_getElem hi]
          rfl
        rw [hx, hd]
        exact ih (index + 1) _ _ (by omega)
    | object ms =>
      simp only [lookup_tokens]
      cases hm : member_get ms elements[index] with
      | none =>
        have : isMember ms elements[index] = false := by
          rw [← member_get_isSome, hm]
          rfl
        simp only [this]
        rfl
      | some c =>
        have : isMember ms elements[index] = true := by
          rw [← member_get_isSome, hm]
          rfl
        simp only [this, Bool.not_true, Bool.false_eq_true, if_false, Option.getD_some]
        exact ih (index + 1) _ _ (by omega)
    | null => rfl
    | bool b => rfl
    | int i => rfl
    | uint u => rfl
    | real r => rfl
    | string s => rfl

theorem parent_tokens_eq (p : Pointer) (start_index : Nat) :
    parent_tokens p start_index =
      (p.elements.drop start_index).take (p.elements.length - 1 - start_index) := by
  unfold parent_tokens
  rw [List.dropLast_eq_take, List.length_drop]
  have : p.elements.length - start_index - 1 = p.elements.length - 1 - start_index := by omega
  rw [this]

theorem get_internal_parent (p : Pointer) (root : Value) (start_index : Nat)
    (h0 : 0 < p.elements.length) (h : p.elements.length < 2 ^ 64)
    (hs : start_index < p.elements.length) :
    p.get_internal root start_index true =
      get_internal_loop p.elements (p.elements.length - 1 - start_index) start_index [] root := by
  unfold Pointer.get_internal
  simp only [if_true, size_sub_one _ h0 h]
  by_cases he : start_index = p.elements.length - 1
  · rw [if_pos he]
    have : p.elements.length - 1 - start_index = 0 := by omega
    rw [this]
    rfl
  · rw [if_neg he, if_neg (by omega)]

theorem get_internal_full (p : Pointer) (root : Value) (start_index : Nat)
    (h : p.elements.length < 2 ^ 64) (hs : start_index < p.elements.length) :
    p.get root start_index =
      get_internal_loop p.elements (p.elements.length - 1 - start_index + 1) start_index []
        root := by
  unfold Pointer.get Pointer.get_internal
  simp only [Bool.false_eq_true, if_false, size_sub_zero _ h]
  rw [if_neg (by omega), if_neg (by omega)]
  have : p.elements.length - start_index = p.elements.length - 1 - start_index + 1 := by omega
  rw [this]

theorem last_element_eq (p : Pointer) (h0 : 0 < p.elements.length)
    (h : p.elements.length < 2 ^ 64) :
    ∃ element, p.last_element = .ok element ∧ p.elements.getLast? = some element ∧
      p.elements.get? (p.elements.length - 1) = some element := by
  have hlt : p.elements.length - 1 < p.elements.length := by omega
  have hget : p.elements.get? (p.elements.length - 1) =
      some p.elements[p.elements.length - 1] := by
    rw [List.get?_eq_getElem?]
    exact List.getElem?_eq_getElem hlt
  refine ⟨p.elements[p.elements.length - 1], ?_, ?_, hget⟩
  · unfold Pointer.last_element
    rw [size_sub_one _ h0 h, hget]
  · rw [List.getLast?_eq_getElem?, List.getElem?_eq_getElem hlt]

theorem get_internal_loop_one_array (elements : List Str) (idx : Nat) (ref : Ref)
    (element : Str) (xs : List Value) (i : Nat) (value : Value)
    (hg : elements.get? idx = some element)
    (hp : parse_array_index element xs.length false = .ok i) :
    get_internal_loop elements 1 idx ref (.array (xs.set i value)) =
      .ok (ref ++ [Slot.index i], value) := by
  have hi := parse_array_index_lt _ _ _ _ hp
  have hd : (xs.set i value).getD i .null = value := by
    rw [List.getD_eq_getElem?_getD, List.getElem?_set_self hi]
    rfl
  unfold get_internal_loop
  simp only [hg, List.length_set, hp, hd]
  rfl

theorem get_internal_loop_one_object (elements : List Str) (idx : Nat) (ref : Ref)
    (element : Str) (ms : List (Str × Value)) (value : Value)
    (hg : elements.get? idx = some element) :
    get_internal_loop elements 1 idx ref (.object (member_set ms element value)) =
      .ok (ref ++ [Slot.member element], value) := by
  have hmem : isMember (member_set ms element value) element = true := by
    rw [← member_get_isSome, member_get_member_set_self]
    rfl
  unfold get_internal_loop
  simp only [hg, hmem, Bool.not_true, Bool.false_eq_true, if_false,
    member_get_member_set_self, Option.getD_some]
  rfl

theorem get_internal_at_size (p : Pointer) (root : Value)
    (h0 : 0 < p.elements.length) (h : p.elements.length < 2 ^ 64) :
    p.get_internal root p.elements.length true = .error .range_error := by
  unfold Pointer.get_internal
  simp only [if_true, size_sub_one _ h0 h]
  rw [if_neg (by omega), if_pos (by omega)]

/-- What a successful `replace` did: the parent the loop of `get_internal`
reached, the last token, and the tree and reference returned. -/
theorem replace_ok_parts (p : Pointer) (root value : Value) (start_index : Nat)
    (root' : Value) (target : Ref)
    (h0 : 0 < p.elements.length) (h : p.elements.length < 2 ^ 64)
    (hr : p.replace root value start_index = .ok (root', target)) :
    start_index < p.elements.length ∧
    ∃ last_ref last element,
      get_internal_loop p.elements (p.elements.length - 1 - start_index) start_index [] root =
        .ok (last_ref, last) ∧
      p.elements.get? (p.elements.length - 1) = some element ∧
      p.elements.getLast? = some element ∧
      ((∃ xs i, last = .array xs ∧ parse_array_index element xs.length false = .ok i ∧
          root' = root.put_at last_ref (.array (xs.set i value)) ∧
          target = last_ref ++ [Slot.index i]) ∨
       (∃ ms, last = .object ms ∧ isMember ms element = true ∧
          root' = root.put_at last_ref (.object (member_set ms element value)) ∧
          target = last_ref ++ [Slot.member element])) := by
  unfold Pointer.replace at hr
  by_cases h1 : start_index > p.elements.length
  · rw [if_pos h1] at hr
    cases hr
  · rw [if_neg h1] at hr
    by_cases hs : start_index < p.elements.length
    · refine ⟨hs, ?_⟩
      obtain ⟨element, hl, hlast, hget⟩ := last_element_eq p h0 h
      rw [get_internal_parent p root start_index h0 h hs] at hr
      cases hg : get_internal_loop p.elements (p.elements.length - 1 - start_index)
          start_index [] root with
      | error e =>
        rw [hg] at hr
        cases hr
      | ok r =>
        obtain ⟨last_ref, last⟩ := r
        rw [hg] at hr
        simp only [hl] at hr
        refine ⟨last_ref, last, element, rfl, hget, hlast, ?_⟩
        cases last with
        | array xs =>
          simp only at hr
          cases hp : parse_array_index element xs.length false with
          | error e =>
            rw [hp] at hr
            cases hr
          | ok i =>
            rw [hp] at hr
            simp only [Except.ok.injEq, Prod.mk.injEq] at hr
            have hi := parse_array_index_lt _ _ _ _ hp
            rw [array_set_lt xs i value hi] at hr
            exact Or.inl ⟨xs, i, rfl, hp, hr.1.symm, hr.2.symm⟩
        | object ms =>
          simp only at hr
          cases hm : isMember ms element with
          | false =>
            simp only [hm, Bool.not_false, if_true] at hr
            cases hr
          | true =>
            simp only [hm, Bool.not_true, Bool.false_eq_true, if_false, Except.ok.injEq,
              Prod.mk.injEq] at hr
            exact Or.inr ⟨ms, rfl, hm, hr.1.symm, hr.2.symm⟩
        | null => cases hr
        | bool b => cases hr
        | int i => cases hr
        | uint u => cases hr
        | real r => cases hr
        | string s => cases hr
    · have he : start_index = p.elements.length := by omega
      rw [he, get_internal_at_size p root h0 h] at hr
      cases hr

theorem replace_ok_effect (p : Pointer) (root value : Value) (start_index : Nat)
    (root' : Value) (target : Ref)
    (h0 : 0 < p.elements.length) (h : p.elements.length < 2 ^ 64)
    (hr : p.replace root value start_index = .ok (root', target)) :
    p.get root' start_index = .ok (target, value) ∧
    (∃ old, root.at target = some old) ∧
    root' = root.put_at target value := by
  obtain ⟨hs, last_ref, last, element, hg, hget, _, hcase⟩ :=
    replace_ok_parts p root value start_index root' target h0 h hr
  obtain ⟨q, hq, hat, hput⟩ := get_internal_loop_put _ _ _ _ _ _ _ hg
  rw [List.nil_append] at hq
  subst hq
  have hidx : start_index + (p.elements.length - 1 - start_index) = p.elements.length - 1 := by
    omega
  rw [get_internal_full p root' start_index h hs, get_internal_loop_snoc]
  rcases hcase with ⟨xs, i, hlast, hp, hroot, htarget⟩ | ⟨ms, hlast, hmem, hroot, htarget⟩
  · subst hlast
    have hi := parse_array_index_lt _ _ _ _ hp
    have hx : xs.get? i = some xs[i] := by
      rw [List.get?_eq_getElem?]
      exact List.getElem?_eq_getElem hi
    have hchild : (Value.array xs).at [Slot.index i] = some xs[i] := by
      simp only [Value.at, Value.child, hx]
    refine ⟨?_, ⟨xs[i], ?_⟩, ?_⟩
    · rw [hroot, hput, htarget]
      simp only [Except.bind, hidx]
      exact get_internal_loop_one_array _ _ _ _ _ _ _ hget hp
    · rw [htarget, at_append root last_ref _ _ hat]
      exact hchild
    · rw [hroot, htarget, put_at_append last_ref root _ _ _ hat]
      simp only [Value.put_at, hx, put_at_nil]
  · subst hlast
    have hsome : (member_get ms element).isSome = true := by
      rw [member_get_isSome]
      exact hmem
    obtain ⟨c, hc⟩ := Option.isSome_iff_exists.mp hsome
    have hchild : (Value.object ms).at [Slot.member element] = some c := by
      simp only [Value.at, Value.child, hc]
    refine ⟨?_, ⟨c, ?_⟩, ?_⟩
    · rw [hroot, hput, htarget]
      simp only [Except.bind, hidx]
      exact get_internal_loop_one_object _ _ _ _ _ _ hget
    · rw [htarget, at_append root last_ref _ _ hat]
      exact hchild
    · rw [hroot, htarget, put_at_append last_ref root _ _ _ hat]
      simp only [Value.put_at, hc, put_at_nil]

theorem replace_ok_iff (p : Pointer) (root value : Value) (start_index : Nat)
    (h0 : 0 < p.elements.length) (h : p.elements.length < 2 ^ 64) :
    (∃ r, p.replace root value start_index = .ok r) ↔
      start_index < p.elements.length ∧
      ∃ parent element, lookup_tokens (parent_tokens p start_index) root = .ok parent ∧
        p.elements.getLast? = some element ∧
        ((∃ xs i, parent = .array xs ∧
            parse_array_index element xs.length false = .ok i ∧ i < xs.length) ∨
         (∃ ms, parent = .object ms ∧ isMember ms element = true)) := by
  constructor
  · rintro ⟨⟨root', target⟩, hr⟩
    obtain ⟨hs, last_ref, last, element, hg, _, hlast, hcase⟩ :=
      replace_ok_parts p root value start_index root' target h0 h hr
    refine ⟨hs, last, element, ?_, hlast, ?_⟩
    · rw [parent_tokens_eq, ← get_internal_loop_take p.elements _ _ [] root (by omega), hg]
      rfl
    · rcases hcase with ⟨xs, i, hl, hp, _, _⟩ | ⟨ms, hl, hmem, _, _⟩
      · exact Or.inl ⟨xs, i, hl, hp, parse_array_index_lt _ _ _ _ hp⟩
      · exact Or.inr ⟨ms, hl, hmem⟩
  · rintro ⟨hs, parent, element, hlook, hlast, hcase⟩
    obtain ⟨element2, hl, hlast2, _⟩ := last_element_eq p h0 h
    rw [hlast] at hlast2
    simp only [Option.some.injEq] at hlast2
    subst hlast2
    rw [parent_tokens_eq, ← get_internal_loop_take p.elements _ _ [] root (by omega)] at hlook
    unfold Pointer.replace
    rw [if_neg (by omega), get_internal_parent p root start_index h0 h hs]
    cases hg : get_internal_loop p.elements (p.elements.length - 1 - start_index)
        start_index [] root with
    | error e =>
      rw [hg] at hlook
      cases hlook
    | ok r =>
      obtain ⟨last_ref, last⟩ := r
      rw [hg] at hlook
      simp only [Except.map, Except.ok.injEq] at hlook
      subst hlook
      simp only [hl]
      rcases hcase with ⟨xs, i, hpar, hp, _⟩ | ⟨ms, hpar, hmem⟩
      · subst hpar
        simp only [hp]
        exact ⟨_, rfl⟩
      · subst hpar
        simp only [hmem, Bool.not_true, Bool.false_eq_true, if_false]
        exact ⟨_, rfl⟩

theorem replace_range_error (p : Pointer) (root value : Value) (start_index : Nat)
    (parent : Value) (element : Str)
    (h0 : 0 < p.elements.length) (h : p.elements.length < 2 ^ 64)
    (hs : start_index < p.elements.length)
    (hlook : lookup_tokens (parent_tokens p start_index) root = .ok parent)
    (hlast : p.elements.getLast? = some element) :
    (∀ ms, parent = .object ms → isMember ms element = false →
      p.replace root value start_index = .error .range_error) ∧
    (∀ xs, parent = .array xs → (∀ i, parse_array_index element xs.length false ≠ .ok i) →
      p.replace root value start_index = .error .range_error) := by
  obtain ⟨element2, hl, hlast2, _⟩ := last_element_eq p h0 h
  rw [hlast] at hlast2
  simp only [Option.some.injEq] at hlast2
  subst hlast2
  rw [parent_tokens_eq, ← get_internal_loop_take p.elements _ _ [] root (by omega)] at hlook
  unfold Pointer.replace
  rw [if_neg (by omega), get_internal_parent p root start_index h0 h hs]
  cases hg : get_internal_loop p.elements (p.elements.length - 1 - start_index)
      start_index [] root with
  | error e =>
    rw [hg] at hlook
    cases hlook
  | ok r =>
    obtain ⟨last_ref, last⟩ := r
    rw [hg] at hlook
    simp only [Except.map, Except.ok.injEq] at hlook
    subst hlook
    simp only [hl]
    constructor
    · intro ms hpar hmem
      subst hpar
      simp only [hmem, Bool.not_false, if_true]
    · intro xs hpar hno
      subst hpar
      simp only
      cases hp : parse_array_index element xs.length false with
      | error e =>
        simp only
        rw [parse_array_index_error _ _ _ _ hp]
      | ok i => exact absurd hp (hno i)

/-- C33: for a pointer with at least one token (and a token count that fits
`size_t`), `Pointer::replace` succeeds exactly when start_index is below the
token count, the reference lookup of all tokens but the last gives a parent,
and the last token is accepted as an index below the length of the parent
array or names a member of the parent object.  On success `get` with the same
pointer on the new tree returns the new value at the returned reference, that
reference designated a node of the old tree, every location that is neither
at, below nor above it reads as before, and every location above it keeps its
layout (array length, member names).  When the parent is an object without
the member, or an array and the last token is not accepted as an index, the
call fails with a range error. -/
theorem Pointer_replace_frame :
    (∀ (p : Pointer) (root value : Value) (start_index : Nat),
      0 < p.elements.length → p.elements.length < 2 ^ 64 →
      ((∃ r, p.replace root value start_index = .ok r) ↔
        start_index < p.elements.length ∧
        ∃ parent element, lookup_tokens (parent_tokens p start_index) root = .ok parent ∧
          p.elements.getLast? = some element ∧
          ((∃ xs i, parent = .array xs ∧
              parse_array_index element xs.length false = .ok i ∧ i < xs.length) ∨
           (∃ ms, parent = .object ms ∧ isMember ms element = true)))) ∧
    (∀ (p : Pointer) (root value : Value) (start_index : Nat) (root' : Value) (target : Ref),
      0 < p.elements.length → p.elements.length < 2 ^ 64 →
      p.replace root value start_index = .ok (root', target) →
      p.get root' start_index = .ok (target, value) ∧
      root'.at target = some value ∧
      (∃ old, root.at target = some old) ∧
      (∀ q, ¬ target <+: q → ¬ q <+: target → root'.at q = root.at q) ∧
      (∀ q, q <+: target → q ≠ target →
        (root'.at q).map Value.layout = (root.at q).map Value.layout)) ∧
    (∀ (p : Pointer) (root value : Value) (start_index : Nat) (parent : Value) (element : Str),
      0 < p.elements.length → p.elements.length < 2 ^ 64 →
      start_index < p.elements.length →
      lookup_tokens (parent_tokens p start_index) root = .ok parent →
      p.elements.getLast? = some element →
      (∀ ms, parent = .object ms → isMember ms element = false →
        p.replace root value start_index = .error .range_error) ∧
      (∀ xs, parent = .array xs → (∀ i, parse_array_index element xs.length false ≠ .ok i) →
        p.replace root value start_index = .error .range_error)) := by
  refine ⟨replace_ok_iff, ?_, replace_range_error⟩
  intro p root value start_index root' target h0 h hr
  obtain ⟨hget, ⟨old, hold⟩, hroot⟩ :=
    replace_ok_effect p root value start_index root' target h0 h hr
  refine ⟨hget, ?_, ⟨old, hold⟩, ?_, ?_⟩
  · rw [hroot]
    exact at_put_at_self target root old value hold
  · intro q h1 h2
    rw [hroot]
    exact at_put_at_frame target root value q h1 h2
  · intro q h1 h2
    rw [hroot]
    exact at_put_at_layout target root old value q hold h1 h2

/-- C33 at the pointer `/a/1` on the tree `{"a": [10, 20], "b": 5}`:
`replace` with 7 gives `{"a": [10, 7], "b": 5}`, and `get` on it returns 7. -/
theorem Pointer_replace_frame_witness :
    Pointer.replace ⟨[['a'], ['1']]⟩
        (.object [(['a'], .array [.int 10, .int 20]), (['b'], .int 5)]) (.int 7) 0 =
      .ok (.object [(['a'], .array [.int 10, .int 7]), (['b'], .int 5)],
        [Slot.member ['a'], Slot.index 1]) ∧
    Pointer.get ⟨[['a'], ['1']]⟩
        (.object [(['a'], .array [.int 10, .int 7]), (['b'], .int 5)]) 0 =
      .ok ([Slot.member ['a'], Slot.index 1], .int 7) :=
  ⟨rfl, (Pointer_replace_frame.2.1 ⟨[['a'], ['1']]⟩
    (.object [(['a'], .array [.int 10, .int 20]), (['b'], .int 5)]) (.int 7) 0
    (.object [(['a'], .array [.int 10, .int 7]), (['b'], .int 5)])
    [Slot.member ['a'], Slot.index 1] (by decide) (by decide) rfl).1⟩

end Json


